import Mathlib

/-!
AODSOLVE: code property graph, rule database and rule-driven code generation.

A shallow embedding of the analysis pipeline of the repository
(`CPGAnnotation.cpp`, `enhanced_cpg_to_aod_converter.cpp`,
`enhanced_code_generator.cpp`, `optimization_rule_system.cpp`,
`simd_instruction_rules.h`) and of the lower-casing routines of `main.cpp`,
together with theorems about them.

Conventions of the embedding:

* a C++ pointer is a natural number (its address); the null pointer of a
  statement is the constructor `Stmt.null`, other nullable pointers are `Option`;
* `std::set` is a list kept in key order without duplicates (`setInsert`),
  `std::map` is an association list kept in key order (`mapSet`), so that
  iteration order and `==` are those of the C++ containers;
* `std::string` is `String`, compared through its list of characters;
* the front-end (the Clang AST, the flow graph of a function, the pretty
  printer) is input data;
* the memory of the lower-casing routines is a function from addresses to bytes.
-/

namespace cpg

/-! ## Ordered containers -/

/-- The order of `std::string`: lexicographic on the characters. -/
def strLt (a b : String) : Bool := decide (a.data < b.data)

/-- The order of pointers and integers. -/
def natLt (a b : Nat) : Bool := decide (a < b)

/-- Insertion into a `std::set`: `s.insert(a)`. -/
def setInsert {α : Type} [DecidableEq α] (lt : α → α → Bool) (a : α) : List α → List α
  | [] => [a]
  | b :: rest =>
    if a = b then b :: rest
    else if lt a b then a :: b :: rest
    else b :: setInsert lt a rest

/-- Range insertion into a `std::set`: `s.insert(xs.begin(), xs.end())`. -/
def setInsertAll {α : Type} [DecidableEq α] (lt : α → α → Bool) (s xs : List α) : List α :=
  xs.foldl (fun acc x => setInsert lt x acc) s

/-- Lookup in a `std::map`: `m.find(k)`. -/
def mapFind {κ β : Type} [DecidableEq κ] (k : κ) : List (κ × β) → Option β
  | [] => none
  | (k0, v0) :: rest => if k = k0 then some v0 else mapFind k rest

/-- Reading `m[k]`: the stored value, or the default-constructed one. -/
def mapGetD {κ β : Type} [DecidableEq κ] (m : List (κ × β)) (k : κ) (d : β) : β :=
  (mapFind k m).getD d

/-- Overwriting the value stored under a key that is present. -/
def mapReplace {κ β : Type} [DecidableEq κ] (k : κ) (v : β) : List (κ × β) → List (κ × β)
  | [] => []
  | (k0, v0) :: rest =>
    if k = k0 then (k, v) :: rest else (k0, v0) :: mapReplace k v rest

/-- Adding a key that is absent, at its place in key order. -/
def mapInsert {κ β : Type} (lt : κ → κ → Bool) (k : κ) (v : β) : List (κ × β) → List (κ × β)
  | [] => [(k, v)]
  | (k0, v0) :: rest =>
    if lt k k0 then (k, v) :: (k0, v0) :: rest else (k0, v0) :: mapInsert lt k v rest

/-- Assignment `m[k] = v` on a `std::map`. -/
def mapSet {κ β : Type} [DecidableEq κ] (lt : κ → κ → Bool) (k : κ) (v : β)
    (m : List (κ × β)) : List (κ × β) :=
  match mapFind k m with
  | some _ => mapReplace k v m
  | none => mapInsert lt k v m

/-! ## Front-end data: the statement tree -/

mutual
/-- The part of the Clang statement tree the pipeline looks at. `addr` is the
address of the node, which the pipeline uses as its identity. -/
inductive Stmt where
  | null
  | compoundStmt (addr : Nat) (body : List Stmt)
  | ifStmt (addr : Nat) (cond thn els : Stmt)
  | whileStmt (addr : Nat) (cond body : Stmt)
  | forStmt (addr : Nat) (init cond inc body : Stmt)
  | declStmt (addr : Nat) (decls : List Decl)
  | binaryOperator (addr : Nat) (opcode : String) (floating : Bool) (lhs rhs : Stmt)
  | callExpr (addr : Nat) (calleeExpr : Stmt) (directCallee : Option String) (args : List Stmt)
  | declRefExpr (addr : Nat) (name : String) (isVarDecl : Bool)
  | parenExpr (addr : Nat) (sub : Stmt)
  | castExpr (addr : Nat) (isImplicit : Bool) (sub : Stmt)
  | other (addr : Nat) (className : String) (isExpr : Bool) (children : List Stmt)
/-- A declaration inside a `DeclStmt`. -/
inductive Decl where
  | mk (isVarDecl : Bool) (name : String) (type : String) (isConst : Bool) (init : Stmt)
end

instance : Inhabited Stmt := ⟨Stmt.null⟩

/-- The address of a statement node; the null pointer is address 0. -/
def Stmt.addr : Stmt → Nat
  | .null => 0
  | .compoundStmt a _ => a
  | .ifStmt a _ _ _ => a
  | .whileStmt a _ _ => a
  | .forStmt a _ _ _ _ => a
  | .declStmt a _ => a
  | .binaryOperator a _ _ _ _ => a
  | .callExpr a _ _ _ => a
  | .declRefExpr a _ _ => a
  | .parenExpr a _ => a
  | .castExpr a _ _ => a
  | .other a _ _ _ => a

def Decl.isVarDecl : Decl → Bool
  | .mk b _ _ _ _ => b

def Decl.name : Decl → String
  | .mk _ n _ _ _ => n

def Decl.type : Decl → String
  | .mk _ _ t _ _ => t

def Decl.isConst : Decl → Bool
  | .mk _ _ _ c _ => c

def Decl.init : Decl → Stmt
  | .mk _ _ _ _ i => i

/-- Clang: `BinaryOperator::isAssignmentOp`. -/
def isAssignmentOp (opcode : String) : Bool :=
  opcode ∈ ["=", "*=", "/=", "%=", "+=", "-=", "<<=", ">>=", "&=", "^=", "|="]

/-- Clang: `Expr::IgnoreParenImpCasts`. -/
def Stmt.ignoreParenImpCasts : Stmt → Stmt
  | .parenExpr _ sub => sub.ignoreParenImpCasts
  | .castExpr _ true sub => sub.ignoreParenImpCasts
  | s => s

/-- Clang: `Expr::IgnoreParenCasts`. -/
def Stmt.ignoreParenCasts : Stmt → Stmt
  | .parenExpr _ sub => sub.ignoreParenCasts
  | .castExpr _ _ sub => sub.ignoreParenCasts
  | s => s

mutual
/-- The names collected by the `VarCollector` visitor of `getUsedVars`, in
visiting order. -/
def collectDeclRefs : Stmt → List String
  | .null => []
  | .compoundStmt _ body => collectDeclRefsList body
  | .ifStmt _ c t e => collectDeclRefs c ++ collectDeclRefs t ++ collectDeclRefs e
  | .whileStmt _ c b => collectDeclRefs c ++ collectDeclRefs b
  | .forStmt _ i c n b =>
    collectDeclRefs i ++ collectDeclRefs c ++ collectDeclRefs n ++ collectDeclRefs b
  | .declStmt _ ds => collectDeclRefsDecls ds
  | .binaryOperator _ _ _ l r => collectDeclRefs l ++ collectDeclRefs r
  | .callExpr _ f _ args => collectDeclRefs f ++ collectDeclRefsList args
  | .declRefExpr _ n isVar => if isVar then [n] else []
  | .parenExpr _ sub => collectDeclRefs sub
  | .castExpr _ _ sub => collectDeclRefs sub
  | .other _ _ _ cs => collectDeclRefsList cs
def collectDeclRefsList : List Stmt → List String
  | [] => []
  | s :: rest => collectDeclRefs s ++ collectDeclRefsList rest
def collectDeclRefsDecls : List Decl → List String
  | [] => []
  | .mk _ _ _ _ i :: rest => collectDeclRefs i ++ collectDeclRefsDecls rest
end

/-- `CPGContext::getUsedVars`. -/
def getUsedVars (stmt : Stmt) : List String :=
  setInsertAll strLt [] (collectDeclRefs stmt)

/-- `CPGContext::getDefinedVars`. -/
def getDefinedVars (stmt : Stmt) : List String :=
  match stmt with
  | .binaryOperator _ opcode _ lhs _ =>
    if isAssignmentOp opcode then
      match lhs.ignoreParenImpCasts with
      | .declRefExpr _ name true => [name]
      | _ => []
    else []
  | .declStmt _ decls =>
    setInsertAll strLt [] ((decls.filter Decl.isVarDecl).map Decl.name)
  | _ => []

/-! ## Front-end data: the flow graph of a function -/

/-- A basic block of `clang::CFG`. Blocks are named by their position in the
graph; `preds` and `succs` hold `getReachableBlock()` of each adjacent block
(`none` when it is null). Only the `CFGStmt` elements are kept in `elems`. -/
structure CFGBlock where
  elems : List Stmt
  preds : List (Option Nat)
  succs : List (Option Nat)
  terminator : Stmt

/-- A `clang::CFG`: the blocks in iteration order, the entry and the exit block. -/
structure CFG where
  blocks : List CFGBlock
  entry : Nat
  exit : Nat

/-- The block at a position of the graph; a position outside it holds no block. -/
def CFG.block (cfg : CFG) (i : Nat) : CFGBlock :=
  cfg.blocks.getD i { elems := [], preds := [], succs := [], terminator := .null }

/-- A `clang::FunctionDecl`: its address, its body and the flow graph
`CFG::buildCFG` yields for it (`none` when it fails). -/
structure FunctionDecl where
  addr : Nat
  name : String
  body : Stmt
  cfg : Option CFG

/-- `FunctionDecl::hasBody`. -/
def FunctionDecl.hasBody (f : FunctionDecl) : Bool :=
  match f.body with
  | .null => false
  | _ => true

/-! ## Reaching definitions -/

/-- The map `std::map<std::string, std::set<const Stmt*>>`. -/
abbrev DefMap := List (String × List Nat)

/-- `ReachingDefsInfo`. -/
structure ReachingDefsInfo where
  reachingDefs : List (Nat × DefMap)
  definitions : List (Nat × List String)
  uses : List (Nat × List String)

/-- First loop of `computeReachingDefinitions`, one statement. -/
def collectStmt (info : ReachingDefsInfo) (s : Stmt) : ReachingDefsInfo :=
  { info with
    definitions := mapSet natLt s.addr (getDefinedVars s) info.definitions
    uses := mapSet natLt s.addr (getUsedVars s) info.uses }

/-- First loop of `computeReachingDefinitions`: definitions and uses of every
statement of every block. -/
def collectDefsUses (cfg : CFG) (info : ReachingDefsInfo) : ReachingDefsInfo :=
  cfg.blocks.foldl (fun i b => b.elems.foldl collectStmt i) info

/-- The loop over one predecessor: `blockIn[var].insert(defs.begin(), defs.end())`. -/
def mergeOut (blockIn : DefMap) (out : DefMap) : DefMap :=
  out.foldl (fun acc p => mapSet strLt p.1 (setInsertAll natLt (mapGetD acc p.1 []) p.2) acc)
    blockIn

/-- The IN set of a block: the union of the OUT sets of its predecessors. -/
def computeBlockIn (blockOut : List (Nat × DefMap)) (preds : List (Option Nat)) : DefMap :=
  preds.foldl (fun blockIn p =>
    match p with
    | none => blockIn
    | some pb => mergeOut blockIn (mapGetD blockOut pb [])) []

/-- Kill and gen of one statement on the running OUT set. -/
def killGen (s : Nat) (defs : List String) (out : DefMap) : DefMap :=
  defs.foldl (fun o d => mapSet strLt d (setInsert natLt s []) o) out

/-- One statement of a block: record the reaching definitions, then kill/gen. -/
def rdStmt (st : ReachingDefsInfo × DefMap) (s : Stmt) : ReachingDefsInfo × DefMap :=
  let info := { st.1 with reachingDefs := mapSet natLt s.addr st.2 st.1.reachingDefs }
  (info, killGen s.addr (mapGetD info.definitions s.addr []) st.2)

/-- State of the fixed-point loop. -/
structure RDState where
  info : ReachingDefsInfo
  blockOut : List (Nat × DefMap)
  changed : Bool

/-- One block of one pass of the fixed-point loop. -/
def rdBlock (st : RDState) (idx : Nat) (block : CFGBlock) : RDState :=
  let blockIn := computeBlockIn st.blockOut block.preds
  let oldOut := mapGetD st.blockOut idx []
  let r := block.elems.foldl rdStmt (st.info, blockIn)
  { info := r.1
    blockOut := mapSet natLt idx r.2 st.blockOut
    changed := st.changed || decide (r.2 ≠ oldOut) }

/-- Pair every element with its position, counting from `i`. -/
def withIndex {α : Type} : Nat → List α → List (Nat × α)
  | _, [] => []
  | i, a :: rest => (i, a) :: withIndex (i + 1) rest

/-- One pass of the `while` loop: `changed = false`, then all blocks in
iteration order. -/
def rdPass (cfg : CFG) (st : RDState) : RDState :=
  (withIndex 0 cfg.blocks).foldl (fun s ib => rdBlock s ib.1 ib.2) { st with changed := false }

/-- The loop `while (changed && iterations < maxIterations)`, entered with
`changed = true`; the argument is `maxIterations - iterations`. -/
def rdLoop (cfg : CFG) : Nat → RDState → RDState
  | 0, st => st
  | n + 1, st =>
    let st1 := rdPass cfg st
    if st1.changed then rdLoop cfg n st1 else st1

/-- Body of `computeReachingDefinitions` on the flow graph of the function. -/
def reachingDefsOf (cfg : CFG) (info : ReachingDefsInfo) : ReachingDefsInfo :=
  (rdLoop cfg 100 { info := collectDefsUses cfg info, blockOut := [], changed := true }).info

/-! ## The interprocedural flow graph and the dependence records -/

inductive ICFGNodeKind where
  | Entry | Exit | Statement | CallSite | ReturnSite
  | FormalIn | FormalOut | ActualIn | ActualOut
  deriving DecidableEq, Repr

inductive ICFGEdgeKind where
  | Intraprocedural | Call | Return | ParamIn | ParamOut
  | True | False | Unconditional
  deriving DecidableEq, Repr

/-- `ICFGNode`. Pointers to nodes are positions in `CPGContext.heap`. -/
structure ICFGNode where
  kind : ICFGNodeKind
  stmt : Option Nat
  func : Option Nat
  cfgBlock : Option Nat
  callExpr : Option Nat
  callee : Option Nat
  paramIndex : Int
  successors : List (Nat × ICFGEdgeKind)
  predecessors : List (Nat × ICFGEdgeKind)
  deriving DecidableEq, Repr

inductive DepKind where
  | Flow | Anti | Output
  deriving DecidableEq, Repr

/-- `DataDependency`. -/
structure DataDependency where
  sourceStmt : Nat
  sinkStmt : Nat
  varName : String
  kind : DepKind
  deriving DecidableEq, Repr

/-- `ControlDependency`. -/
structure ControlDependency where
  controlStmt : Nat
  dependentStmt : Nat
  branchValue : Bool
  deriving DecidableEq, Repr

/-- `PDGNode`. -/
structure PDGNode where
  stmt : Nat
  func : Option Nat
  dataDeps : List DataDependency
  controlDeps : List ControlDependency
  deriving DecidableEq, Repr

/-- The state of `CPGContext`. `heap` holds every `ICFGNode` ever allocated, in
allocation order; the other fields are the members of the class. The call
expressions of `callSites` (a set ordered by address) and the callees of
`callTargets` are stored with the object they point to, which `linkCallSites`
reads. -/
structure CPGContext where
  heap : List ICFGNode
  icfgNodes : List (Nat × List Nat)
  stmtToICFGNode : List (Nat × Nat)
  funcEntries : List (Nat × Nat)
  funcExits : List (Nat × Nat)
  pdgNodes : List (Nat × PDGNode)
  reachingDefsMap : List (Nat × ReachingDefsInfo)
  cfgCache : List (Nat × CFG)
  callSites : List (Nat × List Stmt)
  callTargets : List (Nat × Option FunctionDecl)

/-- A freshly constructed `CPGContext`. -/
def CPGContext.empty : CPGContext :=
  { heap := [], icfgNodes := [], stmtToICFGNode := [], funcEntries := [], funcExits := [],
    pdgNodes := [], reachingDefsMap := [], cfgCache := [], callSites := [], callTargets := [] }

/-- `CPGContext::getCFG`. -/
def getCFG (ctx : CPGContext) (func : Nat) : Option CFG :=
  mapFind func ctx.cfgCache

/-- `CPGContext::getICFGNode`. -/
def getICFGNode (ctx : CPGContext) (stmt : Nat) : Option Nat :=
  mapFind stmt ctx.stmtToICFGNode

/-- `CPGContext::getSuccessors`; a pointer outside the heap has no successors. -/
def getSuccessors (ctx : CPGContext) (node : Nat) : List Nat :=
  match ctx.heap[node]? with
  | some n => n.successors.map Prod.fst
  | none => []

/-- `CPGContext::getContainingFunction`. -/
def getContainingFunction (ctx : CPGContext) (stmt : Nat) : Option Nat :=
  (ctx.icfgNodes.find? (fun fn =>
    fn.2.any (fun ptr =>
      match ctx.heap[ptr]? with
      | some n => decide (n.stmt = some stmt)
      | none => false))).map Prod.fst

/-- `CPGContext::getDefinitions`. -/
def getDefinitions (ctx : CPGContext) (useStmt : Nat) (varName : String) : List Nat :=
  match getContainingFunction ctx useStmt with
  | none => []
  | some func =>
    match mapFind func ctx.reachingDefsMap with
    | none => []
    | some reachInfo =>
      match mapFind useStmt reachInfo.reachingDefs with
      | none => []
      | some m =>
        match mapFind varName m with
        | none => []
        | some defs => defs

/-- `CPGContext::createICFGNode`: the new context and the pointer to the node. -/
def createICFGNode (ctx : CPGContext) (kind : ICFGNodeKind) (func : Nat) : CPGContext × Nat :=
  let node : ICFGNode :=
    { kind := kind, stmt := none, func := some func, cfgBlock := none, callExpr := none,
      callee := none, paramIndex := -1, successors := [], predecessors := [] }
  ({ ctx with
      heap := ctx.heap ++ [node]
      icfgNodes := mapSet natLt func (mapGetD ctx.icfgNodes func [] ++ [ctx.heap.length])
        ctx.icfgNodes },
   ctx.heap.length)

/-- Update through a node pointer. -/
def modifyNode (ctx : CPGContext) (ptr : Nat) (f : ICFGNode → ICFGNode) : CPGContext :=
  { ctx with heap := ctx.heap.modify f ptr }

/-- `CPGContext::addICFGEdge`. -/
def addICFGEdge (ctx : CPGContext) (src dst : Nat) (kind : ICFGEdgeKind) : CPGContext :=
  let ctx1 := modifyNode ctx src (fun n => { n with successors := n.successors ++ [(dst, kind)] })
  modifyNode ctx1 dst (fun n => { n with predecessors := n.predecessors ++ [(src, kind)] })

/-- `llvm::isa<IfStmt>(t) || llvm::isa<WhileStmt>(t)` on a terminator. -/
def isIfOrWhile : Stmt → Bool
  | .ifStmt _ _ _ _ => true
  | .whileStmt _ _ _ => true
  | _ => false

/-- `llvm::dyn_cast<CallExpr>(s)` succeeds. -/
def isCallExpr : Stmt → Bool
  | .callExpr _ _ _ _ => true
  | _ => false

/-- The local maps and the running context of `buildICFG`. -/
structure ICFGBuild where
  ctx : CPGContext
  blockFirstNode : List (Nat × Option Nat)
  blockLastNode : List (Nat × Option Nat)

/-- Step 3 of `buildICFG`, one statement of block `block`; `prevNode` is carried. -/
def icfgStmt (func block : Nat) (st : ICFGBuild × Option Nat) (s : Stmt) :
    ICFGBuild × Option Nat :=
  let nodeKind := if isCallExpr s then ICFGNodeKind.CallSite else ICFGNodeKind.Statement
  let callExpr := if isCallExpr s then some s.addr else none
  let (ctx1, node) := createICFGNode st.1.ctx nodeKind func
  let ctx2 := modifyNode ctx1 node (fun n =>
    { n with stmt := some s.addr, cfgBlock := some block, callExpr := callExpr })
  let ctx3 := { ctx2 with stmtToICFGNode := mapSet natLt s.addr node ctx2.stmtToICFGNode }
  match st.2 with
  | some prevNode =>
    ({ st.1 with ctx := addICFGEdge ctx3 prevNode node .Intraprocedural }, some node)
  | none =>
    ({ st.1 with ctx := ctx3,
                 blockFirstNode := mapSet natLt block (some node) st.1.blockFirstNode },
     some node)

/-- Step 3 of `buildICFG`, one block. -/
def icfgBlockNodes (func : Nat) (st : ICFGBuild) (block : Nat) (b : CFGBlock) : ICFGBuild :=
  let r := b.elems.foldl (icfgStmt func block) (st, none)
  match r.2 with
  | some prevNode => { r.1 with blockLastNode := mapSet natLt block (some prevNode) r.1.blockLastNode }
  | none => r.1

/-- Step 4 of `buildICFG`, the successor loop of one block; `succCount` is carried. -/
def icfgSuccEdge (term : Stmt) (lastNode : Nat) (st : ICFGBuild × Nat) (succ : Option Nat) :
    ICFGBuild × Nat :=
  match succ with
  | none => st
  | some succBlock =>
    -- `blockFirstNode[succBlock]` default-constructs a null entry when absent
    let first := mapGetD st.1.blockFirstNode succBlock none
    let st1 := { st.1 with blockFirstNode := mapSet natLt succBlock first st.1.blockFirstNode }
    match first with
    | none => (st1, st.2)
    | some firstSuccNode =>
      let edgeKind :=
        if isIfOrWhile term then
          (if st.2 = 0 then ICFGEdgeKind.True else ICFGEdgeKind.False)
        else ICFGEdgeKind.Unconditional
      ({ st1 with ctx := addICFGEdge st1.ctx lastNode firstSuccNode edgeKind }, st.2 + 1)

/-- Step 4 of `buildICFG`, one block. -/
def icfgBlockEdges (st : ICFGBuild) (block : Nat) (b : CFGBlock) : ICFGBuild :=
  -- `blockLastNode[block]` default-constructs a null entry when absent
  let last := mapGetD st.blockLastNode block none
  let st1 := { st with blockLastNode := mapSet natLt block last st.blockLastNode }
  match last with
  | none => st1
  | some lastNode => (b.succs.foldl (icfgSuccEdge b.terminator lastNode) (st1, 0)).1

/-- Step 5 of `buildICFG`, one predecessor of the exit block. The call
`addICFGEdge(blockLastNode[predBlock], exitNode, ...)` dereferences its first
argument: a null entry makes the run fail (`none`). -/
def icfgExitEdge (exitNode : Nat) (st : Option ICFGBuild) (pred : Option Nat) :
    Option ICFGBuild :=
  match st, pred with
  | none, _ => none
  | some st, none => some st
  | some st, some predBlock =>
    match mapFind predBlock st.blockLastNode with
    | none => some st
    | some none => none
    | some (some lastNode) =>
      some { st with ctx := addICFGEdge st.ctx lastNode exitNode .Intraprocedural }

/-- `CPGContext::buildICFG`. -/
def buildICFG (ctx : CPGContext) (func : FunctionDecl) : Option CPGContext :=
  match func.cfg with
  | none => some ctx
  | some cfg =>
    let ctx0 := { ctx with cfgCache := mapSet natLt func.addr cfg ctx.cfgCache }
    let (ctx1, entryNode) := createICFGNode ctx0 .Entry func.addr
    let (ctx2, exitNode) := createICFGNode ctx1 .Exit func.addr
    let ctx3 := { ctx2 with
      funcEntries := mapSet natLt func.addr entryNode ctx2.funcEntries
      funcExits := mapSet natLt func.addr exitNode ctx2.funcExits }
    let blocks := withIndex 0 cfg.blocks
    let st3 := blocks.foldl (fun st ib => icfgBlockNodes func.addr st ib.1 ib.2)
      { ctx := ctx3, blockFirstNode := [], blockLastNode := [] }
    let st4 := blocks.foldl (fun st ib => icfgBlockEdges st ib.1 ib.2) st3
    let firstOfEntry := mapGetD st4.blockFirstNode cfg.entry none
    let st5 : ICFGBuild :=
      match firstOfEntry with
      | some firstNode =>
        { st4 with ctx := addICFGEdge st4.ctx entryNode firstNode .Intraprocedural }
      | none => st4
    ((cfg.block cfg.exit).preds.foldl (icfgExitEdge exitNode) (some st5)).map ICFGBuild.ctx

/-- `CPGContext::computeReachingDefinitions`. -/
def computeReachingDefinitions (ctx : CPGContext) (func : Nat) : CPGContext :=
  match getCFG ctx func with
  | none => ctx
  | some cfg =>
    let info := mapGetD ctx.reachingDefsMap func
      { reachingDefs := [], definitions := [], uses := [] }
    { ctx with reachingDefsMap := mapSet natLt func (reachingDefsOf cfg info) ctx.reachingDefsMap }

/-! ## The program dependence graph -/

/-- `if (pdgNodes.find(s) == pdgNodes.end()) pdgNodes[s] = make_unique<PDGNode>(s, func)`. -/
def ensurePDGNode (pdg : List (Nat × PDGNode)) (s func : Nat) : List (Nat × PDGNode) :=
  match mapFind s pdg with
  | some _ => pdg
  | none => mapSet natLt s { stmt := s, func := some func, dataDeps := [], controlDeps := [] } pdg

/-- `pdgNodes[s]->addDataDep(dep)`. -/
def addDataDep (pdg : List (Nat × PDGNode)) (s : Nat) (dep : DataDependency) :
    List (Nat × PDGNode) :=
  match mapFind s pdg with
  | some n => mapSet natLt s { n with dataDeps := n.dataDeps ++ [dep] } pdg
  | none => pdg

/-- `pdgNodes[s]->addControlDep(dep)`. -/
def addControlDep (pdg : List (Nat × PDGNode)) (s : Nat) (dep : ControlDependency) :
    List (Nat × PDGNode) :=
  match mapFind s pdg with
  | some n => mapSet natLt s { n with controlDeps := n.controlDeps ++ [dep] } pdg
  | none => pdg

/-- `CPGContext::getPDGNode`. -/
def getPDGNode (ctx : CPGContext) (stmt : Nat) : Option PDGNode :=
  mapFind stmt ctx.pdgNodes

/-- `CPGContext::getDataDependencies`. -/
def getDataDependencies (ctx : CPGContext) (stmt : Nat) : List DataDependency :=
  match getPDGNode ctx stmt with
  | some n => n.dataDeps
  | none => []

/-- `CPGContext::getControlDependencies`. -/
def getControlDependencies (ctx : CPGContext) (stmt : Nat) : List ControlDependency :=
  match getPDGNode ctx stmt with
  | some n => n.controlDeps
  | none => []

/-- Body of the loop of `computeDataDependencies` for one entry of `reachInfo.uses`. -/
def dataDepsOfStmt (func : Nat) (ctx : CPGContext) (su : Nat × List String) : CPGContext :=
  let ctx1 := { ctx with pdgNodes := ensurePDGNode ctx.pdgNodes su.1 func }
  su.2.foldl (fun c var =>
    (getDefinitions c su.1 var).foldl (fun c2 defStmt =>
      let dep : DataDependency :=
        { sourceStmt := defStmt, sinkStmt := su.1, varName := var, kind := .Flow }
      { c2 with pdgNodes := addDataDep c2.pdgNodes su.1 dep }) c) ctx1

/-- `CPGContext::computeDataDependencies`. -/
def computeDataDependencies (ctx : CPGContext) (func : Nat) : CPGContext :=
  match mapFind func ctx.reachingDefsMap with
  | none => ctx
  | some reachInfo => reachInfo.uses.foldl (dataDepsOfStmt func) ctx

/-- The map from a block to its post-dominator set. -/
abbrev PostDomMap := List (Nat × List Nat)

/-- Initialisation of `computePostDominators`. -/
def postDomInit (cfg : CFG) : PostDomMap :=
  let allBlocks := setInsertAll natLt [] (List.range cfg.blocks.length)
  (List.range cfg.blocks.length).foldl (fun pd b =>
    if b ≠ cfg.exit then mapSet natLt b allBlocks pd else pd)
    (mapSet natLt cfg.exit [cfg.exit] [])

/-- The loop over the successors of a block in `computePostDominators`;
`std::set_intersection` of two sets keeps the members of the first that are in
the second. -/
def postDomSucc (postDom : PostDomMap) (block : Nat) (st : List Nat × Bool) (succ : Option Nat) :
    List Nat × Bool :=
  match succ with
  | none => st
  | some succBlock =>
    if st.2 then
      (setInsertAll natLt st.1 (mapGetD postDom succBlock []), false)
    else
      (setInsert natLt block (st.1.filter (fun x => decide (x ∈ mapGetD postDom succBlock []))),
       false)

/-- One block of one pass of `computePostDominators`. -/
def postDomBlock (cfg : CFG) (st : PostDomMap × Bool) (ib : Nat × CFGBlock) : PostDomMap × Bool :=
  if ib.1 = cfg.exit then st
  else
    let newPostDom := (ib.2.succs.foldl (postDomSucc st.1 ib.1) ([ib.1], true)).1
    if newPostDom ≠ mapGetD st.1 ib.1 [] then (mapSet natLt ib.1 newPostDom st.1, true)
    else st

/-- The loop `while (changed && iterations < maxIterations)` of
`computePostDominators`; the argument is `maxIterations - iterations`. -/
def postDomLoop (cfg : CFG) : Nat → PostDomMap → PostDomMap
  | 0, pd => pd
  | n + 1, pd =>
    let r := (withIndex 0 cfg.blocks).reverse.foldl (postDomBlock cfg) (pd, false)
    if r.2 then postDomLoop cfg n r.1 else r.1

/-- `CPGContext::computePostDominators`, on the map passed by reference. -/
def computePostDominators (ctx : CPGContext) (func : Nat) (postDom : PostDomMap) : PostDomMap :=
  match getCFG ctx func with
  | none => postDom
  | some cfg => postDomLoop cfg 100 (postDomInit cfg)

/-- State of the forward search of `computeControlDependencies`. -/
structure CDSearch where
  worklist : List Nat
  visited : List Nat
  pdg : List (Nat × PDGNode)

/-- The statements of a visited block get their record. -/
def cdMark (func term : Nat) (branchValue : Bool) (pdg : List (Nat × PDGNode)) (s : Stmt) :
    List (Nat × PDGNode) :=
  addControlDep (ensurePDGNode pdg s.addr func) s.addr
    { controlStmt := term, dependentStmt := s.addr, branchValue := branchValue }

/-- The successors of a visited block are queued unless visited. -/
def cdPush (st : List Nat × List Nat) (succ : Option Nat) : List Nat × List Nat :=
  match succ with
  | none => st
  | some nextBlock =>
    if nextBlock ∈ st.2 then st else (st.1 ++ [nextBlock], setInsert natLt nextBlock st.2)

/-- The loop `while (!worklist.empty())` of `computeControlDependencies`. The
first argument bounds the number of iterations. -/
def cdSearch (cfg : CFG) (postDom : PostDomMap) (func block term : Nat) (branchValue : Bool) :
    Nat → CDSearch → CDSearch
  | 0, st => st
  | fuel + 1, st =>
    match st.worklist with
    | [] => st
    | current :: rest =>
      if block ∈ mapGetD postDom current [] then
        cdSearch cfg postDom func block term branchValue fuel { st with worklist := rest }
      else
        let pdg1 := (cfg.block current).elems.foldl (cdMark func term branchValue) st.pdg
        let wv := (cfg.block current).succs.foldl cdPush (rest, st.visited)
        cdSearch cfg postDom func block term branchValue fuel
          { worklist := wv.1, visited := wv.2, pdg := pdg1 }

/-- All successor slots of the graph. -/
def CFG.allSuccs (cfg : CFG) : List (Option Nat) :=
  cfg.blocks.flatMap CFGBlock.succs

/-- A bound on the number of iterations of the forward search: every block
enters the worklist at most once, as the start or through a successor slot. -/
def CFG.searchBound (cfg : CFG) : Nat := cfg.allSuccs.length + 1

/-- One outgoing branch of a conditional block; `branchIdx` is its position. -/
def cdBranch (cfg : CFG) (postDom : PostDomMap) (func block term : Nat)
    (pdg : List (Nat × PDGNode)) (branch : Nat × Option Nat) : List (Nat × PDGNode) :=
  match branch.2 with
  | none => pdg
  | some succBlock =>
    let branchValue := decide (branch.1 = 0)
    (cdSearch cfg postDom func block term branchValue cfg.searchBound
      { worklist := [succBlock], visited := setInsert natLt succBlock [], pdg := pdg }).pdg

/-- One block of `computeControlDependencies`. -/
def cdBlock (cfg : CFG) (postDom : PostDomMap) (func : Nat)
    (pdg : List (Nat × PDGNode)) (ib : Nat × CFGBlock) : List (Nat × PDGNode) :=
  if isIfOrWhile ib.2.terminator then
    (withIndex 0 ib.2.succs).foldl (cdBranch cfg postDom func ib.1 ib.2.terminator.addr) pdg
  else pdg

/-- `CPGContext::computeControlDependencies`. -/
def computeControlDependencies (ctx : CPGContext) (func : Nat) : CPGContext :=
  let postDom := computePostDominators ctx func []
  match getCFG ctx func with
  | none => ctx
  | some cfg =>
    { ctx with pdgNodes := (withIndex 0 cfg.blocks).foldl (cdBlock cfg postDom func) ctx.pdgNodes }

/-- `CPGContext::buildPDG`. -/
def buildPDG (ctx : CPGContext) (func : Nat) : CPGContext :=
  computeControlDependencies (computeDataDependencies ctx func) func

/-- `CPGContext::buildCPG`; `none` is the null function, a null body is a
function without a body. The result is `none` when `buildICFG` fails. -/
def buildCPG (ctx : CPGContext) (func : Option FunctionDecl) : Option CPGContext :=
  match func with
  | none => some ctx
  | some f =>
    if f.hasBody then
      match buildICFG ctx f with
      | none => none
      | some ctx1 => some (buildPDG (computeReachingDefinitions ctx1 f.addr) f.addr)
    else some ctx

/-! ## Path queries -/

/-- The variables captured by the `dfs` closure of `findAllPaths`. -/
structure DfsState where
  allPaths : List (List Nat)
  currentPath : List Nat
  visited : List Nat

/-- The closure `dfs` of `findAllPaths`. The first argument is the recursion
budget: it is at least `maxDepth + 1 - depth` in every call, so that the budget
is used up only where `depth > maxDepth` returns as well. -/
def dfs (ctx : CPGContext) (sink : Nat) (maxDepth : Int) : Nat → Nat → Int → DfsState → DfsState
  | 0, _, _, st => st
  | budget + 1, node, depth, st =>
    if depth > maxDepth then st
    else
      let st1 : DfsState :=
        { st with currentPath := st.currentPath ++ [node]
                  visited := setInsert natLt node st.visited }
      let st2 : DfsState :=
        if node = sink then { st1 with allPaths := st1.allPaths ++ [st1.currentPath] }
        else
          (getSuccessors ctx node).foldl (fun s succ =>
            if succ ∈ s.visited then s else dfs ctx sink maxDepth budget succ (depth + 1) s) st1
      { st2 with visited := st2.visited.erase node
                 currentPath := st2.currentPath.dropLast }

/-- `CPGContext::findAllPaths`. -/
def findAllPaths (ctx : CPGContext) (source sink : Nat) (maxDepth : Int) : List (List Nat) :=
  (dfs ctx sink maxDepth (maxDepth + 1).toNat source 0
    { allPaths := [], currentPath := [], visited := [] }).allPaths

/-! ## Vocabulary of the statements about the flow graph -/

/-- Every predecessor slot of a block is matched by a successor slot of the
predecessor, as in a flow graph built by Clang. -/
def CFG.predsMatchSuccs (cfg : CFG) : Bool :=
  (withIndex 0 cfg.blocks).all (fun ib =>
    ib.2.preds.all (fun p =>
      match p with
      | none => true
      | some pb => decide (some ib.1 ∈ (cfg.block pb).succs)))

/-- The addresses of the statements of the flow graph, in block order. -/
def CFG.stmtAddrs (cfg : CFG) : List Nat :=
  cfg.blocks.flatMap (fun b => b.elems.map Stmt.addr)

/-- `ReachesAfter cfg defs v D b pre`: `pre` is an initial segment of the
statements of block `b`, and the flow graph has a path from an occurrence of the
statement `D` to the point just after `pre` in `b` on which no statement after
that occurrence defines `v` (`defs a` is the defined-variable set of the
statement at address `a`). The path stays in the block (`gen`, `pass`) or
follows a successor edge from the end of a block to the start of the next
(`edge`). -/
inductive ReachesAfter (cfg : CFG) (defs : Nat → List String) (v : String) (D : Nat) :
    Nat → List Stmt → Prop where
  | gen (b : Nat) (pre post : List Stmt) (d : Stmt) :
      (cfg.block b).elems = pre ++ d :: post → d.addr = D →
      ReachesAfter cfg defs v D b (pre ++ [d])
  | pass (b : Nat) (pre post : List Stmt) (s : Stmt) :
      ReachesAfter cfg defs v D b pre →
      (cfg.block b).elems = pre ++ s :: post → v ∉ defs s.addr →
      ReachesAfter cfg defs v D b (pre ++ [s])
  | edge (p b : Nat) :
      ReachesAfter cfg defs v D p (cfg.block p).elems → some b ∈ (cfg.block p).succs →
      ReachesAfter cfg defs v D b []

/-- A path from `D` to an occurrence of the statement `S` with no definition of
`v` strictly between them. -/
def DefClearPath (cfg : CFG) (defs : Nat → List String) (v : String) (D S : Nat) : Prop :=
  ∃ b pre post s, (cfg.block b).elems = pre ++ s :: post ∧ s.addr = S ∧
    ReachesAfter cfg defs v D b pre

end cpg

namespace aodsolve

open cpg

/-! ## `std::string` operations -/

/-- `s.find(sub) == 0`. -/
def startsWith (sub s : List Char) : Bool := sub.isPrefixOf s

/-- `s.find(sub) != std::string::npos`. -/
def hasSubstr (sub : List Char) : List Char → Bool
  | [] => sub.isEmpty
  | c :: rest => sub.isPrefixOf (c :: rest) || hasSubstr sub rest

/-- The loop `while ((pos = code.find(ph, pos)) != npos) { code.replace(pos,
ph.length(), v); pos += v.length(); }` on the part of `code` from `pos` on: the
occurrences of the (non-empty) placeholder `ph` are replaced from left to
right, the search continuing after the inserted text. The second argument
counts the characters of a matched placeholder still to be dropped. -/
def replaceAllAux (ph v : List Char) : List Char → Nat → List Char
  | [], _ => []
  | _ :: rest, skip + 1 => replaceAllAux ph v rest skip
  | c :: rest, 0 =>
    if ph.isPrefixOf (c :: rest) then v ++ replaceAllAux ph v rest (ph.length - 1)
    else c :: replaceAllAux ph v rest 0

/-- Replacement of every occurrence of a placeholder in a text. -/
def replaceAll (ph v code : String) : String :=
  String.mk (replaceAllAux ph.data v.data code.data 0)

/-- The loop that drops trailing `;`, newline and space characters. -/
def stripTrailing (s : String) : String :=
  String.mk (s.data.reverse.dropWhile (fun c => c = ';' || c = '\n' || c = ' ')).reverse

/-- `std::isspace` in the C locale. -/
def isSpaceChar (c : Char) : Bool :=
  c = ' ' || c = '\t' || c = '\n' || c = '\x0b' || c = '\x0c' || c = '\r'

/-- `std::stoi`: leading white space, an optional sign, then decimal digits;
`none` when it throws (no digit, or a value outside `int`). -/
def stoi (s : List Char) : Option Int :=
  let s1 := s.dropWhile isSpaceChar
  let signed : Bool × List Char :=
    match s1 with
    | '-' :: r => (true, r)
    | '+' :: r => (false, r)
    | r => (false, r)
  let digits := signed.2.takeWhile Char.isDigit
  if digits = [] then none
  else
    let n : Nat := digits.foldl (fun acc c => acc * 10 + (c.toNat - 48)) 0
    let v : Int := if signed.1 then -(n : Int) else (n : Int)
    if v < -2147483648 ∨ 2147483647 < v then none else some v

/-! ## The AOD graph -/

inductive AODNodeType where
  | Entry | Exit
  | Control | If | Loop | Switch | Break | Continue | Return
  | BlockEnd
  | Load | Store
  | Add | Subtract | Multiply | Divide | Modulo
  | And | Or | Xor | Not
  | ShiftLeft | ShiftRight
  | Equal | NotEqual | LessThan | LessEqual | GreaterThan | GreaterEqual
  | SIMD_Load | SIMD_Store | SIMD_Arithmetic | SIMD_Compare
  | SIMD_Blend | SIMD_Shuffle | SIMD_Permute
  | SIMD_Intrinsic
  | GenericStmt
  | Call | Param | ReturnValue
  | Phi | Merge
  | Constant | Global | Unknown
  deriving DecidableEq

inductive AODEdgeType where
  | Data | Control | Parameter | Return | Exception | Memory | Alias
  deriving DecidableEq

/-- `nodeTypeToString`. -/
def nodeTypeToString : AODNodeType → String
  | .Entry => "Entry"
  | .Exit => "Exit"
  | _ => "Node"

/-- `AODNode`: its id, type, name, property bag, statement flag and original
statement. -/
structure AODNode where
  id : Nat
  type : AODNodeType
  name : String
  attributes : List (String × String)
  isStatement : Bool
  astStmt : Stmt

/-- The constructor `AODNode(t, name)`; `id` is the value of `next_id`. -/
def AODNode.new (id : Nat) (t : AODNodeType) (name : String) : AODNode :=
  { id := id, type := t
    name := if name = "" then nodeTypeToString t ++ "_" ++ toString id else name
    attributes := [], isStatement := false, astStmt := .null }

/-- `AODNode::setProperty`. -/
def AODNode.setProperty (n : AODNode) (key value : String) : AODNode :=
  { n with attributes := mapSet strLt key value n.attributes }

/-- `AODNode::getProperty` with the default `""`. -/
def AODNode.getProperty (n : AODNode) (key : String) : String :=
  mapGetD n.attributes key ""

/-- `AODEdge`: source and target are node ids. -/
structure AODEdge where
  source : Nat
  target : Nat
  type : AODEdgeType
  variable_name : String
  deriving DecidableEq

/-- `AODGraph`: the node and edge vectors. -/
structure AODGraph where
  name : String
  nodes : List AODNode
  edges : List AODEdge

/-- `AODGraph::addNode`. -/
def AODGraph.addNode (g : AODGraph) (n : AODNode) : AODGraph :=
  { g with nodes := g.nodes ++ [n] }

/-- `AODGraph::addEdge` with a variable name. -/
def AODGraph.addEdge (g : AODGraph) (source target : Nat) (type : AODEdgeType)
    (varName : String) : AODGraph :=
  { g with edges := g.edges ++
      [{ source := source, target := target, type := type, variable_name := varName }] }

/-- `AODGraph::getIncomingEdges`. -/
def AODGraph.getIncomingEdges (g : AODGraph) (node_id : Nat) : List AODEdge :=
  g.edges.filter (fun e => e.target = node_id)

/-- Dereferencing a node pointer held by an edge or a map. -/
def AODGraph.getNode (g : AODGraph) (node_id : Nat) : Option AODNode :=
  g.nodes.find? (fun n => n.id = node_id)

/-! ## The rule database -/

/-- `TransformTemplate`. -/
structure TransformTemplate where
  template_id : String
  target_architecture : String
  code_template : String
  placeholders : List (String × String)
  required_headers : List String
  auxiliary_vars : List String
  performance_hints : List (String × String)

/-- `CodePattern`. -/
structure CodePattern where
  pattern_id : String
  description : String
  required_node_types : List String
  required_operations : List String
  constraints : List (String × String)
  priority : Int

/-- `OptimizationRule`. -/
structure OptimizationRule where
  rule_id : String
  rule_name : String
  category : String
  source_pattern : CodePattern
  target_templates : List (String × TransformTemplate)
  estimated_speedup : Int
  code_size_impact : Int

/-- `RuleDatabase`. -/
structure RuleDatabase where
  rules : List (String × OptimizationRule)
  category_index : List (String × List String)

/-- `RuleDatabase::addRule`. -/
def RuleDatabase.addRule (db : RuleDatabase) (rule : OptimizationRule) : RuleDatabase :=
  { rules := mapSet strLt rule.rule_id rule db.rules
    category_index := mapSet strLt rule.category
      (mapGetD db.category_index rule.category [] ++ [rule.rule_id]) db.category_index }

/-- `RuleDatabase::queryRules`. -/
def RuleDatabase.queryRules (db : RuleDatabase) (category : String) : List OptimizationRule :=
  match mapFind category db.category_index with
  | none => []
  | some ids => ids.filterMap (fun rule_id => mapFind rule_id db.rules)

/-- A rule of `SIMDInstructionRuleBuilder::buildAllRules`: one required
operation and one template, with its `return_type` hint. -/
def simdRule (rule_id op arch code_template return_type : String) : OptimizationRule :=
  { rule_id := rule_id, rule_name := "", category := "simd_instruction"
    source_pattern :=
      { pattern_id := "", description := "", required_node_types := []
        required_operations := [op], constraints := [], priority := 0 }
    target_templates :=
      [(arch, { template_id := "", target_architecture := arch, code_template := code_template
                placeholders := [], required_headers := [], auxiliary_vars := []
                performance_hints := [("return_type", return_type)] })]
    estimated_speedup := 1, code_size_impact := 0 }

/-- The rules `buildAllRules` registers, in registration order. -/
def allSIMDRules : List OptimizationRule :=
  [ simdRule "avx2_set1_epi8" "_mm256_set1_epi8" "SVE" "svdup_s8({{input_0}})" "svint8_t",
    simdRule "avx2_loadu_si256" "_mm256_loadu_si256" "SVE"
      "svld1_s8(pg, (const int8_t*){{input_0}})" "svint8_t",
    simdRule "avx2_storeu_si256" "_mm256_storeu_si256" "SVE"
      "svst1_s8(pg, (int8_t*){{input_0}}, {{input_1}})" "void",
    simdRule "avx2_cmpgt_epi8" "_mm256_cmpgt_epi8" "SVE"
      "svcmpgt_s8(pg, {{input_0}}, {{input_1}})" "svbool_t",
    simdRule "avx2_and_si256" "_mm256_and_si256" "SVE"
      "svand_s8_z(pg, {{input_0}}, {{input_1}})" "svint8_t",
    simdRule "avx2_add_epi8" "_mm256_add_epi8" "SVE"
      "svadd_s8_z(pg, {{input_0}}, {{input_1}})" "svint8_t",
    simdRule "scalar_add_float" "+" "NEON" "vaddq_f32({{input_0}}, {{input_1}})" "float32x4_t",
    simdRule "scalar_sub_float" "-" "NEON" "vsubq_f32({{input_0}}, {{input_1}})" "float32x4_t",
    simdRule "scalar_load_float" "load_float" "NEON" "vld1q_f32((const float*){{input_0}})"
      "float32x4_t",
    simdRule "scalar_store_float" "store_float" "NEON"
      "vst1q_f32((float*){{input_0}}, {{input_1}})" "void" ]

/-- `SIMDInstructionRuleBuilder::buildAllRules` on the database it was given. -/
def buildAllRules (db : RuleDatabase) : RuleDatabase :=
  allSIMDRules.foldl RuleDatabase.addRule db

end aodsolve

namespace aodsolve

open cpg

/-! ## The rule-driven code generator -/

/-- `EnhancedCodeGenerator`: the target architecture, the rule database pointer
and the pretty printer of the front-end (`Stmt::printPretty`). -/
structure EnhancedCodeGenerator where
  printPretty : Stmt → String
  target_architecture : String
  rule_db : Option RuleDatabase

/-- `EnhancedCodeGenerator::generateFallbackCode`. -/
def generateFallbackCode (gen : EnhancedCodeGenerator) (stmt : Stmt) : String :=
  match stmt with
  | .null => ""
  | s => stripTrailing (gen.printPretty s)

/-- The rules `tryApplyRules` looks at, in query order. -/
def queriedRules (db : RuleDatabase) : List OptimizationRule :=
  db.queryRules "simd_instruction" ++ db.queryRules "scalar_vectorization"

/-- The first rule that lists `op_name` among its required operations. -/
def matchRule (rules : List OptimizationRule) (op_name : String) : Option OptimizationRule :=
  rules.find? (fun rule => decide (op_name ∈ rule.source_pattern.required_operations))

/-- The first part of `tryApplyRules`, up to the choice of the template: the
fallback text on every early return, the template otherwise. -/
def selectTemplate (gen : EnhancedCodeGenerator) (node : AODNode) : String ⊕ TransformTemplate :=
  match gen.rule_db with
  | none => .inl (generateFallbackCode gen node.astStmt)
  | some db =>
    if node.getProperty "op_name" = "" then .inl (generateFallbackCode gen node.astStmt)
    else
      match matchRule (queriedRules db) (node.getProperty "op_name") with
      | none => .inl (generateFallbackCode gen node.astStmt)
      | some matched_rule =>
        match mapFind gen.target_architecture matched_rule.target_templates with
        | none => .inl (generateFallbackCode gen node.astStmt)
        | some tmpl => .inr tmpl

/-- `llvm::dyn_cast<clang::Expr>` succeeds. -/
def isExpr : Stmt → Bool
  | .binaryOperator _ _ _ _ _ => true
  | .callExpr _ _ _ _ => true
  | .declRefExpr _ _ _ => true
  | .parenExpr _ _ => true
  | .castExpr _ _ _ => true
  | .other _ _ e _ => e
  | _ => false

/-- The name of a placeholder: `"{{input_" + std::to_string(i) + "}}"`. -/
def inputKey (i : Int) : String := "\x7b\x7binput_" ++ toString i ++ "\x7d\x7d"

/-- The bindings taken from the original expression of the node (call
arguments or binary operands), before the graph is looked at. -/
def astBindings (gen : EnhancedCodeGenerator) (node : AODNode) : List (String × String) :=
  if isExpr node.astStmt then
    match node.astStmt.ignoreParenCasts with
    | .callExpr _ _ _ args =>
      (withIndex 0 args).foldl (fun b ia =>
        mapSet strLt (inputKey ia.1)
          (replaceAll "(__m256i *)" "(int8_t *)" (generateFallbackCode gen ia.2)) b) []
    | .binaryOperator _ _ _ lhs rhs =>
      mapSet strLt "{{input_1}}" (generateFallbackCode gen rhs)
        (mapSet strLt "{{input_0}}" (generateFallbackCode gen lhs) [])
    | _ => []
  else []

/-- The adaptation of a comparison operand of a logical AND for the SVE target. -/
def sveAdapt (gen : EnhancedCodeGenerator) (op_name : String) (src : AODNode) (val : String) :
    String :=
  if gen.target_architecture = "SVE" ∧ hasSubstr "and".data op_name.data = true then
    if hasSubstr "cmp".data (src.getProperty "op_name").data then
      "svsel_s8(" ++ val ++ ", svdup_s8(0xFF), svdup_s8(0x00))"
    else val
  else val

/-- The loop over the bindings: every placeholder is replaced by its value, in
key order. -/
def substitute (bindings : List (String × String)) (code : String) : String :=
  bindings.foldl (fun c kv => replaceAll kv.1 kv.2 c) code

/-- One incoming edge in the loop of `tryApplyRules` that overrides the
bindings from the graph; `recurse` is `tryApplyRules` on a source node. The
result is `none` when `std::stoi` throws or the recursive call yields no text. -/
def edgeBinding (gen : EnhancedCodeGenerator) (graph : AODGraph) (op_name : String)
    (recurse : AODNode → Option String) (bindings : Option (List (String × String)))
    (edge : AODEdge) : Option (List (String × String)) :=
  match bindings with
  | none => none
  | some b =>
    if startsWith "arg_".data edge.variable_name.data then
      match stoi (edge.variable_name.data.drop 4) with
      | none => none
      | some idx =>
        match graph.getNode edge.source with
        | none => none
        | some src =>
          let val := if src.isStatement then some (src.getProperty "var_name") else recurse src
          match val with
          | none => none
          | some v => some (mapSet strLt (inputKey idx) (sveAdapt gen op_name src v) b)
    else some b

/-- The second part of `tryApplyRules`, once the template is chosen. -/
def applyTemplate (gen : EnhancedCodeGenerator) (graph : AODGraph) (node : AODNode)
    (tmpl : TransformTemplate) (recurse : AODNode → Option String) : Option String :=
  match (graph.getIncomingEdges node.id).foldl
      (edgeBinding gen graph (node.getProperty "op_name") recurse)
      (some (astBindings gen node)) with
  | none => none
  | some b =>
    let bindings :=
      if gen.target_architecture = "SVE" then mapSet strLt "{{predicate}}" "pg" b else b
    some (substitute bindings tmpl.code_template)

/-- `EnhancedCodeGenerator::tryApplyRules`. The first argument bounds the depth
of the recursion into operand nodes; `none` is a run that throws or that needs
a deeper recursion. -/
def tryApplyRules (gen : EnhancedCodeGenerator) (graph : AODGraph) : Nat → AODNode → Option String
  | 0, node =>
    match selectTemplate gen node with
    | .inl text => some text
    | .inr tmpl => applyTemplate gen graph node tmpl (fun _ => none)
  | depth + 1, node =>
    match selectTemplate gen node with
    | .inl text => some text
    | .inr tmpl => applyTemplate gen graph node tmpl (tryApplyRules gen graph depth)

end aodsolve

namespace aodsolve

open cpg

/-! ## The conversion of a function to an AOD graph -/

/-- Clang: `BinaryOperator::isCompoundAssignmentOp`. -/
def isCompoundAssignmentOp (opcode : String) : Bool :=
  opcode ∈ ["*=", "/=", "%=", "+=", "-=", "<<=", ">>=", "&=", "^=", "|="]

/-- Clang: `Stmt::getStmtClassName`. -/
def getStmtClassName : Stmt → String
  | .null => ""
  | .compoundStmt _ _ => "CompoundStmt"
  | .ifStmt _ _ _ _ => "IfStmt"
  | .whileStmt _ _ _ => "WhileStmt"
  | .forStmt _ _ _ _ _ => "ForStmt"
  | .declStmt _ _ => "DeclStmt"
  | .binaryOperator _ opcode _ _ _ =>
    if isCompoundAssignmentOp opcode then "CompoundAssignOperator" else "BinaryOperator"
  | .callExpr _ _ _ _ => "CallExpr"
  | .declRefExpr _ _ _ => "DeclRefExpr"
  | .parenExpr _ _ => "ParenExpr"
  | .castExpr _ isImplicit _ => if isImplicit then "ImplicitCastExpr" else "CStyleCastExpr"
  | .other _ className _ _ => className

/-- Clang: `Stmt::children`, in order; null children are kept, the callers
skip them. -/
def children : Stmt → List Stmt
  | .null => []
  | .compoundStmt _ body => body
  | .ifStmt _ c t e => [c, t, e]
  | .whileStmt _ c b => [c, b]
  | .forStmt _ i c n b => [i, c, n, b]
  | .declStmt _ decls => decls.map Decl.init
  | .binaryOperator _ _ _ l r => [l, r]
  | .callExpr _ f _ args => f :: args
  | .declRefExpr _ _ _ => []
  | .parenExpr _ sub => [sub]
  | .castExpr _ _ sub => [sub]
  | .other _ _ _ cs => cs

/-- The state the traversal works on: the graph under construction, the map
`stmt_to_node_map` of the converter (statement address to node id) and the
counter `AODNode::next_id`. -/
structure ConvState where
  graph : AODGraph
  stmt_to_node_map : List (Nat × Nat)
  next_id : Nat

/-- `EnhancedCPGToAODConverter::isSIMDIntrinsic`. -/
def isSIMDIntrinsic (stmt : Stmt) : Bool :=
  if isExpr stmt then
    match stmt.ignoreParenCasts with
    | .callExpr _ _ (some callee) _ => hasSubstr "_mm".data callee.data
    | _ => false
  else false

/-- `EnhancedCPGToAODConverter::createSIMDNode`; `id` is the value of `next_id`. -/
def createSIMDNode (id : Nat) (stmt : Stmt) : AODNode :=
  let node : AODNode := { AODNode.new id .SIMD_Intrinsic "SIMD_Op" with astStmt := stmt }
  if isExpr stmt then
    match stmt.ignoreParenCasts with
    | .callExpr _ _ (some callee) _ =>
      { node.setProperty "op_name" callee with isStatement := false }
    | _ => node
  else
    match stmt with
    | .declStmt _ [d] =>
      if d.isVarDecl then
        { (node.setProperty "op_name" "define").setProperty "var_name" d.name with
          isStatement := true }
      else node
    | _ => node

/-- `graph.addNode(node)` followed by `stmt_to_node_map[s] = node` for the
given statements; one id has been used. -/
def ConvState.register (st : ConvState) (node : AODNode) (keys : List Nat) : ConvState :=
  { graph := st.graph.addNode node
    stmt_to_node_map := keys.foldl (fun m k => mapSet natLt k node.id m) st.stmt_to_node_map
    next_id := st.next_id }

/-- The node part of `traverseExpressionTree`: a node for a vector intrinsic or
for a floating-point binary operator. -/
def visitExpression (st : ConvState) (stmt : Stmt) : ConvState :=
  let is_simd := isSIMDIntrinsic stmt
  let keys :=
    (if isExpr stmt then [stmt.addr, stmt.ignoreParenCasts.addr] else []) ++ [stmt.addr]
  if is_simd then
    { st with next_id := st.next_id + 1 }.register (createSIMDNode st.next_id stmt) keys
  else
    match stmt with
    | .binaryOperator _ opcode true _ _ =>
      { st with next_id := st.next_id + 1 }.register
        { (AODNode.new st.next_id .GenericStmt "ScalarOp").setProperty "op_name" opcode with
          astStmt := stmt, isStatement := false } keys
    | _ => st

mutual
/-- `EnhancedCPGToAODConverter::traverseExpressionTree`. -/
def traverseExpressionTree (st : ConvState) : Stmt → ConvState
  | .null => st
  | .compoundStmt a body =>
    traverseExpressionList (visitExpression st (.compoundStmt a body)) body
  | .ifStmt a c t e =>
    traverseExpressionTree (traverseExpressionTree (traverseExpressionTree
      (visitExpression st (.ifStmt a c t e)) c) t) e
  | .whileStmt a c b =>
    traverseExpressionTree (traverseExpressionTree (visitExpression st (.whileStmt a c b)) c) b
  | .forStmt a i c n b =>
    traverseExpressionTree (traverseExpressionTree (traverseExpressionTree
      (traverseExpressionTree (visitExpression st (.forStmt a i c n b)) i) c) n) b
  | .declStmt a decls =>
    traverseExpressionDecls (visitExpression st (.declStmt a decls)) decls
  | .binaryOperator a op f l r =>
    traverseExpressionTree (traverseExpressionTree
      (visitExpression st (.binaryOperator a op f l r)) l) r
  | .callExpr a f callee args =>
    traverseExpressionList
      (traverseExpressionTree (visitExpression st (.callExpr a f callee args)) f) args
  | .declRefExpr a n v => visitExpression st (.declRefExpr a n v)
  | .parenExpr a sub => traverseExpressionTree (visitExpression st (.parenExpr a sub)) sub
  | .castExpr a i sub => traverseExpressionTree (visitExpression st (.castExpr a i sub)) sub
  | .other a cls e cs => traverseExpressionList (visitExpression st (.other a cls e cs)) cs
/-- The loop of `traverseExpressionTree` over the children of a statement. -/
def traverseExpressionList (st : ConvState) : List Stmt → ConvState
  | [] => st
  | s :: rest => traverseExpressionList (traverseExpressionTree st s) rest
/-- The same loop over the initializers of a declaration statement. -/
def traverseExpressionDecls (st : ConvState) : List Decl → ConvState
  | [] => st
  | .mk _ _ _ _ i :: rest => traverseExpressionDecls (traverseExpressionTree st i) rest
end

/-- The node of a control statement in `traverseAndBuild`. -/
def controlNode (st : ConvState) (stmt : Stmt) (is_top_level : Bool) : ConvState :=
  { st with next_id := st.next_id + 1 }.register
    { AODNode.new st.next_id .Control (getStmtClassName stmt) with
      astStmt := stmt, isStatement := is_top_level } [stmt.addr]

/-- The last case of `traverseAndBuild`: a node for the statement, then its
children as expression trees. -/
def genericNode (st : ConvState) (stmt : Stmt) (is_top_level : Bool) : ConvState :=
  let node : AODNode :=
    if isSIMDIntrinsic stmt then
      { createSIMDNode st.next_id stmt with isStatement := is_top_level }
    else
      { AODNode.new st.next_id .GenericStmt (getStmtClassName stmt) with
        astStmt := stmt, isStatement := is_top_level }
  traverseExpressionList ({ st with next_id := st.next_id + 1 }.register node [stmt.addr])
    (children stmt)

/-- The case of `traverseAndBuild` for a declaration of a single variable `d`. -/
def defineNode (st : ConvState) (stmt : Stmt) (d : Decl) (is_top_level : Bool) : ConvState :=
  let node0 : AODNode :=
    { ((AODNode.new st.next_id .GenericStmt "DeclStmt").setProperty "op_name" "define").setProperty
        "var_name" d.name with astStmt := stmt, isStatement := is_top_level }
  let st1 : ConvState := { st with next_id := st.next_id + 1 }
  let st2 : ConvState :=
    if isSIMDIntrinsic d.init.ignoreParenCasts then
      { st1 with next_id := st1.next_id + 1 }.register (createSIMDNode st1.next_id stmt) [stmt.addr]
    else st1.register node0 [stmt.addr]
  traverseExpressionTree st2 d.init

mutual
/-- `EnhancedCPGToAODConverter::traverseAndBuild`. -/
def traverseAndBuild (st : ConvState) : Stmt → Bool → ConvState
  | .null, _ => st
  | .compoundStmt _ body, _ =>
    let st1 := traverseAndBuildList st body
    { st1 with next_id := st1.next_id + 1 }.register (AODNode.new st1.next_id .BlockEnd "\x7d") []
  | .whileStmt a c b, top =>
    traverseAndBuild (traverseExpressionTree (controlNode st (.whileStmt a c b) top) c) b true
  | .forStmt a i c n b, top =>
    traverseAndBuild (traverseExpressionTree (traverseExpressionTree
      (controlNode st (.forStmt a i c n b) top) i) c) b true
  | .ifStmt a c t e, top =>
    traverseAndBuild (traverseAndBuild (traverseExpressionTree
      (controlNode st (.ifStmt a c t e) top) c) t true) e true
  | .declStmt a decls, top =>
    match decls with
    | [d] =>
      if d.isVarDecl then defineNode st (.declStmt a [d]) d top
      else genericNode st (.declStmt a [d]) top
    | ds => genericNode st (.declStmt a ds) top
  | .binaryOperator a op f l r, top => genericNode st (.binaryOperator a op f l r) top
  | .callExpr a f callee args, top => genericNode st (.callExpr a f callee args) top
  | .declRefExpr a n v, top => genericNode st (.declRefExpr a n v) top
  | .parenExpr a sub, top => genericNode st (.parenExpr a sub) top
  | .castExpr a i sub, top => genericNode st (.castExpr a i sub) top
  | .other a cls e cs, top => genericNode st (.other a cls e cs) top
/-- The loop of `traverseAndBuild` over the children of a compound statement. -/
def traverseAndBuildList (st : ConvState) : List Stmt → ConvState
  | [] => st
  | s :: rest => traverseAndBuildList (traverseAndBuild st s true) rest
end

/-- `EnhancedCPGToAODConverter::buildFullAODGraph`. -/
def buildFullAODGraph (st : ConvState) (func : FunctionDecl) : ConvState :=
  if func.hasBody then traverseAndBuild st func.body true else st

/-- The marking loop of `convertWithOperators`, one node. -/
def markVectorize (node : AODNode) : AODNode :=
  let n1 :=
    if node.type = .Control ∧ hasSubstr "ForStmt".data node.name.data = true then
      node.setProperty "vectorize" "true"
    else node
  if n1.type = .GenericStmt ∧ hasSubstr "BinaryOperator".data n1.name.data = true then
    n1.setProperty "vectorize" "true"
  else n1

/-- The nearest `define` node for a variable: the first node of the graph with
`op_name == "define"` and that `var_name`. -/
def findDefine (g : AODGraph) (var_name : String) : Option AODNode :=
  g.nodes.find? (fun n =>
    decide (n.getProperty "op_name" = "define" ∧ n.getProperty "var_name" = var_name))

/-- One operand of a call or of a binary operator in `connectDataFlow`: an edge
`arg_<idx>` from the node of the operand, or else from the `define` node of the
variable it names. -/
def linkOperand (stmt_to_node_map : List (Nat × Nat)) (node : AODNode) (g : AODGraph)
    (iop : Nat × Stmt) : AODGraph :=
  match mapFind iop.2.ignoreParenCasts.addr stmt_to_node_map with
  | some src => g.addEdge src node.id .Data ("arg_" ++ toString iop.1)
  | none =>
    match iop.2.ignoreParenCasts with
    | .declRefExpr _ name _ =>
      match findDefine g name with
      | some src => g.addEdge src.id node.id .Data ("arg_" ++ toString iop.1)
      | none => g
    | _ => g

/-- Part 1 of the loop body of `connectDataFlow`: the `init` edge of a
`define` node. -/
def linkInit (stmt_to_node_map : List (Nat × Nat)) (node : AODNode) (g : AODGraph) : AODGraph :=
  if node.getProperty "op_name" = "define" then
    match node.astStmt with
    | .declStmt _ [d] =>
      if d.isVarDecl then
        match d.init with
        | .null => g
        | init =>
          match mapFind init.ignoreParenCasts.addr stmt_to_node_map with
          | some src => if src ≠ node.id then g.addEdge src node.id .Data "init" else g
          | none => g
      else g
    | _ => g
  else g

/-- Part 3 of the loop body of `connectDataFlow`: one flow dependence reported
by the CPG. -/
def linkDependency (stmt_to_node_map : List (Nat × Nat)) (node : AODNode) (g : AODGraph)
    (dep : DataDependency) : AODGraph :=
  match mapFind dep.sourceStmt stmt_to_node_map with
  | some source_node =>
    if source_node = node.id then g else g.addEdge source_node node.id .Data dep.varName
  | none => g

/-- The loop body of `connectDataFlow` for one node. -/
def connectNode (cpgCtx : CPGContext) (stmt_to_node_map : List (Nat × Nat)) (g : AODGraph)
    (node : AODNode) : AODGraph :=
  match node.astStmt with
  | .null => g
  | stmt =>
    let g1 := linkInit stmt_to_node_map node g
    if isExpr stmt then
      let g2 :=
        match stmt.ignoreParenCasts with
        | .callExpr _ _ _ args => (withIndex 0 args).foldl (linkOperand stmt_to_node_map node) g1
        | .binaryOperator _ _ _ lhs rhs =>
          linkOperand stmt_to_node_map node (linkOperand stmt_to_node_map node g1 (0, lhs)) (1, rhs)
        | _ => g1
      (getDataDependencies cpgCtx stmt.addr).foldl (linkDependency stmt_to_node_map node) g2
    else g1

/-- `EnhancedCPGToAODConverter::connectDataFlow`. -/
def connectDataFlow (cpgCtx : CPGContext) (stmt_to_node_map : List (Nat × Nat)) (g : AODGraph) :
    AODGraph :=
  g.nodes.foldl (connectNode cpgCtx stmt_to_node_map) g

/-- `ConversionResult`, and the value of `AODNode::next_id` after the call. -/
structure ConversionResult where
  successful : Bool
  error_message : String
  aod_graph : AODGraph
  converted_node_count : Nat
  next_id : Nat

/-- `EnhancedCPGToAODConverter::convertWithOperators`; `cpgCtx` is the CPG of
the analyzer, `next_id` the value of `AODNode::next_id` before the call. No step
of the conversion throws, so the `catch` branch is never taken. -/
def convertWithOperators (cpgCtx : CPGContext) (next_id : Nat) (func : FunctionDecl)
    (_source_arch target_arch : String) : ConversionResult :=
  let st0 : ConvState :=
    { graph := { name := func.name, nodes := [], edges := [] }
      stmt_to_node_map := [], next_id := next_id }
  let enable_autovec := decide (target_arch = "NEON")
  let st1 := buildFullAODGraph st0 func
  let g1 : AODGraph :=
    if enable_autovec then { st1.graph with nodes := st1.graph.nodes.map markVectorize }
    else st1.graph
  let g2 := connectDataFlow cpgCtx st1.stmt_to_node_map g1
  { successful := true, error_message := "", aod_graph := g2
    converted_node_count := g2.nodes.length, next_id := st1.next_id }

end aodsolve

/-! ## Vocabulary of the statements and of their proofs -/

namespace cpg

/-- The keys of a map are pairwise distinct. -/
def keysNodup {κ β : Type} (m : List (κ × β)) : Prop := (m.map Prod.fst).Nodup

/-- Every definer recorded in a map satisfies `G`. -/
def DefMapAll (G : String → Nat → Prop) (m : DefMap) : Prop :=
  ∀ p ∈ m, ∀ D ∈ p.2, G p.1 D

/-- Soundness of the reaching definitions recorded for the statement `S`. -/
def RdOk (cfg : CFG) (defs : Nat → List String) (rd : List (Nat × DefMap)) (S : Nat) : Prop :=
  ∀ m, mapFind S rd = some m →
    DefMapAll (fun v D => v ∈ defs D ∧ DefClearPath cfg defs v D S) m

/-- Soundness of the OUT sets of the blocks. -/
def OutOk (cfg : CFG) (defs : Nat → List String) (blockOut : List (Nat × DefMap)) : Prop :=
  ∀ e ∈ blockOut, keysNodup e.2 ∧
    DefMapAll (fun v D => v ∈ defs D ∧ ReachesAfter cfg defs v D e.1 (cfg.block e.1).elems) e.2

/-- The invariant of the fixed-point loop. -/
def RdInv (cfg : CFG) (dm : List (Nat × List String)) (st : RDState) : Prop :=
  st.info.definitions = dm ∧ OutOk cfg (fun a => mapGetD dm a []) st.blockOut

/-- Two contexts agree on the cached flow graphs and on the analysis results. -/
def SameAnalyses (a b : CPGContext) : Prop :=
  a.cfgCache = b.cfgCache ∧ a.reachingDefsMap = b.reachingDefsMap ∧ a.pdgNodes = b.pdgNodes

/-- Scenario A: `x = 1; y = x + 1;`. -/
def stmtA1 : Stmt :=
  .binaryOperator 1 "=" false (.declRefExpr 11 "x" true) (.other 12 "IntegerLiteral" true [])

def stmtA2 : Stmt :=
  .binaryOperator 2 "=" false (.declRefExpr 21 "y" true)
    (.binaryOperator 22 "+" false (.castExpr 23 true (.declRefExpr 24 "x" true))
      (.other 25 "IntegerLiteral" true []))

/-- The flow graph of scenario A: the exit block, the block of the two
statements, the entry block. -/
def cfgA : CFG :=
  { blocks := [{ elems := [], preds := [some 1], succs := [], terminator := .null },
               { elems := [stmtA1, stmtA2], preds := [some 2], succs := [some 0],
                 terminator := .null },
               { elems := [], preds := [], succs := [some 1], terminator := .null }]
    entry := 2
    exit := 0 }

def funcA : FunctionDecl :=
  { addr := 100, name := "f", body := .compoundStmt 99 [stmtA1, stmtA2], cfg := some cfgA }

/-- The context after `buildCPG` on scenario A. -/
def ctxA : CPGContext := (buildCPG CPGContext.empty (some funcA)).getD CPGContext.empty

/-- `CDReach cfg postDom T start b`: block `b` is reached from block `start`
along successor edges through blocks, `b` included, none of which has `T` in
its computed post-dominator set. -/
inductive CDReach (cfg : CFG) (postDom : PostDomMap) (T start : Nat) : Nat → Prop where
  | start : T ∉ mapGetD postDom start [] → CDReach cfg postDom T start start
  | step (x y : Nat) : CDReach cfg postDom T start x → some y ∈ (cfg.block x).succs →
      T ∉ mapGetD postDom y [] → CDReach cfg postDom T start y

/-- The record `dep`, held by statement `s`, is consistent with the flow graph:
its controlling statement is the `if`/`while` terminator of a block `T`, its
branch value is true exactly for the first successor slot of `T`, and `s` lies
in a block reached from that successor through blocks not post-dominated by `T`. -/
def CDConsistent (cfg : CFG) (postDom : PostDomMap) (s : Nat) (dep : ControlDependency) : Prop :=
  dep.dependentStmt = s ∧
  ∃ T i start bS, isIfOrWhile (cfg.block T).terminator = true ∧
    (cfg.block T).terminator.addr = dep.controlStmt ∧
    (cfg.block T).succs[i]? = some (some start) ∧
    dep.branchValue = decide (i = 0) ∧
    CDReach cfg postDom T start bS ∧ s ∈ (cfg.block bS).elems.map Stmt.addr

/-- The control-dependence records a PDG holds for a statement. -/
def cdDeps (pdg : List (Nat × PDGNode)) (s : Nat) : List ControlDependency :=
  match mapFind s pdg with
  | some n => n.controlDeps
  | none => []

/-- The records `pdg` holds for a statement are those of `pdg0` followed by
consistent ones. -/
def CDInv (cfg : CFG) (postDom : PostDomMap) (pdg0 pdg : List (Nat × PDGNode)) : Prop :=
  ∀ s, ∃ added, cdDeps pdg s = cdDeps pdg0 s ++ added ∧
    ∀ dep ∈ added, CDConsistent cfg postDom s dep

/-- The statements of `if (c) { x = 1; } y = 2;`. -/
def stmtB_cond : Stmt := .castExpr 31 true (.declRefExpr 36 "c" true)

def stmtB_then : Stmt :=
  .binaryOperator 32 "=" false (.declRefExpr 33 "x" true) (.other 34 "IntegerLiteral" true [])

def stmtB_after : Stmt :=
  .binaryOperator 35 "=" false (.declRefExpr 37 "y" true) (.other 38 "IntegerLiteral" true [])

def stmtB_if : Stmt := .ifStmt 30 stmtB_cond (.compoundStmt 39 [stmtB_then]) .null

/-- The flow graph of `if (c) { x = 1; } y = 2;`: exit, `y = 2`, `x = 1`, the
condition with the `if` terminator, entry. -/
def cfgB : CFG :=
  { blocks := [{ elems := [], preds := [some 1], succs := [], terminator := .null },
               { elems := [stmtB_after], preds := [some 2, some 3], succs := [some 0],
                 terminator := .null },
               { elems := [stmtB_then], preds := [some 3], succs := [some 1],
                 terminator := .null },
               { elems := [stmtB_cond], preds := [some 4], succs := [some 2, some 1],
                 terminator := stmtB_if },
               { elems := [], preds := [], succs := [some 3], terminator := .null }]
    entry := 4
    exit := 0 }

/-- A context in which only the flow graph of function 200 is cached. -/
def ctxB : CPGContext := { CPGContext.empty with cfgCache := [(200, cfgB)] }

/-- The successor slots of the graph whose block has not been visited. -/
def unseenSlots (cfg : CFG) (visited : List Nat) : List (Option Nat) :=
  cfg.allSuccs.filter (fun o =>
    match o with
    | some nb => decide (nb ∉ visited)
    | none => false)

/-- The paths the closure `dfs` adds when called on `node` at `depth` with
current path `cur` and visited set `vis`. -/
def pathsFrom (ctx : CPGContext) (sink : Nat) (maxDepth : Int) :
    Nat → Nat → Int → List Nat → List Nat → List (List Nat)
  | 0, _, _, _, _ => []
  | budget + 1, node, depth, cur, vis =>
    if depth > maxDepth then []
    else if node = sink then [cur ++ [node]]
    else
      (getSuccessors ctx node).flatMap (fun succ =>
        if succ ∈ setInsert natLt node vis then []
        else pathsFrom ctx sink maxDepth budget succ (depth + 1) (cur ++ [node])
          (setInsert natLt node vis))

/-- `p` is a simple path of the flow graph from `source` to `sink`. -/
def IsSimplePath (ctx : CPGContext) (source sink : Nat) (p : List Nat) : Prop :=
  p.head? = some source ∧ p.getLast? = some sink ∧
  p.Chain' (fun a b => b ∈ getSuccessors ctx a) ∧ p.Nodup

/-- The kinds of the nodes held for a function, in `icfgNodes[func]` order. -/
def nodeKindsOf (ctx : CPGContext) (func : Nat) : List ICFGNodeKind :=
  (mapGetD ctx.icfgNodes func []).filterMap (fun ptr => (ctx.heap[ptr]?).map ICFGNode.kind)

/-- The kinds of the edges leaving the nodes held for a function. -/
def edgeKindsOf (ctx : CPGContext) (func : Nat) : List ICFGEdgeKind :=
  (mapGetD ctx.icfgNodes func []).flatMap (fun ptr =>
    match ctx.heap[ptr]? with
    | some n => n.successors.map Prod.snd
    | none => [])

/-- The context after a second `buildCPG` on scenario A. -/
def ctxA2 : CPGContext := (buildCPG ctxA (some funcA)).getD CPGContext.empty

end cpg

namespace aodsolve

open cpg

/-- `result` is `text` with its trailing `;`, newline and space characters
removed: `text` is `result` followed by such characters only, and `result` does
not end in one. -/
def IsStripped (text result : String) : Prop :=
  ∃ suffix : List Char, text.data = result.data ++ suffix ∧
    (∀ c ∈ suffix, c = ';' ∨ c = '\n' ∨ c = ' ') ∧
    (∀ c, result.data.getLast? = some c → ¬ (c = ';' ∨ c = '\n' ∨ c = ' '))

/-- The default-constructed `RuleDatabase`. -/
def RuleDatabase.empty : RuleDatabase := { rules := [], category_index := [] }

/-- The process-wide rule database after start-up. -/
def globalRuleDb : RuleDatabase := buildAllRules RuleDatabase.empty

/-- A generator for the SVE target over the start-up rule database. -/
def sveGenerator (printPretty : Stmt → String) : EnhancedCodeGenerator :=
  { printPretty := printPretty, target_architecture := "SVE", rule_db := some globalRuleDb }

/-- The text of a template before its first `{`. -/
def templateHead (t : String) : List Char := t.data.takeWhile (fun c => c != '{')

/-- The pretty printer of the examples: the text of the statement at each address. -/
def examplePretty (s : Stmt) : String :=
  if s.addr = 41 then "'A' - 1"
  else if s.addr = 40 then "_mm256_set1_epi8('A' - 1)"
  else if s.addr = 51 then "(__m256i *)src"
  else if s.addr = 50 then "_mm256_loadu_si256((__m256i *)src)"
  else if s.addr = 61 then "a"
  else if s.addr = 62 then "b"
  else "_mm256_xor_si256(a, b);\n"

/-- The call `_mm256_set1_epi8('A' - 1)`. -/
def callSet1 : Stmt :=
  .callExpr 40 (.castExpr 42 true (.declRefExpr 43 "_mm256_set1_epi8" false))
    (some "_mm256_set1_epi8") [.other 41 "BinaryOperator" true []]

/-- The call `_mm256_loadu_si256((__m256i *)src)`. -/
def callLoadu : Stmt :=
  .callExpr 50 (.castExpr 52 true (.declRefExpr 53 "_mm256_loadu_si256" false))
    (some "_mm256_loadu_si256") [.castExpr 51 false (.declRefExpr 54 "src" true)]

/-- The call `_mm256_xor_si256(a, b)`, an intrinsic for which no rule is registered. -/
def callXor : Stmt :=
  .callExpr 60 (.castExpr 63 true (.declRefExpr 64 "_mm256_xor_si256" false))
    (some "_mm256_xor_si256")
    [.castExpr 61 true (.declRefExpr 65 "a" true), .castExpr 62 true (.declRefExpr 66 "b" true)]

/-- The node the converter builds for `_mm256_set1_epi8('A' - 1)`. -/
def nodeSet1 : AODNode := createSIMDNode 0 callSet1

/-- The node the converter builds for `_mm256_loadu_si256((__m256i *)src)`. -/
def nodeLoadu : AODNode := createSIMDNode 1 callLoadu

/-- The node the converter builds for `_mm256_xor_si256(a, b)`. -/
def nodeXor : AODNode := createSIMDNode 2 callXor

/-- The graph of the three example nodes, without edges. -/
def exampleGraph : AODGraph :=
  { name := "example", nodes := [nodeSet1, nodeLoadu, nodeXor], edges := [] }

/-- The expression `a[i] + b[i]` of type `float`. -/
def loopSum : Stmt :=
  .binaryOperator 83 "+" true
    (.castExpr 84 true (.other 85 "ArraySubscriptExpr" true
      [.castExpr 88 true (.declRefExpr 89 "a" true), .castExpr 90 true (.declRefExpr 91 "i" true)]))
    (.castExpr 86 true (.other 87 "ArraySubscriptExpr" true
      [.castExpr 92 true (.declRefExpr 93 "b" true), .castExpr 94 true (.declRefExpr 95 "i" true)]))

/-- The loop `for (int i = 0; i < n; i++) { float t = a[i] + b[i]; }`. -/
def loopStmt : Stmt :=
  .forStmt 71
    (.declStmt 72 [.mk true "i" "int" false (.other 73 "IntegerLiteral" true [])])
    (.binaryOperator 74 "<" false (.castExpr 75 true (.declRefExpr 76 "i" true))
      (.castExpr 77 true (.declRefExpr 78 "n" true)))
    (.other 79 "UnaryOperator" true [.declRefExpr 80 "i" true])
    (.compoundStmt 81 [.declStmt 82 [.mk true "t" "float" false loopSum]])

/-- The function `void add(float* a, float* b, int n)` with that loop as its body. -/
def funcLoop : FunctionDecl :=
  { addr := 300, name := "add", body := .compoundStmt 70 [loopStmt], cfg := none }

/-- The graph `convertWithOperators` yields for the loop under the
auto-vectorization target. -/
def loopGraph : AODGraph :=
  (convertWithOperators CPGContext.empty 0 funcLoop "AVX2" "NEON").aod_graph

end aodsolve

namespace aodsolve

open cpg

/-! ## `UniversalCodeGenerator` -/

/-- `UniversalCodeGenerator::replacePlaceholders`: every `${key}` is replaced by
its value, in key order. -/
def replacePlaceholders (template_str : String) (bindings : List (String × String)) : String :=
  bindings.foldl (fun result kv => replaceAll ("$\x7b" ++ kv.1 ++ "\x7d") kv.2 result) template_str

/-- `UniversalCodeGenerator::insertHeaders`. -/
def insertHeaders (headers : List String) : String :=
  headers.foldl (fun ss header => ss ++ "#include <" ++ header ++ ">\n") ""

/-- `UniversalCodeGenerator::generateAuxiliaryVars`. -/
def generateAuxiliaryVars (aux_vars : List String) : String :=
  aux_vars.foldl (fun ss var => ss ++ var ++ "\n") ""

/-- `UniversalCodeGenerator::generateFromTemplate`. -/
def generateFromTemplate (tmpl : TransformTemplate) (bindings : List (String × String)) : String :=
  let code := replacePlaceholders tmpl.code_template bindings
  let headers := insertHeaders tmpl.required_headers
  let aux_vars := generateAuxiliaryVars tmpl.auxiliary_vars
  headers ++ "\n" ++ aux_vars ++ "\n" ++ code

/-- `UniversalCodeGenerator::applyRule`. The matched subgraph is an untyped
pointer the function does not read. -/
def applyRule {γ : Type} (rule : OptimizationRule) (_matched_subgraph : γ)
    (target_arch : String) : String :=
  match mapFind target_arch rule.target_templates with
  | none => "// Error: No template for target architecture: " ++ target_arch
  | some tmpl => generateFromTemplate tmpl []

end aodsolve

namespace aodsolve

open cpg

/-! ## Code generation from the graph -/

/-- `needsSemicolon`, on a statement that is not null. -/
def needsSemicolon : Stmt → Bool
  | .compoundStmt _ _ => false
  | .ifStmt _ _ _ _ => false
  | .whileStmt _ _ _ => false
  | .forStmt _ _ _ _ _ => false
  | _ => true

/-- `line.replace(line.find(pat), pat.length(), v)` when `pat` occurs in the
line: the first occurrence is replaced. -/
def replaceFirst (pat v : List Char) : List Char → List Char
  | [] => []
  | c :: rest =>
    if pat.isPrefixOf (c :: rest) then v ++ (c :: rest).drop pat.length
    else c :: replaceFirst pat v rest

/-- The type-inference loop of `generateDefineNode`: the `return_type` hint of
the template, for the target, of the first rule that lists `op`. -/
def inferReturnType (gen : EnhancedCodeGenerator) (op type : String) : String :=
  match gen.rule_db with
  | none => type
  | some db =>
    match matchRule (queriedRules db) op with
    | none => type
    | some r =>
      match mapFind gen.target_architecture r.target_templates with
      | none => type
      | some tmpl =>
        match mapFind "return_type" tmpl.performance_hints with
        | some t => t
        | none => type

/-- The textual heuristics of `generateDefineNode` on the right-hand side. -/
def heuristicType (gen : EnhancedCodeGenerator) (type rhs_code : String) : String :=
  if type = "auto" ∨ hasSubstr "__m256".data type.data = true then
    if gen.target_architecture = "SVE" then
      if hasSubstr "svbool".data rhs_code.data = true ∨
          hasSubstr "svptrue".data rhs_code.data = true ∨
          hasSubstr "svcmp".data rhs_code.data = true then "svbool_t"
      else "svint8_t"
    else if gen.target_architecture = "NEON" then
      if hasSubstr "vaddq".data rhs_code.data = true then "float32x4_t" else type
    else type
  else type

/-- `EnhancedCodeGenerator::generateDefineNode`. The result is `none` when the
run fails: `getSingleDecl` on a declaration group, a null statement where one
is dereferenced, or a failing `tryApplyRules`. -/
def generateDefineNode (gen : EnhancedCodeGenerator) (graph : AODGraph) (depth : Nat)
    (node : AODNode) : Option String :=
  let var_name := node.getProperty "var_name"
  let decl : Option (Option Decl) :=
    match node.astStmt with
    | .declStmt _ [d] => some (if d.isVarDecl then some d else none)
    | .declStmt _ _ => none
    | _ => some none
  match decl with
  | none => none
  | some var =>
    let type0 := match var with
      | some d => d.type
      | none => "auto"
    let is_const := match var with
      | some d => d.isConst
      | none => false
    -- the source of the first incoming edge named `init`, null when there is none
    let init_src : Option AODNode :=
      ((graph.getIncomingEdges node.id).find? (fun e => decide (e.variable_name = "init"))).bind
        (fun edge => graph.getNode edge.source)
    let rhs_type : Option (String × String) :=
      match init_src with
      | some init_src =>
        match tryApplyRules gen graph depth init_src with
        | none => none
        | some rhs_code =>
          some (rhs_code,
            heuristicType gen (inferReturnType gen (init_src.getProperty "op_name") type0)
              rhs_code)
      | none =>
        match node.astStmt with
        | .null => none
        | _ =>
          match var with
          | some d =>
            match d.init with
            | .null => some ("", type0)
            | init => some (generateFallbackCode gen init, type0)
          | none => some ("", type0)
    match rhs_type with
    | none => none
    | some (rhs_code, type) =>
      if rhs_code = "" then some ""
      else
        let type1 :=
          if is_const = true ∧ hasSubstr "const".data type.data = false then "const " ++ type
          else type
        some (type1 ++ " " ++ var_name ++ " = " ++ rhs_code)

/-- The header of a control node in `generateCodeFromGraph`. -/
def controlHeader (gen : EnhancedCodeGenerator) (node : AODNode) : Option String :=
  match node.astStmt with
  | .null => none
  | .whileStmt _ cond _ => some ("while (" ++ generateFallbackCode gen cond ++ ") \x7b")
  | .forStmt _ init cond inc _ =>
    let i := generateFallbackCode gen init
    let c := generateFallbackCode gen cond
    let n := generateFallbackCode gen inc
    if gen.target_architecture = "NEON" ∧ node.getProperty "vectorize" = "true" then
      some (String.mk (replaceFirst "++".data " += 4".data
        ("// Vector Loop (NEON)\n    for (" ++ i ++ " " ++ c ++ "; " ++ n ++ ") \x7b").data))
    else some ("for (" ++ i ++ " " ++ c ++ "; " ++ n ++ ") \x7b")
  | .ifStmt _ cond _ _ => some ("if (" ++ generateFallbackCode gen cond ++ ") \x7b")
  | _ => some ""

/-- The value of `line` for a statement node in `generateCodeFromGraph`. -/
def nodeLine (gen : EnhancedCodeGenerator) (graph : AODGraph) (depth : Nat) (node : AODNode) :
    Option String :=
  if node.getProperty "op_name" = "define" then generateDefineNode gen graph depth node
  else if node.type = .Control then controlHeader gen node
  else
    match tryApplyRules gen graph depth node with
    | none => none
    | some rule_code =>
      if rule_code ≠ "" ∧ hasSubstr "Unknown".data rule_code.data = false then some rule_code
      else some (generateFallbackCode gen node.astStmt)

/-- The text one iteration of the loop of `generateCodeFromGraph` writes for a
node; `none` when the iteration fails. -/
def nodeText (gen : EnhancedCodeGenerator) (graph : AODGraph) (depth : Nat) (node : AODNode) :
    Option String :=
  if node.type = .BlockEnd then some "    \x7d\n"
  else if node.isStatement = false then some ""
  else
    match nodeLine gen graph depth node with
    | none => none
    | some line =>
      if line = "" then some ""
      else
        match node.astStmt with
        | .null => none
        | stmt =>
          let back := line.data.getLast?
          let semi :=
            if needsSemicolon stmt = true ∧ back ≠ some ';' ∧ back ≠ some '\x7b' ∧
                back ≠ some '\x7d' then ";" else ""
          some ("    " ++ line ++ semi ++ "\n")

/-- `EnhancedCodeGenerator::generateCodeFromGraph`: the generated code, or
`none` when the run fails. The argument `depth` bounds the recursion of
`tryApplyRules`. -/
def generateCodeFromGraph (gen : EnhancedCodeGenerator) (graph : AODGraph) (depth : Nat) :
    Option String :=
  graph.nodes.foldl (fun code node =>
    match code, nodeText gen graph depth node with
    | some c, some t => some (c ++ t)
    | _, _ => none) (some "")

end aodsolve

namespace cpg

/-! ## Reachability queries -/

/-- `CPGContext::getUses`: the statements whose PDG node holds a data
dependence on `defStmt` through `varName`. -/
def getUses (ctx : CPGContext) (defStmt : Nat) (varName : String) : List Nat :=
  ctx.pdgNodes.foldl (fun uses sn =>
    sn.2.dataDeps.foldl (fun u dep =>
      if dep.sourceStmt = defStmt ∧ dep.varName = varName then setInsert natLt sn.1 u else u)
      uses) []

/-- The innermost step of the two breadth-first searches: a candidate that is
not in `visited` is pushed on the worklist and inserted in `visited`. The state
is the pair of the worklist and the visited set. -/
def bfsPush (st : List Nat × List Nat) (next : Nat) : List Nat × List Nat :=
  if next ∈ st.2 then st else (st.1 ++ [next], setInsert natLt next st.2)

/-- The loop `while (!worklist.empty())` of `hasDataFlowPath` and of
`hasControlFlowPath`: the front of the worklist is popped, the search returns
`true` when it is the sink, and the candidates `nexts current` are pushed
otherwise; an empty worklist returns `false`. The first argument bounds the
number of iterations. -/
def bfsLoop (nexts : Nat → List Nat) (sink : Nat) : Nat → List Nat → List Nat → Bool
  | 0, _, _ => false
  | _ + 1, [], _ => false
  | fuel + 1, current :: rest, visited =>
    if current = sink then true
    else
      let wv := (nexts current).foldl bfsPush (rest, visited)
      bfsLoop nexts sink fuel wv.1 wv.2

/-- The candidates `hasDataFlowPath` looks at for the statement `current`: for
each variable it defines (the one named `varName` only, unless `varName` is
empty), the uses of that definition. `stmtAt` reads the statement a pointer
points to. -/
def dataFlowNexts (stmtAt : Nat → Stmt) (ctx : CPGContext) (varName : String) (current : Nat) :
    List Nat :=
  (getDefinedVars (stmtAt current)).flatMap (fun var =>
    if varName ≠ "" ∧ var ≠ varName then [] else getUses ctx current var)

/-- `CPGContext::hasDataFlowPath`. Every statement that enters the worklist
after the source is a key of `pdgNodes`, which bounds the number of iterations. -/
def hasDataFlowPath (stmtAt : Nat → Stmt) (ctx : CPGContext) (source sink : Nat)
    (varName : String) : Bool :=
  bfsLoop (dataFlowNexts stmtAt ctx varName) sink (ctx.pdgNodes.length + 1) [source]
    (setInsert natLt source [])

/-- All successor pointers stored in the nodes of the flow graph. -/
def allSuccessors (ctx : CPGContext) : List Nat :=
  ctx.heap.flatMap (fun n => n.successors.map Prod.fst)

/-- `CPGContext::hasControlFlowPath`. Every node that enters the worklist after
the source node is a successor pointer of some node, which bounds the number of
iterations. -/
def hasControlFlowPath (ctx : CPGContext) (source sink : Nat) : Bool :=
  match getICFGNode ctx source, getICFGNode ctx sink with
  | some sourceNode, some sinkNode =>
    bfsLoop (getSuccessors ctx) sinkNode ((allSuccessors ctx).length + 1) [sourceNode]
      (setInsert natLt sourceNode [])
  | _, _ => false

end cpg

namespace lowercase

open cpg

/-! ## The lower-casing routines of `main.cpp` -/

/-- Byte-addressed memory: the byte stored at each address. -/
abbrev Memory := Nat → Nat

/-- Reading `*p` through a `uint8_t*`. -/
def loadByte (m : Memory) (p : Nat) : Nat := m p % 256

/-- Writing `*p = v` through a `uint8_t*`: the value is truncated to 8 bits. -/
def storeByte (m : Memory) (p v : Nat) : Memory := fun a => if a = p then v % 256 else m a

/-- The value of a byte lane as a signed 8-bit integer. -/
def toInt8 (b : Nat) : Int := if b % 256 < 128 then (b % 256 : Nat) else ((b % 256 : Nat) : Int) - 256

/-- `_mm256_set1_epi8`: a 256-bit vector is the list of its 32 byte lanes. -/
def _mm256_set1_epi8 (a : Int) : List Nat := List.replicate 32 (a % 256).toNat

/-- `_mm256_loadu_si256`. -/
def _mm256_loadu_si256 (m : Memory) (p : Nat) : List Nat :=
  (List.range 32).map (fun i => loadByte m (p + i))

/-- `_mm256_storeu_si256`. -/
def _mm256_storeu_si256 (m : Memory) (p : Nat) (v : List Nat) : Memory :=
  (withIndex 0 v).foldl (fun mem iv => storeByte mem (p + iv.1) iv.2) m

/-- `_mm256_cmpgt_epi8`: lane-wise signed comparison, all ones where it holds. -/
def _mm256_cmpgt_epi8 (a b : List Nat) : List Nat :=
  List.zipWith (fun x y => if toInt8 x > toInt8 y then 255 else 0) a b

/-- `_mm256_and_si256`. -/
def _mm256_and_si256 (a b : List Nat) : List Nat :=
  List.zipWith (fun x y => x &&& y) a b

/-- `_mm256_add_epi8`: lane-wise addition modulo 256. -/
def _mm256_add_epi8 (a b : List Nat) : List Nat :=
  List.zipWith (fun x y => (x + y) % 256) a b

/-- The variables the loops of the routines work on. -/
structure LowerState where
  mem : Memory
  src : Nat
  q : Nat
  len : Nat

/-- The loop `while (len >= 32)` of `lower_case_avx2`; the first argument
bounds the number of iterations. -/
def avx2Loop : Nat → LowerState → LowerState
  | 0, st => st
  | fuel + 1, st =>
    if st.len ≥ 32 then
      let _A := _mm256_set1_epi8 (65 - 1)
      let Z_ := _mm256_set1_epi8 (90 + 1)
      let delta := _mm256_set1_epi8 (97 - 65)
      let op := _mm256_loadu_si256 st.mem st.src
      let gt := _mm256_cmpgt_epi8 op _A
      let lt := _mm256_cmpgt_epi8 Z_ op
      let mingle := _mm256_and_si256 gt lt
      let add := _mm256_and_si256 mingle delta
      let lower := _mm256_add_epi8 op add
      avx2Loop fuel
        { mem := _mm256_storeu_si256 st.mem st.q lower, src := st.src + 32, q := st.q + 32
          len := st.len - 32 }
    else st

/-- The scalar statement of both routines on one byte: `*q = *src + ('a' - 'A')`
for a byte in `'A'..'Z'`, `*q = *src` otherwise. -/
def lowerStep (m : Memory) (q src : Nat) : Memory :=
  if loadByte m src ≥ 65 ∧ loadByte m src ≤ 90 then storeByte m q (loadByte m src + (97 - 65))
  else storeByte m q (loadByte m src)

/-- The loop `while (len > 0)` of `lower_case_avx2`. -/
def tailLoop : Nat → LowerState → LowerState
  | 0, st => st
  | fuel + 1, st =>
    if st.len > 0 then
      tailLoop fuel
        { mem := lowerStep st.mem st.q st.src, src := st.src + 1, q := st.q + 1
          len := st.len - 1 }
    else st

/-- `lower_case_avx2(dst, src, len)`: the memory after the call. Each loop
runs at most `len` times. -/
def lower_case_avx2 (m : Memory) (dst src len : Nat) : Memory :=
  (tailLoop len (avx2Loop len { mem := m, src := src, q := dst, len := len })).mem

/-- The loop `for (size_t i = 0; i < len; i++)` of `lower_case_scalar`, from
index `i`; the first argument bounds the number of iterations. -/
def scalarLoop (dst src len : Nat) : Nat → Nat → Memory → Memory
  | 0, _, m => m
  | fuel + 1, i, m =>
    if i < len then scalarLoop dst src len fuel (i + 1) (lowerStep m (dst + i) (src + i))
    else m

/-- `lower_case_scalar(dst, src, len)`: the memory after the call. -/
def lower_case_scalar (m : Memory) (dst src len : Nat) : Memory :=
  scalarLoop dst src len len 0 m

/-- The lower-casing of one byte in the words of the specification: a byte in
`'A'..'Z'` is increased by `'a' - 'A'`, every other byte is unchanged. -/
def lowerByteSpec (b : Nat) : Nat := if 65 ≤ b ∧ b ≤ 90 then b + 32 else b

/-- The memory the specification asks for: `dst[0..len)` holds the lower-cased
bytes of `src[0..len)`, every other byte is the one of `m`. -/
def loweredMemory (m : Memory) (dst src len : Nat) : Memory :=
  fun a => if dst ≤ a ∧ a < dst + len then lowerByteSpec (m (src + (a - dst)) % 256) else m a

end lowercase

namespace cpg

/-! ## The translation unit and the call graph -/

mutual
/-- The call expressions the visitor `CallGraphBuilder` meets in a statement,
in visiting order. -/
def collectCalls : Stmt → List Stmt
  | .null => []
  | .compoundStmt _ body => collectCallsList body
  | .ifStmt _ c t e => collectCalls c ++ collectCalls t ++ collectCalls e
  | .whileStmt _ c b => collectCalls c ++ collectCalls b
  | .forStmt _ i c n b => collectCalls i ++ collectCalls c ++ collectCalls n ++ collectCalls b
  | .declStmt _ ds => collectCallsDecls ds
  | .binaryOperator _ _ _ l r => collectCalls l ++ collectCalls r
  | .callExpr a f callee args =>
    .callExpr a f callee args :: (collectCalls f ++ collectCallsList args)
  | .declRefExpr _ _ _ => []
  | .parenExpr _ sub => collectCalls sub
  | .castExpr _ _ sub => collectCalls sub
  | .other _ _ _ cs => collectCallsList cs
def collectCallsList : List Stmt → List Stmt
  | [] => []
  | s :: rest => collectCalls s ++ collectCallsList rest
def collectCallsDecls : List Decl → List Stmt
  | [] => []
  | .mk _ _ _ _ i :: rest => collectCalls i ++ collectCallsDecls rest
end

/-- A declaration at the top level of the translation unit: a function
declaration, with `isThisDeclarationADefinition()`, or a variable. The body and
the flow graph of a `FunctionDecl` are those of its definition, whichever
declaration of the function it is (`hasBody`, `getBody`). -/
inductive TopLevelDecl where
  | function (func : FunctionDecl) (isThisDeclarationADefinition : Bool)
  | globalVar (d : Decl)

/-- The translation unit: its top-level declarations, and the callee
`getDirectCallee()` of every call expression that has one, by the address of
the call. -/
structure TranslationUnit where
  decls : List TopLevelDecl
  directCallee : List (Nat × FunctionDecl)

/-- The call expressions of the translation unit, in the order in which
`TraverseDecl` visits them. -/
def TranslationUnit.callExprs (tu : TranslationUnit) : List Stmt :=
  tu.decls.flatMap (fun d =>
    match d with
    | .function func true => collectCalls func.body
    | .function _ false => []
    | .globalVar v => collectCalls v.init)

/-- Insertion of a call expression into a `std::set<const CallExpr*>`, which is
ordered by address. -/
def ptrSetInsert (s : Stmt) : List Stmt → List Stmt
  | [] => [s]
  | t :: rest =>
    if s.addr = t.addr then t :: rest
    else if s.addr < t.addr then s :: t :: rest
    else t :: ptrSetInsert s rest

/-- The loop of `VisitCallExpr` over `icfgNodes`, one function: the call is
recorded for the function when one of its nodes has it as `callExpr`. -/
def recordCallSite (call : Stmt) (ctx : CPGContext) (fn : Nat × List Nat) : CPGContext :=
  let found := fn.2.any (fun ptr =>
    match ctx.heap[ptr]? with
    | some n => decide (n.callExpr = some call.addr)
    | none => false)
  let sites := mapSet natLt fn.1 (ptrSetInsert call (mapGetD ctx.callSites fn.1 [])) ctx.callSites
  if found then { ctx with callSites := sites } else ctx

/-- `CallGraphBuilder::VisitCallExpr`. -/
def visitCallExpr (tu : TranslationUnit) (ctx : CPGContext) (call : Stmt) : CPGContext :=
  match mapFind call.addr tu.directCallee with
  | none => ctx
  | some callee =>
    let ctx1 := { ctx with callTargets := mapSet natLt call.addr (some callee) ctx.callTargets }
    ctx1.icfgNodes.foldl (recordCallSite call) ctx1

/-- `CPGContext::buildCallGraph`. -/
def buildCallGraph (ctx : CPGContext) (tu : TranslationUnit) : CPGContext :=
  tu.callExprs.foldl (visitCallExpr tu) ctx

/-- `CPGContext::getFunctionEntry`. -/
def getFunctionEntry (ctx : CPGContext) (func : Nat) : Option Nat :=
  mapFind func ctx.funcEntries

/-- `CPGContext::getFunctionExit`. -/
def getFunctionExit (ctx : CPGContext) (func : Nat) : Option Nat :=
  mapFind func ctx.funcExits

/-- `CallExpr::getNumArgs`. -/
def getNumArgs : Stmt → Nat
  | .callExpr _ _ _ args => args.length
  | _ => 0

/-- The body of the argument loop of `linkCallSites` for the argument `i`. -/
def linkArgument (caller callee callNode callExpr : Nat) (ctx : CPGContext) (i : Nat) :
    CPGContext :=
  let (ctx1, actualIn) := createICFGNode ctx .ActualIn caller
  let ctx2 := modifyNode ctx1 actualIn (fun n =>
    { n with paramIndex := (i : Int), callExpr := some callExpr })
  let (ctx3, formalIn) := createICFGNode ctx2 .FormalIn callee
  let ctx4 := modifyNode ctx3 formalIn (fun n => { n with paramIndex := (i : Int) })
  addICFGEdge (addICFGEdge ctx4 callNode actualIn .ParamIn) actualIn formalIn .ParamIn

/-- The body of the loops of `linkCallSites` for one recorded call of `caller`.
A null entry that `stmtToICFGNode[callExpr]` would create is not stored: every
reader of the map treats it as an absent key. -/
def linkCall (caller : Nat) (ctx : CPGContext) (callExpr : Stmt) : CPGContext :=
  match mapFind callExpr.addr ctx.stmtToICFGNode with
  | none => ctx
  | some callNode =>
    -- `callTargets[callExpr]` default-constructs a null entry when absent
    let target := mapGetD ctx.callTargets callExpr.addr none
    let ctx0 := { ctx with callTargets := mapSet natLt callExpr.addr target ctx.callTargets }
    match target with
    | none => ctx0
    | some callee =>
      if callee.hasBody = false then ctx0
      else
        let (ctx1, returnNode) := createICFGNode ctx0 .ReturnSite caller
        let ctx2 := modifyNode ctx1 returnNode (fun n =>
          { n with callExpr := some callExpr.addr, callee := some callee.addr })
        let ctx3 :=
          match getFunctionEntry ctx2 callee.addr with
          | some calleeEntry => addICFGEdge ctx2 callNode calleeEntry .Call
          | none => ctx2
        let ctx4 :=
          match getFunctionExit ctx3 callee.addr with
          | some calleeExit => addICFGEdge ctx3 calleeExit returnNode .Return
          | none => ctx3
        (List.range (getNumArgs callExpr)).foldl
          (linkArgument caller callee.addr callNode callExpr.addr) ctx4

/-- `CPGContext::linkCallSites`. -/
def linkCallSites (ctx : CPGContext) : CPGContext :=
  ctx.callSites.foldl (fun c cs => cs.2.foldl (linkCall cs.1) c) ctx

/-- The first loop of `buildICFGForTranslationUnit`, one declaration; `none` is
a run that has failed. -/
def buildFunctionICFG (ctx : Option CPGContext) (d : TopLevelDecl) : Option CPGContext :=
  match ctx, d with
  | none, _ => none
  | some c, .function func isDefinition =>
    if func.hasBody && isDefinition then buildICFG c func else some c
  | some c, .globalVar _ => some c

/-- `CPGContext::buildICFGForTranslationUnit`. -/
def buildICFGForTranslationUnit (ctx : CPGContext) (tu : TranslationUnit) : Option CPGContext :=
  (tu.decls.foldl buildFunctionICFG (some ctx)).map (fun c => linkCallSites (buildCallGraph c tu))

end cpg

namespace aodsolve

open cpg

/-- The expression `a + b` of type `float`. -/
def sumExpr : Stmt :=
  .binaryOperator 183 "+" true (.castExpr 184 true (.declRefExpr 185 "a" true))
    (.castExpr 186 true (.declRefExpr 187 "b" true))

/-- The pretty printer of the example `a + b`. -/
def sumPretty (s : Stmt) : String :=
  if s.addr = 184 then "a" else if s.addr = 186 then "b" else "a + b"

/-- The node the converter builds for `a + b`, alone in its graph. -/
def sumGraph : AODGraph :=
  (visitExpression { graph := { name := "sum", nodes := [], edges := [] },
                     stmt_to_node_map := [], next_id := 0 } sumExpr).graph

/-- The rule `scalar_add_float` of the catalog, which has a NEON template only. -/
def scalarAddRule : OptimizationRule :=
  simdRule "scalar_add_float" "+" "NEON" "vaddq_f32({{input_0}}, {{input_1}})" "float32x4_t"

end aodsolve

namespace aodsolve

open cpg

/-- A rule registered under the id `r` in the category `simd_instruction`. -/
def ruleR1 : OptimizationRule := simdRule "r" "+" "NEON" "first" "float32x4_t"

/-- A rule registered later under the same id `r`, in another category. -/
def ruleR2 : OptimizationRule :=
  { simdRule "r" "-" "NEON" "second" "float32x4_t" with category := "scalar_vectorization" }

/-- The database invariant behind `queryRules`: every registered rule is stored
under its id, and the index of a category lists the ids of the rules registered
in it, in registration order. -/
def Registered (rs : List OptimizationRule) (db : RuleDatabase) : Prop :=
  (∀ r ∈ rs, mapFind r.rule_id db.rules = some r) ∧
  ∀ c, mapGetD db.category_index c [] =
    (rs.filter (fun r => decide (r.category = c))).map OptimizationRule.rule_id

end aodsolve

namespace cpg

/-- A declaration `void g(void);` without a body. -/
def funcNoBody : FunctionDecl := { addr := 400, name := "g", body := .null, cfg := none }

end cpg

namespace cpg

/-- One step of a data-flow chain restricted to `varName` (unrestricted when it
is empty): `b` holds a data-dependence record whose source statement is `a` and
whose variable is one that `a` defines. -/
def DataFlowStep (stmtAt : Nat → Stmt) (ctx : CPGContext) (varName : String) (a b : Nat) : Prop :=
  ∃ var ∈ getDefinedVars (stmtAt a), (varName = "" ∨ var = varName) ∧
    ∃ node dep, (b, node) ∈ ctx.pdgNodes ∧ dep ∈ node.dataDeps ∧
      dep.sourceStmt = a ∧ dep.varName = var

/-- The statement at each address of scenario A. -/
def stmtAtA (a : Nat) : Stmt := if a = 1 then stmtA1 else if a = 2 then stmtA2 else .null

end cpg

namespace aodsolve

open cpg

/-- The statement `int x;`. -/
def declX : Stmt := .declStmt 201 [.mk true "x" "int" false .null]

/-- The function `void f(void) { int x; }`. -/
def funcDeclX : FunctionDecl :=
  { addr := 500, name := "f", body := .compoundStmt 200 [declX], cfg := none }

/-- The graph `convertWithOperators` yields for it. -/
def declGraph : AODGraph :=
  (convertWithOperators CPGContext.empty 0 funcDeclX "AVX2" "SVE").aod_graph

/-- The pretty printer of the example: `int x;`. -/
def declPretty (_ : Stmt) : String := "int x;\n"

/-- The statement of a control node with a header: `while`, `for` or `if`. -/
def hasHeader : Stmt → Bool
  | .whileStmt _ _ _ => true
  | .forStmt _ _ _ _ _ => true
  | .ifStmt _ _ _ _ => true
  | _ => false

end aodsolve

namespace aodsolve

open cpg

/-- The statement `_mm256_add_epi8(_mm256_xor_si256(a, b), c);`. -/
def callAddXor : Stmt :=
  .callExpr 160 (.castExpr 162 true (.declRefExpr 163 "_mm256_add_epi8" false))
    (some "_mm256_add_epi8") [callXor, .castExpr 161 true (.declRefExpr 164 "c" true)]

/-- A function with that statement as its body. -/
def funcAddXor : FunctionDecl :=
  { addr := 600, name := "h", body := .compoundStmt 159 [callAddXor], cfg := none }

/-- The graph `convertWithOperators` yields for it: the node of the addition,
the node of its first operand, the closing brace, and the edge `arg_0`. -/
def addXorGraph : AODGraph :=
  (convertWithOperators CPGContext.empty 0 funcAddXor "AVX2" "SVE").aod_graph

/-- The pretty printer of the example. -/
def addXorPretty (s : Stmt) : String :=
  if s.addr = 160 then "_mm256_add_epi8(_mm256_xor_si256(a, b), c);\n"
  else if s.addr = 161 then "c"
  else examplePretty s

/-- A rule registered after the catalog that lists two operations: the
addition, which the catalog rule `avx2_add_epi8` lists already, and the
exclusive or, which no catalog rule lists. -/
def laterRule : OptimizationRule :=
  { simdRule "avx2_add_or_xor" "_mm256_add_epi8" "SVE" "sveor_s8_z(pg, {{input_0}}, {{input_1}})"
      "svint8_t" with
    source_pattern :=
      { pattern_id := "", description := "", required_node_types := []
        required_operations := ["_mm256_add_epi8", "_mm256_xor_si256"], constraints := []
        priority := 0 } }

/-- A rule registered after the catalog that lists the addition only. -/
def shadowedRule : OptimizationRule :=
  simdRule "avx2_add_epi8_x" "_mm256_add_epi8" "SVE" "svadd_s8_x(pg, {{input_0}}, {{input_1}})"
    "svint8_t"

/-- The generator `gen` over the rule database `db`. -/
def withRules (gen : EnhancedCodeGenerator) (db : RuleDatabase) : EnhancedCodeGenerator :=
  { gen with rule_db := some db }

end aodsolve

namespace lowercase

open cpg

/-- The computation of `lower_case_avx2` on one byte lane. -/
def laneLower (b : Nat) : Nat :=
  (b + (((if toInt8 b > toInt8 64 then 255 else 0) &&& (if toInt8 91 > toInt8 b then 255 else 0))
    &&& 32)) % 256

/-- A memory holding the 33 bytes `60, 61, ..., 92` (the characters from `<` to
the backslash, the capital letters among them) from address 0 on. -/
def memRamp : Memory := fun a => if a < 33 then 60 + a else 0

end lowercase

namespace cpg

/-- One pass of the loop of `computePostDominators` over the blocks in reverse
order: the new map and the flag `changed`. -/
def postDomPass (cfg : CFG) (pd : PostDomMap) : PostDomMap × Bool :=
  (withIndex 0 cfg.blocks).reverse.foldl (postDomBlock cfg) (pd, false)

/-- `IsPathToExit cfg a p`: `p` is the sequence of blocks of a path of the flow
graph from block `a` to the exit block, along successor edges. -/
inductive IsPathToExit (cfg : CFG) : Nat → List Nat → Prop where
  | exit : IsPathToExit cfg cfg.exit [cfg.exit]
  | step (a s : Nat) (p : List Nat) :
      some s ∈ (cfg.block a).succs → IsPathToExit cfg s p → IsPathToExit cfg a (a :: p)

/-- Every successor of a block is a block of the graph. -/
def CFG.succsInRange (cfg : CFG) : Bool :=
  cfg.blocks.all (fun b =>
    b.succs.all (fun o =>
      match o with
      | some s => decide (s < cfg.blocks.length)
      | none => true))

/-- Every block other than the exit block has a successor. -/
def CFG.noDeadEnd (cfg : CFG) : Bool :=
  (withIndex 0 cfg.blocks).all (fun ib =>
    decide (ib.1 = cfg.exit) || ib.2.succs.any Option.isSome)

/-- The flow graph of `if (c) { <no way out> } y = 2;`: exit, a block without
successors, `y = 2`, the condition with the `if` terminator, entry. -/
def cfgDead : CFG :=
  { blocks := [{ elems := [], preds := [some 2], succs := [], terminator := .null },
               { elems := [], preds := [some 3], succs := [], terminator := .null },
               { elems := [stmtB_after], preds := [some 3], succs := [some 0],
                 terminator := .null },
               { elems := [stmtB_cond], preds := [some 4], succs := [some 1, some 2],
                 terminator := stmtB_if },
               { elems := [], preds := [], succs := [some 3], terminator := .null }]
    entry := 4
    exit := 0 }

/-- A context in which only the flow graph `cfgDead` of function 700 is cached. -/
def ctxDead : CPGContext := { CPGContext.empty with cfgCache := [(700, cfgDead)] }

end cpg

namespace cpg

/-- Block `X` is reached from block `A` along successor edges. -/
def Reaches (cfg : CFG) (A X : Nat) : Prop :=
  Relation.ReflTransGen (fun a b => some b ∈ (cfg.block a).succs) A X

/-- No dead end is reached from block `A`: every block reached from `A` is a
block of the graph and, unless it is the exit block, has a successor. -/
def NoDeadEndFrom (cfg : CFG) (A : Nat) : Prop :=
  ∀ X, Reaches cfg A X →
    X < cfg.blocks.length ∧ (X ≠ cfg.exit → ∃ s, some s ∈ (cfg.block X).succs)

/-- The invariant of the iteration of `computePostDominators`, for the blocks
reached from `A`: the set of the exit block is the exit block alone, and the set
of a block holds every block through which all the paths from it to the exit
block pass. -/
def PdInv (cfg : CFG) (A : Nat) (pd : PostDomMap) : Prop :=
  mapGetD pd cfg.exit [] = [cfg.exit] ∧
  ∀ X B, Reaches cfg A X → X < cfg.blocks.length → B < cfg.blocks.length →
    (∀ p, IsPathToExit cfg X p → B ∈ p) → B ∈ mapGetD pd X []

end cpg

namespace cpg

/-- Scenario D: the call `g();` to a function declared without a body, and the
call `k(x);` to a function defined in the unit. -/
def callG : Stmt :=
  .callExpr 801 (.castExpr 802 true (.declRefExpr 803 "g" false)) (some "g") []

def callK : Stmt :=
  .callExpr 811 (.castExpr 812 true (.declRefExpr 813 "k" false)) (some "k")
    [.castExpr 814 true (.declRefExpr 815 "x" true)]

/-- The statement `x = 1;` of the body of `k`. -/
def stmtK : Stmt :=
  .binaryOperator 821 "=" false (.declRefExpr 822 "x" true) (.other 823 "IntegerLiteral" true [])

/-- The declaration `void g(void);`. -/
def funcG : FunctionDecl := { addr := 830, name := "g", body := .null, cfg := none }

/-- The definition `void k(int x) { x = 1; }`. -/
def funcK : FunctionDecl :=
  { addr := 840, name := "k", body := .compoundStmt 841 [stmtK]
    cfg := some
      { blocks := [{ elems := [], preds := [some 1], succs := [], terminator := .null },
                   { elems := [stmtK], preds := [some 2], succs := [some 0], terminator := .null },
                   { elems := [], preds := [], succs := [some 1], terminator := .null }]
        entry := 2, exit := 0 } }

/-- The flow graph of the caller: exit, the block of the two calls, entry. The
sub-expressions of a call precede it in its block. -/
def cfgCaller : CFG :=
  { blocks := [{ elems := [], preds := [some 1], succs := [], terminator := .null },
               { elems := [.castExpr 802 true (.declRefExpr 803 "g" false), callG,
                           .castExpr 812 true (.declRefExpr 813 "k" false),
                           .castExpr 814 true (.declRefExpr 815 "x" true), callK]
                 preds := [some 2], succs := [some 0], terminator := .null },
               { elems := [], preds := [], succs := [some 1], terminator := .null }]
    entry := 2, exit := 0 }

/-- The definition `void f(int x) { g(); k(x); }`. -/
def funcCaller : FunctionDecl :=
  { addr := 850, name := "f", body := .compoundStmt 851 [callG, callK], cfg := some cfgCaller }

/-- The translation unit of scenario D. -/
def tuD : TranslationUnit :=
  { decls := [.function funcG false, .function funcK true, .function funcCaller true]
    directCallee := [(801, funcG), (811, funcK)] }

end cpg

namespace cpg

end cpg

namespace cpg

end cpg

namespace cpg

/-- The context after `buildICFGForTranslationUnit` on scenario D. -/
def ctxD : CPGContext := (buildICFGForTranslationUnit CPGContext.empty tuD).getD CPGContext.empty

end cpg

namespace cpg

/-- The statements of `if (c) { } else { x = 1; } y = 2;`. -/
def stmtE_cond : Stmt := .castExpr 901 true (.declRefExpr 902 "c" true)

def stmtE_else : Stmt :=
  .binaryOperator 903 "=" false (.declRefExpr 904 "x" true) (.other 905 "IntegerLiteral" true [])

def stmtE_after : Stmt :=
  .binaryOperator 906 "=" false (.declRefExpr 907 "y" true) (.other 908 "IntegerLiteral" true [])

def stmtE_if : Stmt :=
  .ifStmt 900 stmtE_cond (.compoundStmt 909 []) (.compoundStmt 910 [stmtE_else])

/-- The flow graph Clang builds for it: exit, `y = 2`, the block of the `else`
branch, the empty block it creates for the empty `then` branch, the condition
with the `if` terminator (first successor: the `then` branch), entry. -/
def cfgE : CFG :=
  { blocks := [{ elems := [], preds := [some 1], succs := [], terminator := .null },
               { elems := [stmtE_after], preds := [some 3, some 2], succs := [some 0],
                 terminator := .null },
               { elems := [stmtE_else], preds := [some 4], succs := [some 1],
                 terminator := .null },
               { elems := [], preds := [some 4], succs := [some 1], terminator := .null },
               { elems := [stmtE_cond], preds := [some 5], succs := [some 3, some 2],
                 terminator := stmtE_if },
               { elems := [], preds := [], succs := [some 4], terminator := .null }]
    entry := 5
    exit := 0 }

def funcE : FunctionDecl :=
  { addr := 950, name := "f", body := .compoundStmt 911 [stmtE_if, stmtE_after], cfg := some cfgE }

/-- The context after `buildCPG` on it. -/
def ctxE : CPGContext := (buildCPG CPGContext.empty (some funcE)).getD CPGContext.empty

end cpg

namespace cpg

/-- The statements of `while (c) { x = 1; }`. -/
def stmtW_cond : Stmt := .castExpr 1101 true (.declRefExpr 1102 "c" true)

def stmtW_body : Stmt :=
  .binaryOperator 1103 "=" false (.declRefExpr 1104 "x" true) (.other 1105 "IntegerLiteral" true [])

def stmtW_while : Stmt := .whileStmt 1100 stmtW_cond (.compoundStmt 1106 [stmtW_body])

/-- The flow graph Clang builds for it: exit, the empty block of the back edge,
the body, the condition with the `while` terminator, entry. -/
def cfgW : CFG :=
  { blocks := [{ elems := [], preds := [some 3], succs := [], terminator := .null },
               { elems := [], preds := [some 2], succs := [some 3], terminator := .null },
               { elems := [stmtW_body], preds := [some 3], succs := [some 1],
                 terminator := .null },
               { elems := [stmtW_cond], preds := [some 4, some 1], succs := [some 2, some 0],
                 terminator := stmtW_while },
               { elems := [], preds := [], succs := [some 3], terminator := .null }]
    entry := 4
    exit := 0 }

def funcW : FunctionDecl :=
  { addr := 1150, name := "f", body := .compoundStmt 1107 [stmtW_while], cfg := some cfgW }

/-- The context after `buildICFG` on it. -/
def ctxW : CPGContext := (buildICFG CPGContext.empty funcW).getD CPGContext.empty

end cpg

namespace aodsolve

open cpg

/-- The statements of `int x = 1; int y = x + 1;`. -/
def declP : Stmt := .declStmt 1001 [.mk true "x" "int" false (.other 1002 "IntegerLiteral" true [])]

def declQ : Stmt :=
  .declStmt 1003 [.mk true "y" "int" false
    (.binaryOperator 1004 "+" false (.castExpr 1005 true (.declRefExpr 1006 "x" true))
      (.other 1007 "IntegerLiteral" true []))]

/-- The function `void f(void) { int x = 1; int y = x + 1; }` with its flow
graph: exit, the block of the two declarations, entry. -/
def funcPQ : FunctionDecl :=
  { addr := 1050, name := "f", body := .compoundStmt 1000 [declP, declQ]
    cfg := some
      { blocks := [{ elems := [], preds := [some 1], succs := [], terminator := .null },
                   { elems := [declP, declQ], preds := [some 2], succs := [some 0],
                     terminator := .null },
                   { elems := [], preds := [], succs := [some 1], terminator := .null }]
        entry := 2, exit := 0 } }

/-- The CPG of the function. -/
def ctxPQ : CPGContext := (buildCPG CPGContext.empty (some funcPQ)).getD CPGContext.empty

/-- The graph `convertWithOperators` builds from it. -/
def graphPQ : AODGraph := (convertWithOperators ctxPQ 0 funcPQ "AVX2" "SVE").aod_graph

end aodsolve

namespace aodsolve

open cpg

/-- The statements of `__m256i arg_v = _mm256_set1_epi8(1);
_mm256_storeu_si256(p, arg_v);`. -/
def declArgV : Stmt :=
  .declStmt 1201 [.mk true "arg_v" "__m256i" false
    (.callExpr 1202 (.castExpr 1203 true (.declRefExpr 1204 "_mm256_set1_epi8" false))
      (some "_mm256_set1_epi8") [.other 1205 "IntegerLiteral" true []])]

def callStore : Stmt :=
  .callExpr 1206 (.castExpr 1207 true (.declRefExpr 1208 "_mm256_storeu_si256" false))
    (some "_mm256_storeu_si256")
    [.castExpr 1209 true (.declRefExpr 1210 "p" true),
     .castExpr 1211 true (.declRefExpr 1212 "arg_v" true)]

/-- The function `void f(__m256i *p) { __m256i arg_v = _mm256_set1_epi8(1);
_mm256_storeu_si256(p, arg_v); }` with its flow graph. -/
def funcArgV : FunctionDecl :=
  { addr := 1250, name := "f", body := .compoundStmt 1200 [declArgV, callStore]
    cfg := some
      { blocks := [{ elems := [], preds := [some 1], succs := [], terminator := .null },
                   { elems := [declArgV, callStore], preds := [some 2], succs := [some 0],
                     terminator := .null },
                   { elems := [], preds := [], succs := [some 1], terminator := .null }]
        entry := 2, exit := 0 } }

/-- The CPG of the function. -/
def ctxArgV : CPGContext := (buildCPG CPGContext.empty (some funcArgV)).getD CPGContext.empty

/-- The graph `convertWithOperators` builds from it. -/
def graphArgV : AODGraph := (convertWithOperators ctxArgV 0 funcArgV "AVX2" "SVE").aod_graph

/-- The pretty printer of the example. -/
def argVPretty (s : Stmt) : String :=
  if s.addr = 1205 then "1"
  else if s.addr = 1202 then "_mm256_set1_epi8(1)"
  else if s.addr = 1209 then "p"
  else if s.addr = 1211 then "arg_v"
  else if s.addr = 1206 then "_mm256_storeu_si256(p, arg_v)"
  else "__m256i arg_v = _mm256_set1_epi8(1);\n"

end aodsolve

namespace aodsolve

open cpg

mutual
/-- The number of ids `traverseAndBuild` uses up without adding a node: one for
each declaration of a single variable initialised by a vector intrinsic that
it meets in statement position (the node built first is replaced by the one
of `createSIMDNode`). -/
def skippedIds : Stmt → Nat
  | .null => 0
  | .compoundStmt _ body => skippedIdsList body
  | .whileStmt _ _ b => skippedIds b
  | .forStmt _ _ _ _ b => skippedIds b
  | .ifStmt _ _ t e => skippedIds t + skippedIds e
  | .declStmt _ decls =>
    match decls with
    | [d] => if d.isVarDecl = true ∧ isSIMDIntrinsic d.init.ignoreParenCasts = true then 1 else 0
    | _ => 0
  | .binaryOperator _ _ _ _ _ => 0
  | .callExpr _ _ _ _ => 0
  | .declRefExpr _ _ _ => 0
  | .parenExpr _ _ => 0
  | .castExpr _ _ _ => 0
  | .other _ _ _ _ => 0
/-- The same count over the statements of a compound statement. -/
def skippedIdsList : List Stmt → Nat
  | [] => 0
  | s :: rest => skippedIds s + skippedIdsList rest
end

/-- A step of the conversion from `st` to `st2` that skips `k` ids: nodes are
appended to the graph, the counter advances by the number of the new nodes plus
`k`, and the ids of the new nodes are taken in increasing order from the
values the counter runs through. -/
def IdStep (k : Nat) (st st2 : ConvState) : Prop :=
  ∃ added : List AODNode, st2.graph.nodes = st.graph.nodes ++ added ∧
    st2.next_id = st.next_id + (added.length + k) ∧
    List.Sublist (added.map AODNode.id) (List.range' st.next_id (added.length + k))

/-- The statements of `int a = 0; __m256i v = _mm256_set1_epi8(a);`. -/
def declA0 : Stmt := .declStmt 1301 [.mk true "a" "int" false (.other 1302 "IntegerLiteral" true [])]

def declV : Stmt :=
  .declStmt 1303 [.mk true "v" "__m256i" false
    (.callExpr 1304 (.castExpr 1305 true (.declRefExpr 1306 "_mm256_set1_epi8" false))
      (some "_mm256_set1_epi8") [.castExpr 1307 true (.declRefExpr 1308 "a" true)])]

/-- The function `void f(void) { int a = 0; __m256i v = _mm256_set1_epi8(a); }`. -/
def funcSkip : FunctionDecl :=
  { addr := 1350, name := "f", body := .compoundStmt 1300 [declA0, declV], cfg := none }

end aodsolve

namespace cpg

/-- The data-dependence records a PDG holds for a statement. -/
def ddDeps (pdg : List (Nat × PDGNode)) (s : Nat) : List DataDependency :=
  match mapFind s pdg with
  | some n => n.dataDeps
  | none => []

/-- The records `computeDataDependencies` builds for a statement `S` and its
used variables: one flow dependence for each used variable and each of its
definitions that `getDefinitions` reports at `S`. -/
def flowRecords (ctx : CPGContext) (S : Nat) (usedVars : List String) : List DataDependency :=
  usedVars.flatMap (fun v =>
    (getDefinitions ctx S v).map (fun D =>
      { sourceStmt := D, sinkStmt := S, varName := v, kind := .Flow }))

/-- Scenario A after `buildICFG` and `computeReachingDefinitions`, before the
first `buildPDG`. -/
def ctxA_rd : CPGContext :=
  computeReachingDefinitions ((buildICFG CPGContext.empty funcA).getD CPGContext.empty) 100

end cpg

namespace cpg

/-- The innermost loop body of `computeDataDependencies`: the record of one
definition is added to the node of `S`. -/
def flowDepStep (S : Nat) (var : String) (c2 : CPGContext) (defStmt : Nat) : CPGContext :=
  let dep : DataDependency :=
    { sourceStmt := defStmt, sinkStmt := S, varName := var, kind := .Flow }
  { c2 with pdgNodes := addDataDep c2.pdgNodes S dep }

/-- The loop body of `computeDataDependencies` for one used variable. -/
def flowVarStep (S : Nat) (c : CPGContext) (var : String) : CPGContext :=
  (getDefinitions c S var).foldl (flowDepStep S var) c

end cpg

namespace aodsolve

open cpg

/-- The bindings `tryApplyRules` substitutes into the template of a node: those
of the original expression, overridden from the incoming edges, and the
predicate of the SVE target; `none` when the run fails. -/
def templateBindings (gen : EnhancedCodeGenerator) (graph : AODGraph) (node : AODNode)
    (recurse : AODNode → Option String) : Option (List (String × String)) :=
  ((graph.getIncomingEdges node.id).foldl
      (edgeBinding gen graph (node.getProperty "op_name") recurse)
      (some (astBindings gen node))).map (fun b =>
    if gen.target_architecture = "SVE" then mapSet strLt "{{predicate}}" "pg" b else b)

/-- The value an edge stands for in `tryApplyRules`: the `var_name` of its
source when the source is a statement node, the code generated for the source
otherwise. -/
def sourceValue (recurse : AODNode → Option String) (src : AODNode) : Option String :=
  if src.isStatement then some (src.getProperty "var_name") else recurse src

/-- The edge sets the placeholder `key`: its tag starts with `arg_` and the
index parsed after it names that placeholder. -/
def edgeSetsKey (edge : AODEdge) (key : String) : Prop :=
  startsWith "arg_".data edge.variable_name.data = true ∧
  ∃ idx, stoi (edge.variable_name.data.drop 4) = some idx ∧ inputKey idx = key

/-- The statement `_mm256_and_si256(_mm256_cmpgt_epi8(a, b), c);`. -/
def callAndCmp : Stmt :=
  .callExpr 1401 (.castExpr 1402 true (.declRefExpr 1403 "_mm256_and_si256" false))
    (some "_mm256_and_si256")
    [.callExpr 1404 (.castExpr 1405 true (.declRefExpr 1406 "_mm256_cmpgt_epi8" false))
      (some "_mm256_cmpgt_epi8")
      [.castExpr 1407 true (.declRefExpr 1408 "a" true),
       .castExpr 1409 true (.declRefExpr 1410 "b" true)],
     .castExpr 1411 true (.declRefExpr 1412 "c" true)]

def funcAndCmp : FunctionDecl :=
  { addr := 1450, name := "f", body := .compoundStmt 1400 [callAndCmp], cfg := none }

/-- The graph `convertWithOperators` builds from it. -/
def andCmpGraph : AODGraph :=
  (convertWithOperators CPGContext.empty 0 funcAndCmp "AVX2" "SVE").aod_graph

/-- The node of the AND and the node of the comparison in that graph. -/
def andNode : AODNode := (andCmpGraph.getNode 0).getD (AODNode.new 0 .Unknown "")

def cmpNode : AODNode := (andCmpGraph.getNode 1).getD (AODNode.new 0 .Unknown "")

/-- The pretty printer of the example. -/
def andCmpPretty (s : Stmt) : String :=
  if s.addr = 1407 then "a"
  else if s.addr = 1409 then "b"
  else if s.addr = 1411 then "c"
  else if s.addr = 1404 then "_mm256_cmpgt_epi8(a, b)"
  else "_mm256_and_si256(_mm256_cmpgt_epi8(a, b), c)"

end aodsolve

namespace cpg

/-- `CDHas pdg0 pdg s dep`: the records `pdg` holds for statement `s` are those
of `pdg0` followed by a list that contains `dep`. -/
def CDHas (pdg0 pdg : List (Nat × PDGNode)) (s : Nat) (dep : ControlDependency) : Prop :=
  ∃ added, cdDeps pdg s = cdDeps pdg0 s ++ added ∧ dep ∈ added

/-- The records `pdg` holds for every statement extend those of `pdg0`. -/
def CDGrow (pdg0 pdg : List (Nat × PDGNode)) : Prop :=
  ∀ s, ∃ added, cdDeps pdg s = cdDeps pdg0 s ++ added

/-- What the forward search from `start` for block `T` has achieved in state
`st`: the start block is visited, queued blocks are visited, and every visited
block that has left the queue and does not have `T` in its post-dominator set
has its statements marked and its successors visited. -/
def CDSearchInv (cfg : CFG) (postDom : PostDomMap) (pdg0 : List (Nat × PDGNode))
    (T term : Nat) (bv : Bool) (start : Nat) (st : CDSearch) : Prop :=
  CDGrow pdg0 st.pdg ∧ start ∈ st.visited ∧ (∀ w ∈ st.worklist, w ∈ st.visited) ∧
  ∀ x ∈ st.visited, x ∉ st.worklist → T ∉ mapGetD postDom x [] →
    (∀ s ∈ (cfg.block x).elems, CDHas pdg0 st.pdg s.addr
      { controlStmt := term, dependentStmt := s.addr, branchValue := bv }) ∧
    (∀ y, some y ∈ (cfg.block x).succs → y ∈ st.visited)

/-- The blocks a forward search from `start` visits when it stops at every block
that is in the computed post-dominator set of `T`: those reached from `start`
along successor edges through blocks, the last one included, none of which
post-dominates `T`. -/
inductive CDReachSpec (cfg : CFG) (postDom : PostDomMap) (T start : Nat) : Nat → Prop where
  | start : start ∉ mapGetD postDom T [] → CDReachSpec cfg postDom T start start
  | step (x y : Nat) : CDReachSpec cfg postDom T start x → some y ∈ (cfg.block x).succs →
      y ∉ mapGetD postDom T [] → CDReachSpec cfg postDom T start y

end cpg

namespace cpg

/-- The successor list of the node a pointer designates; a pointer outside the
heap designates no node. -/
def successorsOf (ctx : CPGContext) (a : Nat) : List (Nat × ICFGEdgeKind) :=
  match ctx.heap[a]? with
  | some n => n.successors
  | none => []

/-- The predecessor list of the node a pointer designates. -/
def predecessorsOf (ctx : CPGContext) (b : Nat) : List (Nat × ICFGEdgeKind) :=
  match ctx.heap[b]? with
  | some n => n.predecessors
  | none => []

/-- Every edge is recorded as often at its source as at its target. -/
def EdgeSymmetric (ctx : CPGContext) : Prop :=
  ∀ (a b : Nat) (k : ICFGEdgeKind),
    (successorsOf ctx a).count (b, k) = (predecessorsOf ctx b).count (a, k)

/-- The node pointers the context stores in its maps designate nodes. -/
def PtrsValid (ctx : CPGContext) : Prop :=
  (∀ k v, mapFind k ctx.stmtToICFGNode = some v → v < ctx.heap.length) ∧
  (∀ k v, mapFind k ctx.funcEntries = some v → v < ctx.heap.length) ∧
  (∀ k v, mapFind k ctx.funcExits = some v → v < ctx.heap.length)

/-- The invariant of the graph construction. -/
def SymInv (ctx : CPGContext) : Prop := EdgeSymmetric ctx ∧ PtrsValid ctx

/-- Two contexts hold the same graph: the same nodes and the same node maps. -/
def SameGraph (a b : CPGContext) : Prop :=
  a.heap = b.heap ∧ a.stmtToICFGNode = b.stmtToICFGNode ∧ a.funcEntries = b.funcEntries ∧
  a.funcExits = b.funcExits

/-- The invariant of the linking of call sites: the context is symmetric and
has at least `n` nodes. -/
def LinkGood (n : Nat) (ctx : CPGContext) : Prop := SymInv ctx ∧ n ≤ ctx.heap.length

/-- The invariant of the construction inside `buildICFG`: the context is
symmetric, has at least `n0` nodes, and the non-null pointers of the two local
block maps designate nodes. -/
def BuildInv (n0 : Nat) (st : ICFGBuild) : Prop :=
  SymInv st.ctx ∧ n0 ≤ st.ctx.heap.length ∧
  (∀ k v, mapFind k st.blockFirstNode = some (some v) → v < st.ctx.heap.length) ∧
  (∀ k v, mapFind k st.blockLastNode = some (some v) → v < st.ctx.heap.length)

/-- The contexts reachable from a fresh one through the operations that build
the graph and the analyses on it. -/
inductive ICFGReachable : CPGContext → Prop where
  | empty : ICFGReachable CPGContext.empty
  | buildICFG (ctx ctx2 : CPGContext) (func : FunctionDecl) : ICFGReachable ctx →
      buildICFG ctx func = some ctx2 → ICFGReachable ctx2
  | buildCallGraph (ctx : CPGContext) (tu : TranslationUnit) : ICFGReachable ctx →
      ICFGReachable (buildCallGraph ctx tu)
  | linkCallSites (ctx : CPGContext) : ICFGReachable ctx → ICFGReachable (linkCallSites ctx)
  | computeReachingDefinitions (ctx : CPGContext) (func : Nat) : ICFGReachable ctx →
      ICFGReachable (computeReachingDefinitions ctx func)
  | buildPDG (ctx : CPGContext) (func : Nat) : ICFGReachable ctx →
      ICFGReachable (buildPDG ctx func)

end cpg

namespace aodsolve

open cpg

/-- Every edge tag of the graph that starts with `arg_` is followed by a decimal
index that `std::stoi` reads, and the source of such an edge is a node of the
graph. -/
def ArgTagsOk (graph : AODGraph) : Prop :=
  ∀ e ∈ graph.edges, startsWith "arg_".data e.variable_name.data = true →
    (stoi (e.variable_name.data.drop 4)).isSome = true ∧ (graph.getNode e.source).isSome = true

/-- The operand edges of the graph, the `arg_` edges whose source is not a
statement node, go from a node of smaller rank to a node of larger rank: they
form no cycle, and the rank of a node bounds the nesting of its operands. -/
def OperandRank (graph : AODGraph) (rank : Nat → Nat) : Prop :=
  ∀ e ∈ graph.edges, startsWith "arg_".data e.variable_name.data = true →
    ∀ src ∈ graph.getNode e.source, src.isStatement = false → rank src.id < rank e.target

/-- The input of the rule application on the node `id` is in order: the tags
are, and the operands of the node are nested at most `depth` deep. -/
def RuleInputOk (graph : AODGraph) (depth id : Nat) : Prop :=
  ArgTagsOk graph ∧ ∃ rank : Nat → Nat, OperandRank graph rank ∧ rank id ≤ depth

/-- The graph `convertWithOperators` yields for
`void f(void) { int a = 0; __m256i v = _mm256_set1_epi8(a); }`. -/
def skipGraph : AODGraph :=
  (convertWithOperators CPGContext.empty 0 funcSkip "AVX2" "SVE").aod_graph

/-- The pretty printer of that example. -/
def skipPretty (s : Stmt) : String :=
  if s.addr = 1302 then "0"
  else if s.addr = 1307 then "a"
  else if s.addr = 1304 then "_mm256_set1_epi8(a)"
  else if s.addr = 1301 then "int a = 0;\n"
  else "__m256i v = _mm256_set1_epi8(a);\n"

end aodsolve

/-! # Theorems -/

namespace cpg

/-! ## Containers -/

theorem mem_setInsert {α : Type} [DecidableEq α] (lt : α → α → Bool) (a x : α) (s : List α) :
    x ∈ setInsert lt a s ↔ x = a ∨ x ∈ s := by
  induction s with
  | nil => simp [setInsert]
  | cons b rest ih =>
    unfold setInsert
    by_cases h1 : a = b
    · subst h1
      simp
    · by_cases h2 : lt a b = true
      · simp [h1, h2]
      · simp [h1, h2, ih]
        tauto

theorem mem_setInsertAll {α : Type} [DecidableEq α] (lt : α → α → Bool) (x : α) (xs s : List α) :
    x ∈ setInsertAll lt s xs ↔ x ∈ s ∨ x ∈ xs := by
  unfold setInsertAll
  induction xs generalizing s with
  | nil => simp
  | cons y ys ih =>
    simp only [List.foldl_cons, ih, mem_setInsert, List.mem_cons]
    tauto

theorem mapFind_mem {κ β : Type} [DecidableEq κ] (k : κ) (v : β) (m : List (κ × β))
    (h : mapFind k m = some v) : (k, v) ∈ m := by
  induction m with
  | nil => simp [mapFind] at h
  | cons p rest ih =>
    obtain ⟨k0, v0⟩ := p
    unfold mapFind at h
    by_cases hk : k = k0
    · simp [hk] at h
      simp [hk, h]
    · simp [hk] at h
      exact List.mem_cons_of_mem _ (ih h)

theorem mapFind_eq_none {κ β : Type} [DecidableEq κ] (k : κ) (m : List (κ × β)) :
    mapFind k m = none ↔ k ∉ m.map Prod.fst := by
  induction m with
  | nil => simp [mapFind]
  | cons q rest ih =>
    obtain ⟨k0, v0⟩ := q
    unfold mapFind
    by_cases hk : k = k0
    · simp [hk]
    · simp [hk, ih]

theorem mem_mapReplace {κ β : Type} [DecidableEq κ] (k : κ) (v : β) (m : List (κ × β))
    (p : κ × β) (h : p ∈ mapReplace k v m) : p = (k, v) ∨ p ∈ m := by
  induction m with
  | nil => simp [mapReplace] at h
  | cons q rest ih =>
    obtain ⟨k0, v0⟩ := q
    unfold mapReplace at h
    by_cases hk : k = k0
    · simp [hk] at h
      rcases h with h | h
      · left; rw [h, hk]
      · right; exact List.mem_cons_of_mem _ h
    · simp [hk] at h
      rcases h with h | h
      · right; rw [h]; exact List.mem_cons_self _ _
      · rcases ih h with h2 | h2
        · left; exact h2
        · right; exact List.mem_cons_of_mem _ h2

theorem mem_mapInsert {κ β : Type} (lt : κ → κ → Bool) (k : κ) (v : β) (m : List (κ × β))
    (p : κ × β) : p ∈ mapInsert lt k v m ↔ p = (k, v) ∨ p ∈ m := by
  induction m with
  | nil => simp [mapInsert]
  | cons q rest ih =>
    obtain ⟨k0, v0⟩ := q
    unfold mapInsert
    by_cases hl : lt k k0 = true
    · simp [hl]
    · simp [hl, ih]
      tauto

theorem mem_mapSet {κ β : Type} [DecidableEq κ] (lt : κ → κ → Bool) (k : κ) (v : β)
    (m : List (κ × β)) (p : κ × β) (h : p ∈ mapSet lt k v m) : p = (k, v) ∨ p ∈ m := by
  unfold mapSet at h
  cases hf : mapFind k m with
  | none => rw [hf] at h; exact (mem_mapInsert lt k v m p).mp h
  | some w => rw [hf] at h; exact mem_mapReplace k v m p h

theorem mapFind_mapReplace {κ β : Type} [DecidableEq κ] (k k1 : κ) (v : β)
    (m : List (κ × β)) :
    mapFind k1 (mapReplace k v m) =
      if k1 = k then (mapFind k m).map (fun _ => v) else mapFind k1 m := by
  induction m with
  | nil => simp [mapReplace, mapFind]
  | cons q rest ih =>
    obtain ⟨k0, v0⟩ := q
    unfold mapReplace
    by_cases hk : k = k0
    · subst hk
      by_cases h1 : k1 = k
      · simp [mapFind, h1]
      · simp [mapFind, h1]
    · by_cases h1 : k1 = k
      · subst h1
        simp [mapFind, hk, ih]
      · simp only [mapFind, hk, if_false, ih, h1]

theorem mapFind_mapInsert {κ β : Type} [DecidableEq κ] (lt : κ → κ → Bool) (k k1 : κ) (v : β)
    (m : List (κ × β)) (hk : mapFind k m = none) :
    mapFind k1 (mapInsert lt k v m) = if k1 = k then some v else mapFind k1 m := by
  induction m with
  | nil => simp [mapInsert, mapFind]
  | cons q rest ih =>
    obtain ⟨k0, v0⟩ := q
    unfold mapInsert
    have hne : k ≠ k0 := by
      intro h; simp [mapFind, h] at hk
    have hk2 : mapFind k rest = none := by simpa [mapFind, hne] using hk
    by_cases hl : lt k k0 = true
    · simp only [hl, if_true]
      by_cases h1 : k1 = k
      · simp [mapFind, h1]
      · simp [mapFind, h1]
    · simp only [hl]
      by_cases h1 : k1 = k
      · subst h1
        simp [mapFind, hne, ih hk2]
      · simp [mapFind, h1, ih hk2]

theorem mapFind_mapSet {κ β : Type} [DecidableEq κ] (lt : κ → κ → Bool) (k k1 : κ) (v : β)
    (m : List (κ × β)) :
    mapFind k1 (mapSet lt k v m) = if k1 = k then some v else mapFind k1 m := by
  unfold mapSet
  cases hf : mapFind k m with
  | none => simp only [mapFind_mapInsert lt k k1 v m hf]
  | some w =>
    simp only [mapFind_mapReplace, hf]
    by_cases h1 : k1 = k <;> simp [h1]

theorem mapFind_mapSet_self {κ β : Type} [DecidableEq κ] (lt : κ → κ → Bool) (k : κ) (v : β)
    (m : List (κ × β)) : mapFind k (mapSet lt k v m) = some v := by
  simp [mapFind_mapSet]

theorem mapFind_mapSet_ne {κ β : Type} [DecidableEq κ] (lt : κ → κ → Bool) (k k1 : κ) (v : β)
    (m : List (κ × β)) (hne : k1 ≠ k) : mapFind k1 (mapSet lt k v m) = mapFind k1 m := by
  simp [mapFind_mapSet, hne]

theorem keys_mapReplace {κ β : Type} [DecidableEq κ] (k : κ) (v : β) (m : List (κ × β)) :
    (mapReplace k v m).map Prod.fst = m.map Prod.fst := by
  induction m with
  | nil => simp [mapReplace]
  | cons q rest ih =>
    obtain ⟨k0, v0⟩ := q
    unfold mapReplace
    by_cases hk : k = k0
    · simp [hk]
    · simp [hk, ih]

theorem keysNodup_mapInsert {κ β : Type} (lt : κ → κ → Bool) (k : κ) (v : β)
    (m : List (κ × β)) (hk : k ∉ m.map Prod.fst) (h : keysNodup m) :
    keysNodup (mapInsert lt k v m) := by
  unfold keysNodup at *
  induction m with
  | nil => simp [mapInsert]
  | cons q rest ih =>
    obtain ⟨k0, v0⟩ := q
    unfold mapInsert
    simp only [List.map_cons, List.mem_cons, not_or] at hk
    simp only [List.map_cons, List.nodup_cons] at h
    by_cases hl : lt k k0 = true
    · rw [if_pos hl]
      simp only [List.map_cons, List.nodup_cons, List.mem_cons, not_or]
      exact ⟨⟨hk.1, hk.2⟩, h.1, h.2⟩
    · rw [if_neg hl]
      simp only [List.map_cons, List.nodup_cons]
      refine ⟨?_, ih hk.2 h.2⟩
      intro hmem
      rcases List.mem_map.mp hmem with ⟨p, hp, hpk⟩
      rcases (mem_mapInsert lt k v rest p).mp hp with rfl | hp
      · exact hk.1 hpk
      · exact h.1 (List.mem_map.mpr ⟨p, hp, hpk⟩)

theorem keysNodup_mapSet {κ β : Type} [DecidableEq κ] (lt : κ → κ → Bool) (k : κ) (v : β)
    (m : List (κ × β)) (h : keysNodup m) : keysNodup (mapSet lt k v m) := by
  unfold mapSet
  cases hf : mapFind k m with
  | none => exact keysNodup_mapInsert lt k v m ((mapFind_eq_none k m).mp hf) h
  | some w =>
    show keysNodup (mapReplace k v m)
    unfold keysNodup
    rw [keys_mapReplace]
    exact h

theorem mapFind_of_mem {κ β : Type} [DecidableEq κ] (m : List (κ × β)) (h : keysNodup m)
    (k : κ) (v : β) (hm : (k, v) ∈ m) : mapFind k m = some v := by
  unfold keysNodup at h
  induction m with
  | nil => simp at hm
  | cons q rest ih =>
    obtain ⟨k0, v0⟩ := q
    simp only [List.map_cons, List.nodup_cons] at h
    unfold mapFind
    rcases List.mem_cons.mp hm with heq | hm
    · simp only [Prod.mk.injEq] at heq
      simp [heq.1, heq.2]
    · have hne : k ≠ k0 := by
        intro hk
        exact h.1 (List.mem_map.mpr ⟨(k, v), hm, hk⟩)
      simp [hne, ih h.2 hm]

/-- Under distinct keys, an assignment leaves the entries of the other keys
and nothing else. -/
theorem mem_mapSet_nodup {κ β : Type} [DecidableEq κ] (lt : κ → κ → Bool) (k : κ) (v : β)
    (m : List (κ × β)) (hn : keysNodup m) (p : κ × β) (h : p ∈ mapSet lt k v m) :
    p = (k, v) ∨ (p ∈ m ∧ p.1 ≠ k) := by
  have hn2 := keysNodup_mapSet lt k v m hn
  have hf := mapFind_of_mem _ hn2 p.1 p.2 h
  rw [mapFind_mapSet] at hf
  by_cases hk : p.1 = k
  · left
    simp only [hk, if_true, Option.some.injEq] at hf
    exact Prod.ext hk hf.symm
  · right
    rcases mem_mapSet lt k v m p h with rfl | hp
    · exact absurd rfl hk
    · exact ⟨hp, hk⟩

theorem mapGetD_mapSet_self {κ β : Type} [DecidableEq κ] (lt : κ → κ → Bool) (k : κ) (v d : β)
    (m : List (κ × β)) : mapGetD (mapSet lt k v m) k d = v := by
  simp [mapGetD, mapFind_mapSet_self]

theorem mapGetD_mapSet_ne {κ β : Type} [DecidableEq κ] (lt : κ → κ → Bool) (k k1 : κ) (v d : β)
    (m : List (κ × β)) (hne : k1 ≠ k) : mapGetD (mapSet lt k v m) k1 d = mapGetD m k1 d := by
  simp [mapGetD, mapFind_mapSet_ne lt k k1 v m hne]

/-- An invariant of the steps of a fold holds of its result. -/
theorem foldl_invariant {σ α : Type} (P : σ → Prop) (f : σ → α → σ) (l : List α)
    (hstep : ∀ s x, x ∈ l → P s → P (f s x)) (s0 : σ) (h0 : P s0) : P (l.foldl f s0) := by
  induction l generalizing s0 with
  | nil => exact h0
  | cons x rest ih =>
    simp only [List.foldl_cons]
    apply ih
    · intro s y hy hs
      exact hstep s y (List.mem_cons_of_mem _ hy) hs
    · exact hstep s0 x (List.mem_cons_self _ _) h0

/-- What every step of a fold establishes for its element and every later step
keeps is true of every element at the end. -/
theorem foldl_establish {σ α : Type} (I : σ → Prop) (Q : α → σ → Prop) (f : σ → α → σ)
    (l : List α)
    (hI : ∀ s x, x ∈ l → I s → I (f s x))
    (hQ : ∀ s x, x ∈ l → I s → Q x (f s x))
    (hkeep : ∀ s x y, x ∈ l → I s → Q y s → Q y (f s x))
    (s0 : σ) (h0 : I s0) : ∀ y ∈ l, Q y (l.foldl f s0) := by
  induction l generalizing s0 with
  | nil => intro y hy; simp at hy
  | cons x rest ih =>
    intro y hy
    simp only [List.foldl_cons]
    have hI1 : I (f s0 x) := hI s0 x (List.mem_cons_self _ _) h0
    rcases List.mem_cons.mp hy with rfl | hy
    · apply foldl_invariant (fun s => I s ∧ Q y s) f rest _ (f s0 y)
        ⟨hI1, hQ s0 y (List.mem_cons_self _ _) h0⟩ |>.2
      intro s z hz hs
      exact ⟨hI s z (List.mem_cons_of_mem _ hz) hs.1,
        hkeep s z y (List.mem_cons_of_mem _ hz) hs.1 hs.2⟩
    · exact ih (fun s z hz => hI s z (List.mem_cons_of_mem _ hz))
        (fun s z hz => hQ s z (List.mem_cons_of_mem _ hz))
        (fun s z w hz => hkeep s z w (List.mem_cons_of_mem _ hz)) (f s0 x) hI1 y hy

theorem mem_withIndex {α : Type} (l : List α) (i j : Nat) (a : α)
    (h : (j, a) ∈ withIndex i l) : i ≤ j ∧ l[j - i]? = some a := by
  induction l generalizing i with
  | nil => simp [withIndex] at h
  | cons x rest ih =>
    simp only [withIndex, List.mem_cons, Prod.mk.injEq] at h
    rcases h with ⟨rfl, rfl⟩ | h
    · simp
    · have := ih (i + 1) h
      refine ⟨by omega, ?_⟩
      have h2 : j - i = (j - (i + 1)) + 1 := by omega
      rw [h2]
      simpa using this.2

theorem block_of_mem_withIndex (cfg : CFG) (j : Nat) (b : CFGBlock)
    (h : (j, b) ∈ withIndex 0 cfg.blocks) : cfg.block j = b := by
  have := (mem_withIndex cfg.blocks 0 j b h).2
  simp only [Nat.sub_zero] at this
  simp [CFG.block, List.getD, this]

end cpg

namespace cpg

/-! ## Reaching definitions: soundness -/

theorem DefMapAll_nil (G : String → Nat → Prop) : DefMapAll G [] := by
  intro p hp; simp at hp

theorem DefMapAll_mono {G H : String → Nat → Prop} (m : DefMap) (hGH : ∀ v D, G v D → H v D)
    (h : DefMapAll G m) : DefMapAll H m :=
  fun p hp D hD => hGH _ _ (h p hp D hD)

theorem DefMapAll_getD {G : String → Nat → Prop} (m : DefMap) (h : DefMapAll G m) (v : String)
    (D : Nat) (hD : D ∈ mapGetD m v []) : G v D := by
  unfold mapGetD at hD
  cases hf : mapFind v m with
  | none => simp [hf] at hD
  | some defs =>
    simp [hf] at hD
    exact h (v, defs) (mapFind_mem v defs m hf) D hD

theorem DefMapAll_mapSet {G : String → Nat → Prop} (m : DefMap) (h : DefMapAll G m) (v : String)
    (defs : List Nat) (hdefs : ∀ D ∈ defs, G v D) : DefMapAll G (mapSet strLt v defs m) := by
  intro p hp D hD
  rcases mem_mapSet strLt v defs m p hp with rfl | hp
  · exact hdefs D hD
  · exact h p hp D hD

theorem mergeOut_ok {G : String → Nat → Prop} (acc out : DefMap)
    (hacc : keysNodup acc ∧ DefMapAll G acc) (hout : DefMapAll G out) :
    keysNodup (mergeOut acc out) ∧ DefMapAll G (mergeOut acc out) := by
  unfold mergeOut
  apply foldl_invariant (fun a => keysNodup a ∧ DefMapAll G a) _ out _ acc hacc
  intro a p hp ha
  refine ⟨keysNodup_mapSet _ _ _ _ ha.1, DefMapAll_mapSet a ha.2 _ _ ?_⟩
  intro D hD
  rcases (mem_setInsertAll natLt D p.2 _).mp hD with h | h
  · exact DefMapAll_getD a ha.2 p.1 D h
  · exact hout p hp D h

theorem DefMapAll_blockOut_getD {G : Nat → String → Nat → Prop} (blockOut : List (Nat × DefMap))
    (h : ∀ e ∈ blockOut, keysNodup e.2 ∧ DefMapAll (G e.1) e.2) (b : Nat) :
    DefMapAll (G b) (mapGetD blockOut b []) := by
  unfold mapGetD
  cases hf : mapFind b blockOut with
  | none => exact DefMapAll_nil _
  | some m => exact (h (b, m) (mapFind_mem b m blockOut hf)).2

theorem computeBlockIn_ok {G : Nat → String → Nat → Prop} {H : String → Nat → Prop}
    (blockOut : List (Nat × DefMap)) (preds : List (Option Nat))
    (h : ∀ e ∈ blockOut, keysNodup e.2 ∧ DefMapAll (G e.1) e.2)
    (hGH : ∀ pb, some pb ∈ preds → ∀ v D, G pb v D → H v D) :
    keysNodup (computeBlockIn blockOut preds) ∧ DefMapAll H (computeBlockIn blockOut preds) := by
  unfold computeBlockIn
  apply foldl_invariant (fun a => keysNodup a ∧ DefMapAll H a) _ preds _ []
    ⟨by simp [keysNodup], DefMapAll_nil _⟩
  intro a p hp ha
  cases p with
  | none => exact ha
  | some pb =>
    exact mergeOut_ok a _ ha
      (DefMapAll_mono _ (hGH pb hp) (DefMapAll_blockOut_getD blockOut h pb))

theorem mapGetD_killGen (s : Nat) (defs : List String) (out : DefMap) (v : String) :
    mapGetD (killGen s defs out) v [] = if v ∈ defs then [s] else mapGetD out v [] := by
  unfold killGen
  induction defs generalizing out with
  | nil => simp
  | cons d rest ih =>
    simp only [List.foldl_cons, ih, List.mem_cons]
    by_cases h1 : v ∈ rest
    · simp [h1]
    · by_cases h2 : v = d
      · subst h2
        simp [h1, mapGetD, mapFind_mapSet_self, setInsert]
      · simp [h1, h2, mapGetD, mapFind_mapSet_ne strLt d v _ out h2]

theorem keysNodup_killGen (s : Nat) (defs : List String) (out : DefMap) (h : keysNodup out) :
    keysNodup (killGen s defs out) := by
  unfold killGen
  exact foldl_invariant (fun a => keysNodup a) _ defs
    (fun a d _ ha => keysNodup_mapSet _ _ _ _ ha) out h

theorem mem_killGen (s : Nat) (defs : List String) (out : DefMap) (h : keysNodup out)
    (p : String × List Nat) (hp : p ∈ killGen s defs out) :
    (p.1 ∈ defs ∧ p.2 = [s]) ∨ (p ∈ out ∧ p.1 ∉ defs) := by
  unfold killGen at hp
  induction defs generalizing out with
  | nil => right; exact ⟨by simpa using hp, by simp⟩
  | cons d rest ih =>
    simp only [List.foldl_cons] at hp
    rcases ih _ (keysNodup_mapSet strLt d _ out h) hp with h1 | h1
    · left; exact ⟨List.mem_cons_of_mem _ h1.1, h1.2⟩
    · rcases mem_mapSet_nodup strLt d _ out h p h1.1 with h2 | h2
      · left
        rw [h2]
        exact ⟨List.mem_cons_self _ _, by simp [setInsert]⟩
      · right
        refine ⟨h2.1, ?_⟩
        simp only [List.mem_cons, not_or]
        exact ⟨h2.2, h1.2⟩

theorem DefMapAll_killGen {G H : String → Nat → Prop} (s : Nat) (defs : List String) (out : DefMap)
    (hn : keysNodup out) (hout : DefMapAll G out)
    (hgen : ∀ v, v ∈ defs → H v s) (hpass : ∀ v D, v ∉ defs → G v D → H v D) :
    DefMapAll H (killGen s defs out) := by
  intro p hp D hD
  rcases mem_killGen s defs out hn p hp with h | h
  · rw [h.2] at hD
    simp only [List.mem_singleton] at hD
    rw [hD]
    exact hgen p.1 h.1
  · exact hpass p.1 D h.2 (hout p h.1 D hD)

theorem rdStmts_ok (cfg : CFG) (dm : List (Nat × List String)) (b : Nat) :
    ∀ (rest pre : List Stmt) (info : ReachingDefsInfo) (out : DefMap),
      (cfg.block b).elems = pre ++ rest → info.definitions = dm → keysNodup out →
      DefMapAll (fun v D => v ∈ mapGetD dm D [] ∧
        ReachesAfter cfg (fun a => mapGetD dm a []) v D b pre) out →
      (rest.foldl rdStmt (info, out)).1.definitions = dm ∧
      (rest.foldl rdStmt (info, out)).1.uses = info.uses ∧
      keysNodup (rest.foldl rdStmt (info, out)).2 ∧
      DefMapAll (fun v D => v ∈ mapGetD dm D [] ∧
        ReachesAfter cfg (fun a => mapGetD dm a []) v D b (pre ++ rest))
        (rest.foldl rdStmt (info, out)).2 ∧
      (∀ s ∈ rest, RdOk cfg (fun a => mapGetD dm a [])
        (rest.foldl rdStmt (info, out)).1.reachingDefs s.addr) ∧
      (∀ S, RdOk cfg (fun a => mapGetD dm a []) info.reachingDefs S →
        RdOk cfg (fun a => mapGetD dm a []) (rest.foldl rdStmt (info, out)).1.reachingDefs S) := by
  intro rest
  induction rest with
  | nil =>
    intro pre info out _ hdm hn hout
    refine ⟨hdm, rfl, hn, ?_, ?_, fun S h => h⟩
    · simpa using hout
    · intro s hs
      simp at hs
  | cons s rest ih =>
    intro pre info out helems hdm hn hout
    simp only [List.foldl_cons]
    -- the step on `s`
    have hstep_rd : ∀ S, (S = s.addr ∨ RdOk cfg (fun a => mapGetD dm a []) info.reachingDefs S) →
        RdOk cfg (fun a => mapGetD dm a []) (rdStmt (info, out) s).1.reachingDefs S := by
      intro S hS m hm
      simp only [rdStmt, mapFind_mapSet] at hm
      by_cases hSs : S = s.addr
      · simp only [hSs, if_true, Option.some.injEq] at hm
        subst hm
        exact DefMapAll_mono out
          (fun v D hG => ⟨hG.1, b, pre, rest, s, helems, hSs.symm, hG.2⟩) hout
      · simp only [hSs, if_false] at hm
        rcases hS with hS | hS
        · exact absurd hS hSs
        · exact hS m hm
    have hdm1 : (rdStmt (info, out) s).1.definitions = dm := by simpa [rdStmt] using hdm
    have hn1 : keysNodup (rdStmt (info, out) s).2 := keysNodup_killGen _ _ _ hn
    have hout1 : DefMapAll (fun v D => v ∈ mapGetD dm D [] ∧
        ReachesAfter cfg (fun a => mapGetD dm a []) v D b (pre ++ [s]))
        (rdStmt (info, out) s).2 := by
      simp only [rdStmt, hdm]
      refine DefMapAll_killGen s.addr _ out hn hout ?_ ?_
      · intro v hv
        exact ⟨hv, ReachesAfter.gen b pre rest s helems rfl⟩
      · intro v D hv hG
        exact ⟨hG.1, ReachesAfter.pass b pre rest s hG.2 helems hv⟩
    have helems1 : (cfg.block b).elems = (pre ++ [s]) ++ rest := by simpa using helems
    obtain ⟨r1, r1u, r2, r3, r4, r5⟩ :=
      ih (pre ++ [s]) (rdStmt (info, out) s).1 (rdStmt (info, out) s).2 helems1 hdm1 hn1 hout1
    refine ⟨r1, ?_, r2, ?_, ?_, ?_⟩
    · rw [r1u]; simp [rdStmt]
    · simpa using r3
    · intro t ht
      rcases List.mem_cons.mp ht with rfl | ht
      · exact r5 _ (hstep_rd _ (Or.inl rfl))
      · exact r4 t ht
    · intro S hS
      exact r5 S (hstep_rd S (Or.inr hS))

theorem predsMatchSuccs_spec (cfg : CFG) (h : cfg.predsMatchSuccs = true) (b : Nat)
    (blk : CFGBlock) (hb : (b, blk) ∈ withIndex 0 cfg.blocks) (pb : Nat)
    (hp : some pb ∈ blk.preds) : some b ∈ (cfg.block pb).succs := by
  unfold CFG.predsMatchSuccs at h
  rw [List.all_eq_true] at h
  have h1 := h (b, blk) hb
  rw [List.all_eq_true] at h1
  have h2 := h1 (some pb) hp
  simpa using h2

theorem rdBlock_ok (cfg : CFG) (hwf : cfg.predsMatchSuccs = true) (dm : List (Nat × List String))
    (st : RDState) (idx : Nat) (block : CFGBlock) (hib : (idx, block) ∈ withIndex 0 cfg.blocks)
    (hinv : RdInv cfg dm st) :
    RdInv cfg dm (rdBlock st idx block) ∧
    (rdBlock st idx block).info.uses = st.info.uses ∧
    (∀ s ∈ block.elems, RdOk cfg (fun a => mapGetD dm a [])
      (rdBlock st idx block).info.reachingDefs s.addr) ∧
    (∀ S, RdOk cfg (fun a => mapGetD dm a []) st.info.reachingDefs S →
      RdOk cfg (fun a => mapGetD dm a []) (rdBlock st idx block).info.reachingDefs S) := by
  have hblk : cfg.block idx = block := block_of_mem_withIndex cfg idx block hib
  have hin := computeBlockIn_ok
    (G := fun b v D => v ∈ mapGetD dm D [] ∧
      ReachesAfter cfg (fun a => mapGetD dm a []) v D b (cfg.block b).elems)
    (H := fun v D => v ∈ mapGetD dm D [] ∧
      ReachesAfter cfg (fun a => mapGetD dm a []) v D idx [])
    st.blockOut block.preds hinv.2
    (fun pb hpb v D hG =>
      ⟨hG.1, ReachesAfter.edge pb idx hG.2 (predsMatchSuccs_spec cfg hwf idx block hib pb hpb)⟩)
  have helems : (cfg.block idx).elems = [] ++ block.elems := by simp [hblk]
  obtain ⟨r1, r1u, r2, r3, r4, r5⟩ := rdStmts_ok cfg dm idx block.elems [] st.info
    (computeBlockIn st.blockOut block.preds) helems hinv.1 hin.1 hin.2
  refine ⟨⟨r1, ?_⟩, r1u, r4, r5⟩
  intro e he
  simp only [rdBlock] at he
  rcases mem_mapSet natLt idx _ st.blockOut e he with rfl | he
  · refine ⟨r2, ?_⟩
    simpa [hblk] using r3
  · exact hinv.2 e he

theorem mem_withIndex_of_mem {α : Type} (l : List α) (a : α) (h : a ∈ l) (i : Nat) :
    ∃ j, (j, a) ∈ withIndex i l := by
  induction l generalizing i with
  | nil => simp at h
  | cons x rest ih =>
    rcases List.mem_cons.mp h with rfl | h
    · exact ⟨i, by simp [withIndex]⟩
    · obtain ⟨j, hj⟩ := ih h (i + 1)
      exact ⟨j, by simp [withIndex, hj]⟩

theorem rdPass_ok (cfg : CFG) (hwf : cfg.predsMatchSuccs = true) (dm : List (Nat × List String))
    (st : RDState) (hinv : RdInv cfg dm st) :
    RdInv cfg dm (rdPass cfg st) ∧
    (∀ S ∈ cfg.stmtAddrs, RdOk cfg (fun a => mapGetD dm a []) (rdPass cfg st).info.reachingDefs S) := by
  unfold rdPass
  have hinv0 : RdInv cfg dm { st with changed := false } := hinv
  constructor
  · apply foldl_invariant (fun s => RdInv cfg dm s) _ _ _ _ hinv0
    intro s ib hib hs
    exact (rdBlock_ok cfg hwf dm s ib.1 ib.2 hib hs).1
  · intro S hS
    simp only [CFG.stmtAddrs, List.mem_flatMap, List.mem_map] at hS
    obtain ⟨blk, hblk, s, hs, rfl⟩ := hS
    obtain ⟨j, hj⟩ := mem_withIndex_of_mem cfg.blocks blk hblk 0
    have := foldl_establish (fun s => RdInv cfg dm s)
      (fun (ib : Nat × CFGBlock) (s : RDState) =>
        ∀ t ∈ ib.2.elems, RdOk cfg (fun a => mapGetD dm a []) s.info.reachingDefs t.addr)
      (fun s ib => rdBlock s ib.1 ib.2) (withIndex 0 cfg.blocks)
      (fun s ib hib hs => (rdBlock_ok cfg hwf dm s ib.1 ib.2 hib hs).1)
      (fun s ib hib hs => (rdBlock_ok cfg hwf dm s ib.1 ib.2 hib hs).2.2.1)
      (fun s ib y hib hs hq t ht => (rdBlock_ok cfg hwf dm s ib.1 ib.2 hib hs).2.2.2 _ (hq t ht))
      _ hinv0 (j, blk) hj
    exact this s hs

theorem rdLoop_ok (cfg : CFG) (hwf : cfg.predsMatchSuccs = true) (dm : List (Nat × List String)) :
    ∀ (n : Nat) (st : RDState), RdInv cfg dm st →
      (n = 0 → ∀ S ∈ cfg.stmtAddrs,
        RdOk cfg (fun a => mapGetD dm a []) st.info.reachingDefs S) →
      (rdLoop cfg n st).info.definitions = dm ∧
      ∀ S ∈ cfg.stmtAddrs,
        RdOk cfg (fun a => mapGetD dm a []) (rdLoop cfg n st).info.reachingDefs S := by
  intro n
  induction n with
  | zero =>
    intro st hinv h0
    exact ⟨hinv.1, h0 rfl⟩
  | succ n ih =>
    intro st hinv _
    have hp := rdPass_ok cfg hwf dm st hinv
    simp only [rdLoop]
    by_cases hc : (rdPass cfg st).changed = true
    · simp only [hc, if_true]
      exact ih _ hp.1 (fun _ => hp.2)
    · simp only [hc]
      exact ⟨hp.1.1, hp.2⟩

theorem collectDefsUses_reachingDefs (cfg : CFG) (info : ReachingDefsInfo) :
    (collectDefsUses cfg info).reachingDefs = info.reachingDefs := by
  unfold collectDefsUses
  refine foldl_invariant (fun i => i.reachingDefs = info.reachingDefs) _ cfg.blocks ?_ info rfl
  intro i b _ hi
  refine foldl_invariant (fun i => i.reachingDefs = info.reachingDefs) _ b.elems ?_ i hi
  intro j s _ hj
  simpa [collectStmt] using hj

/-- Soundness of the reaching definitions computed on a flow graph. -/
theorem reachingDefsOf_sound (cfg : CFG) (hwf : cfg.predsMatchSuccs = true)
    (info : ReachingDefsInfo) (S : Nat) (hS : S ∈ cfg.stmtAddrs) (m : DefMap)
    (hm : mapFind S (reachingDefsOf cfg info).reachingDefs = some m) (v : String)
    (defs : List Nat) (hv : mapFind v m = some defs) (D : Nat) (hD : D ∈ defs) :
    v ∈ mapGetD (reachingDefsOf cfg info).definitions D [] ∧
    DefClearPath cfg (fun a => mapGetD (reachingDefsOf cfg info).definitions a []) v D S := by
  have h := rdLoop_ok cfg hwf (collectDefsUses cfg info).definitions 100
    { info := collectDefsUses cfg info, blockOut := [], changed := true }
    ⟨rfl, by intro e he; simp at he⟩ (by simp)
  have hdef : (reachingDefsOf cfg info).definitions = (collectDefsUses cfg info).definitions := h.1
  rw [hdef]
  exact h.2 S hS m hm (v, defs) (mapFind_mem v defs m hv) D hD

end cpg

namespace cpg

/-! ## What the construction of the flow graph leaves alone -/

theorem SameAnalyses.refl (a : CPGContext) : SameAnalyses a a := ⟨rfl, rfl, rfl⟩

theorem SameAnalyses.trans {a b c : CPGContext} (h1 : SameAnalyses a b) (h2 : SameAnalyses b c) :
    SameAnalyses a c :=
  ⟨h1.1.trans h2.1, h1.2.1.trans h2.2.1, h1.2.2.trans h2.2.2⟩

theorem createICFGNode_same (ctx : CPGContext) (k : ICFGNodeKind) (f : Nat) :
    SameAnalyses (createICFGNode ctx k f).1 ctx := ⟨rfl, rfl, rfl⟩

theorem modifyNode_same (ctx : CPGContext) (ptr : Nat) (g : ICFGNode → ICFGNode) :
    SameAnalyses (modifyNode ctx ptr g) ctx := ⟨rfl, rfl, rfl⟩

theorem addICFGEdge_same (ctx : CPGContext) (a b : Nat) (k : ICFGEdgeKind) :
    SameAnalyses (addICFGEdge ctx a b k) ctx := ⟨rfl, rfl, rfl⟩

theorem icfgStmt_same (func block : Nat) (st : ICFGBuild × Option Nat) (s : Stmt) :
    SameAnalyses (icfgStmt func block st s).1.ctx st.1.ctx := by
  unfold icfgStmt
  cases st.2 <;> exact ⟨rfl, rfl, rfl⟩

theorem icfgBlockNodes_same (func : Nat) (st : ICFGBuild) (block : Nat) (b : CFGBlock) :
    SameAnalyses (icfgBlockNodes func st block b).ctx st.ctx := by
  unfold icfgBlockNodes
  have h : SameAnalyses (b.elems.foldl (icfgStmt func block) (st, none)).1.ctx st.ctx := by
    refine foldl_invariant (fun (r : ICFGBuild × Option Nat) => SameAnalyses r.1.ctx st.ctx) _
      b.elems ?_ (st, none) (SameAnalyses.refl _)
    intro r s _ hr
    exact (icfgStmt_same func block r s).trans hr
  cases hr : (b.elems.foldl (icfgStmt func block) (st, none)).2 <;> simpa [hr] using h

theorem icfgSuccEdge_same (term : Stmt) (lastNode : Nat) (st : ICFGBuild × Nat)
    (succ : Option Nat) : SameAnalyses (icfgSuccEdge term lastNode st succ).1.ctx st.1.ctx := by
  unfold icfgSuccEdge
  cases succ with
  | none => exact SameAnalyses.refl _
  | some sb =>
    simp only
    cases mapGetD st.1.blockFirstNode sb none <;> exact ⟨rfl, rfl, rfl⟩

theorem icfgBlockEdges_same (st : ICFGBuild) (block : Nat) (b : CFGBlock) :
    SameAnalyses (icfgBlockEdges st block b).ctx st.ctx := by
  unfold icfgBlockEdges
  simp only
  cases mapGetD st.blockLastNode block none with
  | none => exact ⟨rfl, rfl, rfl⟩
  | some lastNode =>
    simp only
    refine foldl_invariant (fun (r : ICFGBuild × Nat) => SameAnalyses r.1.ctx st.ctx) _ b.succs
      ?_ _ ⟨rfl, rfl, rfl⟩
    intro r s _ hr
    exact (icfgSuccEdge_same _ _ r s).trans hr

theorem icfgExitEdge_same (exitNode : Nat) (c0 : CPGContext) (preds : List (Option Nat))
    (st : ICFGBuild) (hst : SameAnalyses st.ctx c0) (r : ICFGBuild)
    (h : preds.foldl (icfgExitEdge exitNode) (some st) = some r) : SameAnalyses r.ctx c0 := by
  have key := foldl_invariant
    (fun (o : Option ICFGBuild) => ∀ r, o = some r → SameAnalyses r.ctx c0)
    (icfgExitEdge exitNode) preds
    (by
      intro o p _ ho r hr
      cases o with
      | none => simp [icfgExitEdge] at hr
      | some st1 =>
        cases p with
        | none =>
          simp only [icfgExitEdge, Option.some.injEq] at hr
          exact hr ▸ ho st1 rfl
        | some pb =>
          simp only [icfgExitEdge] at hr
          cases hf : mapFind pb st1.blockLastNode with
          | none =>
            simp only [hf, Option.some.injEq] at hr
            exact hr ▸ ho st1 rfl
          | some last =>
            cases last with
            | none => simp [hf] at hr
            | some ln =>
              simp only [hf, Option.some.injEq] at hr
              subst hr
              exact (addICFGEdge_same _ _ _ _).trans (ho st1 rfl))
    (some st) (by intro r hr; simp only [Option.some.injEq] at hr; exact hr ▸ hst)
  exact key r h

theorem buildICFG_same (ctx ctx1 : CPGContext) (f : FunctionDecl) (cfg : CFG)
    (hcfg : f.cfg = some cfg) (h : buildICFG ctx f = some ctx1) :
    SameAnalyses ctx1 { ctx with cfgCache := mapSet natLt f.addr cfg ctx.cfgCache } := by
  unfold buildICFG at h
  simp only [hcfg, Option.map_eq_some'] at h
  obtain ⟨r, hr, rfl⟩ := h
  refine icfgExitEdge_same _ _ _ _ ?_ r hr
  have h3 : ∀ (l : List (Nat × CFGBlock)) (st : ICFGBuild),
      SameAnalyses (l.foldl (fun st ib => icfgBlockNodes f.addr st ib.1 ib.2) st).ctx st.ctx := by
    intro l st
    refine foldl_invariant (fun (r : ICFGBuild) => SameAnalyses r.ctx st.ctx) _ l ?_ st (SameAnalyses.refl _)
    intro r ib _ hr
    exact (icfgBlockNodes_same _ r ib.1 ib.2).trans hr
  have h4 : ∀ (l : List (Nat × CFGBlock)) (st : ICFGBuild),
      SameAnalyses (l.foldl (fun st ib => icfgBlockEdges st ib.1 ib.2) st).ctx st.ctx := by
    intro l st
    refine foldl_invariant (fun (r : ICFGBuild) => SameAnalyses r.ctx st.ctx) _ l ?_ st (SameAnalyses.refl _)
    intro r ib _ hr
    exact (icfgBlockEdges_same r ib.1 ib.2).trans hr
  split
  · exact (addICFGEdge_same _ _ _ _).trans (((h4 _ _).trans (h3 _ _)).trans ⟨rfl, rfl, rfl⟩)
  · exact ((h4 _ _).trans (h3 _ _)).trans ⟨rfl, rfl, rfl⟩

theorem computeDataDependencies_frame (ctx : CPGContext) (func : Nat) :
    (computeDataDependencies ctx func).reachingDefsMap = ctx.reachingDefsMap ∧
    (computeDataDependencies ctx func).icfgNodes = ctx.icfgNodes ∧
    (computeDataDependencies ctx func).heap = ctx.heap ∧
    (computeDataDependencies ctx func).cfgCache = ctx.cfgCache := by
  unfold computeDataDependencies
  cases mapFind func ctx.reachingDefsMap with
  | none => exact ⟨rfl, rfl, rfl, rfl⟩
  | some info =>
    simp only
    refine foldl_invariant (fun (c : CPGContext) => c.reachingDefsMap = ctx.reachingDefsMap ∧
      c.icfgNodes = ctx.icfgNodes ∧ c.heap = ctx.heap ∧ c.cfgCache = ctx.cfgCache) _ info.uses ?_
      ctx ⟨rfl, rfl, rfl, rfl⟩
    intro c su _ hc
    unfold dataDepsOfStmt
    refine foldl_invariant (fun (c : CPGContext) => c.reachingDefsMap = ctx.reachingDefsMap ∧
      c.icfgNodes = ctx.icfgNodes ∧ c.heap = ctx.heap ∧ c.cfgCache = ctx.cfgCache) _ su.2 ?_ _ hc
    intro c1 var _ hc1
    refine foldl_invariant (fun (c : CPGContext) => c.reachingDefsMap = ctx.reachingDefsMap ∧
      c.icfgNodes = ctx.icfgNodes ∧ c.heap = ctx.heap ∧ c.cfgCache = ctx.cfgCache) _ _ ?_ _ hc1
    intro c2 d _ hc2
    exact hc2

theorem computeControlDependencies_frame (ctx : CPGContext) (func : Nat) :
    (computeControlDependencies ctx func).reachingDefsMap = ctx.reachingDefsMap ∧
    (computeControlDependencies ctx func).icfgNodes = ctx.icfgNodes ∧
    (computeControlDependencies ctx func).heap = ctx.heap ∧
    (computeControlDependencies ctx func).cfgCache = ctx.cfgCache := by
  unfold computeControlDependencies
  cases getCFG ctx func <;> exact ⟨rfl, rfl, rfl, rfl⟩

theorem getDefinitions_congr (a b : CPGContext) (h1 : a.reachingDefsMap = b.reachingDefsMap)
    (h2 : a.icfgNodes = b.icfgNodes) (h3 : a.heap = b.heap) (S : Nat) (v : String) :
    getDefinitions a S v = getDefinitions b S v := by
  simp [getDefinitions, getContainingFunction, h1, h2, h3]

end cpg

namespace cpg

/-- After `buildCPG` on a function with a body and a flow graph, the reaching
definitions stored for the function are those computed on that flow graph. -/
theorem buildCPG_reachingDefs (ctx ctx1 : CPGContext) (f : FunctionDecl) (cfg : CFG)
    (hbody : f.hasBody = true) (hcfg : f.cfg = some cfg)
    (hbuild : buildCPG ctx (some f) = some ctx1) :
    ∃ info0, mapFind f.addr ctx1.reachingDefsMap = some (reachingDefsOf cfg info0) := by
  simp only [buildCPG, hbody, if_true] at hbuild
  cases hb : buildICFG ctx f with
  | none => simp [hb] at hbuild
  | some c1 =>
    simp only [hb, Option.some.injEq] at hbuild
    have hsame := buildICFG_same ctx c1 f cfg hcfg hb
    have hget : getCFG c1 f.addr = some cfg := by
      unfold getCFG
      rw [hsame.1]
      exact mapFind_mapSet_self _ _ _ _
    have hrd : ctx1.reachingDefsMap =
        mapSet natLt f.addr (reachingDefsOf cfg (mapGetD c1.reachingDefsMap f.addr
          { reachingDefs := [], definitions := [], uses := [] })) c1.reachingDefsMap := by
      rw [← hbuild]
      unfold buildPDG
      rw [(computeControlDependencies_frame _ _).1, (computeDataDependencies_frame _ _).1]
      simp [computeReachingDefinitions, hget]
    exact ⟨_, by rw [hrd]; exact mapFind_mapSet_self _ _ _ _⟩

theorem getDefinitions_eq (ctx : CPGContext) (S func : Nat) (v : String)
    (info : ReachingDefsInfo) (hown : getContainingFunction ctx S = some func)
    (hinfo : mapFind func ctx.reachingDefsMap = some info) :
    getDefinitions ctx S v = mapGetD (mapGetD info.reachingDefs S []) v [] := by
  unfold getDefinitions
  simp only [hown, hinfo, mapGetD]
  cases h1 : mapFind S info.reachingDefs with
  | none => simp [mapFind]
  | some m =>
    simp only [Option.getD_some]
    cases h2 : mapFind v m <;> simp

/-- C1. Reaching-definitions soundness: after `buildCPG` on a function with a
body and a flow graph whose predecessor slots match its successor slots, for
every statement `S` of the flow graph that the context attributes to the
function and every variable `v`, every `D` in `getDefinitions(S, v)` has `v` in
its recorded defined-variable set, and the flow graph has a path from `D` to `S`
(inside a block or along successor edges) on which no statement strictly between
them defines `v`. -/
theorem getDefinitions_sound (ctx ctx1 : CPGContext) (f : FunctionDecl) (cfg : CFG)
    (hbody : f.hasBody = true) (hcfg : f.cfg = some cfg) (hwf : cfg.predsMatchSuccs = true)
    (hbuild : buildCPG ctx (some f) = some ctx1)
    (S : Nat) (hS : S ∈ cfg.stmtAddrs) (hown : getContainingFunction ctx1 S = some f.addr)
    (v : String) (D : Nat) (hD : D ∈ getDefinitions ctx1 S v) :
    ∃ info, mapFind f.addr ctx1.reachingDefsMap = some info ∧
      v ∈ mapGetD info.definitions D [] ∧
      DefClearPath cfg (fun a => mapGetD info.definitions a []) v D S := by
  obtain ⟨info0, hinfo⟩ := buildCPG_reachingDefs ctx ctx1 f cfg hbody hcfg hbuild
  refine ⟨_, hinfo, ?_⟩
  rw [getDefinitions_eq ctx1 S f.addr v _ hown hinfo] at hD
  unfold mapGetD at hD
  cases hm : mapFind S (reachingDefsOf cfg info0).reachingDefs with
  | none => simp [hm, mapFind] at hD
  | some m =>
    cases hdefs : mapFind v m with
    | none => simp [hm, hdefs] at hD
    | some defs =>
      simp only [hm, hdefs, Option.getD_some] at hD
      exact reachingDefsOf_sound cfg hwf _ S hS m hm v defs hdefs D hD

/-- C1 on scenario A: the first statement is a sound definer of `x` at the second. -/
theorem getDefinitions_sound_witness :
    ∃ info, mapFind funcA.addr ctxA.reachingDefsMap = some info ∧
      "x" ∈ mapGetD info.definitions 1 [] ∧
      DefClearPath cfgA (fun a => mapGetD info.definitions a []) "x" 1 2 :=
  getDefinitions_sound CPGContext.empty ctxA funcA cfgA (by decide) rfl (by decide) (by rfl)
    2 (by decide) (by decide) "x" 1 (by decide)

end cpg

namespace cpg

/-! ## Reaching definitions inside one block -/

theorem collectStmts_definitions_notin (l : List Stmt) (info : ReachingDefsInfo) (a : Nat)
    (ha : a ∉ l.map Stmt.addr) :
    mapFind a (l.foldl collectStmt info).definitions = mapFind a info.definitions := by
  induction l generalizing info with
  | nil => rfl
  | cons x rest ih =>
    simp only [List.map_cons, List.mem_cons, not_or] at ha
    simp only [List.foldl_cons]
    rw [ih _ ha.2]
    simp only [collectStmt]
    exact mapFind_mapSet_ne _ _ _ _ _ ha.1

theorem collectStmts_definitions (l : List Stmt) (info : ReachingDefsInfo)
    (hn : (l.map Stmt.addr).Nodup) (s : Stmt) (hs : s ∈ l) :
    mapFind s.addr (l.foldl collectStmt info).definitions = some (getDefinedVars s) := by
  induction l generalizing info with
  | nil => simp at hs
  | cons x rest ih =>
    simp only [List.map_cons, List.nodup_cons] at hn
    simp only [List.foldl_cons]
    rcases List.mem_cons.mp hs with rfl | hs
    · rw [collectStmts_definitions_notin rest _ _ hn.1]
      simp only [collectStmt]
      exact mapFind_mapSet_self _ _ _ _
    · exact ih _ hn.2 hs

theorem collectDefsUses_eq (cfg : CFG) (info : ReachingDefsInfo) :
    collectDefsUses cfg info = (cfg.blocks.flatMap CFGBlock.elems).foldl collectStmt info := by
  unfold collectDefsUses
  generalize cfg.blocks = bs
  induction bs generalizing info with
  | nil => rfl
  | cons b rest ih =>
    simp only [List.foldl_cons, List.flatMap_cons, List.foldl_append]
    exact ih _

theorem stmtAddrs_eq (cfg : CFG) :
    cfg.stmtAddrs = (cfg.blocks.flatMap CFGBlock.elems).map Stmt.addr := by
  unfold CFG.stmtAddrs
  generalize cfg.blocks = bs
  induction bs with
  | nil => rfl
  | cons b rest ih => simp [List.flatMap_cons, ih]

/-- With pairwise distinct statement addresses, the recorded defined-variable
set of a statement of the flow graph is `getDefinedVars` of it. -/
theorem collectDefsUses_definitions (cfg : CFG) (info : ReachingDefsInfo)
    (hn : cfg.stmtAddrs.Nodup) (blk : CFGBlock) (hblk : blk ∈ cfg.blocks) (s : Stmt)
    (hs : s ∈ blk.elems) :
    mapGetD (collectDefsUses cfg info).definitions s.addr [] = getDefinedVars s := by
  rw [collectDefsUses_eq]
  rw [stmtAddrs_eq] at hn
  unfold mapGetD
  rw [collectStmts_definitions _ info hn s (List.mem_flatMap.mpr ⟨blk, hblk, hs⟩)]
  rfl

theorem rdStmts_definitions (l : List Stmt) (st : ReachingDefsInfo × DefMap) :
    (l.foldl rdStmt st).1.definitions = st.1.definitions := by
  induction l generalizing st with
  | nil => rfl
  | cons x rest ih =>
    simp only [List.foldl_cons]
    rw [ih]
    rfl

theorem rdStmts_reachingDefs_notin (l : List Stmt) (st : ReachingDefsInfo × DefMap) (a : Nat)
    (ha : a ∉ l.map Stmt.addr) :
    mapFind a (l.foldl rdStmt st).1.reachingDefs = mapFind a st.1.reachingDefs := by
  induction l generalizing st with
  | nil => rfl
  | cons x rest ih =>
    simp only [List.map_cons, List.mem_cons, not_or] at ha
    simp only [List.foldl_cons]
    rw [ih _ ha.2]
    simp only [rdStmt]
    exact mapFind_mapSet_ne _ _ _ _ _ ha.1

theorem rdStmts_out_pass (dm : List (Nat × List String)) (v : String) (l : List Stmt)
    (st : ReachingDefsInfo × DefMap) (hdm : st.1.definitions = dm)
    (hl : ∀ m ∈ l, v ∉ mapGetD dm m.addr []) :
    mapGetD (l.foldl rdStmt st).2 v [] = mapGetD st.2 v [] := by
  induction l generalizing st with
  | nil => rfl
  | cons x rest ih =>
    simp only [List.foldl_cons]
    rw [ih (rdStmt st x) (by simpa [rdStmt] using hdm)
      (fun m hm => hl m (List.mem_cons_of_mem _ hm))]
    simp only [rdStmt, mapGetD_killGen, hdm]
    rw [if_neg (hl x (List.mem_cons_self _ _))]

/-- Processing `pre ++ D :: mid ++ S :: post` records for `S` exactly `D` as the
definer of `v`. -/
theorem rdStmts_same_block (dm : List (Nat × List String)) (v : String)
    (pre mid post : List Stmt) (D S : Stmt) (st : ReachingDefsInfo × DefMap)
    (hdm : st.1.definitions = dm) (hD : v ∈ mapGetD dm D.addr [])
    (hmid : ∀ m ∈ mid, v ∉ mapGetD dm m.addr []) (hpost : S.addr ∉ post.map Stmt.addr) :
    ∃ m, mapFind S.addr ((pre ++ D :: (mid ++ S :: post)).foldl rdStmt st).1.reachingDefs = some m ∧
      mapGetD m v [] = [D.addr] := by
  simp only [List.foldl_append, List.foldl_cons]
  rw [rdStmts_reachingDefs_notin post _ _ hpost]
  refine ⟨_, by simp only [rdStmt]; exact mapFind_mapSet_self _ _ _ _, ?_⟩
  have hdm1 : (pre.foldl rdStmt st).1.definitions = dm := by
    rw [rdStmts_definitions]; exact hdm
  rw [rdStmts_out_pass dm v mid _ (by simpa [rdStmt] using hdm1) hmid]
  simp only [rdStmt, mapGetD_killGen, hdm1]
  rw [if_pos hD]

theorem rdBlock_definitions (st : RDState) (idx : Nat) (block : CFGBlock) :
    (rdBlock st idx block).info.definitions = st.info.definitions := by
  simp only [rdBlock]
  rw [rdStmts_definitions]

theorem rdBlocks_definitions (l : List (Nat × CFGBlock)) (st : RDState) :
    (l.foldl (fun s ib => rdBlock s ib.1 ib.2) st).info.definitions = st.info.definitions := by
  induction l generalizing st with
  | nil => rfl
  | cons x rest ih =>
    simp only [List.foldl_cons]
    rw [ih, rdBlock_definitions]

theorem rdBlocks_reachingDefs_notin (l : List (Nat × CFGBlock)) (st : RDState) (a : Nat)
    (ha : ∀ ib ∈ l, a ∉ ib.2.elems.map Stmt.addr) :
    mapFind a (l.foldl (fun s ib => rdBlock s ib.1 ib.2) st).info.reachingDefs =
      mapFind a st.info.reachingDefs := by
  induction l generalizing st with
  | nil => rfl
  | cons x rest ih =>
    simp only [List.foldl_cons]
    rw [ih _ (fun ib hib => ha ib (List.mem_cons_of_mem _ hib))]
    simp only [rdBlock]
    exact rdStmts_reachingDefs_notin _ _ _ (ha x (List.mem_cons_self _ _))

theorem withIndex_append {α : Type} (l1 l2 : List α) (i : Nat) :
    withIndex i (l1 ++ l2) = withIndex i l1 ++ withIndex (i + l1.length) l2 := by
  induction l1 generalizing i with
  | nil => simp [withIndex]
  | cons x rest ih =>
    have h : i + 1 + rest.length = i + (rest.length + 1) := by omega
    show (i, x) :: withIndex (i + 1) (rest ++ l2) =
      (i, x) :: withIndex (i + 1) rest ++ withIndex (i + (rest.length + 1)) l2
    rw [ih, h]
    rfl

theorem mem_withIndex_snd {α : Type} (l : List α) (i j : Nat) (a : α)
    (h : (j, a) ∈ withIndex i l) : a ∈ l := by
  have := (mem_withIndex l i j a h).2
  exact List.getElem?_mem this

theorem rdLoop_last_pass (cfg : CFG) (dm : List (Nat × List String)) :
    ∀ (n : Nat) (st : RDState), st.info.definitions = dm →
      ∃ st1, st1.info.definitions = dm ∧ rdLoop cfg (n + 1) st = rdPass cfg st1 := by
  intro n
  induction n with
  | zero =>
    intro st hst
    refine ⟨st, hst, ?_⟩
    simp only [rdLoop]
    split <;> rfl
  | succ n ih =>
    intro st hst
    have hp : (rdPass cfg st).info.definitions = dm := by
      unfold rdPass
      rw [rdBlocks_definitions]
      exact hst
    rw [rdLoop]
    by_cases hc : (rdPass cfg st).changed = true
    · rw [if_pos hc]
      exact ih _ hp
    · rw [if_neg hc]
      exact ⟨st, hst, rfl⟩

/-- The reaching definitions of a statement `S` that follows a definition `D`
of `v` in its block, with no definition of `v` between them. -/
theorem reachingDefsOf_same_block (cfg : CFG) (info : ReachingDefsInfo)
    (hn : cfg.stmtAddrs.Nodup) (b : Nat) (pre mid post : List Stmt) (D S : Stmt) (v : String)
    (helems : (cfg.block b).elems = pre ++ D :: (mid ++ S :: post))
    (hD : v ∈ getDefinedVars D) (hmid : ∀ m ∈ mid, v ∉ getDefinedVars m) :
    ∃ m, mapFind S.addr (reachingDefsOf cfg info).reachingDefs = some m ∧
      mapGetD m v [] = [D.addr] := by
  -- the block is a block of the graph
  have hb : b < cfg.blocks.length := by
    by_contra hlt
    have : cfg.block b = { elems := [], preds := [], succs := [], terminator := .null } :=
      List.getD_eq_default _ _ (by omega)
    rw [this] at helems
    simp at helems
  have hblk : cfg.block b = cfg.blocks[b] := List.getD_eq_getElem _ _ hb
  have hsplit : cfg.blocks = cfg.blocks.take b ++ cfg.blocks[b] :: cfg.blocks.drop (b + 1) := by
    rw [← List.drop_eq_getElem_cons hb, List.take_append_drop]
  obtain ⟨st1, hst1, hloop⟩ := rdLoop_last_pass cfg (collectDefsUses cfg info).definitions 99
    { info := collectDefsUses cfg info, blockOut := [], changed := true } rfl
  have hmem : cfg.blocks[b] ∈ cfg.blocks := List.getElem_mem _
  -- the recorded defined-variable sets
  have hDdm : v ∈ mapGetD (collectDefsUses cfg info).definitions D.addr [] := by
    rw [collectDefsUses_definitions cfg info hn _ hmem D (by rw [← hblk, helems]; simp)]
    exact hD
  have hmiddm : ∀ m ∈ mid, v ∉ mapGetD (collectDefsUses cfg info).definitions m.addr [] := by
    intro m hm
    rw [collectDefsUses_definitions cfg info hn _ hmem m (by rw [← hblk, helems]; simp [hm])]
    exact hmid m hm
  -- distinct addresses
  have hn2 : ((cfg.blocks.take b).flatMap (fun b => b.elems.map Stmt.addr) ++
      ((pre ++ D :: mid).map Stmt.addr ++ S.addr :: post.map Stmt.addr) ++
      (cfg.blocks.drop (b + 1)).flatMap (fun b => b.elems.map Stmt.addr)).Nodup := by
    have := hn
    unfold CFG.stmtAddrs at this
    rw [hsplit, List.flatMap_append, List.flatMap_cons, ← hblk, helems] at this
    simpa [List.append_assoc] using this
  have hpost : S.addr ∉ post.map Stmt.addr := by
    have h1 := (List.nodup_append.mp hn2).1
    have h2 := (List.nodup_append.mp h1).2.1
    have h3 := (List.nodup_append.mp h2).2.1
    exact (List.nodup_cons.mp h3).1
  have hlater : ∀ ib ∈ withIndex (b + 1) (cfg.blocks.drop (b + 1)),
      S.addr ∉ ib.2.elems.map Stmt.addr := by
    intro ib hib hS
    have hmem2 : ib.2 ∈ cfg.blocks.drop (b + 1) := mem_withIndex_snd _ _ ib.1 ib.2 hib
    have h1 := (List.nodup_append.mp hn2).2.2
    exact h1 (a := S.addr) (by simp) (List.mem_flatMap.mpr ⟨ib.2, hmem2, hS⟩)
  -- the last pass
  unfold reachingDefsOf
  rw [show (100 : Nat) = 99 + 1 from rfl, hloop]
  unfold rdPass
  have hidx : withIndex 0 cfg.blocks = withIndex 0 (cfg.blocks.take b) ++
      (b, cfg.blocks[b]) :: withIndex (b + 1) (cfg.blocks.drop (b + 1)) := by
    conv_lhs => rw [hsplit]
    rw [withIndex_append]
    have hlen : (cfg.blocks.take b).length = b := by
      rw [List.length_take]; omega
    simp [withIndex, hlen]
  rw [hidx, List.foldl_append, List.foldl_cons, rdBlocks_reachingDefs_notin _ _ _ hlater]
  simp only [rdBlock]
  rw [← hblk, helems]
  apply rdStmts_same_block (collectDefsUses cfg info).definitions v pre mid post D S _ _ hDdm
    hmiddm hpost
  show (List.foldl (fun (s : RDState) (ib : Nat × CFGBlock) => rdBlock s ib.1 ib.2) _ _).info.definitions
    = _
  rw [rdBlocks_definitions]
  exact hst1

/-- C8. Scenario A, generalised: in a flow graph whose statements have pairwise
distinct addresses, if `D` comes before `S` in a block, `D` defines `v` and no
statement strictly between them defines `v`, then after `buildCPG`
`getDefinitions(S, v)` is exactly `{D}`. -/
theorem getDefinitions_same_block (ctx ctx1 : CPGContext) (f : FunctionDecl) (cfg : CFG)
    (hbody : f.hasBody = true) (hcfg : f.cfg = some cfg)
    (hbuild : buildCPG ctx (some f) = some ctx1) (hn : cfg.stmtAddrs.Nodup)
    (b : Nat) (pre mid post : List Stmt) (D S : Stmt) (v : String)
    (helems : (cfg.block b).elems = pre ++ D :: (mid ++ S :: post))
    (hD : v ∈ getDefinedVars D) (hmid : ∀ m ∈ mid, v ∉ getDefinedVars m)
    (hown : getContainingFunction ctx1 S.addr = some f.addr) :
    getDefinitions ctx1 S.addr v = [D.addr] := by
  obtain ⟨info0, hinfo⟩ := buildCPG_reachingDefs ctx ctx1 f cfg hbody hcfg hbuild
  rw [getDefinitions_eq ctx1 S.addr f.addr v _ hown hinfo]
  obtain ⟨m, hm, hv⟩ := reachingDefsOf_same_block cfg info0 hn b pre mid post D S v helems hD hmid
  simp only [mapGetD, hm, Option.getD_some]
  exact hv

/-- Scenario A itself: in `x = 1; y = x + 1;` the definitions of `x` at the
second statement are exactly the first statement. -/
theorem getDefinitions_same_block_witness :
    getDefinitions ctxA stmtA2.addr "x" = [stmtA1.addr] :=
  getDefinitions_same_block CPGContext.empty ctxA funcA cfgA (by decide) rfl (by rfl)
    (by decide) 1 [] [] [] stmtA1 stmtA2 "x" rfl (by decide) (by simp) (by decide)

end cpg

namespace cpg

/-! ## Control dependence -/

theorem mapFind_ensurePDGNode (pdg : List (Nat × PDGNode)) (s func s1 : Nat) :
    mapFind s1 (ensurePDGNode pdg s func) =
      if s1 = s then
        some ((mapFind s pdg).getD { stmt := s, func := some func, dataDeps := [], controlDeps := [] })
      else mapFind s1 pdg := by
  unfold ensurePDGNode
  cases h : mapFind s pdg with
  | none =>
    simp only [mapFind_mapSet, Option.getD_none]
  | some n =>
    by_cases h1 : s1 = s
    · simp [h1, h]
    · simp [h1]

theorem mapFind_addControlDep (pdg : List (Nat × PDGNode)) (s s1 : Nat) (dep : ControlDependency) :
    mapFind s1 (addControlDep pdg s dep) =
      if s1 = s then
        (mapFind s pdg).map (fun n => { n with controlDeps := n.controlDeps ++ [dep] })
      else mapFind s1 pdg := by
  unfold addControlDep
  cases h : mapFind s pdg with
  | none =>
    by_cases h1 : s1 = s
    · simp [h1, h]
    · simp [h1]
  | some n =>
    simp only [mapFind_mapSet, Option.map_some']

theorem cdDeps_cdMark (pdg : List (Nat × PDGNode)) (func term : Nat) (bv : Bool) (st : Stmt)
    (s : Nat) :
    cdDeps (cdMark func term bv pdg st) s =
      if s = st.addr then
        cdDeps pdg s ++ [{ controlStmt := term, dependentStmt := st.addr, branchValue := bv }]
      else cdDeps pdg s := by
  unfold cdDeps cdMark
  rw [mapFind_addControlDep, mapFind_ensurePDGNode]
  by_cases hs : s = st.addr
  · subst hs
    simp only [if_true, Option.map_some']
    cases mapFind st.addr pdg <;> simp
  · simp only [hs, if_false]
    rw [mapFind_ensurePDGNode]
    simp only [hs, if_false]

theorem cdMark_inv (cfg : CFG) (postDom : PostDomMap) (pdg0 pdg : List (Nat × PDGNode))
    (func term : Nat) (bv : Bool) (st : Stmt) (h : CDInv cfg postDom pdg0 pdg)
    (hgood : CDConsistent cfg postDom st.addr
      { controlStmt := term, dependentStmt := st.addr, branchValue := bv }) :
    CDInv cfg postDom pdg0 (cdMark func term bv pdg st) := by
  intro s
  obtain ⟨added, hadd, hall⟩ := h s
  rw [cdDeps_cdMark]
  by_cases hs : s = st.addr
  · subst hs
    refine ⟨added ++ [{ controlStmt := term, dependentStmt := st.addr, branchValue := bv }], ?_, ?_⟩
    · simp [hadd]
    · intro dep hdep
      rcases List.mem_append.mp hdep with h1 | h1
      · exact hall dep h1
      · simp only [List.mem_singleton] at h1
        rw [h1]
        exact hgood
  · rw [if_neg hs]
    exact ⟨added, hadd, hall⟩

theorem mem_cdPush (succs : List (Option Nat)) (st : List Nat × List Nat) (w : Nat)
    (hw : w ∈ (succs.foldl cdPush st).1) : w ∈ st.1 ∨ some w ∈ succs := by
  induction succs generalizing st with
  | nil => left; simpa using hw
  | cons x rest ih =>
    simp only [List.foldl_cons] at hw
    rcases ih _ hw with h | h
    · cases x with
      | none => left; simpa [cdPush] using h
      | some nb =>
        simp only [cdPush] at h
        split at h
        · left; exact h
        · simp only [List.mem_append, List.mem_singleton] at h
          rcases h with h | h
          · left; exact h
          · right; simp [h]
    · right; exact List.mem_cons_of_mem _ h

theorem cdSearch_inv (cfg : CFG) (postDom : PostDomMap) (pdg0 : List (Nat × PDGNode))
    (func block i start : Nat) (term : Stmt)
    (hterm : isIfOrWhile (cfg.block block).terminator = true)
    (hta : (cfg.block block).terminator = term)
    (hsucc : (cfg.block block).succs[i]? = some (some start)) :
    ∀ (fuel : Nat) (st : CDSearch), CDInv cfg postDom pdg0 st.pdg →
      (∀ w ∈ st.worklist, w = start ∨
        ∃ x, CDReach cfg postDom block start x ∧ some w ∈ (cfg.block x).succs) →
      CDInv cfg postDom pdg0
        (cdSearch cfg postDom func block term.addr (decide (i = 0)) fuel st).pdg := by
  intro fuel
  induction fuel with
  | zero => intro st h _; exact h
  | succ fuel ih =>
    intro st h hwl
    rw [cdSearch]
    split
    · exact h
    · rename_i current rest hcur
      rw [hcur] at hwl
      by_cases hpd : block ∈ mapGetD postDom current []
      · rw [if_pos hpd]
        exact ih _ h (fun w hw => hwl w (List.mem_cons_of_mem _ hw))
      · rw [if_neg hpd]
        have hreach : CDReach cfg postDom block start current := by
          rcases hwl current (List.mem_cons_self _ _) with h1 | ⟨x, hx, hxs⟩
          · rw [h1] at hpd ⊢
            exact CDReach.start hpd
          · exact CDReach.step x current hx hxs hpd
        apply ih
        · show CDInv cfg postDom pdg0
            ((cfg.block current).elems.foldl (cdMark func term.addr (decide (i = 0))) st.pdg)
          refine foldl_invariant (fun p => CDInv cfg postDom pdg0 p) _ _ ?_ _ h
          intro p s hs hp
          refine cdMark_inv cfg postDom pdg0 p func term.addr _ s hp ⟨rfl, block, i, start, current,
            hterm, by rw [hta], hsucc, rfl, hreach, List.mem_map.mpr ⟨s, hs, rfl⟩⟩
        · intro w hw
          rcases mem_cdPush _ _ w hw with h1 | h1
          · exact hwl w (List.mem_cons_of_mem _ h1)
          · exact Or.inr ⟨current, hreach, h1⟩

theorem getElem?_of_mem_withIndex {α : Type} (l : List α) (j : Nat) (a : α)
    (h : (j, a) ∈ withIndex 0 l) : l[j]? = some a := by
  simpa using (mem_withIndex l 0 j a h).2

theorem cdBlock_inv (cfg : CFG) (postDom : PostDomMap) (pdg0 pdg : List (Nat × PDGNode))
    (func : Nat) (ib : Nat × CFGBlock) (hib : (ib.1, ib.2) ∈ withIndex 0 cfg.blocks)
    (h : CDInv cfg postDom pdg0 pdg) : CDInv cfg postDom pdg0 (cdBlock cfg postDom func pdg ib) := by
  have hblk : cfg.block ib.1 = ib.2 := block_of_mem_withIndex cfg ib.1 ib.2 hib
  unfold cdBlock
  by_cases hterm : isIfOrWhile ib.2.terminator = true
  · rw [if_pos hterm]
    refine foldl_invariant (fun p => CDInv cfg postDom pdg0 p) _ _ ?_ _ h
    intro p br hbr hp
    unfold cdBranch
    cases hb : br.2 with
    | none => exact hp
    | some start =>
      simp only
      have hs : ib.2.succs[br.1]? = some (some start) := by
        rw [← hb]
        exact getElem?_of_mem_withIndex _ _ _ hbr
      refine cdSearch_inv cfg postDom pdg0 func ib.1 br.1 start ib.2.terminator
        (by rw [hblk]; exact hterm) (by rw [hblk]) (by rw [hblk]; exact hs) _ _ hp ?_
      intro w hw
      left
      simpa using hw
  · rw [if_neg hterm]
    exact h

/-- C2. Control-dependence consistency: `computeControlDependencies` keeps the
records a statement `s` had and appends records each of which has `s` as its
dependent statement, the `if`/`while` terminator of some block `T` as its
controlling statement and a branch value that is true exactly when the search
started from the first successor slot of `T`; and `s` lies in a block reached
from that successor along successor edges through blocks, the block of `s`
included, none of which has `T` in its computed post-dominator set. -/
theorem controlDependencies_consistent (ctx : CPGContext) (func : Nat) (cfg : CFG)
    (hcfg : getCFG ctx func = some cfg) (s : Nat) :
    ∃ added, getControlDependencies (computeControlDependencies ctx func) s =
        getControlDependencies ctx s ++ added ∧
      ∀ dep ∈ added, CDConsistent cfg (computePostDominators ctx func []) s dep := by
  have hinv : CDInv cfg (computePostDominators ctx func []) ctx.pdgNodes
      (computeControlDependencies ctx func).pdgNodes := by
    unfold computeControlDependencies
    simp only [hcfg]
    refine foldl_invariant
      (fun p => CDInv cfg (computePostDominators ctx func []) ctx.pdgNodes p) _ _ ?_ _ ?_
    · intro p ib hib hp
      exact cdBlock_inv cfg _ ctx.pdgNodes p func ib hib hp
    · intro s1
      exact ⟨[], by simp, by simp⟩
  exact hinv s

/-- C2 on `if (c) { x = 1; } y = 2;`: the records added to `x = 1`. -/
theorem controlDependencies_consistent_witness :
    ∃ added, getControlDependencies (computeControlDependencies ctxB 200) 32 =
        getControlDependencies ctxB 32 ++ added ∧
      ∀ dep ∈ added, CDConsistent cfgB (computePostDominators ctxB 200 []) 32 dep :=
  controlDependencies_consistent ctxB 200 cfgB rfl 32

end cpg

namespace cpg

/-! ## The forward search of control dependence terminates within its bound -/

theorem filter_length_succ_le {α : Type} (p q : α → Bool) (l : List α)
    (hqp : ∀ x, q x = true → p x = true) (x : α) (hx : x ∈ l) (hpx : p x = true)
    (hqx : q x = false) : (l.filter q).length + 1 ≤ (l.filter p).length := by
  induction l with
  | nil => simp at hx
  | cons y rest ih =>
    have hmono : (rest.filter q).length ≤ (rest.filter p).length := by
      clear ih hx
      induction rest with
      | nil => simp
      | cons z zs ihz =>
        simp only [List.filter_cons]
        by_cases hq : q z = true
        · simp [hq, hqp z hq, ihz]
        · by_cases hp : p z = true
          · simp [hq, hp]; omega
          · simp [hq, hp, ihz]
    rcases List.mem_cons.mp hx with rfl | hx
    · simp [List.filter_cons, hpx, hqx]
      exact hmono
    · have := ih hx
      simp only [List.filter_cons]
      by_cases hq : q y = true
      · simp [hq, hqp y hq]; omega
      · by_cases hp : p y = true
        · simp [hq, hp]; omega
        · simp [hq, hp]; omega

theorem cdPush_measure (cfg : CFG) (succs : List (Option Nat))
    (hsub : ∀ o ∈ succs, o ∈ cfg.allSuccs) (st : List Nat × List Nat) :
    (succs.foldl cdPush st).1.length + (unseenSlots cfg (succs.foldl cdPush st).2).length ≤
      st.1.length + (unseenSlots cfg st.2).length := by
  induction succs generalizing st with
  | nil => simp
  | cons o rest ih =>
    simp only [List.foldl_cons]
    refine le_trans (ih (fun o ho => hsub o (List.mem_cons_of_mem _ ho)) _) ?_
    cases o with
    | none => simp [cdPush]
    | some nb =>
      simp only [cdPush]
      by_cases hv : nb ∈ st.2
      · simp [hv]
      · simp only [hv, if_false, List.length_append, List.length_singleton]
        have := filter_length_succ_le
          (fun o => match o with
            | some nb => decide (nb ∉ st.2)
            | none => false)
          (fun o => match o with
            | some nb1 => decide (nb1 ∉ setInsert natLt nb st.2)
            | none => false)
          cfg.allSuccs
          (by
            intro x hx
            cases x with
            | none => simp at hx
            | some y =>
              simp only [decide_eq_true_eq, mem_setInsert, not_or] at hx ⊢
              exact hx.2)
          (some nb) (hsub _ (List.mem_cons_self _ _)) (by simpa using hv)
          (by simp [mem_setInsert])
        unfold unseenSlots
        omega

theorem block_succs_sub (cfg : CFG) (b : Nat) : ∀ o ∈ (cfg.block b).succs, o ∈ cfg.allSuccs := by
  intro o ho
  by_cases hb : b < cfg.blocks.length
  · have hblk : cfg.block b = cfg.blocks[b] := List.getD_eq_getElem _ _ hb
    rw [hblk] at ho
    exact List.mem_flatMap.mpr ⟨cfg.blocks[b], List.getElem_mem _, ho⟩
  · have hblk : cfg.block b = { elems := [], preds := [], succs := [], terminator := .null } :=
      List.getD_eq_default _ _ (by omega)
    rw [hblk] at ho
    simp at ho

theorem cdSearch_worklist_nil (cfg : CFG) (postDom : PostDomMap) (func block term : Nat)
    (bv : Bool) :
    ∀ (fuel : Nat) (st : CDSearch),
      st.worklist.length + (unseenSlots cfg st.visited).length ≤ fuel →
      (cdSearch cfg postDom func block term bv fuel st).worklist = [] := by
  intro fuel
  induction fuel with
  | zero =>
    intro st h
    rw [cdSearch]
    exact List.length_eq_zero.mp (by omega)
  | succ fuel ih =>
    intro st h
    rw [cdSearch]
    split
    · rename_i hnil; exact hnil
    · rename_i current rest hcur
      rw [hcur] at h
      simp only [List.length_cons] at h
      by_cases hpd : block ∈ mapGetD postDom current []
      · rw [if_pos hpd]
        exact ih _ (by simp only; omega)
      · rw [if_neg hpd]
        apply ih
        have := cdPush_measure cfg (cfg.block current).succs (block_succs_sub cfg current)
          (rest, st.visited)
        simp only at this ⊢
        omega

/-- The bound given to the forward search is never used up: the search stops
because its worklist is empty. -/
theorem cdSearch_terminates (cfg : CFG) (postDom : PostDomMap) (func block term : Nat)
    (bv : Bool) (succBlock : Nat) (pdg : List (Nat × PDGNode)) :
    (cdSearch cfg postDom func block term bv cfg.searchBound
      { worklist := [succBlock], visited := setInsert natLt succBlock [], pdg := pdg }).worklist
      = [] := by
  apply cdSearch_worklist_nil
  have : (unseenSlots cfg (setInsert natLt succBlock [])).length ≤ cfg.allSuccs.length :=
    List.length_filter_le _ _
  simp only [List.length_singleton, CFG.searchBound]
  omega

end cpg

namespace cpg

/-! ## `findAllPaths` -/

theorem erase_setInsert (a : Nat) (s : List Nat) (h : a ∉ s) :
    (setInsert natLt a s).erase a = s := by
  induction s with
  | nil => simp [setInsert]
  | cons b rest ih =>
    simp only [List.mem_cons, not_or] at h
    unfold setInsert
    rw [if_neg h.1]
    by_cases hl : natLt a b = true
    · rw [if_pos hl]
      simp
    · rw [if_neg hl]
      rw [List.erase_cons_tail (by simpa using Ne.symm h.1)]
      rw [ih h.2]

theorem dfs_eq_pathsFrom (ctx : CPGContext) (sink : Nat) (maxDepth : Int) :
    ∀ (budget node : Nat) (depth : Int) (st : DfsState), node ∉ st.visited →
      dfs ctx sink maxDepth budget node depth st =
        { allPaths := st.allPaths ++
            pathsFrom ctx sink maxDepth budget node depth st.currentPath st.visited
          currentPath := st.currentPath
          visited := st.visited } := by
  intro budget
  induction budget with
  | zero =>
    intro node depth st _
    simp [dfs, pathsFrom]
  | succ budget ih =>
    intro node depth st hnode
    rw [dfs, pathsFrom]
    by_cases hd : depth > maxDepth
    · simp [hd]
    · rw [if_neg hd, if_neg hd]
      by_cases hs : node = sink
      · simp [hs, erase_setInsert _ _ (hs ▸ hnode)]
      · simp only [hs, if_false]
        -- the loop over the successors
        have hloop : ∀ (succs : List Nat) (s : DfsState),
            s.visited = setInsert natLt node st.visited →
            s.currentPath = st.currentPath ++ [node] →
            succs.foldl (fun s succ =>
              if succ ∈ s.visited then s
              else dfs ctx sink maxDepth budget succ (depth + 1) s) s =
            { allPaths := s.allPaths ++ succs.flatMap (fun succ =>
                if succ ∈ setInsert natLt node st.visited then []
                else pathsFrom ctx sink maxDepth budget succ (depth + 1)
                  (st.currentPath ++ [node]) (setInsert natLt node st.visited))
              currentPath := s.currentPath
              visited := s.visited } := by
          intro succs
          induction succs with
          | nil => intro s _ _; simp
          | cons x rest ihr =>
            intro s hv hc
            simp only [List.foldl_cons, List.flatMap_cons]
            by_cases hx : x ∈ s.visited
            · rw [if_pos hx, ihr s hv hc]
              rw [hv] at hx
              simp [hx]
            · rw [if_neg hx, ih x (depth + 1) s hx]
              rw [ihr { allPaths := s.allPaths ++
                          pathsFrom ctx sink maxDepth budget x (depth + 1) s.currentPath s.visited
                        currentPath := s.currentPath
                        visited := s.visited } hv hc]
              rw [hv] at hx
              simp [hx, hv, hc]
        rw [hloop _ _ rfl rfl]
        simp [erase_setInsert _ _ hnode]

theorem mem_pathsFrom (ctx : CPGContext) (sink : Nat) (maxDepth : Int) :
    ∀ (budget node : Nat) (depth : Int) (cur vis : List Nat), node ∉ vis →
      maxDepth + 1 ≤ depth + budget →
      ∀ q, q ∈ pathsFrom ctx sink maxDepth budget node depth cur vis ↔
        ∃ tail, q = cur ++ node :: tail ∧
          (node :: tail).Chain' (fun a b => b ∈ getSuccessors ctx a) ∧
          (node :: tail).getLast? = some sink ∧ (node :: tail).Nodup ∧
          (∀ x ∈ tail, x ∉ vis) ∧ depth + tail.length ≤ maxDepth := by
  intro budget
  induction budget with
  | zero =>
    intro node depth cur vis _ hb q
    simp only [pathsFrom, List.not_mem_nil, false_iff]
    rintro ⟨tail, _, _, _, _, _, hlen⟩
    have : (0 : Int) ≤ tail.length := Int.natCast_nonneg _
    simp only [Nat.cast_zero, add_zero] at hb
    omega
  | succ budget ih =>
    intro node depth cur vis hnode hb q
    rw [pathsFrom]
    by_cases hd : depth > maxDepth
    · rw [if_pos hd]
      simp only [List.not_mem_nil, false_iff]
      rintro ⟨tail, _, _, _, _, _, hlen⟩
      have : (0 : Int) ≤ tail.length := Int.natCast_nonneg _
      omega
    · rw [if_neg hd]
      by_cases hs : node = sink
      · rw [if_pos hs]
        simp only [List.mem_singleton]
        constructor
        · intro hq
          refine ⟨[], hq, by simp, by simp [hs], by simp, by simp, ?_⟩
          simp only [List.length_nil, Nat.cast_zero, add_zero]
          omega
        · rintro ⟨tail, hq, _, hlast, hnd, _, _⟩
          cases tail with
          | nil => exact hq
          | cons t ts =>
            exfalso
            have hmem : sink ∈ t :: ts := by
              have h1 : (node :: t :: ts).getLast? = (t :: ts).getLast? := by
                simp [List.getLast?_cons_cons]
              rw [h1] at hlast
              exact List.mem_of_getLast?_eq_some hlast
            rw [List.nodup_cons] at hnd
            exact hnd.1 (hs ▸ hmem)
      · rw [if_neg hs]
        simp only [List.mem_flatMap]
        have hb1 : maxDepth + 1 ≤ depth + 1 + budget := by
          push_cast at hb
          omega
        constructor
        · rintro ⟨succ, hsucc, hq⟩
          by_cases hv : succ ∈ setInsert natLt node vis
          · simp [hv] at hq
          · rw [if_neg hv] at hq
            obtain ⟨tail, hq1, hch, hlast, hnd, hvis, hlen⟩ :=
              (ih succ (depth + 1) (cur ++ [node]) _ hv hb1 q).mp hq
            have hv2 : succ ≠ node ∧ succ ∉ vis := by
              simpa [mem_setInsert, not_or] using hv
            refine ⟨succ :: tail, by simpa using hq1, ?_, ?_, ?_, ?_, ?_⟩
            · exact List.Chain'.cons hsucc hch
            · simpa [List.getLast?_cons_cons] using hlast
            · rw [List.nodup_cons]
              refine ⟨?_, hnd⟩
              intro hmem
              rcases List.mem_cons.mp hmem with h1 | h1
              · exact hv2.1 h1.symm
              · exact hvis node h1 (by simp [mem_setInsert])
            · intro x hx
              rcases List.mem_cons.mp hx with h1 | h1
              · rw [h1]; exact hv2.2
              · intro hxv
                exact hvis x h1 (by simp [mem_setInsert, hxv])
            · simp only [List.length_cons, Nat.cast_add, Nat.cast_one]
              omega
        · rintro ⟨tail, hq, hch, hlast, hnd, hvis, hlen⟩
          cases tail with
          | nil =>
            exfalso
            simp at hlast
            exact hs hlast
          | cons succ tail =>
            rw [List.nodup_cons] at hnd
            have hsn : succ ≠ node := by
              intro h
              exact hnd.1 (by simp [h])
            have hv : succ ∉ setInsert natLt node vis := by
              simp only [mem_setInsert, not_or]
              exact ⟨hsn, hvis succ (List.mem_cons_self _ _)⟩
            refine ⟨succ, (List.chain'_cons.mp hch).1, ?_⟩
            rw [if_neg hv]
            refine (ih succ (depth + 1) (cur ++ [node]) _ hv hb1 q).mpr
              ⟨tail, by simpa using hq, (List.chain'_cons.mp hch).2, ?_, hnd.2, ?_, ?_⟩
            · simpa [List.getLast?_cons_cons] using hlast
            · intro x hx
              simp only [mem_setInsert, not_or]
              refine ⟨?_, hvis x (List.mem_cons_of_mem _ hx)⟩
              intro hxn
              exact hnd.1 (by simp [← hxn, hx])
            · simp only [List.length_cons, Nat.cast_add, Nat.cast_one] at hlen
              omega

/-- The paths `findAllPaths` returns are the simple paths from `source` to
`sink` with at most `maxDepth` edges. -/
theorem mem_findAllPaths (ctx : CPGContext) (source sink : Nat) (maxDepth : Int)
    (p : List Nat) :
    p ∈ findAllPaths ctx source sink maxDepth ↔
      IsSimplePath ctx source sink p ∧ (p.length : Int) ≤ maxDepth + 1 := by
  unfold findAllPaths
  rw [dfs_eq_pathsFrom ctx sink maxDepth _ source 0 _ (by simp)]
  simp only [List.nil_append]
  have hb : maxDepth + 1 ≤ 0 + ((maxDepth + 1).toNat : Int) := by
    have := Int.self_le_toNat (maxDepth + 1)
    omega
  rw [mem_pathsFrom ctx sink maxDepth _ source 0 [] [] (by simp) hb p]
  unfold IsSimplePath
  constructor
  · rintro ⟨tail, rfl, hch, hlast, hnd, _, hlen⟩
    refine ⟨⟨by simp, hlast, hch, hnd⟩, ?_⟩
    simp only [List.nil_append, List.length_cons, Nat.cast_add, Nat.cast_one]
    omega
  · rintro ⟨⟨hhead, hlast, hch, hnd⟩, hlen⟩
    cases p with
    | nil => simp at hhead
    | cons x tail =>
      simp only [List.head?_cons, Option.some.injEq] at hhead
      subst hhead
      refine ⟨tail, by simp, hch, hlast, hnd, by simp, ?_⟩
      simp only [List.length_cons, Nat.cast_add, Nat.cast_one] at hlen
      omega

end cpg

namespace cpg

/-- C4, as stated, fails: with `maxDepth = 1` the path from the first to the
second statement node of scenario A is returned, and it has two nodes. -/
theorem findAllPaths_longer_than_maxDepth :
    ¬ ∀ p ∈ findAllPaths ctxA 2 3 1, (p.length : Int) ≤ 1 := by
  decide

/-- C4, amended. Path-search bound: no path returned by
`findAllPaths(source, sink, maxDepth)` has more than `maxDepth + 1` nodes, that
is more than `maxDepth` edges. -/
theorem findAllPaths_length_le (ctx : CPGContext) (source sink : Nat) (maxDepth : Int)
    (p : List Nat) (hp : p ∈ findAllPaths ctx source sink maxDepth) :
    (p.length : Int) ≤ maxDepth + 1 :=
  ((mem_findAllPaths ctx source sink maxDepth p).mp hp).2

/-- C4, amended, on scenario A: the returned path has two nodes, `maxDepth` is 1. -/
theorem findAllPaths_length_le_witness : ((([2, 3] : List Nat).length : Nat) : Int) ≤ 1 + 1 :=
  findAllPaths_length_le ctxA 2 3 1 [2, 3] (by decide)

/-- C5. `findAllPaths` enumerates exactly the simple paths: every returned
sequence starts at `source`, ends at `sink`, follows successor edges and holds no
node twice; and every such sequence with at most `maxDepth` edges is returned. -/
theorem findAllPaths_simple_paths (ctx : CPGContext) (source sink : Nat) (maxDepth : Int) :
    (∀ p ∈ findAllPaths ctx source sink maxDepth, IsSimplePath ctx source sink p) ∧
    (∀ p, IsSimplePath ctx source sink p → (p.length : Int) - 1 ≤ maxDepth →
      p ∈ findAllPaths ctx source sink maxDepth) := by
  constructor
  · intro p hp
    exact ((mem_findAllPaths ctx source sink maxDepth p).mp hp).1
  · intro p hp hlen
    exact (mem_findAllPaths ctx source sink maxDepth p).mpr ⟨hp, by omega⟩

/-- C5 on scenario A: the simple path between the two statement nodes is returned. -/
theorem findAllPaths_simple_paths_witness : [2, 3] ∈ findAllPaths ctxA 2 3 5 :=
  (findAllPaths_simple_paths ctxA 2 3 5).2 [2, 3]
    ⟨by decide, by decide, List.chain'_pair.mpr (by decide), by decide⟩ (by decide)

/-- C6 on scenario A: the second `buildCPG` succeeds and leaves twice the nodes
and twice the edges of every kind in the ICFG of the function. -/
theorem buildCPG_twice_doubles_icfg :
    buildCPG ctxA (some funcA) = some ctxA2 ∧
    nodeKindsOf ctxA 100 = [.Entry, .Exit, .Statement, .Statement] ∧
    nodeKindsOf ctxA2 100 =
      [.Entry, .Exit, .Statement, .Statement, .Entry, .Exit, .Statement, .Statement] ∧
    edgeKindsOf ctxA 100 = [.Intraprocedural, .Intraprocedural] ∧
    edgeKindsOf ctxA2 100 =
      [.Intraprocedural, .Intraprocedural, .Intraprocedural, .Intraprocedural] :=
  ⟨by rfl, by decide, by decide, by decide, by decide⟩

/-- C7 on scenario A: after the second `buildCPG` the PDG node of `y = x + 1`
holds its flow dependence on `x = 1` twice. -/
theorem buildCPG_twice_duplicates_dataDeps :
    getDataDependencies ctxA 2 =
      [{ sourceStmt := 1, sinkStmt := 2, varName := "x", kind := .Flow }] ∧
    getDataDependencies ctxA2 2 =
      [{ sourceStmt := 1, sinkStmt := 2, varName := "x", kind := .Flow },
       { sourceStmt := 1, sinkStmt := 2, varName := "x", kind := .Flow }] := by
  decide

end cpg

namespace aodsolve

open cpg

/-! ## Fallback to the source text -/

theorem stripTrailing_spec (s : String) : IsStripped s (stripTrailing s) := by
  refine ⟨(s.data.reverse.takeWhile (fun c => c = ';' || c = '\n' || c = ' ')).reverse, ?_, ?_, ?_⟩
  · simp only [stripTrailing]
    rw [← List.reverse_append, List.takeWhile_append_dropWhile, List.reverse_reverse]
  · intro c hc
    have := List.mem_takeWhile_imp (List.mem_reverse.mp hc)
    simp only [Bool.or_eq_true, decide_eq_true_eq] at this
    tauto
  · intro c hc
    simp only [stripTrailing, List.getLast?_reverse] at hc
    have := List.head?_dropWhile_not (fun c => c = ';' || c = '\n' || c = ' ') s.data.reverse
    rw [hc] at this
    simp only [Bool.or_eq_false_iff, decide_eq_false_iff_not] at this
    tauto

theorem generateFallbackCode_spec (gen : EnhancedCodeGenerator) (stmt : Stmt)
    (h : stmt ≠ Stmt.null) :
    generateFallbackCode gen stmt = stripTrailing (gen.printPretty stmt) := by
  cases stmt <;> first | exact absurd rfl h | rfl

theorem tryApplyRules_of_inl (gen : EnhancedCodeGenerator) (graph : AODGraph) (depth : Nat)
    (node : AODNode) (text : String) (h : selectTemplate gen node = .inl text) :
    tryApplyRules gen graph depth node = some text := by
  cases depth <;> simp [tryApplyRules, h]

theorem matchRule_eq_none (rules : List OptimizationRule) (op_name : String)
    (h : ∀ rule ∈ rules, op_name ∉ rule.source_pattern.required_operations) :
    matchRule rules op_name = none := by
  unfold matchRule
  rw [List.find?_eq_none]
  intro rule hrule
  simpa using h rule hrule

/-- C3. Round-trip fallback: for a node with an original statement, if no rule
database is set, or the node has no `op_name`, or no queried rule lists the
`op_name` among its required operations, or the first matching rule has no
template for the target architecture, then `tryApplyRules` returns the
pretty-printed text of the statement with its trailing `;`, newline and space
characters removed. -/
theorem tryApplyRules_fallback (gen : EnhancedCodeGenerator) (graph : AODGraph) (depth : Nat)
    (node : AODNode) (hstmt : node.astStmt ≠ Stmt.null)
    (h : gen.rule_db = none ∨ node.getProperty "op_name" = "" ∨
      (∃ db, gen.rule_db = some db ∧ ∀ rule ∈ queriedRules db,
        node.getProperty "op_name" ∉ rule.source_pattern.required_operations) ∨
      (∃ db rule, gen.rule_db = some db ∧
        matchRule (queriedRules db) (node.getProperty "op_name") = some rule ∧
        mapFind gen.target_architecture rule.target_templates = none)) :
    ∃ r, tryApplyRules gen graph depth node = some r ∧
      IsStripped (gen.printPretty node.astStmt) r := by
  refine ⟨stripTrailing (gen.printPretty node.astStmt), ?_, stripTrailing_spec _⟩
  apply tryApplyRules_of_inl
  rw [← generateFallbackCode_spec gen node.astStmt hstmt]
  unfold selectTemplate
  rcases h with h | h | ⟨db, hdb, h⟩ | ⟨db, rule, hdb, hrule, htmpl⟩
  · simp [h]
  · cases gen.rule_db <;> simp [h]
  · simp only [hdb]
    split
    · rfl
    · rw [matchRule_eq_none _ _ h]
  · simp only [hdb, hrule, htmpl]
    split <;> rfl

end aodsolve

namespace aodsolve

open cpg

/-! ## The predicate operand of the SVE templates -/

theorem replaceAllAux_head (ph v : List Char) (hph : ph.head? = some '{') (pre rest : List Char)
    (hpre : ∀ c ∈ pre, c ≠ '{') :
    replaceAllAux ph v (pre ++ rest) 0 = pre ++ replaceAllAux ph v rest 0 := by
  induction pre with
  | nil => rfl
  | cons c cs ih =>
    have hc : c ≠ '{' := hpre c (List.mem_cons_self _ _)
    have hnp : ph.isPrefixOf (c :: (cs ++ rest)) = false := by
      cases ph with
      | nil => simp at hph
      | cons p ps =>
        simp only [List.head?_cons, Option.some.injEq] at hph
        subst hph
        simp [List.isPrefixOf, Ne.symm hc]
    have hih := ih (fun x hx => hpre x (List.mem_cons_of_mem _ hx))
    simp only [List.cons_append, replaceAllAux, List.append_eq, hnp, hih]
    simp

theorem substitute_head (bindings : List (String × String))
    (hkeys : ∀ kv ∈ bindings, kv.1.data.head? = some '{') (pre : List Char)
    (hpre : ∀ c ∈ pre, c ≠ '{') (code : String) (rest : List Char)
    (hcode : code.data = pre ++ rest) :
    ∃ rest1, (substitute bindings code).data = pre ++ rest1 := by
  unfold substitute
  induction bindings generalizing code rest with
  | nil => exact ⟨rest, hcode⟩
  | cons kv kvs ih =>
    simp only [List.foldl_cons]
    apply ih (fun x hx => hkeys x (List.mem_cons_of_mem _ hx)) _
      (replaceAllAux kv.1.data kv.2.data rest 0)
    simp only [replaceAll, hcode]
    exact replaceAllAux_head _ _ (hkeys kv (List.mem_cons_self _ _)) pre rest hpre

theorem isPrefixOf_append (sub l r : List Char) (h : sub.isPrefixOf l = true) :
    sub.isPrefixOf (l ++ r) = true := by
  induction sub generalizing l with
  | nil => simp [List.isPrefixOf]
  | cons a as ih =>
    cases l with
    | nil => simp [List.isPrefixOf] at h
    | cons b bs =>
      simp only [List.isPrefixOf, Bool.and_eq_true, List.cons_append] at h ⊢
      exact ⟨h.1, ih bs h.2⟩

theorem hasSubstr_append (sub pre rest : List Char) (h : hasSubstr sub pre = true) :
    hasSubstr sub (pre ++ rest) = true := by
  induction pre with
  | nil =>
    simp only [hasSubstr, List.isEmpty_iff] at h
    subst h
    cases rest <;> simp [hasSubstr, List.isPrefixOf]
  | cons c cs ih =>
    simp only [hasSubstr, Bool.or_eq_true, List.cons_append] at h ⊢
    rcases h with h | h
    · left
      exact isPrefixOf_append _ (c :: cs) rest h
    · right
      exact ih h

/-- Text that stands in a template before its first `{` stands in every
instance of the template, whatever the bindings of the placeholders. -/
theorem substitute_keeps_head (bindings : List (String × String))
    (hkeys : ∀ kv ∈ bindings, kv.1.data.head? = some '{') (sub : List Char) (t : String)
    (h : hasSubstr sub (templateHead t) = true) :
    hasSubstr sub (substitute bindings t).data = true := by
  have hsplit : t.data = templateHead t ++ t.data.dropWhile (fun c => c != '{') := by
    simp [templateHead]
  obtain ⟨rest1, hrest⟩ := substitute_head bindings hkeys (templateHead t)
    (by
      intro c hc
      have := List.mem_takeWhile_imp hc
      simpa using this)
    t _ hsplit
  rw [hrest]
  exact hasSubstr_append _ _ _ h

theorem inputKey_head (i : Int) : (inputKey i).data.head? = some '{' := by
  simp [inputKey, String.data_append]

theorem astBindings_keys (gen : EnhancedCodeGenerator) (node : AODNode) :
    ∀ kv ∈ astBindings gen node, kv.1.data.head? = some '{' := by
  unfold astBindings
  split
  · split
    · refine foldl_invariant
        (fun (b : List (String × String)) => ∀ kv ∈ b, kv.1.data.head? = some '{') _ _ ?_ []
        (by simp)
      intro b ia _ hb kv hkv
      rcases mem_mapSet _ _ _ _ _ hkv with rfl | h
      · exact inputKey_head _
      · exact hb kv h
    · intro kv hkv
      rcases mem_mapSet _ _ _ _ _ hkv with rfl | h
      · rfl
      · rcases mem_mapSet _ _ _ _ _ h with rfl | h2
        · rfl
        · simp at h2
    · simp
  · simp

theorem edgeBinding_keys (gen : EnhancedCodeGenerator) (graph : AODGraph) (op_name : String)
    (recurse : AODNode → Option String) (edges : List AODEdge) (b0 b : List (String × String))
    (h0 : ∀ kv ∈ b0, kv.1.data.head? = some '{')
    (h : edges.foldl (edgeBinding gen graph op_name recurse) (some b0) = some b) :
    ∀ kv ∈ b, kv.1.data.head? = some '{' := by
  have key := foldl_invariant
    (fun (o : Option (List (String × String))) =>
      ∀ b, o = some b → ∀ kv ∈ b, kv.1.data.head? = some '{')
    (edgeBinding gen graph op_name recurse) edges
    (by
      intro o e _ ho b hb
      cases o with
      | none => simp [edgeBinding] at hb
      | some b1 =>
        simp only [edgeBinding] at hb
        split at hb
        · split at hb
          · simp at hb
          · split at hb
            · simp at hb
            · split at hb
              · simp at hb
              · simp only [Option.some.injEq] at hb
                subst hb
                intro kv hkv
                rcases mem_mapSet _ _ _ _ _ hkv with rfl | h1
                · exact inputKey_head _
                · exact ho b1 rfl kv h1
        · simp only [Option.some.injEq] at hb
          subst hb
          exact ho b1 rfl)
    (some b0) (by intro b hb; simp only [Option.some.injEq] at hb; subst hb; exact h0)
  exact key b h

/-- The code generated from a template for the SVE target keeps the text that
stands before the first `{` of the template. -/
theorem applyTemplate_keeps_head (gen : EnhancedCodeGenerator) (graph : AODGraph)
    (node : AODNode) (tmpl : TransformTemplate) (recurse : AODNode → Option String)
    (code : String) (h : applyTemplate gen graph node tmpl recurse = some code)
    (sub : List Char) (hsub : hasSubstr sub (templateHead tmpl.code_template) = true) :
    hasSubstr sub code.data = true := by
  unfold applyTemplate at h
  split at h
  · simp at h
  · rename_i b hb
    simp only [Option.some.injEq] at h
    subst h
    apply substitute_keeps_head _ _ _ _ hsub
    have hbk := edgeBinding_keys gen graph _ recurse _ _ b (astBindings_keys gen node) hb
    split
    · intro kv hkv
      rcases mem_mapSet _ _ _ _ _ hkv with rfl | h1
      · rfl
      · exact hbk kv h1
    · exact hbk

theorem tryApplyRules_of_inr (gen : EnhancedCodeGenerator) (graph : AODGraph) (depth : Nat)
    (node : AODNode) (tmpl : TransformTemplate) (h : selectTemplate gen node = .inr tmpl) :
    ∃ recurse, tryApplyRules gen graph depth node = applyTemplate gen graph node tmpl recurse := by
  cases depth with
  | zero => exact ⟨fun _ => none, by simp [tryApplyRules, h]⟩
  | succ d => exact ⟨tryApplyRules gen graph d, by simp [tryApplyRules, h]⟩

theorem queriedRules_globalRuleDb : queriedRules globalRuleDb = allSIMDRules := by
  rfl

end aodsolve

namespace aodsolve

open cpg

theorem selectTemplate_sve (printPretty : Stmt → String) (node : AODNode) (op : String)
    (rule : OptimizationRule) (tmpl : TransformTemplate)
    (hop : node.getProperty "op_name" = op) (hne : op ≠ "")
    (hm : matchRule allSIMDRules op = some rule)
    (ht : mapFind "SVE" rule.target_templates = some tmpl) :
    selectTemplate (sveGenerator printPretty) node = .inr tmpl := by
  unfold selectTemplate
  simp only [sveGenerator, hop, queriedRules_globalRuleDb, hm, ht, if_neg hne]

theorem sve_code_of_template (printPretty : Stmt → String) (graph : AODGraph) (depth : Nat)
    (node : AODNode) (op : String) (rule : OptimizationRule) (tmpl : TransformTemplate)
    (hop : node.getProperty "op_name" = op) (hne : op ≠ "")
    (hm : matchRule allSIMDRules op = some rule)
    (ht : mapFind "SVE" rule.target_templates = some tmpl)
    (hpg : hasSubstr "pg".data (templateHead tmpl.code_template) = true)
    (code : String) (hcode : tryApplyRules (sveGenerator printPretty) graph depth node = some code) :
    hasSubstr "pg".data code.data = true := by
  obtain ⟨recurse, hrec⟩ := tryApplyRules_of_inr (sveGenerator printPretty) graph depth node tmpl
    (selectTemplate_sve printPretty node op rule tmpl hop hne hm ht)
  rw [hrec] at hcode
  exact applyTemplate_keeps_head _ graph node tmpl recurse code hcode _ hpg

/-- C3 on a vector intrinsic for which no rule is registered. -/
theorem tryApplyRules_fallback_witness :
    ∃ r, tryApplyRules (sveGenerator examplePretty) exampleGraph 0 nodeXor = some r ∧
      IsStripped (examplePretty nodeXor.astStmt) r :=
  tryApplyRules_fallback (sveGenerator examplePretty) exampleGraph 0 nodeXor
    (by simp [nodeXor, createSIMDNode, callXor, isExpr, Stmt.ignoreParenCasts, AODNode.setProperty,
      AODNode.new])
    (Or.inr (Or.inr (Or.inl ⟨globalRuleDb, rfl, by
      rw [queriedRules_globalRuleDb]
      decide⟩)))

/-- C9, as stated, fails: the rule `avx2_set1_epi8` has a template for SVE, and
the code generated for `_mm256_set1_epi8('A' - 1)` is `svdup_s8('A' - 1)`, in
which `pg` does not occur. -/
theorem set1_code_has_no_predicate :
    simdRule "avx2_set1_epi8" "_mm256_set1_epi8" "SVE" "svdup_s8({{input_0}})" "svint8_t"
        ∈ allSIMDRules ∧
      tryApplyRules (sveGenerator examplePretty) exampleGraph 1 nodeSet1
        = some "svdup_s8('A' - 1)" ∧
      hasSubstr "pg".data "svdup_s8('A' - 1)".data = false := by
  refine ⟨by simp [allSIMDRules], by rfl, by decide⟩

/-- C9, amended. For every rule registered by `buildAllRules` that has a
template for target "SVE", other than `avx2_set1_epi8` (whose template
`svdup_s8` takes no predicate), the code `tryApplyRules` generates under target
SVE for a node with that rule's operation name contains the predicate operand
`pg`. -/
theorem sve_code_has_predicate (printPretty : Stmt → String) (graph : AODGraph) (depth : Nat)
    (node : AODNode) (rule : OptimizationRule) (hrule : rule ∈ allSIMDRules)
    (hsve : (mapFind "SVE" rule.target_templates).isSome = true)
    (hne : rule.rule_id ≠ "avx2_set1_epi8")
    (hop : node.getProperty "op_name" ∈ rule.source_pattern.required_operations)
    (code : String)
    (hcode : tryApplyRules (sveGenerator printPretty) graph depth node = some code) :
    hasSubstr "pg".data code.data = true := by
  simp only [allSIMDRules, List.mem_cons, List.mem_singleton, List.not_mem_nil, or_false] at hrule
  rcases hrule with h | h | h | h | h | h | h | h | h | h <;> subst h
  · exact absurd rfl hne
  · exact sve_code_of_template printPretty graph depth node "_mm256_loadu_si256" _ _
      (by simpa [simdRule] using hop) (by decide) rfl rfl (by decide) code hcode
  · exact sve_code_of_template printPretty graph depth node "_mm256_storeu_si256" _ _
      (by simpa [simdRule] using hop) (by decide) rfl rfl (by decide) code hcode
  · exact sve_code_of_template printPretty graph depth node "_mm256_cmpgt_epi8" _ _
      (by simpa [simdRule] using hop) (by decide) rfl rfl (by decide) code hcode
  · exact sve_code_of_template printPretty graph depth node "_mm256_and_si256" _ _
      (by simpa [simdRule] using hop) (by decide) rfl rfl (by decide) code hcode
  · exact sve_code_of_template printPretty graph depth node "_mm256_add_epi8" _ _
      (by simpa [simdRule] using hop) (by decide) rfl rfl (by decide) code hcode
  · exact absurd hsve (by decide)
  · exact absurd hsve (by decide)
  · exact absurd hsve (by decide)
  · exact absurd hsve (by decide)

/-- C9, amended, on `_mm256_loadu_si256((__m256i *)src)`. -/
theorem sve_code_has_predicate_witness :
    hasSubstr "pg".data "svld1_s8(pg, (const int8_t*)(int8_t *)src)".data = true :=
  sve_code_has_predicate examplePretty exampleGraph 1 nodeLoadu
    (simdRule "avx2_loadu_si256" "_mm256_loadu_si256" "SVE"
      "svld1_s8(pg, (const int8_t*){{input_0}})" "svint8_t")
    (by simp [allSIMDRules]) (by decide) (by decide) (by decide)
    "svld1_s8(pg, (const int8_t*)(int8_t *)src)" (by rfl)

end aodsolve

namespace aodsolve

open cpg

/-! ## Scenario C: a loop marked for auto-vectorization -/

/-- C10 on the loop `for (...) { float t = a[i] + b[i]; }` under target NEON:
the conversion succeeds, the `ForStmt` Control node carries `vectorize=true`,
the node built for `a[i] + b[i]` is the GenericStmt node `ScalarOp`, and no
GenericStmt node of the graph carries `vectorize=true`. -/
theorem loop_arithmetic_not_marked :
    (convertWithOperators CPGContext.empty 0 funcLoop "AVX2" "NEON").successful = true ∧
    loopGraph.nodes.map (fun n => (n.name, n.getProperty "op_name", n.getProperty "vectorize")) =
      [("ForStmt", "", "true"), ("DeclStmt", "define", ""), ("ScalarOp", "+", ""),
       ("\x7d", "", ""), ("\x7d", "", "")] ∧
    loopGraph.nodes.map (fun n => decide (n.type = .GenericStmt)) =
      [false, true, true, false, false] ∧
    (∀ n ∈ loopGraph.nodes, n.type = .GenericStmt → n.getProperty "vectorize" ≠ "true") := by
  refine ⟨by rfl, by decide, by decide, by decide⟩

end aodsolve

namespace aodsolve

open cpg

/-! ## `applyRule` without a template for the target -/

/-- C13 (as stated, refuted): the catalog rule `scalar_add_float` has no SVE
template; `applyRule` on it for the target SVE, with the graph of `a + b` as the
matched code, returns an error comment, which is not the source text `a + b`
that the fall-back of the generator yields for the matched expression. -/
theorem applyRule_missing_template_not_source :
    scalarAddRule ∈ allSIMDRules ∧
    mapFind "SVE" scalarAddRule.target_templates = none ∧
    sumGraph.nodes.map (fun n => (n.astStmt.addr, n.getProperty "op_name")) = [(183, "+")] ∧
    generateFallbackCode (sveGenerator sumPretty) sumExpr = "a + b" ∧
    applyRule scalarAddRule sumGraph "SVE" =
      "// Error: No template for target architecture: SVE" ∧
    applyRule scalarAddRule sumGraph "SVE" ≠
      generateFallbackCode (sveGenerator sumPretty) sumExpr := by
  refine ⟨?_, rfl, by decide, by decide, by decide, by decide⟩
  simp [allSIMDRules, scalarAddRule]

/-- C13 (amended): for every rule that has no template for the requested target
architecture, `applyRule` returns the comment
`// Error: No template for target architecture: <target>`, whatever the matched
code is: the result is the same for any other matched code, so the source text
is not consulted. -/
theorem applyRule_no_template {γ : Type} (rule : OptimizationRule) (matched_subgraph : γ)
    (target_arch : String) (h : mapFind target_arch rule.target_templates = none) :
    applyRule rule matched_subgraph target_arch =
      "// Error: No template for target architecture: " ++ target_arch ∧
    ∀ (δ : Type) (other : δ),
      applyRule rule other target_arch = applyRule rule matched_subgraph target_arch := by
  constructor
  · unfold applyRule
    rw [h]
  · intro δ other
    rfl

theorem applyRule_no_template_witness :
    mapFind "SVE" scalarAddRule.target_templates = none ∧
    applyRule scalarAddRule sumGraph "SVE" =
      "// Error: No template for target architecture: " ++ "SVE" ∧
    ∀ (δ : Type) (other : δ),
      applyRule scalarAddRule other "SVE" = applyRule scalarAddRule sumGraph "SVE" :=
  ⟨rfl, applyRule_no_template scalarAddRule sumGraph "SVE" rfl⟩

end aodsolve

namespace aodsolve

open cpg

/-! ## `queryRules` and the registration order -/

/-- C16 (as stated, refuted): after `addRule` of a rule with id `r` in category
`simd_instruction` and then of another rule with the same id in category
`scalar_vectorization`, the query for `simd_instruction` returns the second
rule, which was not registered in that category, and the first rule is returned
by no query; registering one rule twice makes the query return it twice. -/
theorem queryRules_after_reregistration :
    (((RuleDatabase.empty.addRule ruleR1).addRule ruleR2).queryRules "simd_instruction").map
        (fun r => (r.rule_id, r.category, r.source_pattern.required_operations)) =
      [("r", "scalar_vectorization", ["-"])] ∧
    (((RuleDatabase.empty.addRule ruleR1).addRule ruleR2).queryRules
        "scalar_vectorization").map
        (fun r => (r.rule_id, r.category, r.source_pattern.required_operations)) =
      [("r", "scalar_vectorization", ["-"])] ∧
    (((RuleDatabase.empty.addRule ruleR1).addRule ruleR1).queryRules "simd_instruction").map
        OptimizationRule.rule_id = ["r", "r"] := by
  decide

theorem queryRules_eq (db : RuleDatabase) (c : String) :
    db.queryRules c =
      (mapGetD db.category_index c []).filterMap (fun rule_id => mapFind rule_id db.rules) := by
  unfold RuleDatabase.queryRules mapGetD
  cases mapFind c db.category_index <;> simp

theorem Registered_empty : Registered [] RuleDatabase.empty := by
  constructor
  · intro r hr; simp at hr
  · intro c; simp [RuleDatabase.empty, mapGetD, mapFind]

theorem Registered_addRule (rs : List OptimizationRule) (db : RuleDatabase)
    (rule : OptimizationRule) (h : Registered rs db)
    (hfresh : ∀ r ∈ rs, r.rule_id ≠ rule.rule_id) :
    Registered (rs ++ [rule]) (db.addRule rule) := by
  obtain ⟨h1, h2⟩ := h
  constructor
  · intro r hr
    rcases List.mem_append.mp hr with hr | hr
    · show mapFind r.rule_id (mapSet strLt rule.rule_id rule db.rules) = some r
      rw [mapFind_mapSet_ne _ _ _ _ _ (hfresh r hr)]
      exact h1 r hr
    · have : r = rule := by simpa using hr
      subst this
      exact mapFind_mapSet_self _ _ _ _
  · intro c
    show mapGetD (mapSet strLt rule.category
        (mapGetD db.category_index rule.category [] ++ [rule.rule_id]) db.category_index) c [] = _
    by_cases hc : c = rule.category
    · subst hc
      rw [mapGetD_mapSet_self, h2]
      simp [List.filter_append]
    · rw [mapGetD_mapSet_ne _ _ _ _ _ _ hc, h2]
      have : decide (rule.category = c) = false := by
        simp only [decide_eq_false_iff_not]
        exact fun e => hc e.symm
      simp [List.filter_append, this]

theorem Registered_foldl (rs : List OptimizationRule)
    (hn : (rs.map OptimizationRule.rule_id).Nodup) :
    ∀ (done : List OptimizationRule) (db : RuleDatabase), Registered done db →
      (∀ r ∈ done, ∀ r2 ∈ rs, r.rule_id ≠ r2.rule_id) →
      Registered (done ++ rs) (rs.foldl RuleDatabase.addRule db) := by
  induction rs with
  | nil => intro done db h _; simpa using h
  | cons rule rest ih =>
    intro done db h hd
    simp only [List.map_cons, List.nodup_cons, List.mem_map, not_exists, not_and] at hn
    have := ih hn.2 (done ++ [rule]) (db.addRule rule)
      (Registered_addRule done db rule h (fun r hr => hd r hr rule (List.mem_cons_self _ _)))
      (by
        intro r hr r2 hr2
        rcases List.mem_append.mp hr with hr | hr
        · exact hd r hr r2 (List.mem_cons_of_mem _ hr2)
        · have : r = rule := by simpa using hr
          subst this
          exact fun e => hn.1 r2 hr2 e.symm)
    simpa using this

/-- C16 (amended): for every sequence of `addRule` calls on a fresh database in
which no rule id is registered twice, and every category `c`, `queryRules(c)`
returns exactly the rules registered with category `c`, each once, in the order
in which they were registered. -/
theorem queryRules_registration_order (rs : List OptimizationRule)
    (hn : (rs.map OptimizationRule.rule_id).Nodup) (c : String) :
    (rs.foldl RuleDatabase.addRule RuleDatabase.empty).queryRules c =
      rs.filter (fun r => decide (r.category = c)) := by
  have h := Registered_foldl rs hn [] RuleDatabase.empty Registered_empty
    (by intro r hr; simp at hr)
  simp only [List.nil_append] at h
  rw [queryRules_eq, h.2 c]
  have : ∀ l : List OptimizationRule, (∀ r ∈ l, r ∈ rs) →
      (l.map OptimizationRule.rule_id).filterMap
        (fun rule_id => mapFind rule_id (rs.foldl RuleDatabase.addRule RuleDatabase.empty).rules)
        = l := by
    intro l
    induction l with
    | nil => intro _; rfl
    | cons r rest ih =>
      intro hl
      simp only [List.map_cons, List.filterMap_cons, h.1 r (hl r (List.mem_cons_self _ _))]
      rw [ih (fun x hx => hl x (List.mem_cons_of_mem _ hx))]
  exact this _ (fun r hr => (List.mem_filter.mp hr).1)

theorem queryRules_registration_order_witness :
    (allSIMDRules.map OptimizationRule.rule_id).Nodup ∧
    (allSIMDRules.foldl RuleDatabase.addRule RuleDatabase.empty).queryRules "simd_instruction" =
      allSIMDRules.filter (fun r => decide (r.category = "simd_instruction")) :=
  ⟨by decide, queryRules_registration_order allSIMDRules (by decide) "simd_instruction"⟩

end aodsolve

namespace cpg

/-! ## Absent input -/

/-- C19: `buildCPG` on a null function or on a function without a body returns
normally with the context unchanged, and so do `computeReachingDefinitions`,
`computeDataDependencies` and `computeControlDependencies` on a function for
which no flow graph is cached and no reaching definitions are stored; in
particular the ICFG node lists, the statement-to-node map, the
reaching-definition map and the PDG node map are unchanged. -/
theorem absent_input_is_noop (ctx : CPGContext) :
    buildCPG ctx none = some ctx ∧
    (∀ f : FunctionDecl, f.hasBody = false → buildCPG ctx (some f) = some ctx) ∧
    (∀ func : Nat, getCFG ctx func = none → mapFind func ctx.reachingDefsMap = none →
      computeReachingDefinitions ctx func = ctx ∧
      computeDataDependencies ctx func = ctx ∧
      computeControlDependencies ctx func = ctx) := by
  refine ⟨rfl, ?_, ?_⟩
  · intro f hf
    simp [buildCPG, hf]
  · intro func hcfg hrd
    refine ⟨?_, ?_, ?_⟩
    · simp [computeReachingDefinitions, hcfg]
    · simp [computeDataDependencies, hrd]
    · simp [computeControlDependencies, hcfg]

theorem absent_input_is_noop_witness :
    funcNoBody.hasBody = false ∧ getCFG ctxA 400 = none ∧
    buildCPG ctxA none = some ctxA ∧ buildCPG ctxA (some funcNoBody) = some ctxA ∧
    computeReachingDefinitions ctxA 400 = ctxA ∧ computeDataDependencies ctxA 400 = ctxA ∧
    computeControlDependencies ctxA 400 = ctxA :=
  ⟨rfl, rfl, (absent_input_is_noop ctxA).1, (absent_input_is_noop ctxA).2.1 funcNoBody rfl,
    (absent_input_is_noop ctxA).2.2 400 rfl rfl⟩

end cpg

namespace cpg

/-! ## The breadth-first searches -/

theorem bfsPush_fold_spec (nexts : List Nat) :
    ∀ (st : List Nat × List Nat),
      (∀ x, x ∈ (nexts.foldl bfsPush st).2 ↔ x ∈ st.2 ∨ x ∈ nexts) ∧
      (∀ x, x ∈ (nexts.foldl bfsPush st).1 → x ∈ st.1 ∨ (x ∈ nexts ∧ x ∉ st.2)) ∧
      (∀ x, x ∈ st.1 → x ∈ (nexts.foldl bfsPush st).1) ∧
      (∀ x, x ∈ nexts → x ∉ st.2 → x ∈ (nexts.foldl bfsPush st).1) := by
  induction nexts with
  | nil => intro st; simp
  | cons n rest ih =>
    intro st
    simp only [List.foldl_cons]
    obtain ⟨h1, h2, h3, h4⟩ := ih (bfsPush st n)
    by_cases hn : n ∈ st.2
    · have e : bfsPush st n = st := by simp [bfsPush, hn]
      rw [e] at h1 h2 h3 h4 ⊢
      refine ⟨?_, ?_, h3, ?_⟩
      · intro x; rw [h1 x]
        constructor
        · rintro (h | h)
          · exact Or.inl h
          · exact Or.inr (List.mem_cons_of_mem _ h)
        · rintro (h | h)
          · exact Or.inl h
          · rcases List.mem_cons.mp h with rfl | h
            · exact Or.inl hn
            · exact Or.inr h
      · intro x hx
        rcases h2 x hx with h | ⟨h, hv⟩
        · exact Or.inl h
        · exact Or.inr ⟨List.mem_cons_of_mem _ h, hv⟩
      · intro x hx hv
        rcases List.mem_cons.mp hx with rfl | hx
        · exact absurd hn hv
        · exact h4 x hx hv
    · have e : bfsPush st n = (st.1 ++ [n], setInsert natLt n st.2) := by simp [bfsPush, hn]
      rw [e] at h1 h2 h3 h4 ⊢
      simp only [mem_setInsert, List.mem_append, List.mem_singleton] at h1 h2 h3 h4
      refine ⟨?_, ?_, ?_, ?_⟩
      · intro x; rw [h1 x]; simp only [List.mem_cons]; tauto
      · intro x hx
        rcases h2 x hx with (h | h) | ⟨h, hv⟩
        · exact Or.inl h
        · subst h; exact Or.inr ⟨List.mem_cons_self _ _, hn⟩
        · exact Or.inr ⟨List.mem_cons_of_mem _ h, fun hv2 => hv (Or.inr hv2)⟩
      · intro x hx; exact h3 x (Or.inl hx)
      · intro x hx hv
        rcases List.mem_cons.mp hx with rfl | hx
        · exact h3 _ (Or.inr rfl)
        · by_cases hxn : x = n
          · subst hxn; exact h3 _ (Or.inr rfl)
          · exact h4 x hx (by simp [hxn, hv])

theorem bfsPush_measure (U : List Nat) (nexts : List Nat) (hsub : ∀ x ∈ nexts, x ∈ U)
    (st : List Nat × List Nat) :
    (nexts.foldl bfsPush st).1.length +
        (U.filter (fun x => decide (x ∉ (nexts.foldl bfsPush st).2))).length ≤
      st.1.length + (U.filter (fun x => decide (x ∉ st.2))).length := by
  induction nexts generalizing st with
  | nil => simp
  | cons n rest ih =>
    simp only [List.foldl_cons]
    refine le_trans (ih (fun x hx => hsub x (List.mem_cons_of_mem _ hx)) _) ?_
    by_cases hv : n ∈ st.2
    · simp [bfsPush, hv]
    · simp only [bfsPush, hv, if_false, List.length_append, List.length_singleton]
      have := filter_length_succ_le (fun x => decide (x ∉ st.2))
        (fun x => decide (x ∉ setInsert natLt n st.2)) U
        (by
          intro x hx
          simp only [decide_eq_true_eq, mem_setInsert, not_or] at hx ⊢
          exact hx.2)
        n (hsub n (List.mem_cons_self _ _)) (by simpa using hv) (by simp [mem_setInsert])
      omega

/-- The search answers whether the sink is reachable: under the invariant of
the loop (the worklist is part of the visited set, and a visited statement that
has left the worklist is not the sink and has all its candidates visited), and
with a bound that covers the statements not yet visited, the result is `true`
exactly when the sink is reachable from a visited statement. -/
theorem bfsLoop_spec (nexts : Nat → List Nat) (sink : Nat) (U : List Nat)
    (hU : ∀ u x, x ∈ nexts u → x ∈ U) :
    ∀ (fuel : Nat) (wl vis : List Nat),
      wl.length + (U.filter (fun x => decide (x ∉ vis))).length ≤ fuel →
      (∀ x ∈ wl, x ∈ vis) →
      (∀ a ∈ vis, a ∉ wl → a ≠ sink ∧ ∀ b ∈ nexts a, b ∈ vis) →
      (bfsLoop nexts sink fuel wl vis = true ↔
        ∃ a ∈ vis, Relation.ReflTransGen (fun x y => y ∈ nexts x) a sink) := by
  have closed : ∀ vis : List Nat, (∀ a ∈ vis, a ≠ sink ∧ ∀ b ∈ nexts a, b ∈ vis) →
      ¬ ∃ a ∈ vis, Relation.ReflTransGen (fun x y => y ∈ nexts x) a sink := by
    intro vis hc ⟨a, ha, hr⟩
    have hc2 : ∀ a ∈ vis, ∀ b ∈ nexts a, b ∈ vis := fun a ha => (hc a ha).2
    have : sink ∈ vis := by
      clear hc
      induction hr with
      | refl => exact ha
      | tail _ hstep ih => exact hc2 _ ih _ hstep
    exact (hc sink this).1 rfl
  intro fuel
  induction fuel with
  | zero =>
    intro wl vis hm _ hcl
    have hwl : wl = [] := List.length_eq_zero.mp (by omega)
    subst hwl
    simp only [bfsLoop, Bool.false_eq_true, false_iff]
    exact closed vis (fun a ha => hcl a ha (by simp))
  | succ fuel ih =>
    intro wl vis hm hsub hcl
    cases wl with
    | nil =>
      simp only [bfsLoop, Bool.false_eq_true, false_iff]
      exact closed vis (fun a ha => hcl a ha (by simp))
    | cons current rest =>
      rw [bfsLoop]
      by_cases hcur : current = sink
      · rw [if_pos hcur]
        simp only [true_iff]
        exact ⟨current, hsub _ (List.mem_cons_self _ _), hcur ▸ Relation.ReflTransGen.refl⟩
      · rw [if_neg hcur]
        obtain ⟨f1, f2, f3, f4⟩ := bfsPush_fold_spec (nexts current) (rest, vis)
        simp only at f1 f2 f3 f4
        have hmeas := bfsPush_measure U (nexts current) (fun x hx => hU _ _ hx) (rest, vis)
        simp only [List.length_cons] at hm hmeas
        rw [ih _ _ (by omega) ?_ ?_]
        · constructor
          · rintro ⟨a, ha, hr⟩
            rcases (f1 a).mp ha with h | h
            · exact ⟨a, h, hr⟩
            · exact ⟨current, hsub _ (List.mem_cons_self _ _),
                Relation.ReflTransGen.head h hr⟩
          · rintro ⟨a, ha, hr⟩
            exact ⟨a, (f1 a).mpr (Or.inl ha), hr⟩
        · intro x hx
          rcases f2 x hx with h | ⟨h, _⟩
          · exact (f1 x).mpr (Or.inl (hsub x (List.mem_cons_of_mem _ h)))
          · exact (f1 x).mpr (Or.inr h)
        · intro a ha hnw
          rcases (f1 a).mp ha with h | h
          · by_cases hac : a = current
            · subst hac
              exact ⟨hcur, fun b hb => (f1 b).mpr (Or.inr hb)⟩
            · have hnotin : a ∉ current :: rest := by
                intro hmem
                rcases List.mem_cons.mp hmem with e | e
                · exact hac e
                · exact hnw (f3 a e)
              obtain ⟨c1, c2⟩ := hcl a h hnotin
              exact ⟨c1, fun b hb => (f1 b).mpr (Or.inl (c2 b hb))⟩
          · by_cases hav : a ∈ vis
            · by_cases hac : a = current
              · subst hac
                exact ⟨hcur, fun b hb => (f1 b).mpr (Or.inr hb)⟩
              · have hnotin : a ∉ current :: rest := by
                  intro hmem
                  rcases List.mem_cons.mp hmem with e | e
                  · exact hac e
                  · exact hnw (f3 a e)
                obtain ⟨c1, c2⟩ := hcl a hav hnotin
                exact ⟨c1, fun b hb => (f1 b).mpr (Or.inl (c2 b hb))⟩
            · exact absurd (f4 a h hav) hnw

/-- The search started on a source answers whether the sink is reachable from it. -/
theorem bfsLoop_source (nexts : Nat → List Nat) (sink : Nat) (U : List Nat)
    (hU : ∀ u x, x ∈ nexts u → x ∈ U) (source : Nat) :
    bfsLoop nexts sink (U.length + 1) [source] (setInsert natLt source []) = true ↔
      Relation.ReflTransGen (fun x y => y ∈ nexts x) source sink := by
  rw [bfsLoop_spec nexts sink U hU]
  · simp [setInsert]
  · have := List.length_filter_le (fun x => decide (x ∉ setInsert natLt source [])) U
    simp only [List.length_singleton]
    omega
  · simp [setInsert]
  · intro a ha hnw
    simp [setInsert] at ha hnw
    exact absurd ha hnw

end cpg

namespace cpg

theorem getSuccessors_sub (ctx : CPGContext) :
    ∀ u x, x ∈ getSuccessors ctx u → x ∈ allSuccessors ctx := by
  intro u x hx
  unfold getSuccessors at hx
  cases hu : ctx.heap[u]? with
  | none => rw [hu] at hx; simp at hx
  | some n =>
    rw [hu] at hx
    exact List.mem_flatMap.mpr ⟨n, List.getElem?_mem hu, hx⟩

/-- C14: `hasControlFlowPath(source, sink)` is true if and only if both
statements have ICFG nodes and the node of the sink is reachable from the node
of the source by zero or more successor edges; it returns false whenever one of
the statements has no ICFG node. -/
theorem hasControlFlowPath_iff (ctx : CPGContext) (source sink : Nat) :
    (hasControlFlowPath ctx source sink = true ↔
      ∃ sourceNode sinkNode, getICFGNode ctx source = some sourceNode ∧
        getICFGNode ctx sink = some sinkNode ∧
        Relation.ReflTransGen (fun a b => b ∈ getSuccessors ctx a) sourceNode sinkNode) ∧
    (getICFGNode ctx source = none ∨ getICFGNode ctx sink = none →
      hasControlFlowPath ctx source sink = false) := by
  unfold hasControlFlowPath
  cases hs : getICFGNode ctx source with
  | none => simp
  | some sn =>
    cases ht : getICFGNode ctx sink with
    | none => simp
    | some tn =>
      simp only [Option.some.injEq, exists_and_left, exists_eq_left', reduceCtorEq, or_self,
        false_implies, and_true]
      exact bfsLoop_source (getSuccessors ctx) tn (allSuccessors ctx) (getSuccessors_sub ctx) sn

theorem hasControlFlowPath_iff_witness :
    getICFGNode ctxA 77 = none ∧ hasControlFlowPath ctxA 1 77 = false :=
  ⟨rfl, (hasControlFlowPath_iff ctxA 1 77).2 (Or.inr rfl)⟩

theorem mem_usesOfNode (a : Nat) (var : String) (k : Nat) (deps : List DataDependency) :
    ∀ (u0 : List Nat) (x : Nat),
      x ∈ deps.foldl (fun u dep =>
          if dep.sourceStmt = a ∧ dep.varName = var then setInsert natLt k u else u) u0 ↔
        x ∈ u0 ∨ (x = k ∧ ∃ dep ∈ deps, dep.sourceStmt = a ∧ dep.varName = var) := by
  induction deps with
  | nil => intro u0 x; simp
  | cons d rest ih =>
    intro u0 x
    simp only [List.foldl_cons]
    rw [ih]
    by_cases hd : d.sourceStmt = a ∧ d.varName = var
    · rw [if_pos hd, mem_setInsert]
      simp only [List.mem_cons, exists_eq_or_imp]
      constructor
      · rintro ((h | h) | ⟨h, d2, hd2, hp⟩)
        · exact Or.inr ⟨h, Or.inl hd⟩
        · exact Or.inl h
        · exact Or.inr ⟨h, Or.inr ⟨d2, hd2, hp⟩⟩
      · rintro (h | ⟨h, _⟩)
        · exact Or.inl (Or.inr h)
        · exact Or.inl (Or.inl h)
    · rw [if_neg hd]
      simp only [List.mem_cons, exists_eq_or_imp]
      constructor
      · rintro (h | ⟨h, d2, hd2, hp⟩)
        · exact Or.inl h
        · exact Or.inr ⟨h, Or.inr ⟨d2, hd2, hp⟩⟩
      · rintro (h | ⟨h, hp | ⟨d2, hd2, hp⟩⟩)
        · exact Or.inl h
        · exact absurd hp hd
        · exact Or.inr ⟨h, d2, hd2, hp⟩

theorem mem_getUses (ctx : CPGContext) (a : Nat) (var : String) (b : Nat) :
    b ∈ getUses ctx a var ↔
      ∃ node dep, (b, node) ∈ ctx.pdgNodes ∧ dep ∈ node.dataDeps ∧
        dep.sourceStmt = a ∧ dep.varName = var := by
  unfold getUses
  have gen : ∀ (l : List (Nat × PDGNode)) (u0 : List Nat),
      b ∈ l.foldl (fun uses sn =>
          sn.2.dataDeps.foldl (fun u dep =>
            if dep.sourceStmt = a ∧ dep.varName = var then setInsert natLt sn.1 u else u)
            uses) u0 ↔
        b ∈ u0 ∨ ∃ node dep, (b, node) ∈ l ∧ dep ∈ node.dataDeps ∧
          dep.sourceStmt = a ∧ dep.varName = var := by
    intro l
    induction l with
    | nil => intro u0; simp
    | cons sn rest ih =>
      intro u0
      simp only [List.foldl_cons]
      rw [ih, mem_usesOfNode]
      constructor
      · rintro ((h | ⟨h, dep, hdep, hp⟩) | ⟨node, dep, hm, hdep, hp⟩)
        · exact Or.inl h
        · exact Or.inr ⟨sn.2, dep, by rw [h]; exact List.mem_cons_self _ _, hdep, hp⟩
        · exact Or.inr ⟨node, dep, List.mem_cons_of_mem _ hm, hdep, hp⟩
      · rintro (h | ⟨node, dep, hm, hdep, hp⟩)
        · exact Or.inl (Or.inl h)
        · rcases List.mem_cons.mp hm with e | hm
          · have e1 : b = sn.1 := by rw [← e]
            have e2 : node = sn.2 := by rw [← e]
            exact Or.inl (Or.inr ⟨e1, dep, e2 ▸ hdep, hp⟩)
          · exact Or.inr ⟨node, dep, hm, hdep, hp⟩
  rw [gen]
  simp

theorem mem_dataFlowNexts (stmtAt : Nat → Stmt) (ctx : CPGContext) (varName : String)
    (a b : Nat) :
    b ∈ dataFlowNexts stmtAt ctx varName a ↔ DataFlowStep stmtAt ctx varName a b := by
  unfold dataFlowNexts DataFlowStep
  simp only [List.mem_flatMap]
  constructor
  · rintro ⟨var, hvar, hb⟩
    by_cases hc : varName ≠ "" ∧ var ≠ varName
    · rw [if_pos hc] at hb; simp at hb
    · rw [if_neg hc] at hb
      refine ⟨var, hvar, ?_, (mem_getUses ctx a var b).mp hb⟩
      by_cases hv : varName = ""
      · exact Or.inl hv
      · exact Or.inr (by_contra (fun hne => hc ⟨hv, hne⟩))
  · rintro ⟨var, hvar, hor, hb⟩
    refine ⟨var, hvar, ?_⟩
    have hc : ¬ (varName ≠ "" ∧ var ≠ varName) := by
      rintro ⟨h1, h2⟩
      rcases hor with h | h
      · exact h1 h
      · exact h2 h
    rw [if_neg hc]
    exact (mem_getUses ctx a var b).mpr hb

/-- C15: `hasDataFlowPath(source, sink, v)` is true if and only if there is a
chain `source = s0, s1, ..., sn = sink` (`n ≥ 0`) in which every `s(i+1)` holds
a data-dependence record whose source statement is `s(i)` and whose variable is
one that `s(i)` defines, that variable being `v` whenever `v` is not empty. -/
theorem hasDataFlowPath_iff (stmtAt : Nat → Stmt) (ctx : CPGContext) (source sink : Nat)
    (varName : String) :
    hasDataFlowPath stmtAt ctx source sink varName = true ↔
      Relation.ReflTransGen (DataFlowStep stmtAt ctx varName) source sink := by
  have hrel : (fun x y => y ∈ dataFlowNexts stmtAt ctx varName x) =
      DataFlowStep stmtAt ctx varName := by
    funext x y
    exact propext (mem_dataFlowNexts stmtAt ctx varName x y)
  have hU : ∀ u x, x ∈ dataFlowNexts stmtAt ctx varName u → x ∈ ctx.pdgNodes.map Prod.fst := by
    intro u x hx
    obtain ⟨_, _, _, node, _, hm, _⟩ := (mem_dataFlowNexts stmtAt ctx varName u x).mp hx
    exact List.mem_map.mpr ⟨(x, node), hm, rfl⟩
  have := bfsLoop_source (dataFlowNexts stmtAt ctx varName) sink (ctx.pdgNodes.map Prod.fst) hU
    source
  rw [List.length_map, hrel] at this
  exact this

/-- Scenario A: `y = x + 1` is reached from `x = 1` in the flow graph and
through the variable `x`, not through `y`, and `x = 1` is not reached from it. -/
theorem reachability_scenarioA :
    hasControlFlowPath ctxA 1 2 = true ∧ hasControlFlowPath ctxA 2 1 = false ∧
    hasDataFlowPath stmtAtA ctxA 1 2 "x" = true ∧ hasDataFlowPath stmtAtA ctxA 1 2 "" = true ∧
    hasDataFlowPath stmtAtA ctxA 1 2 "y" = false ∧ hasDataFlowPath stmtAtA ctxA 2 1 "" = false := by
  decide

end cpg

namespace aodsolve

open cpg

/-! ## Which nodes get a line of generated code -/

/-- C12 (as stated, refuted). The function `void f(void) { int x; }` is
converted to a graph whose first node is the declaration `int x;`, marked as a
top-level statement and holding its original statement; with the rule catalog,
the target SVE and a printer that gives `int x;` for the statement,
`generateCodeFromGraph` writes nothing for that node: the generated code is the
line of the closing brace alone. And in the graph of
`__m256i arg_v = _mm256_set1_epi8(1); _mm256_storeu_si256(p, arg_v);` the node
of the call is a top-level statement with a non-empty source text and an
incoming edge tagged `arg_v`: the index parse fails on the tag and the
iteration of `generateCodeFromGraph` for the node yields no text, whatever the
bound on the recursion. -/
theorem statement_nodes_without_line :
    ((convertWithOperators CPGContext.empty 0 funcDeclX "AVX2" "SVE").successful = true ∧
     declGraph.nodes.map (fun n =>
        (n.getProperty "op_name", n.getProperty "var_name", n.isStatement, n.astStmt.addr)) =
      [("define", "x", true, 201), ("", "", false, 0)] ∧
     declPretty declX = "int x;\n" ∧
     declGraph.nodes.map (nodeText (sveGenerator declPretty) declGraph 1) =
      [some "", some "    \x7d\n"] ∧
     generateCodeFromGraph (sveGenerator declPretty) declGraph 1 = some "    \x7d\n") ∧
    ((graphArgV.getNode 3).map (fun n =>
        (n.getProperty "op_name", n.isStatement, n.astStmt.addr, decide (n.type = .Control),
          generateFallbackCode (sveGenerator argVPretty) n.astStmt)) =
      some ("_mm256_storeu_si256", true, 1206, false, "_mm256_storeu_si256(p, arg_v)") ∧
     (graphArgV.getIncomingEdges 3).map (fun e => (e.source, e.variable_name)) =
      [(1, "arg_1"), (1, "arg_v")] ∧
     stoi ("arg_v".data.drop 4) = none ∧
     ∀ depth, (graphArgV.getNode 3).bind (nodeText (sveGenerator argVPretty) graphArgV depth) =
       none) := by
  refine ⟨⟨rfl, by decide, rfl, rfl, rfl⟩, by decide, by decide, by decide, ?_⟩
  intro depth
  cases depth with
  | zero => rfl
  | succ d => rfl

theorem append_ne_empty_left (a b : String) (h : a ≠ "") : a ++ b ≠ "" := by
  intro e
  apply h
  have := congrArg String.data e
  simp only [String.data_append, List.append_eq_nil] at this
  exact String.ext this.1

theorem append_ne_empty_right (a b : String) (h : b ≠ "") : a ++ b ≠ "" := by
  intro e
  apply h
  have := congrArg String.data e
  simp only [String.data_append, List.append_eq_nil] at this
  exact String.ext this.2

theorem replaceFirst_ne_nil (pat v : List Char) (hv : v ≠ []) (l : List Char) (hl : l ≠ []) :
    replaceFirst pat v l ≠ [] := by
  cases l with
  | nil => exact absurd rfl hl
  | cons c rest =>
    rw [replaceFirst]
    split
    · simp [hv]
    · simp

theorem controlHeader_nonempty (gen : EnhancedCodeGenerator) (node : AODNode)
    (h : hasHeader node.astStmt = true) :
    ∃ line, controlHeader gen node = some line ∧ line ≠ "" := by
  unfold controlHeader
  cases hs : node.astStmt with
  | whileStmt a c b =>
    exact ⟨_, rfl, append_ne_empty_right _ _ (by decide)⟩
  | ifStmt a c t e =>
    exact ⟨_, rfl, append_ne_empty_right _ _ (by decide)⟩
  | forStmt a i c n b =>
    simp only
    split
    · refine ⟨_, rfl, ?_⟩
      intro e
      have := congrArg String.data e
      simp only at this
      refine replaceFirst_ne_nil _ _ (by decide) _ ?_ this
      intro e2
      exact append_ne_empty_right _ _ (by decide) (String.ext e2)
    · exact ⟨_, rfl, append_ne_empty_right _ _ (by decide)⟩
  | _ => rw [hs] at h; simp [hasHeader] at h

theorem mem_getIncomingEdges (graph : AODGraph) (id : Nat) (e : AODEdge)
    (h : e ∈ graph.getIncomingEdges id) : e ∈ graph.edges ∧ e.target = id := by
  unfold AODGraph.getIncomingEdges at h
  simpa using h

theorem edgeBinding_fold_isSome (gen : EnhancedCodeGenerator) (graph : AODGraph)
    (op_name : String) (recurse : AODNode → Option String) (edges : List AODEdge)
    (h : ∀ e ∈ edges, startsWith "arg_".data e.variable_name.data = true →
      (stoi (e.variable_name.data.drop 4)).isSome = true ∧
      ∃ src, graph.getNode e.source = some src ∧
        (src.isStatement = false → (recurse src).isSome = true)) :
    ∀ b, ((edges.foldl (edgeBinding gen graph op_name recurse) (some b))).isSome = true := by
  induction edges with
  | nil => intro b; rfl
  | cons e rest ih =>
    intro b
    simp only [List.foldl_cons]
    have hrest : ∀ e ∈ rest, startsWith "arg_".data e.variable_name.data = true →
        (stoi (e.variable_name.data.drop 4)).isSome = true ∧
        ∃ src, graph.getNode e.source = some src ∧
          (src.isStatement = false → (recurse src).isSome = true) :=
      fun e1 he1 => h e1 (List.mem_cons_of_mem _ he1)
    by_cases htag : startsWith "arg_".data e.variable_name.data = true
    · obtain ⟨hidx, src, hsrc, hrec⟩ := h e (List.mem_cons_self _ _) htag
      obtain ⟨idx, hidx⟩ := Option.isSome_iff_exists.mp hidx
      by_cases hst : src.isStatement = true
      · have : edgeBinding gen graph op_name recurse (some b) e =
            some (mapSet strLt (inputKey idx)
              (sveAdapt gen op_name src (src.getProperty "var_name")) b) := by
          simp only [edgeBinding, htag, if_true, hidx, hsrc, hst]
        rw [this]
        exact ih hrest _
      · have hst2 : src.isStatement = false := by simpa using hst
        obtain ⟨v, hv⟩ := Option.isSome_iff_exists.mp (hrec hst2)
        have : edgeBinding gen graph op_name recurse (some b) e =
            some (mapSet strLt (inputKey idx) (sveAdapt gen op_name src v) b) := by
          simp only [edgeBinding, htag, if_true, hidx, hsrc, hst2, hv]
          rfl
        rw [this]
        exact ih hrest _
    · have : edgeBinding gen graph op_name recurse (some b) e = some b := by
        simp only [edgeBinding, htag]
        rfl
      rw [this]
      exact ih hrest b

theorem applyTemplate_isSome (gen : EnhancedCodeGenerator) (graph : AODGraph) (node : AODNode)
    (tmpl : TransformTemplate) (recurse : AODNode → Option String)
    (h : ∀ e ∈ graph.getIncomingEdges node.id,
      startsWith "arg_".data e.variable_name.data = true →
      (stoi (e.variable_name.data.drop 4)).isSome = true ∧
      ∃ src, graph.getNode e.source = some src ∧
        (src.isStatement = false → (recurse src).isSome = true)) :
    (applyTemplate gen graph node tmpl recurse).isSome = true := by
  have hf := edgeBinding_fold_isSome gen graph (node.getProperty "op_name") recurse
    (graph.getIncomingEdges node.id) h (astBindings gen node)
  obtain ⟨b, hb⟩ := Option.isSome_iff_exists.mp hf
  unfold applyTemplate
  rw [hb]
  rfl

/-- `tryApplyRules` returns a text when the tags of the graph are in order and
the bound on the recursion is at least the rank of the node: no exception, and
the recursion into the operands ends within the bound. -/
theorem tryApplyRules_isSome (gen : EnhancedCodeGenerator) (graph : AODGraph)
    (rank : Nat → Nat) (htags : ArgTagsOk graph) (hrank : OperandRank graph rank) :
    ∀ (depth : Nat) (node : AODNode), rank node.id ≤ depth →
      (tryApplyRules gen graph depth node).isSome = true := by
  have hedge : ∀ (node : AODNode) (recurse : AODNode → Option String),
      (∀ src : AODNode, rank src.id < rank node.id → (recurse src).isSome = true) →
      ∀ e ∈ graph.getIncomingEdges node.id,
        startsWith "arg_".data e.variable_name.data = true →
        (stoi (e.variable_name.data.drop 4)).isSome = true ∧
        ∃ src, graph.getNode e.source = some src ∧
          (src.isStatement = false → (recurse src).isSome = true) := by
    intro node recurse hrec e he htag
    obtain ⟨hmem, htgt⟩ := mem_getIncomingEdges graph node.id e he
    obtain ⟨h1, h2⟩ := htags e hmem htag
    obtain ⟨src, hsrc⟩ := Option.isSome_iff_exists.mp h2
    refine ⟨h1, src, hsrc, ?_⟩
    intro hst
    apply hrec
    rw [← htgt]
    exact hrank e hmem htag src hsrc hst
  intro depth
  induction depth with
  | zero =>
    intro node hle
    rw [tryApplyRules]
    cases selectTemplate gen node with
    | inl text => rfl
    | inr tmpl =>
      apply applyTemplate_isSome
      apply hedge
      intro src hlt
      omega
  | succ d ih =>
    intro node hle
    rw [tryApplyRules]
    cases selectTemplate gen node with
    | inl text => rfl
    | inr tmpl =>
      apply applyTemplate_isSome
      apply hedge
      intro src hlt
      exact ih src (by omega)

theorem tryApplyRules_of_inputOk (gen : EnhancedCodeGenerator) (graph : AODGraph) (depth : Nat)
    (node : AODNode) (h : RuleInputOk graph depth node.id) :
    ∃ text, tryApplyRules gen graph depth node = some text := by
  obtain ⟨htags, rank, hrank, hle⟩ := h
  exact Option.isSome_iff_exists.mp (tryApplyRules_isSome gen graph rank htags hrank depth node hle)

theorem edgeBinding_fold_congr (gen : EnhancedCodeGenerator) (graph : AODGraph)
    (op_name : String) (r1 r2 : AODNode → Option String) (edges : List AODEdge)
    (h : ∀ e ∈ edges, startsWith "arg_".data e.variable_name.data = true →
      ∀ src, graph.getNode e.source = some src → src.isStatement = false → r1 src = r2 src) :
    ∀ b, edges.foldl (edgeBinding gen graph op_name r1) b =
      edges.foldl (edgeBinding gen graph op_name r2) b := by
  induction edges with
  | nil => intro b; rfl
  | cons e rest ih =>
    intro b
    simp only [List.foldl_cons]
    have hstep : edgeBinding gen graph op_name r1 b e = edgeBinding gen graph op_name r2 b e := by
      cases b with
      | none => rfl
      | some b0 =>
        by_cases htag : startsWith "arg_".data e.variable_name.data = true
        · cases hidx : stoi (e.variable_name.data.drop 4) with
          | none => simp only [edgeBinding, htag, if_true, hidx]
          | some idx =>
            cases hsrc : graph.getNode e.source with
            | none => simp only [edgeBinding, htag, if_true, hidx, hsrc]
            | some src =>
              by_cases hst : src.isStatement = true
              · simp only [edgeBinding, htag, if_true, hidx, hsrc, hst]
              · have hst2 : src.isStatement = false := by simpa using hst
                have hr := h e (List.mem_cons_self _ _) htag src hsrc hst2
                simp only [edgeBinding, htag, if_true, hidx, hsrc, hst2, hr]
        · simp only [edgeBinding, htag]
          rfl
    rw [hstep]
    exact ih (fun e1 he1 => h e1 (List.mem_cons_of_mem _ he1)) _

/-- The text `tryApplyRules` returns does not depend on the bound on the
recursion, once the bound is at least the rank of the node. -/
theorem tryApplyRules_depth (gen : EnhancedCodeGenerator) (graph : AODGraph)
    (rank1 rank2 : Nat → Nat) (h1 : OperandRank graph rank1) (h2 : OperandRank graph rank2) :
    ∀ (d1 d2 : Nat) (node : AODNode), rank1 node.id ≤ d1 → rank2 node.id ≤ d2 →
      tryApplyRules gen graph d1 node = tryApplyRules gen graph d2 node := by
  have key : ∀ (node : AODNode) (r1 r2 : AODNode → Option String) (tmpl : TransformTemplate),
      (∀ src : AODNode, rank1 src.id < rank1 node.id → rank2 src.id < rank2 node.id →
        r1 src = r2 src) →
      applyTemplate gen graph node tmpl r1 = applyTemplate gen graph node tmpl r2 := by
    intro node r1 r2 tmpl hr
    unfold applyTemplate
    rw [edgeBinding_fold_congr gen graph (node.getProperty "op_name") r1 r2]
    intro e he htag src hsrc hst
    obtain ⟨hmem, htgt⟩ := mem_getIncomingEdges graph node.id e he
    apply hr
    · rw [← htgt]; exact h1 e hmem htag src hsrc hst
    · rw [← htgt]; exact h2 e hmem htag src hsrc hst
  intro d1
  induction d1 with
  | zero =>
    intro d2 node hl1 hl2
    cases d2 with
    | zero => rfl
    | succ k2 =>
      rw [tryApplyRules, tryApplyRules]
      cases selectTemplate gen node with
      | inl text => rfl
      | inr tmpl =>
        apply key
        intro src hlt _
        omega
  | succ k1 ih =>
    intro d2 node hl1 hl2
    cases d2 with
    | zero =>
      rw [tryApplyRules, tryApplyRules]
      cases selectTemplate gen node with
      | inl text => rfl
      | inr tmpl =>
        apply key
        intro src _ hlt
        omega
    | succ k2 =>
      rw [tryApplyRules, tryApplyRules]
      cases selectTemplate gen node with
      | inl text => rfl
      | inr tmpl =>
        apply key
        intro src hlt1 hlt2
        exact ih k2 src (by omega) (by omega)

/-- C12 (amended): a node marked as a top-level statement, other than a closing
brace, gets a non-empty line of generated code when it is a control node of a
`while`, `for` or `if` statement; when it is neither a control node nor a
declaration node, its statement has a source text that is not empty once the
trailing separators are removed, and the input of the rule application is in
order (every edge tag that starts with `arg_` is followed by a decimal index and
has a node of the graph as source, and the operand edges form no cycle, the
bound on the recursion being at least the nesting of the operands of the node);
and when it is a declaration node of a single variable whose right-hand side is
not empty, the right-hand side being the text the rule application returns for
the source of its `init` edge, which it does when its input is in order, else
the text of its initializer. A declaration node of a single variable whose
right-hand side is empty, in particular one without initializer and without
`init` edge, gets no text at all. The text of the rule application does not
depend on the bound on the recursion. -/
theorem nodeText_nonempty (gen : EnhancedCodeGenerator) (graph : AODGraph) (depth : Nat)
    (node : AODNode) (htop : node.isStatement = true) (hbe : node.type ≠ .BlockEnd) :
    (node.getProperty "op_name" ≠ "define" →
      (node.type = .Control → hasHeader node.astStmt = true) →
      (node.type ≠ .Control → generateFallbackCode gen node.astStmt ≠ "" ∧
        RuleInputOk graph depth node.id) →
      ∃ line semi, line ≠ "" ∧ nodeLine gen graph depth node = some line ∧
        nodeText gen graph depth node = some ("    " ++ line ++ semi ++ "\n")) ∧
    (node.getProperty "op_name" = "define" →
      ∀ a d, node.astStmt = .declStmt a [d] → d.isVarDecl = true →
        (∀ edge init_src,
          (graph.getIncomingEdges node.id).find? (fun e => decide (e.variable_name = "init")) =
            some edge →
          graph.getNode edge.source = some init_src →
          RuleInputOk graph depth init_src.id →
          ∃ rhs, tryApplyRules gen graph depth init_src = some rhs ∧
            (rhs ≠ "" →
              ∃ line semi, line ≠ "" ∧ nodeLine gen graph depth node = some line ∧
                nodeText gen graph depth node = some ("    " ++ line ++ semi ++ "\n")) ∧
            (rhs = "" → nodeText gen graph depth node = some "")) ∧
        ((graph.getIncomingEdges node.id).find? (fun e => decide (e.variable_name = "init")) =
            none →
          d.init ≠ .null → generateFallbackCode gen d.init ≠ "" →
          ∃ line semi, line ≠ "" ∧ nodeLine gen graph depth node = some line ∧
            nodeText gen graph depth node = some ("    " ++ line ++ semi ++ "\n")) ∧
        (d.init = .null →
          (∀ e ∈ graph.getIncomingEdges node.id, e.variable_name ≠ "init") →
          nodeText gen graph depth node = some "")) ∧
    (∀ (depth2 : Nat) (n : AODNode), RuleInputOk graph depth n.id →
      RuleInputOk graph depth2 n.id →
      tryApplyRules gen graph depth2 n = tryApplyRules gen graph depth n) := by
  refine ⟨?_, ?_, ?_⟩
  · intro hdef hctl hgen
    have hline : ∃ line, nodeLine gen graph depth node = some line ∧ line ≠ "" ∧
        node.astStmt ≠ .null := by
      unfold nodeLine
      rw [if_neg hdef]
      by_cases hc : node.type = .Control
      · rw [if_pos hc]
        obtain ⟨line, h1, h2⟩ := controlHeader_nonempty gen node (hctl hc)
        refine ⟨line, h1, h2, ?_⟩
        intro hnull
        have := hctl hc
        rw [hnull] at this
        simp [hasHeader] at this
      · rw [if_neg hc]
        obtain ⟨htxt, hin⟩ := hgen hc
        have hnn : node.astStmt ≠ .null := by
          intro hnull
          apply htxt
          rw [hnull]
          rfl
        obtain ⟨rule_code, hr⟩ := tryApplyRules_of_inputOk gen graph depth node hin
        rw [hr]
        simp only
        split
        · rename_i hcond
          exact ⟨rule_code, rfl, hcond.1, hnn⟩
        · exact ⟨_, rfl, htxt, hnn⟩
    obtain ⟨line, hl, hne, hnn⟩ := hline
    unfold nodeText
    rw [if_neg hbe, if_neg (by simp [htop]), hl]
    simp only [if_neg hne]
    cases hs : node.astStmt with
    | null => exact absurd hs hnn
    | _ => exact ⟨line, _, hne, rfl, rfl⟩
  · intro hdef a d hs hvar
    have fin : ∀ line, line ≠ "" → nodeLine gen graph depth node = some line →
        ∃ line semi, line ≠ "" ∧ nodeLine gen graph depth node = some line ∧
          nodeText gen graph depth node = some ("    " ++ line ++ semi ++ "\n") := by
      intro line hne hl
      unfold nodeText
      rw [if_neg hbe, if_neg (by simp [htop]), hl]
      simp only [if_neg hne, hs]
      exact ⟨line, _, hne, rfl, rfl⟩
    refine ⟨?_, ?_, ?_⟩
    · intro edge init_src hfind hnode hin
      obtain ⟨rhs, hrun⟩ := tryApplyRules_of_inputOk gen graph depth init_src hin
      refine ⟨rhs, hrun, ?_, ?_⟩
      · intro hrhs
        have hl : ∃ type1, nodeLine gen graph depth node =
            some (type1 ++ " " ++ node.getProperty "var_name" ++ " = " ++ rhs) := by
          unfold nodeLine
          rw [if_pos hdef]
          unfold generateDefineNode
          simp only [hs, hvar, if_true, hfind, Option.some_bind, hnode, hrun, if_neg hrhs]
          exact ⟨_, rfl⟩
        obtain ⟨type1, hl⟩ := hl
        exact fin _ (append_ne_empty_right _ _ hrhs) hl
      · intro hrhs
        have hl : nodeLine gen graph depth node = some "" := by
          unfold nodeLine
          rw [if_pos hdef]
          unfold generateDefineNode
          simp only [hs, hvar, if_true, hfind, Option.some_bind, hnode, hrun, hrhs]
        unfold nodeText
        rw [if_neg hbe, if_neg (by simp [htop]), hl]
        simp
    · intro hfind hinit htxt
      have hl : ∃ type1, nodeLine gen graph depth node =
          some (type1 ++ " " ++ node.getProperty "var_name" ++ " = " ++
            generateFallbackCode gen d.init) := by
        unfold nodeLine
        rw [if_pos hdef]
        unfold generateDefineNode
        simp only [hs, hvar, if_true, hfind, Option.none_bind]
        cases hi : d.init with
        | null => exact absurd hi hinit
        | _ =>
          simp only [← hi, if_neg htxt]
          exact ⟨_, rfl⟩
      obtain ⟨type1, hl⟩ := hl
      exact fin _ (append_ne_empty_right _ _ htxt) hl
    · intro hinit hedges
      have hfind : (graph.getIncomingEdges node.id).find?
          (fun e => decide (e.variable_name = "init")) = none := by
        rw [List.find?_eq_none]
        intro e he
        simpa using hedges e he
      have hl : nodeLine gen graph depth node = some "" := by
        unfold nodeLine
        rw [if_pos hdef]
        unfold generateDefineNode
        simp [hs, hvar, hinit, hfind]
      unfold nodeText
      rw [if_neg hbe, if_neg (by simp [htop]), hl]
      simp
  · intro depth2 n h1 h2
    obtain ⟨_, rank1, hr1, hl1⟩ := h1
    obtain ⟨_, rank2, hr2, hl2⟩ := h2
    exact tryApplyRules_depth gen graph rank2 rank1 hr2 hr1 depth2 depth n hl2 hl1

/-- C12 on three graphs of the converter: the node of
`_mm256_add_epi8(_mm256_xor_si256(a, b), c);`, whose operand is a node of its
own, gets its line with the bound 1; the declaration
`__m256i v = _mm256_set1_epi8(a);` gets the text of the source of its `init`
edge as right-hand side; the declaration `int x;` gets no text. -/
theorem nodeText_nonempty_witness :
    (RuleInputOk addXorGraph 1 0 ∧
      nodeText (sveGenerator addXorPretty) addXorGraph 1
        (addXorGraph.nodes.headD (AODNode.new 0 .Unknown "")) =
          some "    svadd_s8_z(pg, _mm256_xor_si256(a, b), c);\n" ∧
      ∃ line semi, line ≠ "" ∧
        nodeLine (sveGenerator addXorPretty) addXorGraph 1
          (addXorGraph.nodes.headD (AODNode.new 0 .Unknown "")) = some line ∧
        nodeText (sveGenerator addXorPretty) addXorGraph 1
          (addXorGraph.nodes.headD (AODNode.new 0 .Unknown "")) =
            some ("    " ++ line ++ semi ++ "\n")) ∧
    (RuleInputOk skipGraph 0 3 ∧
      (skipGraph.getNode 2).map (nodeText (sveGenerator skipPretty) skipGraph 0) =
        some (some "    svint8_t v = svdup_s8(a);\n") ∧
      ∃ rhs, (skipGraph.getNode 3).bind (tryApplyRules (sveGenerator skipPretty) skipGraph 0) =
        some rhs ∧ rhs ≠ "") ∧
    nodeText (sveGenerator declPretty) declGraph 1
      (declGraph.nodes.headD (AODNode.new 0 .Unknown "")) = some "" :=
  have hAdd : RuleInputOk addXorGraph 1 0 :=
    ⟨by unfold ArgTagsOk; decide, fun id => if id = 0 then 1 else 0,
      by unfold OperandRank; decide, by decide⟩
  have hSkip : RuleInputOk skipGraph 0 3 :=
    ⟨by unfold ArgTagsOk; decide, fun _ => 0, by unfold OperandRank; decide, by decide⟩
  ⟨⟨hAdd, by rfl,
      (nodeText_nonempty (sveGenerator addXorPretty) addXorGraph 1
        (addXorGraph.nodes.headD (AODNode.new 0 .Unknown "")) (by rfl) (by decide)).1
        (by decide) (fun h => absurd h (by decide)) (fun _ => ⟨by decide, hAdd⟩)⟩,
   ⟨hSkip, by rfl, by
      obtain ⟨rhs, h1, _, _⟩ :=
        ((nodeText_nonempty (sveGenerator skipPretty) skipGraph 0
          ((skipGraph.getNode 2).getD (AODNode.new 0 .Unknown "")) (by rfl) (by decide)).2.1
          (by decide) 1303 _ rfl rfl).1
          (AODEdge.mk 3 2 .Data "init") ((skipGraph.getNode 3).getD (AODNode.new 0 .Unknown ""))
          (by decide) (by rfl) hSkip
      refine ⟨rhs, ?_, ?_⟩
      · exact h1
      · intro he
        rw [he] at h1
        exact absurd h1 (by decide)⟩,
   ((nodeText_nonempty (sveGenerator declPretty) declGraph 1
      (declGraph.nodes.headD (AODNode.new 0 .Unknown "")) rfl (by decide)).2.1 (by decide)
      201 (.mk true "x" "int" false .null) rfl rfl).2.2 rfl (by decide)⟩

end aodsolve

namespace aodsolve

open cpg

/-! ## The first matching rule -/

/-- C17 (as stated, refuted): in the graph of
`_mm256_add_epi8(_mm256_xor_si256(a, b), c);` the node of the addition has the
op_name `_mm256_add_epi8`, which the catalog rule `avx2_add_epi8` lists. A rule
that lists this operation too is added after the catalog: it comes last in query
order and the first rule that lists the op_name is still `avx2_add_epi8`, yet
the text generated for the node changes, because the added rule is the first to
list the op_name of the operand node. -/
theorem later_rule_changes_output :
    addXorGraph.nodes.map (fun n => (n.id, n.getProperty "op_name", n.isStatement)) =
      [(0, "_mm256_add_epi8", true), (1, "_mm256_xor_si256", false), (2, "", false)] ∧
    addXorGraph.edges.map (fun e => (e.source, e.target, e.variable_name)) = [(1, 0, "arg_0")] ∧
    (queriedRules (globalRuleDb.addRule laterRule)).map OptimizationRule.rule_id =
      (queriedRules globalRuleDb).map OptimizationRule.rule_id ++ ["avx2_add_or_xor"] ∧
    (matchRule (queriedRules globalRuleDb) "_mm256_add_epi8").map OptimizationRule.rule_id =
      some "avx2_add_epi8" ∧
    (matchRule (queriedRules (globalRuleDb.addRule laterRule)) "_mm256_add_epi8").map
      OptimizationRule.rule_id = some "avx2_add_epi8" ∧
    addXorGraph.nodes.map
        (tryApplyRules (withRules (sveGenerator addXorPretty) globalRuleDb) addXorGraph 2) =
      [some "svadd_s8_z(pg, _mm256_xor_si256(a, b), c)", some "_mm256_xor_si256(a, b)",
       some ""] ∧
    addXorGraph.nodes.map
        (tryApplyRules (withRules (sveGenerator addXorPretty) (globalRuleDb.addRule laterRule))
          addXorGraph 2) =
      [some "svadd_s8_z(pg, sveor_s8_z(pg, a, b), c)", some "sveor_s8_z(pg, a, b)", some ""] := by
  refine ⟨by decide, by decide, by decide, by decide, by decide, by decide, by decide⟩

theorem matchRule_append (common later : List OptimizationRule) (op : String)
    (hlater : ∀ r ∈ later, ∀ o ∈ r.source_pattern.required_operations,
      ∃ r0 ∈ common, o ∈ r0.source_pattern.required_operations) :
    matchRule (common ++ later) op = matchRule common op := by
  unfold matchRule
  rw [List.find?_append]
  cases hc : common.find? (fun rule => decide (op ∈ rule.source_pattern.required_operations)) with
  | some r => rfl
  | none =>
    simp only [Option.none_or]
    rw [List.find?_eq_none] at hc ⊢
    intro r hr hop
    simp only [decide_eq_true_eq] at hop
    obtain ⟨r0, hr0, ho⟩ := hlater r hr op hop
    exact hc r0 hr0 (by simpa using ho)

theorem matchRule_first (pre post : List OptimizationRule) (rule : OptimizationRule)
    (op : String) (hpre : ∀ r ∈ pre, op ∉ r.source_pattern.required_operations)
    (hrule : op ∈ rule.source_pattern.required_operations) :
    matchRule (pre ++ rule :: post) op = some rule := by
  unfold matchRule
  rw [List.find?_append]
  have : pre.find? (fun rule => decide (op ∈ rule.source_pattern.required_operations)) = none := by
    rw [List.find?_eq_none]
    intro r hr
    simpa using hpre r hr
  rw [this]
  simp [List.find?_cons, hrule]

theorem selectTemplate_congr (gen : EnhancedCodeGenerator) (db1 db2 : RuleDatabase)
    (node : AODNode)
    (h : matchRule (queriedRules db1) (node.getProperty "op_name") =
      matchRule (queriedRules db2) (node.getProperty "op_name")) :
    selectTemplate (withRules gen db1) node = selectTemplate (withRules gen db2) node := by
  simp only [selectTemplate, withRules, generateFallbackCode, h]

theorem applyTemplate_withRules (gen : EnhancedCodeGenerator) (db : RuleDatabase)
    (graph : AODGraph) (node : AODNode) (tmpl : TransformTemplate)
    (recurse : AODNode → Option String) :
    applyTemplate (withRules gen db) graph node tmpl recurse =
      applyTemplate gen graph node tmpl recurse := by
  have he : edgeBinding (withRules gen db) graph (node.getProperty "op_name") recurse =
      edgeBinding gen graph (node.getProperty "op_name") recurse := by
    funext b e
    simp only [edgeBinding, sveAdapt, withRules]
  have ha : astBindings (withRules gen db) node = astBindings gen node := by
    simp only [astBindings, generateFallbackCode, withRules]
  simp only [applyTemplate, he, ha]
  rfl

/-- C17 (amended): `tryApplyRules` uses the template of the first rule in query
order (the `simd_instruction` rules, then the `scalar_vectorization` rules) that
lists the op_name of the node, and falls back to the source text when that rule
has no template for the target. If two rule databases have query orders with a
common initial part, and every operation listed by a rule after that part is
listed by a rule of the common part already, the text generated for every node
is the same with both databases. -/
theorem tryApplyRules_first_match (gen : EnhancedCodeGenerator) (graph : AODGraph)
    (db1 db2 : RuleDatabase) (common later1 later2 : List OptimizationRule)
    (hq1 : queriedRules db1 = common ++ later1) (hq2 : queriedRules db2 = common ++ later2)
    (hlater : ∀ r ∈ later1 ++ later2, ∀ o ∈ r.source_pattern.required_operations,
      ∃ r0 ∈ common, o ∈ r0.source_pattern.required_operations) :
    (∀ (node : AODNode) (pre post : List OptimizationRule) (rule : OptimizationRule),
      queriedRules db1 = pre ++ rule :: post →
      (∀ r ∈ pre, node.getProperty "op_name" ∉ r.source_pattern.required_operations) →
      node.getProperty "op_name" ∈ rule.source_pattern.required_operations →
      node.getProperty "op_name" ≠ "" →
      selectTemplate (withRules gen db1) node =
        match mapFind gen.target_architecture rule.target_templates with
        | some tmpl => .inr tmpl
        | none => .inl (generateFallbackCode gen node.astStmt)) ∧
    (∀ (depth : Nat) (node : AODNode),
      tryApplyRules (withRules gen db1) graph depth node =
        tryApplyRules (withRules gen db2) graph depth node) := by
  constructor
  · intro node pre post rule hq hpre hrule hne
    simp only [selectTemplate, withRules, hq, matchRule_first pre post rule _ hpre hrule,
      if_neg hne, generateFallbackCode]
    cases mapFind gen.target_architecture rule.target_templates <;> rfl
  · have hm : ∀ op, matchRule (queriedRules db1) op = matchRule (queriedRules db2) op := by
      intro op
      rw [hq1, hq2,
        matchRule_append common later1 op
          (fun r hr => hlater r (List.mem_append.mpr (Or.inl hr))),
        matchRule_append common later2 op
          (fun r hr => hlater r (List.mem_append.mpr (Or.inr hr)))]
    intro depth
    induction depth with
    | zero =>
      intro node
      rw [tryApplyRules, tryApplyRules, selectTemplate_congr gen db1 db2 node (hm _)]
      cases selectTemplate (withRules gen db2) node with
      | inl t => rfl
      | inr tmpl => simp only [applyTemplate_withRules]
    | succ depth ih =>
      intro node
      rw [tryApplyRules, tryApplyRules, selectTemplate_congr gen db1 db2 node (hm _)]
      cases selectTemplate (withRules gen db2) node with
      | inl t => rfl
      | inr tmpl =>
        simp only [applyTemplate_withRules]
        have : tryApplyRules (withRules gen db1) graph depth =
            tryApplyRules (withRules gen db2) graph depth := funext ih
        rw [this]

theorem tryApplyRules_first_match_witness :
    queriedRules globalRuleDb = allSIMDRules ++ [] ∧
    queriedRules (globalRuleDb.addRule shadowedRule) = allSIMDRules ++ [shadowedRule] ∧
    tryApplyRules (withRules (sveGenerator addXorPretty) globalRuleDb) addXorGraph 2
        (addXorGraph.nodes.headD (AODNode.new 0 .Unknown "")) =
      tryApplyRules (withRules (sveGenerator addXorPretty) (globalRuleDb.addRule shadowedRule))
        addXorGraph 2 (addXorGraph.nodes.headD (AODNode.new 0 .Unknown "")) :=
  ⟨rfl, rfl,
    (tryApplyRules_first_match (sveGenerator addXorPretty) addXorGraph globalRuleDb
      (globalRuleDb.addRule shadowedRule) allSIMDRules [] [shadowedRule] rfl rfl
      (by
        intro r hr o ho
        have hr2 : r = shadowedRule := by simpa using hr
        subst hr2
        have ho2 : o = "_mm256_add_epi8" := by simpa [shadowedRule, simdRule] using ho
        subst ho2
        exact ⟨simdRule "avx2_add_epi8" "_mm256_add_epi8" "SVE"
          "svadd_s8_z(pg, {{input_0}}, {{input_1}})" "svint8_t",
          by simp [allSIMDRules], by simp [simdRule]⟩)).2 2 _⟩

end aodsolve

namespace lowercase

open cpg

/-! ## The AVX2 routine against the scalar one -/

set_option maxRecDepth 100000 in
theorem laneLower_eq : ∀ b, b < 256 → laneLower b = lowerByteSpec b := by
  decide

theorem lowerByteSpec_lt (b : Nat) (h : b < 256) : lowerByteSpec b % 256 = lowerByteSpec b := by
  unfold lowerByteSpec
  split <;> omega

theorem lanes_eq (l : List Nat) :
    _mm256_add_epi8 l
      (_mm256_and_si256
        (_mm256_and_si256 (_mm256_cmpgt_epi8 l (List.replicate l.length 64))
          (_mm256_cmpgt_epi8 (List.replicate l.length 91) l))
        (List.replicate l.length 32)) = l.map laneLower := by
  unfold _mm256_add_epi8 _mm256_and_si256 _mm256_cmpgt_epi8
  induction l with
  | nil => rfl
  | cons x rest ih =>
    simp only [List.length_cons, List.replicate_succ, List.zipWith_cons_cons, List.map_cons, ih]
    rfl

theorem storeu_spec (p : Nat) (v : List Nat) :
    ∀ (k : Nat) (m : Memory),
      (withIndex k v).foldl (fun mem iv => storeByte mem (p + iv.1) iv.2) m =
        fun a => if p + k ≤ a ∧ a < p + k + v.length then v.getD (a - (p + k)) 0 % 256 else m a := by
  induction v with
  | nil =>
    intro k m
    funext a
    simp only [withIndex, List.foldl_nil, List.length_nil]
    rw [if_neg (by omega)]
  | cons x rest ih =>
    intro k m
    simp only [withIndex, List.foldl_cons, ih]
    funext a
    simp only [List.length_cons, storeByte]
    by_cases h1 : p + (k + 1) ≤ a ∧ a < p + (k + 1) + rest.length
    · rw [if_pos h1, if_pos (by omega)]
      have : a - (p + k) = (a - (p + (k + 1))) + 1 := by omega
      rw [this, List.getD_cons_succ]
    · rw [if_neg h1]
      by_cases h2 : a = p + k
      · rw [if_pos h2, if_pos (by omega)]
        subst h2
        simp
      · rw [if_neg h2, if_neg (by omega)]

theorem loweredMemory_src (m : Memory) (dst src len : Nat)
    (hdisj : ∀ i, i < len → ∀ j, j < len → dst + i ≠ src + j) (k j : Nat) (hk : k ≤ len)
    (hj : j < len) : loweredMemory m dst src k (src + j) = m (src + j) := by
  unfold loweredMemory
  rw [if_neg]
  rintro ⟨h1, h2⟩
  exact hdisj (src + j - dst) (by omega) j hj (by omega)

theorem lowerStep_spec (m : Memory) (dst src len : Nat)
    (hdisj : ∀ i, i < len → ∀ j, j < len → dst + i ≠ src + j) (k : Nat) (hk : k < len) :
    lowerStep (loweredMemory m dst src k) (dst + k) (src + k) = loweredMemory m dst src (k + 1) := by
  have hb : loadByte (loweredMemory m dst src k) (src + k) = m (src + k) % 256 := by
    unfold loadByte
    rw [loweredMemory_src m dst src len hdisj k k (by omega) hk]
  have hlt : m (src + k) % 256 < 256 := Nat.mod_lt _ (by decide)
  funext a
  unfold lowerStep
  rw [hb]
  by_cases ha : a = dst + k
  · subst ha
    have e : loweredMemory m dst src (k + 1) (dst + k) = lowerByteSpec (m (src + k) % 256) := by
      unfold loweredMemory
      rw [if_pos (by omega)]
      congr 3
      omega
    rw [e]
    unfold lowerByteSpec
    by_cases hc : 65 ≤ m (src + k) % 256 ∧ m (src + k) % 256 ≤ 90
    · rw [if_pos hc, if_pos ⟨hc.1, hc.2⟩]
      simp only [storeByte, if_true]
      omega
    · rw [if_neg hc, if_neg (fun hh => hc ⟨hh.1, hh.2⟩)]
      simp only [storeByte, if_true]
      omega
  · have e : loweredMemory m dst src (k + 1) a = loweredMemory m dst src k a := by
      unfold loweredMemory
      by_cases h : dst ≤ a ∧ a < dst + k
      · rw [if_pos h, if_pos (by omega)]
      · rw [if_neg h, if_neg (by omega)]
    rw [e]
    split <;> simp [storeByte, ha]

theorem avx2Step_spec (m : Memory) (dst src len : Nat)
    (hdisj : ∀ i, i < len → ∀ j, j < len → dst + i ≠ src + j) (k : Nat) (hk : k + 32 ≤ len) :
    _mm256_storeu_si256 (loweredMemory m dst src k) (dst + k)
      (_mm256_add_epi8 (_mm256_loadu_si256 (loweredMemory m dst src k) (src + k))
        (_mm256_and_si256
          (_mm256_and_si256
            (_mm256_cmpgt_epi8 (_mm256_loadu_si256 (loweredMemory m dst src k) (src + k))
              (_mm256_set1_epi8 (65 - 1)))
            (_mm256_cmpgt_epi8 (_mm256_set1_epi8 (90 + 1))
              (_mm256_loadu_si256 (loweredMemory m dst src k) (src + k))))
          (_mm256_set1_epi8 (97 - 65)))) = loweredMemory m dst src (k + 32) := by
  have hlen : (_mm256_loadu_si256 (loweredMemory m dst src k) (src + k)).length = 32 := by
    simp [_mm256_loadu_si256]
  have hA : _mm256_set1_epi8 (65 - 1) =
      List.replicate (_mm256_loadu_si256 (loweredMemory m dst src k) (src + k)).length 64 := by
    rw [hlen]; rfl
  have hZ : _mm256_set1_epi8 (90 + 1) =
      List.replicate (_mm256_loadu_si256 (loweredMemory m dst src k) (src + k)).length 91 := by
    rw [hlen]; rfl
  have hD : _mm256_set1_epi8 (97 - 65) =
      List.replicate (_mm256_loadu_si256 (loweredMemory m dst src k) (src + k)).length 32 := by
    rw [hlen]; rfl
  rw [hA, hZ, hD, lanes_eq]
  unfold _mm256_storeu_si256
  rw [storeu_spec]
  funext a
  simp only [Nat.add_zero, List.length_map, hlen]
  by_cases h : dst + k ≤ a ∧ a < dst + k + 32
  · rw [if_pos h]
    have hi : a - (dst + k) < 32 := by omega
    have hget : (List.map laneLower (_mm256_loadu_si256 (loweredMemory m dst src k) (src + k))).getD
        (a - (dst + k)) 0 = laneLower (m (src + k + (a - (dst + k))) % 256) := by
      rw [List.getD_eq_getElem _ _ (by simp [hlen]; exact hi)]
      simp only [_mm256_loadu_si256, List.getElem_map, List.getElem_range, loadByte]
      rw [Nat.add_assoc, loweredMemory_src m dst src len hdisj k _ (by omega) (by omega)]
    rw [hget, laneLower_eq _ (Nat.mod_lt _ (by decide)),
      lowerByteSpec_lt _ (Nat.mod_lt _ (by decide))]
    unfold loweredMemory
    rw [if_pos (by omega)]
    congr 3
    omega
  · rw [if_neg h]
    unfold loweredMemory
    by_cases h2 : dst ≤ a ∧ a < dst + k
    · rw [if_pos h2, if_pos (by omega)]
    · rw [if_neg h2, if_neg (by omega)]

theorem avx2Loop_spec (m : Memory) (dst src len : Nat)
    (hdisj : ∀ i, i < len → ∀ j, j < len → dst + i ≠ src + j) :
    ∀ (fuel k : Nat), k ≤ len → len - k ≤ fuel →
      ∃ k2, k ≤ k2 ∧ k2 ≤ len ∧ len - k2 < 32 ∧
        avx2Loop fuel { mem := loweredMemory m dst src k, src := src + k, q := dst + k
                        len := len - k } =
          { mem := loweredMemory m dst src k2, src := src + k2, q := dst + k2, len := len - k2 } := by
  intro fuel
  induction fuel with
  | zero =>
    intro k hk hf
    exact ⟨k, le_refl _, hk, by omega, rfl⟩
  | succ fuel ih =>
    intro k hk hf
    rw [avx2Loop]
    by_cases h32 : len - k ≥ 32
    · simp only [h32, if_true]
      rw [avx2Step_spec m dst src len hdisj k (by omega)]
      obtain ⟨k2, h1, h2, h3, h4⟩ := ih (k + 32) (by omega) (by omega)
      refine ⟨k2, by omega, h2, h3, ?_⟩
      have e1 : src + k + 32 = src + (k + 32) := by omega
      have e2 : dst + k + 32 = dst + (k + 32) := by omega
      have e3 : len - k - 32 = len - (k + 32) := by omega
      rw [e1, e2, e3]
      exact h4
    · simp only [h32, if_false]
      exact ⟨k, le_refl _, hk, by omega, rfl⟩

theorem tailLoop_spec (m : Memory) (dst src len : Nat)
    (hdisj : ∀ i, i < len → ∀ j, j < len → dst + i ≠ src + j) :
    ∀ (fuel k : Nat), k ≤ len → len - k ≤ fuel →
      tailLoop fuel { mem := loweredMemory m dst src k, src := src + k, q := dst + k
                      len := len - k } =
        { mem := loweredMemory m dst src len, src := src + len, q := dst + len, len := 0 } := by
  intro fuel
  induction fuel with
  | zero =>
    intro k hk hf
    have : k = len := by omega
    subst this
    simp [tailLoop]
  | succ fuel ih =>
    intro k hk hf
    rw [tailLoop]
    by_cases h0 : len - k > 0
    · simp only [h0, if_true]
      rw [lowerStep_spec m dst src len hdisj k (by omega)]
      have e1 : src + k + 1 = src + (k + 1) := by omega
      have e2 : dst + k + 1 = dst + (k + 1) := by omega
      have e3 : len - k - 1 = len - (k + 1) := by omega
      rw [e1, e2, e3]
      exact ih (k + 1) (by omega) (by omega)
    · simp only [h0, if_false]
      have : k = len := by omega
      subst this
      simp

theorem scalarLoop_spec (m : Memory) (dst src len : Nat)
    (hdisj : ∀ i, i < len → ∀ j, j < len → dst + i ≠ src + j) :
    ∀ (fuel i : Nat), i ≤ len → len - i ≤ fuel →
      scalarLoop dst src len fuel i (loweredMemory m dst src i) = loweredMemory m dst src len := by
  intro fuel
  induction fuel with
  | zero =>
    intro i hi hf
    have : i = len := by omega
    subst this
    rfl
  | succ fuel ih =>
    intro i hi hf
    rw [scalarLoop]
    by_cases h : i < len
    · rw [if_pos h, lowerStep_spec m dst src len hdisj i h]
      exact ih (i + 1) (by omega) (by omega)
    · rw [if_neg h]
      have : i = len := by omega
      subst this
      rfl

theorem loweredMemory_zero (m : Memory) (dst src : Nat) : loweredMemory m dst src 0 = m := by
  funext a
  unfold loweredMemory
  rw [if_neg (by omega)]

/-- C18: with non-overlapping `dst` and `src`, `lower_case_avx2` leaves the same
memory as `lower_case_scalar`, for every memory and every length: `dst[0..len)`
holds each byte of `src[0..len)`, increased by `'a' - 'A'` when it is in
`'A'..'Z'` and unchanged otherwise, and no other byte is written. -/
theorem lower_case_avx2_eq_scalar (m : Memory) (dst src len : Nat)
    (hdisj : ∀ i, i < len → ∀ j, j < len → dst + i ≠ src + j) :
    lower_case_avx2 m dst src len = lower_case_scalar m dst src len ∧
    lower_case_scalar m dst src len = loweredMemory m dst src len ∧
    (∀ i, i < len →
      lower_case_avx2 m dst src len (dst + i) = lowerByteSpec (loadByte m (src + i))) := by
  have hs : lower_case_scalar m dst src len = loweredMemory m dst src len := by
    have := scalarLoop_spec m dst src len hdisj len 0 (by omega) (by omega)
    rw [loweredMemory_zero] at this
    exact this
  have ha : lower_case_avx2 m dst src len = loweredMemory m dst src len := by
    unfold lower_case_avx2
    obtain ⟨k2, _, h2, _, h4⟩ := avx2Loop_spec m dst src len hdisj len 0 (by omega) (by omega)
    rw [loweredMemory_zero] at h4
    simp only [Nat.add_zero, Nat.sub_zero] at h4
    rw [h4, tailLoop_spec m dst src len hdisj len k2 h2 (by omega)]
  refine ⟨by rw [ha, hs], hs, ?_⟩
  intro i hi
  rw [ha]
  unfold loweredMemory loadByte
  rw [if_pos (by omega)]
  congr 3
  omega

theorem lower_case_avx2_eq_scalar_witness :
    (∀ i, i < 33 → ∀ j, j < 33 → 100 + i ≠ 0 + j) ∧
    lower_case_avx2 memRamp 100 0 33 = lower_case_scalar memRamp 100 0 33 ∧
    lower_case_scalar memRamp 100 0 33 = loweredMemory memRamp 100 0 33 ∧
    (∀ i, i < 33 →
      lower_case_avx2 memRamp 100 0 33 (100 + i) = lowerByteSpec (loadByte memRamp (0 + i))) :=
  ⟨fun i _ j _ => by omega,
    lower_case_avx2_eq_scalar memRamp 100 0 33 (fun i _ j _ => by omega)⟩

set_option maxRecDepth 100000 in
/-- One round of the 32-byte loop and one byte of the tail loop, evaluated: the
bytes written to `dst[0..33)` for the source bytes `60, ..., 92`. -/
theorem lower_case_avx2_example :
    (List.range 33).map (fun i => lower_case_avx2 memRamp 100 0 33 (100 + i)) =
      [60, 61, 62, 63, 64, 97, 98, 99, 100, 101, 102, 103, 104, 105, 106, 107, 108, 109, 110,
       111, 112, 113, 114, 115, 116, 117, 118, 119, 120, 121, 122, 91, 92] := by
  decide

end lowercase

namespace cpg

/-! ## Post-dominators -/

theorem mem_postDomSucc_rest (pd : PostDomMap) (b x : Nat) (succs : List (Option Nat)) :
    ∀ acc : List Nat, b ∈ acc →
      (x ∈ (succs.foldl (postDomSucc pd b) (acc, false)).1 ↔
        x = b ∨ (x ∈ acc ∧ ∀ s, some s ∈ succs → x ∈ mapGetD pd s [])) := by
  induction succs with
  | nil =>
    intro acc hb
    simp only [List.foldl_nil, List.not_mem_nil, false_implies, implies_true, and_true]
    constructor
    · exact fun h => Or.inr h
    · rintro (h | h)
      · exact h ▸ hb
      · exact h
  | cons o rest ih =>
    intro acc hb
    cases o with
    | none =>
      simp only [List.foldl_cons, postDomSucc]
      rw [ih acc hb]
      simp
    | some s1 =>
      simp only [List.foldl_cons, postDomSucc, Bool.false_eq_true, if_false]
      rw [ih _ ((mem_setInsert natLt b b _).mpr (Or.inl rfl))]
      simp only [mem_setInsert, List.mem_filter, decide_eq_true_eq, List.mem_cons,
        Option.some.injEq]
      constructor
      · rintro (h | ⟨h | ⟨h1, h2⟩, h3⟩)
        · exact Or.inl h
        · exact Or.inl h
        · refine Or.inr ⟨h1, ?_⟩
          rintro s (hs | hs)
          · exact hs ▸ h2
          · exact h3 s hs
      · rintro (h | ⟨h1, h2⟩)
        · exact Or.inl h
        · exact Or.inr ⟨Or.inr ⟨h1, h2 s1 (Or.inl rfl)⟩, fun s hs => h2 s (Or.inr hs)⟩

/-- The set a block gets in one step: the block itself and, when it has a
successor, what is common to the sets of all its successors. -/
theorem mem_newPostDom (pd : PostDomMap) (b x : Nat) (succs : List (Option Nat)) :
    x ∈ (succs.foldl (postDomSucc pd b) ([b], true)).1 ↔
      x = b ∨ ((∃ s, some s ∈ succs) ∧ ∀ s, some s ∈ succs → x ∈ mapGetD pd s []) := by
  induction succs with
  | nil => simp
  | cons o rest ih =>
    cases o with
    | none =>
      simp only [List.foldl_cons, postDomSucc]
      rw [ih]
      simp
    | some s1 =>
      simp only [List.foldl_cons, postDomSucc, if_true]
      rw [mem_postDomSucc_rest pd b x rest _
        ((mem_setInsertAll natLt b _ _).mpr (Or.inl (List.mem_singleton.mpr rfl)))]
      simp only [mem_setInsertAll, List.mem_singleton, List.mem_cons, Option.some.injEq,
        List.not_mem_nil, or_false]
      constructor
      · rintro (h | ⟨h | h, h3⟩)
        · exact Or.inl h
        · exact Or.inl h
        · refine Or.inr ⟨⟨s1, Or.inl rfl⟩, ?_⟩
          rintro s (hs | hs)
          · exact hs ▸ h
          · exact h3 s hs
      · rintro (h | ⟨_, h2⟩)
        · exact Or.inl h
        · exact Or.inr ⟨Or.inr (h2 s1 (Or.inl rfl)), fun s hs => h2 s (Or.inr hs)⟩

theorem postDomFold_flag (cfg : CFG) (L : List (Nat × CFGBlock)) :
    ∀ pd : PostDomMap, (L.foldl (postDomBlock cfg) (pd, true)).2 = true := by
  induction L with
  | nil => intro pd; rfl
  | cons ib rest ih =>
    intro pd
    simp only [List.foldl_cons]
    have : ∃ pd2, postDomBlock cfg (pd, true) ib = (pd2, true) := by
      unfold postDomBlock
      split
      · exact ⟨pd, rfl⟩
      · simp only
        split
        · exact ⟨_, rfl⟩
        · exact ⟨pd, rfl⟩
    obtain ⟨pd2, h⟩ := this
    rw [h]
    exact ih pd2

/-- A pass that reports no change has found every block at its fixed point. -/
theorem postDomFold_fixed (cfg : CFG) (L : List (Nat × CFGBlock)) (pd : PostDomMap)
    (h : (L.foldl (postDomBlock cfg) (pd, false)).2 = false) :
    ∀ ib ∈ L, ib.1 ≠ cfg.exit →
      (ib.2.succs.foldl (postDomSucc pd ib.1) ([ib.1], true)).1 = mapGetD pd ib.1 [] := by
  induction L with
  | nil => intro ib hib; simp at hib
  | cons ib0 rest ih =>
    simp only [List.foldl_cons] at h
    by_cases hex : ib0.1 = cfg.exit
    · have e : postDomBlock cfg (pd, false) ib0 = (pd, false) := by
        unfold postDomBlock; rw [if_pos hex]
      rw [e] at h
      intro ib hib hne
      rcases List.mem_cons.mp hib with rfl | hib
      · exact absurd hex hne
      · exact ih h ib hib hne
    · by_cases hch : (ib0.2.succs.foldl (postDomSucc pd ib0.1) ([ib0.1], true)).1 ≠
          mapGetD pd ib0.1 []
      · have e : ∃ pd2, postDomBlock cfg (pd, false) ib0 = (pd2, true) := by
          unfold postDomBlock
          rw [if_neg hex]
          simp only
          rw [if_pos hch]
          exact ⟨_, rfl⟩
        obtain ⟨pd2, e⟩ := e
        rw [e, postDomFold_flag] at h
        simp at h
      · have e : postDomBlock cfg (pd, false) ib0 = (pd, false) := by
          unfold postDomBlock
          rw [if_neg hex]
          simp only
          rw [if_neg hch]
        rw [e] at h
        intro ib hib hne
        rcases List.mem_cons.mp hib with rfl | hib
        · exact not_not.mp hch
        · exact ih h ib hib hne

theorem withIndex_mem_of_getElem? {α : Type} (l : List α) (j : Nat) (a : α)
    (h : l[j]? = some a) : ∀ i, (i + j, a) ∈ withIndex i l := by
  induction l generalizing j with
  | nil => simp at h
  | cons x rest ih =>
    intro i
    cases j with
    | zero =>
      simp at h
      subst h
      simp [withIndex]
    | succ j =>
      simp only [List.getElem?_cons_succ] at h
      have := ih j h (i + 1)
      simp only [withIndex, List.mem_cons]
      right
      have e : i + (j + 1) = i + 1 + j := by omega
      rw [e]
      exact this

theorem block_mem_withIndex (cfg : CFG) (b : Nat) (hb : b < cfg.blocks.length) :
    (b, cfg.block b) ∈ withIndex 0 cfg.blocks := by
  have h : cfg.blocks[b]? = some (cfg.block b) := by
    unfold CFG.block
    rw [List.getD_eq_getElem _ _ hb]
    exact List.getElem?_eq_getElem hb
  have := withIndex_mem_of_getElem? cfg.blocks b _ h 0
  simpa using this

theorem succ_lt_of_succsInRange (cfg : CFG) (h : cfg.succsInRange = true) (b s : Nat)
    (hs : some s ∈ (cfg.block b).succs) : s < cfg.blocks.length := by
  by_cases hb : b < cfg.blocks.length
  · unfold CFG.succsInRange at h
    rw [List.all_eq_true] at h
    have hblk : cfg.block b = cfg.blocks[b] := List.getD_eq_getElem _ _ hb
    have h1 := h (cfg.blocks[b]) (List.getElem_mem _)
    rw [List.all_eq_true] at h1
    have h2 := h1 (some s) (hblk ▸ hs)
    simpa using h2
  · have hblk : cfg.block b = { elems := [], preds := [], succs := [], terminator := .null } :=
      List.getD_eq_default _ _ (by omega)
    rw [hblk] at hs
    simp at hs

theorem succ_of_noDeadEnd (cfg : CFG) (h : cfg.noDeadEnd = true) (b : Nat)
    (hb : b < cfg.blocks.length) (hne : b ≠ cfg.exit) : ∃ s, some s ∈ (cfg.block b).succs := by
  unfold CFG.noDeadEnd at h
  rw [List.all_eq_true] at h
  have h1 := h (b, cfg.block b) (block_mem_withIndex cfg b hb)
  simp only [Bool.or_eq_true, decide_eq_true_eq, List.any_eq_true] at h1
  rcases h1 with h1 | ⟨o, ho, hsome⟩
  · exact absurd h1 hne
  · cases o with
    | none => simp at hsome
    | some s => exact ⟨s, ho⟩

end cpg

namespace cpg

theorem postDomInit_fold (exit X : Nat) (all : List Nat) (L : List Nat) :
    ∀ pd : PostDomMap,
      mapGetD (L.foldl (fun pd b => if b ≠ exit then mapSet natLt b all pd else pd) pd) X [] =
        if X ∈ L ∧ X ≠ exit then all else mapGetD pd X [] := by
  induction L with
  | nil => intro pd; simp
  | cons b rest ih =>
    intro pd
    simp only [List.foldl_cons]
    rw [ih]
    by_cases hr : X ∈ rest ∧ X ≠ exit
    · rw [if_pos hr, if_pos ⟨List.mem_cons_of_mem _ hr.1, hr.2⟩]
    · rw [if_neg hr]
      by_cases hb : b ≠ exit
      · rw [if_pos hb]
        by_cases hX : X = b
        · subst hX
          rw [mapGetD_mapSet_self, if_pos ⟨List.mem_cons_self _ _, hb⟩]
        · rw [mapGetD_mapSet_ne _ _ _ _ _ _ hX, if_neg]
          rintro ⟨h1, h2⟩
          rcases List.mem_cons.mp h1 with e | e
          · exact hX e
          · exact hr ⟨e, h2⟩
      · rw [if_neg hb, if_neg]
        rintro ⟨h1, h2⟩
        rcases List.mem_cons.mp h1 with e | e
        · exact hb (e ▸ h2)
        · exact hr ⟨e, h2⟩

theorem PdInv_init (cfg : CFG) (A : Nat) : PdInv cfg A (postDomInit cfg) := by
  unfold PdInv postDomInit
  simp only
  constructor
  · rw [postDomInit_fold, if_neg (fun h => h.2 rfl), mapGetD_mapSet_self]
  · intro X B _ hX hB hall
    rw [postDomInit_fold]
    by_cases hex : X = cfg.exit
    · subst hex
      rw [if_neg (fun h => h.2 rfl), mapGetD_mapSet_self]
      exact hall [cfg.exit] IsPathToExit.exit
    · rw [if_pos ⟨List.mem_range.mpr hX, hex⟩]
      exact (mem_setInsertAll natLt B _ _).mpr (Or.inr (List.mem_range.mpr hB))

theorem PdInv_block (cfg : CFG) (A : Nat) (hsafe : NoDeadEndFrom cfg A)
    (st : PostDomMap × Bool) (ib : Nat × CFGBlock) (hib : ib ∈ withIndex 0 cfg.blocks)
    (h : PdInv cfg A st.1) : PdInv cfg A (postDomBlock cfg st ib).1 := by
  unfold postDomBlock
  by_cases hex : ib.1 = cfg.exit
  · rw [if_pos hex]; exact h
  · rw [if_neg hex]
    simp only
    split
    · have hblk : cfg.block ib.1 = ib.2 := block_of_mem_withIndex cfg ib.1 ib.2 hib
      constructor
      · show mapGetD (mapSet natLt ib.1 _ st.1) cfg.exit [] = [cfg.exit]
        rw [mapGetD_mapSet_ne _ _ _ _ _ _ (fun e => hex e.symm)]
        exact h.1
      · intro X B hreach hX hB hall
        show B ∈ mapGetD (mapSet natLt ib.1 _ st.1) X []
        by_cases hXb : X = ib.1
        · rw [hXb, mapGetD_mapSet_self, mem_newPostDom]
          rw [hXb] at hall hreach
          by_cases hBX : B = ib.1
          · exact Or.inl hBX
          · right
            rw [← hblk]
            refine ⟨(hsafe ib.1 hreach).2 hex, ?_⟩
            intro s hs
            have hrs : Reaches cfg A s := Relation.ReflTransGen.tail hreach hs
            apply h.2 s B hrs (hsafe s hrs).1 hB
            intro p hp
            have := hall (ib.1 :: p) (IsPathToExit.step ib.1 s p hs hp)
            rcases List.mem_cons.mp this with e | e
            · exact absurd e hBX
            · exact e
        · rw [mapGetD_mapSet_ne _ _ _ _ _ _ hXb]
          exact h.2 X B hreach hX hB hall
    · exact h

theorem PdInv_pass (cfg : CFG) (A : Nat) (hsafe : NoDeadEndFrom cfg A)
    (pd : PostDomMap) (h : PdInv cfg A pd) : PdInv cfg A (postDomPass cfg pd).1 := by
  unfold postDomPass
  refine foldl_invariant (fun (st : PostDomMap × Bool) => PdInv cfg A st.1) (postDomBlock cfg)
    _ ?_ (pd, false) h
  intro st ib hib hst
  exact PdInv_block cfg A hsafe st ib (List.mem_reverse.mp hib) hst

theorem postDomLoop_eq (cfg : CFG) (n : Nat) (pd : PostDomMap) :
    postDomLoop cfg (n + 1) pd =
      if (postDomPass cfg pd).2 then postDomLoop cfg n (postDomPass cfg pd).1
      else (postDomPass cfg pd).1 := rfl

theorem PdInv_loop (cfg : CFG) (A : Nat) (hsafe : NoDeadEndFrom cfg A) :
    ∀ (n : Nat) (pd : PostDomMap), PdInv cfg A pd → PdInv cfg A (postDomLoop cfg n pd) := by
  intro n
  induction n with
  | zero => intro pd h; exact h
  | succ n ih =>
    intro pd h
    rw [postDomLoop_eq]
    split
    · exact ih _ (PdInv_pass cfg A hsafe pd h)
    · exact PdInv_pass cfg A hsafe pd h

/-- In a flow graph in which every successor is a block and every block other
than the exit block has a successor, no dead end is reached from any block. -/
theorem noDeadEndFrom_of_noDeadEnd (cfg : CFG) (hrange : cfg.succsInRange = true)
    (hdead : cfg.noDeadEnd = true) (A : Nat) (hA : A < cfg.blocks.length) :
    NoDeadEndFrom cfg A := by
  intro X hX
  have hlt : X < cfg.blocks.length := by
    induction hX with
    | refl => exact hA
    | tail _ hs _ => exact succ_lt_of_succsInRange cfg hrange _ _ hs
  exact ⟨hlt, succ_of_noDeadEnd cfg hdead X hlt⟩

theorem postDomBlock_exit (cfg : CFG) (st : PostDomMap × Bool) (ib : Nat × CFGBlock) :
    mapGetD (postDomBlock cfg st ib).1 cfg.exit [] = mapGetD st.1 cfg.exit [] := by
  unfold postDomBlock
  by_cases hex : ib.1 = cfg.exit
  · rw [if_pos hex]
  · rw [if_neg hex]
    simp only
    split
    · exact mapGetD_mapSet_ne _ _ _ _ _ _ (fun e => hex e.symm)
    · rfl

theorem postDomLoop_exit (cfg : CFG) :
    ∀ (n : Nat) (pd : PostDomMap),
      mapGetD (postDomLoop cfg n pd) cfg.exit [] = mapGetD pd cfg.exit [] := by
  have hpass : ∀ pd : PostDomMap,
      mapGetD (postDomPass cfg pd).1 cfg.exit [] = mapGetD pd cfg.exit [] := by
    intro pd
    unfold postDomPass
    exact foldl_invariant
      (fun (st : PostDomMap × Bool) => mapGetD st.1 cfg.exit [] = mapGetD pd cfg.exit [])
      (postDomBlock cfg) _ (fun st ib _ hst => by
        show mapGetD (postDomBlock cfg st ib).1 cfg.exit [] = mapGetD pd cfg.exit []
        rw [postDomBlock_exit]; exact hst) (pd, false) rfl
  intro n
  induction n with
  | zero => intro pd; rfl
  | succ n ih =>
    intro pd
    rw [postDomLoop_eq]
    split
    · rw [ih, hpass]
    · exact hpass pd

/-- A member of the set of a block at a fixed point lies on every path from the
block to the exit block. -/
theorem postDom_sound (cfg : CFG) (pd : PostDomMap)
    (hexit : mapGetD pd cfg.exit [] = [cfg.exit])
    (hfix : (postDomPass cfg pd).2 = false) (B : Nat) :
    ∀ (A : Nat) (p : List Nat), IsPathToExit cfg A p → B ∈ mapGetD pd A [] → B ∈ p := by
  intro A p hp
  induction hp with
  | exit =>
    intro hB
    rw [hexit] at hB
    exact hB
  | step a s p hs _ ih =>
    intro hB
    by_cases hex : a = cfg.exit
    · rw [hex, hexit] at hB
      rw [hex]
      exact List.mem_cons.mpr (Or.inl (List.mem_singleton.mp hB))
    · have hlt : a < cfg.blocks.length := by
        by_contra hge
        have hblk : cfg.block a =
            { elems := [], preds := [], succs := [], terminator := .null } :=
          List.getD_eq_default _ _ (by omega)
        rw [hblk] at hs
        simp at hs
      have hmem := block_mem_withIndex cfg a hlt
      have hfixed := postDomFold_fixed cfg _ pd hfix (a, cfg.block a)
        (List.mem_reverse.mpr hmem) hex
      simp only at hfixed
      rw [← hfixed, mem_newPostDom] at hB
      rcases hB with e | ⟨_, hall⟩
      · exact List.mem_cons.mpr (Or.inl e)
      · exact List.mem_cons_of_mem _ (ih (hall s hs))

/-- C20 (as stated, refuted): in the flow graph `cfgDead` one branch of the
`if` of block 3 leads to block 1, which has no successor. The iteration of
`computePostDominators` reaches its fixed point, the exit block 0 is reachable
from block 3, and every path from block 3 to the exit block passes through the
exit block and through block 2; the computed set of block 3 holds block 3 only. -/
theorem postDominators_dead_end :
    getCFG ctxDead 700 = some cfgDead ∧
    (postDomPass cfgDead (computePostDominators ctxDead 700 [])).2 = false ∧
    IsPathToExit cfgDead 3 [3, 2, 0] ∧
    (∀ p, IsPathToExit cfgDead 3 p → 0 ∈ p ∧ 2 ∈ p) ∧
    mapGetD (computePostDominators ctxDead 700 []) 3 [] = [3] := by
  refine ⟨rfl, by decide, ?_, ?_, by decide⟩
  · exact IsPathToExit.step 3 2 _ (by decide)
      (IsPathToExit.step 2 0 _ (by decide) IsPathToExit.exit)
  · have hend : ∀ a p, IsPathToExit cfgDead a p → 0 ∈ p := by
      intro a p hp
      induction hp with
      | exit => exact List.mem_singleton.mpr rfl
      | step a s p _ _ ih => exact List.mem_cons_of_mem _ ih
    intro p hp
    refine ⟨hend 3 p hp, ?_⟩
    cases hp with
    | step a s q hs hq =>
      have hs2 : s = 1 ∨ s = 2 := by
        have : some s ∈ [some 1, some 2] := hs
        simpa using this
      rcases hs2 with rfl | rfl
      · cases hq with
        | step a s r hs1 _ =>
          have : some s ∈ ([] : List (Option Nat)) := hs1
          simp at this
      · cases hq with
        | step a s r _ _ => simp

/-- C20 (amended): when the iteration of `computePostDominators` has reached its
fixed point (one more pass changes nothing), for every block `A` from which no
dead end is reached (every block reached from `A` other than the exit block has
a successor) and every block `B`, `B` is in the computed post-dominator set of
`A` if and only if every path of the flow graph from `A` to the exit block
passes through `B`. Without the condition on `A`, a member of the computed set
still lies on every path from `A` to the exit block. -/
theorem postDominators_correct (ctx : CPGContext) (func : Nat) (cfg : CFG)
    (hcfg : getCFG ctx func = some cfg)
    (hfix : (postDomPass cfg (computePostDominators ctx func [])).2 = false)
    (A B : Nat) (hB : B < cfg.blocks.length) :
    (NoDeadEndFrom cfg A →
      (B ∈ mapGetD (computePostDominators ctx func []) A [] ↔
        ∀ p, IsPathToExit cfg A p → B ∈ p)) ∧
    (B ∈ mapGetD (computePostDominators ctx func []) A [] →
      ∀ p, IsPathToExit cfg A p → B ∈ p) := by
  have hres : computePostDominators ctx func [] = postDomLoop cfg 100 (postDomInit cfg) := by
    simp [computePostDominators, hcfg]
  rw [hres] at hfix ⊢
  have hexit : mapGetD (postDomLoop cfg 100 (postDomInit cfg)) cfg.exit [] = [cfg.exit] := by
    rw [postDomLoop_exit]
    exact (PdInv_init cfg A).1
  have hsound : B ∈ mapGetD (postDomLoop cfg 100 (postDomInit cfg)) A [] →
      ∀ p, IsPathToExit cfg A p → B ∈ p :=
    fun hmem p hp => postDom_sound cfg _ hexit hfix B A p hp hmem
  refine ⟨?_, hsound⟩
  intro hsafe
  have hinv := PdInv_loop cfg A hsafe 100 _ (PdInv_init cfg A)
  exact ⟨hsound, fun hall =>
    hinv.2 A B Relation.ReflTransGen.refl (hsafe A Relation.ReflTransGen.refl).1 hB hall⟩

theorem postDominators_correct_witness :
    getCFG ctxB 200 = some cfgB ∧
    (postDomPass cfgB (computePostDominators ctxB 200 [])).2 = false ∧
    NoDeadEndFrom cfgB 3 ∧
    (1 ∈ mapGetD (computePostDominators ctxB 200 []) 3 [] ↔
      ∀ p, IsPathToExit cfgB 3 p → 1 ∈ p) :=
  ⟨rfl, by decide,
    noDeadEndFrom_of_noDeadEnd cfgB (by decide) (by decide) 3 (by decide),
    (postDominators_correct ctxB 200 cfgB rfl (by decide) 3 1 (by decide)).1
      (noDeadEndFrom_of_noDeadEnd cfgB (by decide) (by decide) 3 (by decide))⟩

end cpg

namespace cpg

/-! ## Calls that are not linked -/

theorem createICFGNode_ptr (ctx : CPGContext) (kind : ICFGNodeKind) (func : Nat) :
    (createICFGNode ctx kind func).2 = ctx.heap.length := rfl

end cpg

namespace cpg

end cpg

namespace cpg

theorem icfgExitEdge_none (exitNode : Nat) (preds : List (Option Nat)) :
    preds.foldl (icfgExitEdge exitNode) none = none := by
  induction preds with
  | nil => rfl
  | cons p rest ih => simp only [List.foldl_cons, icfgExitEdge, ih]

end cpg

namespace cpg

end cpg

namespace cpg

end cpg

namespace cpg

end cpg

namespace cpg

/-- Scenario D: the call `k(x)` to a defined function is linked (a `ReturnSite`
and an `ActualIn` node in the caller, a `FormalIn` node in the callee, `Call`,
`Return` and `ParamIn` edges), the call `g()` to a function without body is not. -/
theorem scenarioD_linking :
    nodeKindsOf ctxD 850 =
      [.Entry, .Exit, .Statement, .CallSite, .Statement, .Statement, .CallSite,
       .ReturnSite, .ActualIn] ∧
    nodeKindsOf ctxD 840 = [.Entry, .Exit, .Statement, .FormalIn] ∧
    edgeKindsOf ctxD 850 =
      [.Intraprocedural, .Intraprocedural, .Intraprocedural, .Intraprocedural,
       .Intraprocedural, .Call, .ParamIn, .ParamIn] ∧
    edgeKindsOf ctxD 840 = [.Return, .Intraprocedural] ∧
    ctxD.heap.filterMap (fun n => if n.kind = .ReturnSite then n.callExpr else none) = [811] := by
  decide

end cpg

namespace cpg

/-! ## Blocks without statements -/

/-- C23 on scenario A (`x = 1; y = x + 1;`): the flow graph holds two statements
and its entry block, as in every flow graph Clang builds, holds none; after
`buildICFG` the `Entry` node of the function has no successor, the node of the
first statement is another node and has no predecessor. -/
theorem entry_node_not_wired :
    cfgA.stmtAddrs = [1, 2] ∧ (cfgA.block cfgA.entry).elems.length = 0 ∧
    (buildICFG CPGContext.empty funcA).map (fun ctx =>
      (getFunctionEntry ctx 100,
       (getFunctionEntry ctx 100).map (fun e =>
         (ctx.heap.get? e).map (fun n => (n.kind, n.successors))),
       getICFGNode ctx 1,
       (getICFGNode ctx 1).map (fun p => (ctx.heap.get? p).map ICFGNode.predecessors))) =
      some (some 0, some (some (.Entry, [])), some 2, some (some [])) := by
  refine ⟨by decide, by decide, by rfl⟩

/-- C24 on `if (c) { } else { x = 1; } y = 2;`: the first successor of the block
of the condition is the empty block of the `then` branch, the second the block
of `x = 1`. `buildICFG` gives the edge from the condition to `x = 1` the label
`True`, and `computeControlDependencies` searches the block of `x = 1` with the
branch value false. -/
theorem branch_labels_disagree :
    buildCPG CPGContext.empty (some funcE) = some ctxE ∧
    isIfOrWhile (cfgE.block 4).terminator = true ∧
    (cfgE.block 4).succs = [some 3, some 2] ∧
    (cfgE.block 3).elems.length = 0 ∧
    (cfgE.block 2).elems.map Stmt.addr = [stmtE_else.addr] ∧
    (getICFGNode ctxE stmtE_cond.addr).map (fun p =>
      (ctxE.heap[p]?).map ICFGNode.successors) = some (some [(3, .True)]) ∧
    getICFGNode ctxE stmtE_else.addr = some 3 ∧
    getControlDependencies ctxE stmtE_else.addr =
      [{ controlStmt := 900, dependentStmt := 903, branchValue := false }] := by
  refine ⟨by rfl, by decide, by decide, by decide, by decide, by decide, by decide, by decide⟩

/-- C30 on `while (c) { x = 1; }`: the block of the condition is reached from
the block of `x = 1` through the empty block of the back edge, and after
`buildICFG` the node of `x = 1` has no successor: `hasControlFlowPath` from
`x = 1` to the condition is false. -/
theorem back_edge_lost :
    buildICFG CPGContext.empty funcW = some ctxW ∧
    (cfgW.block 2).elems.map Stmt.addr = [stmtW_body.addr] ∧
    (cfgW.block 3).elems.map Stmt.addr = [stmtW_cond.addr] ∧
    (cfgW.block 1).elems.length = 0 ∧ Reaches cfgW 2 3 ∧
    (getICFGNode ctxW stmtW_body.addr).map (getSuccessors ctxW) = some [] ∧
    hasControlFlowPath ctxW stmtW_body.addr stmtW_cond.addr = false := by
  refine ⟨by rfl, by decide, by decide, by decide, ?_, by decide, by decide⟩
  have h21 : some 1 ∈ (cfgW.block 2).succs := by decide
  have h13 : some 3 ∈ (cfgW.block 1).succs := by decide
  exact Relation.ReflTransGen.tail
    (Relation.ReflTransGen.tail Relation.ReflTransGen.refl h21) h13

end cpg

namespace aodsolve

open cpg

/-! ## Dependences of declarations and edge tags -/

/-- C26 on `int x = 1; int y = x + 1;`: the CPG reports the flow dependence of
the declaration of `y` on the declaration of `x` through `x`, both declarations
have a node in the converted graph, and `connectDataFlow` adds no edge at all:
a declaration is not an expression, and the loop body is left before the
dependences of the CPG are looked at. -/
theorem declaration_dependence_not_connected :
    buildCPG CPGContext.empty (some funcPQ) = some ctxPQ ∧
    getDataDependencies ctxPQ declQ.addr =
      [{ sourceStmt := 1001, sinkStmt := 1003, varName := "x", kind := .Flow }] ∧
    graphPQ.nodes.map (fun n => (n.id, n.astStmt.addr, n.getProperty "op_name")) =
      [(0, 1001, "define"), (1, 1003, "define"), (2, 0, "")] ∧
    graphPQ.edges = [] := by
  refine ⟨by rfl, by decide, by decide, by decide⟩

/-- C28 on `__m256i arg_v = _mm256_set1_epi8(1); _mm256_storeu_si256(p, arg_v);`:
the dependence of the call on the declaration of `arg_v` becomes an edge tagged
with the variable name `arg_v`, which starts with `arg_` and has no digit after
it; the index parse fails on it, and so does `generateCodeFromGraph`, at every
depth of the recursion. -/
theorem variable_named_arg_breaks_generation :
    (convertWithOperators ctxArgV 0 funcArgV "AVX2" "SVE").successful = true ∧
    graphArgV.edges.map (fun e => (e.source, e.target, e.variable_name)) =
      [(2, 1, "init"), (1, 3, "arg_1"), (1, 3, "arg_v")] ∧
    startsWith "arg_".data "arg_v".data = true ∧ stoi ("arg_v".data.drop 4) = none ∧
    ∀ depth, generateCodeFromGraph (sveGenerator argVPretty) graphArgV depth = none := by
  refine ⟨by rfl, by decide, by decide, by decide, ?_⟩
  intro depth
  cases depth with
  | zero => rfl
  | succ d => rfl

end aodsolve

namespace aodsolve

open cpg

/-! ## Node ids -/

theorem IdStep.rfl0 (st : ConvState) : IdStep 0 st st :=
  ⟨[], by simp, by simp, by simp⟩

theorem IdStep.comp {j k : Nat} {a b c : ConvState} (h1 : IdStep j a b) (h2 : IdStep k b c) :
    IdStep (j + k) a c := by
  obtain ⟨l1, hn1, hc1, hs1⟩ := h1
  obtain ⟨l2, hn2, hc2, hs2⟩ := h2
  refine ⟨l1 ++ l2, ?_, ?_, ?_⟩
  · rw [hn2, hn1, List.append_assoc]
  · rw [hc2, hc1, List.length_append]; omega
  · rw [hc1] at hs2
    have := List.Sublist.append hs1 hs2
    rw [List.range'_append_1] at this
    rw [List.map_append, List.length_append]
    have e : l2.length + k + (l1.length + j) = l1.length + l2.length + (j + k) := by omega
    rw [e] at this
    exact this

theorem IdStep.comp0 {k : Nat} {a b c : ConvState} (h1 : IdStep 0 a b) (h2 : IdStep k b c) :
    IdStep k a c := by
  have := h1.comp h2
  rwa [Nat.zero_add] at this

theorem IdStep.comp_zero {k : Nat} {a b c : ConvState} (h1 : IdStep k a b) (h2 : IdStep 0 b c) :
    IdStep k a c := h1.comp h2

/-- Adding one node whose id is the value of the counter. -/
theorem idStep_register (st : ConvState) (node : AODNode) (keys : List Nat)
    (hid : node.id = st.next_id) :
    IdStep 0 st ({ st with next_id := st.next_id + 1 }.register node keys) :=
  ⟨[node], rfl, rfl, by simp [hid]⟩

theorem setProperty_id (n : AODNode) (k v : String) : (n.setProperty k v).id = n.id := rfl

theorem createSIMDNode_id (id : Nat) (stmt : Stmt) : (createSIMDNode id stmt).id = id := by
  unfold createSIMDNode
  simp only
  split
  · split <;> rfl
  · split
    · split <;> rfl
    · rfl

theorem idStep_visitExpression (st : ConvState) (stmt : Stmt) :
    IdStep 0 st (visitExpression st stmt) := by
  unfold visitExpression
  simp only
  split
  · exact idStep_register st _ _ (createSIMDNode_id _ _)
  · split
    · exact idStep_register st _ _ rfl
    · exact IdStep.rfl0 st

mutual
theorem idStep_traverseExpressionTree : ∀ (s : Stmt) (st : ConvState),
    IdStep 0 st (traverseExpressionTree st s)
  | .null, st => by rw [traverseExpressionTree]; exact IdStep.rfl0 st
  | .compoundStmt a body, st => by
    rw [traverseExpressionTree]
    exact (idStep_visitExpression st _).comp0 (idStep_traverseExpressionList body _)
  | .ifStmt a c t e, st => by
    rw [traverseExpressionTree]
    exact (((idStep_visitExpression st _).comp0 (idStep_traverseExpressionTree c _)).comp0
      (idStep_traverseExpressionTree t _)).comp0 (idStep_traverseExpressionTree e _)
  | .whileStmt a c b, st => by
    rw [traverseExpressionTree]
    exact ((idStep_visitExpression st _).comp0 (idStep_traverseExpressionTree c _)).comp0
      (idStep_traverseExpressionTree b _)
  | .forStmt a i c n b, st => by
    rw [traverseExpressionTree]
    exact ((((idStep_visitExpression st _).comp0 (idStep_traverseExpressionTree i _)).comp0
      (idStep_traverseExpressionTree c _)).comp0 (idStep_traverseExpressionTree n _)).comp0
      (idStep_traverseExpressionTree b _)
  | .declStmt a decls, st => by
    rw [traverseExpressionTree]
    exact (idStep_visitExpression st _).comp0 (idStep_traverseExpressionDecls decls _)
  | .binaryOperator a op f l r, st => by
    rw [traverseExpressionTree]
    exact ((idStep_visitExpression st _).comp0 (idStep_traverseExpressionTree l _)).comp0
      (idStep_traverseExpressionTree r _)
  | .callExpr a f callee args, st => by
    rw [traverseExpressionTree]
    exact ((idStep_visitExpression st _).comp0 (idStep_traverseExpressionTree f _)).comp0
      (idStep_traverseExpressionList args _)
  | .declRefExpr a n v, st => by
    rw [traverseExpressionTree]
    exact idStep_visitExpression st _
  | .parenExpr a sub, st => by
    rw [traverseExpressionTree]
    exact (idStep_visitExpression st _).comp0 (idStep_traverseExpressionTree sub _)
  | .castExpr a i sub, st => by
    rw [traverseExpressionTree]
    exact (idStep_visitExpression st _).comp0 (idStep_traverseExpressionTree sub _)
  | .other a cls e cs, st => by
    rw [traverseExpressionTree]
    exact (idStep_visitExpression st _).comp0 (idStep_traverseExpressionList cs _)
theorem idStep_traverseExpressionList : ∀ (l : List Stmt) (st : ConvState),
    IdStep 0 st (traverseExpressionList st l)
  | [], st => by rw [traverseExpressionList]; exact IdStep.rfl0 st
  | s :: rest, st => by
    rw [traverseExpressionList]
    exact (idStep_traverseExpressionTree s st).comp0 (idStep_traverseExpressionList rest _)
theorem idStep_traverseExpressionDecls : ∀ (l : List Decl) (st : ConvState),
    IdStep 0 st (traverseExpressionDecls st l)
  | [], st => by rw [traverseExpressionDecls]; exact IdStep.rfl0 st
  | .mk v n t c i :: rest, st => by
    rw [traverseExpressionDecls]
    exact (idStep_traverseExpressionTree i st).comp0 (idStep_traverseExpressionDecls rest _)
end

end aodsolve

namespace aodsolve

open cpg

theorem idStep_controlNode (st : ConvState) (stmt : Stmt) (top : Bool) :
    IdStep 0 st (controlNode st stmt top) :=
  idStep_register st _ _ rfl

theorem idStep_genericNode (st : ConvState) (stmt : Stmt) (top : Bool) :
    IdStep 0 st (genericNode st stmt top) := by
  unfold genericNode
  simp only
  refine IdStep.comp0 (idStep_register st _ _ ?_) (idStep_traverseExpressionList _ _)
  split
  · exact createSIMDNode_id _ _
  · rfl

theorem idStep_defineNode (st : ConvState) (stmt : Stmt) (d : Decl) (top : Bool) :
    IdStep (if isSIMDIntrinsic d.init.ignoreParenCasts = true then 1 else 0) st
      (defineNode st stmt d top) := by
  unfold defineNode
  simp only
  by_cases h : isSIMDIntrinsic d.init.ignoreParenCasts = true
  · rw [if_pos h, if_pos h]
    refine IdStep.comp_zero ?_ (idStep_traverseExpressionTree _ _)
    refine ⟨[createSIMDNode (st.next_id + 1) stmt], rfl, rfl, ?_⟩
    simp only [List.map_cons, List.map_nil, createSIMDNode_id, List.length_singleton]
    show List.Sublist [st.next_id + 1] (List.range' st.next_id 2)
    simp [List.range']
  · rw [if_neg h, if_neg h]
    exact IdStep.comp0 (idStep_register st _ _ rfl) (idStep_traverseExpressionTree _ _)

mutual
theorem idStep_traverseAndBuild : ∀ (s : Stmt) (top : Bool) (st : ConvState),
    IdStep (skippedIds s) st (traverseAndBuild st s top)
  | .null, top, st => by
    rw [traverseAndBuild, skippedIds]; exact IdStep.rfl0 st
  | .compoundStmt a body, top, st => by
    rw [traverseAndBuild, skippedIds]
    exact (idStep_traverseAndBuildList body st).comp_zero (idStep_register _ _ _ rfl)
  | .whileStmt a c b, top, st => by
    rw [traverseAndBuild, skippedIds]
    exact ((idStep_controlNode st _ _).comp0 (idStep_traverseExpressionTree c _)).comp0
      (idStep_traverseAndBuild b true _)
  | .forStmt a i c n b, top, st => by
    rw [traverseAndBuild, skippedIds]
    exact (((idStep_controlNode st _ _).comp0 (idStep_traverseExpressionTree i _)).comp0
      (idStep_traverseExpressionTree c _)).comp0 (idStep_traverseAndBuild b true _)
  | .ifStmt a c t e, top, st => by
    rw [traverseAndBuild, skippedIds]
    exact (((idStep_controlNode st _ _).comp0 (idStep_traverseExpressionTree c _)).comp0
      (idStep_traverseAndBuild t true _)).comp (idStep_traverseAndBuild e true _)
  | .declStmt a [], top, st => by
    simp only [traverseAndBuild, skippedIds]; exact idStep_genericNode st _ _
  | .declStmt a [d], top, st => by
    simp only [traverseAndBuild, skippedIds]
    by_cases hv : d.isVarDecl = true
    · rw [if_pos hv]
      have := idStep_defineNode st (.declStmt a [d]) d top
      simpa [hv] using this
    · rw [if_neg hv, if_neg (fun h => hv h.1)]
      exact idStep_genericNode st (.declStmt a [d]) top
  | .declStmt a (d1 :: d2 :: ds), top, st => by
    simp only [traverseAndBuild, skippedIds]; exact idStep_genericNode st _ _
  | .binaryOperator a op f l r, top, st => by
    rw [traverseAndBuild, skippedIds]; exact idStep_genericNode st _ _
  | .callExpr a f callee args, top, st => by
    rw [traverseAndBuild, skippedIds]; exact idStep_genericNode st _ _
  | .declRefExpr a n v, top, st => by
    rw [traverseAndBuild, skippedIds]; exact idStep_genericNode st _ _
  | .parenExpr a sub, top, st => by
    rw [traverseAndBuild, skippedIds]; exact idStep_genericNode st _ _
  | .castExpr a i sub, top, st => by
    rw [traverseAndBuild, skippedIds]; exact idStep_genericNode st _ _
  | .other a cls e cs, top, st => by
    rw [traverseAndBuild, skippedIds]; exact idStep_genericNode st _ _
theorem idStep_traverseAndBuildList : ∀ (l : List Stmt) (st : ConvState),
    IdStep (skippedIdsList l) st (traverseAndBuildList st l)
  | [], st => by rw [traverseAndBuildList, skippedIdsList]; exact IdStep.rfl0 st
  | s :: rest, st => by
    rw [traverseAndBuildList, skippedIdsList]
    exact (idStep_traverseAndBuild s true st).comp (idStep_traverseAndBuildList rest _)
end

end aodsolve

namespace aodsolve

open cpg

theorem linkOperand_nodes (m : List (Nat × Nat)) (node : AODNode) (g : AODGraph)
    (iop : Nat × Stmt) : (linkOperand m node g iop).nodes = g.nodes := by
  unfold linkOperand
  split
  · rfl
  · split
    · split <;> rfl
    · rfl

theorem linkInit_nodes (m : List (Nat × Nat)) (node : AODNode) (g : AODGraph) :
    (linkInit m node g).nodes = g.nodes := by
  unfold linkInit
  split
  · split
    · split
      · split
        · rfl
        · split
          · split <;> rfl
          · rfl
      · rfl
    · rfl
  · rfl

theorem linkDependency_nodes (m : List (Nat × Nat)) (node : AODNode) (g : AODGraph)
    (dep : DataDependency) : (linkDependency m node g dep).nodes = g.nodes := by
  unfold linkDependency
  split
  · split <;> rfl
  · rfl

theorem connectNode_nodes (cpgCtx : CPGContext) (m : List (Nat × Nat)) (g : AODGraph)
    (node : AODNode) : (connectNode cpgCtx m g node).nodes = g.nodes := by
  have hops : ∀ (l : List (Nat × Stmt)) (g0 : AODGraph), g0.nodes = g.nodes →
      (l.foldl (linkOperand m node) g0).nodes = g.nodes := by
    intro l g0 h0
    refine foldl_invariant (fun (x : AODGraph) => x.nodes = g.nodes) _ l ?_ g0 h0
    intro s x _ hs
    rw [linkOperand_nodes]; exact hs
  have hdeps : ∀ (l : List DataDependency) (g0 : AODGraph), g0.nodes = g.nodes →
      (l.foldl (linkDependency m node) g0).nodes = g.nodes := by
    intro l g0 h0
    refine foldl_invariant (fun (x : AODGraph) => x.nodes = g.nodes) _ l ?_ g0 h0
    intro s x _ hs
    rw [linkDependency_nodes]; exact hs
  unfold connectNode
  split
  · rfl
  · simp only
    split
    · apply hdeps
      split
      · exact hops _ _ (linkInit_nodes m node g)
      · rw [linkOperand_nodes, linkOperand_nodes, linkInit_nodes]
      · exact linkInit_nodes m node g
    · exact linkInit_nodes m node g

theorem connectDataFlow_nodes (cpgCtx : CPGContext) (m : List (Nat × Nat)) (g : AODGraph) :
    (connectDataFlow cpgCtx m g).nodes = g.nodes := by
  unfold connectDataFlow
  refine foldl_invariant (fun (x : AODGraph) => x.nodes = g.nodes) _ g.nodes ?_ g rfl
  intro s x _ hs
  rw [connectNode_nodes]; exact hs

theorem chain'_succ_range' (s n : Nat) :
    List.Chain' (fun a b => b = a + 1) (List.range' s n) := by
  cases n with
  | zero => exact List.chain'_nil
  | succ n => exact List.chain_succ_range' s n 1

theorem markVectorize_id (node : AODNode) : (markVectorize node).id = node.id := by
  unfold markVectorize
  simp only
  split <;> split <;> rfl

/-- The ids of the nodes of the converted graph are those of the graph the
traversal has built. -/
theorem convertWithOperators_ids (cpgCtx : CPGContext) (next_id : Nat) (func : FunctionDecl)
    (source_arch target_arch : String) :
    (convertWithOperators cpgCtx next_id func source_arch target_arch).aod_graph.nodes.map
        AODNode.id =
      (buildFullAODGraph { graph := { name := func.name, nodes := [], edges := [] }
                           stmt_to_node_map := [], next_id := next_id } func).graph.nodes.map
        AODNode.id := by
  unfold convertWithOperators
  simp only
  rw [connectDataFlow_nodes]
  split
  · simp only [List.map_map]
    congr 1
    funext n
    exact markVectorize_id n
  · rfl

/-- C27 (as stated, refuted): in the graph of
`void f(void) { int a = 0; __m256i v = _mm256_set1_epi8(a); }` the ids of the
nodes are 0, 2, 3, 4: the declaration of `v` uses the id 1 for a node that is
replaced by the node of `createSIMDNode` before it is added. -/
theorem ids_skip_after_vector_declaration :
    (convertWithOperators CPGContext.empty 0 funcSkip "AVX2" "SVE").aod_graph.nodes.map
        (fun n => (n.id, n.astStmt.addr)) = [(0, 1301), (2, 1303), (3, 1304), (4, 0)] ∧
    ¬ List.Chain' (fun a b => b = a + 1)
        ((convertWithOperators CPGContext.empty 0 funcSkip "AVX2" "SVE").aod_graph.nodes.map
          AODNode.id) := by
  have h : (convertWithOperators CPGContext.empty 0 funcSkip "AVX2" "SVE").aod_graph.nodes.map
      AODNode.id = [0, 2, 3, 4] := by decide
  refine ⟨by decide, ?_⟩
  rw [h]
  intro hc
  have := List.chain'_cons.mp hc
  exact absurd this.1 (by decide)

/-- C27 (amended): the ids of the nodes of a graph built by one
`convertWithOperators` call, taken in insertion order, are strictly increasing,
from the value of the id counter before the call on; every declaration of a
single variable initialised by a vector intrinsic, met in statement position,
skips one id, and the counter ends at its start value plus the number of nodes
and of skipped ids. When the body has no such declaration the ids are
consecutive integers. -/
theorem convertWithOperators_ids_increasing (cpgCtx : CPGContext) (next_id : Nat)
    (func : FunctionDecl) (source_arch target_arch : String) :
    List.Pairwise (fun a b => a < b)
      ((convertWithOperators cpgCtx next_id func source_arch target_arch).aod_graph.nodes.map
        AODNode.id) ∧
    (∀ n ∈ (convertWithOperators cpgCtx next_id func source_arch target_arch).aod_graph.nodes,
      next_id ≤ n.id ∧
      n.id < (convertWithOperators cpgCtx next_id func source_arch target_arch).next_id) ∧
    (convertWithOperators cpgCtx next_id func source_arch target_arch).next_id =
      next_id +
        ((convertWithOperators cpgCtx next_id func source_arch target_arch).aod_graph.nodes.length
          + skippedIds func.body) ∧
    (skippedIds func.body = 0 →
      (convertWithOperators cpgCtx next_id func source_arch target_arch).aod_graph.nodes.map
          AODNode.id =
        List.range' next_id
          (convertWithOperators cpgCtx next_id func source_arch target_arch).aod_graph.nodes.length
      ∧ List.Chain' (fun a b => b = a + 1)
        ((convertWithOperators cpgCtx next_id func source_arch target_arch).aod_graph.nodes.map
          AODNode.id)) := by
  generalize hr : convertWithOperators cpgCtx next_id func source_arch target_arch = r
  have hids := convertWithOperators_ids cpgCtx next_id func source_arch target_arch
  rw [hr] at hids
  have hnext : r.next_id = (buildFullAODGraph
      { graph := { name := func.name, nodes := [], edges := [] }
        stmt_to_node_map := [], next_id := next_id } func).next_id := by
    rw [← hr]; rfl
  have hstep := idStep_traverseAndBuild func.body true
    { graph := { name := func.name, nodes := [], edges := [] }
      stmt_to_node_map := [], next_id := next_id }
  have hb : buildFullAODGraph
      { graph := { name := func.name, nodes := [], edges := [] }
        stmt_to_node_map := [], next_id := next_id } func =
      traverseAndBuild { graph := { name := func.name, nodes := [], edges := [] }
                         stmt_to_node_map := [], next_id := next_id } func.body true := by
    unfold buildFullAODGraph
    by_cases hbody : func.hasBody = true
    · rw [if_pos hbody]
    · rw [if_neg hbody]
      have hnull : func.body = .null := by
        unfold FunctionDecl.hasBody at hbody
        cases hfb : func.body with
        | null => rfl
        | _ => rw [hfb] at hbody; simp at hbody
      rw [hnull, traverseAndBuild]
  rw [← hb] at hstep
  obtain ⟨added, hn, hc, hs⟩ := hstep
  simp only [List.nil_append] at hn
  have hlen : r.aod_graph.nodes.length = added.length := by
    have := congrArg List.length hids
    rw [List.length_map, List.length_map, hn] at this
    exact this
  have hidl : r.aod_graph.nodes.map AODNode.id = added.map AODNode.id := by
    rw [← hn]; exact hids
  simp only at hc
  refine ⟨?_, ?_, ?_, ?_⟩
  · rw [hidl]
    exact List.Pairwise.sublist hs (List.pairwise_lt_range' _ _)
  · intro n hnmem
    have : n.id ∈ added.map AODNode.id := by
      rw [← hidl]; exact List.mem_map_of_mem _ hnmem
    have := hs.subset this
    rw [List.mem_range'_1] at this
    rw [hnext, hc]
    exact this
  · rw [hnext, hc, hlen]
  · intro hk
    have he : r.aod_graph.nodes.map AODNode.id = List.range' next_id r.aod_graph.nodes.length := by
      rw [hidl, hlen]
      rw [hk, Nat.add_zero] at hs
      exact hs.eq_of_length (by simp)
    refine ⟨he, ?_⟩
    rw [he]
    exact chain'_succ_range' _ _

theorem convertWithOperators_ids_increasing_witness :
    skippedIds funcPQ.body = 0 ∧
    (convertWithOperators ctxPQ 0 funcPQ "AVX2" "SVE").aod_graph.nodes.map AODNode.id =
        List.range' 0 (convertWithOperators ctxPQ 0 funcPQ "AVX2" "SVE").aod_graph.nodes.length ∧
    List.Chain' (fun a b => b = a + 1)
      ((convertWithOperators ctxPQ 0 funcPQ "AVX2" "SVE").aod_graph.nodes.map AODNode.id) :=
  ⟨by decide,
    (convertWithOperators_ids_increasing ctxPQ 0 funcPQ "AVX2" "SVE").2.2.2 (by decide)⟩

end aodsolve

namespace cpg

/-! ## Data dependence -/

theorem getDataDependencies_eq (ctx : CPGContext) (s : Nat) :
    getDataDependencies ctx s = ddDeps ctx.pdgNodes s := by
  unfold getDataDependencies getPDGNode ddDeps
  rfl

theorem ddDeps_ensurePDGNode (pdg : List (Nat × PDGNode)) (s func s1 : Nat) :
    ddDeps (ensurePDGNode pdg s func) s1 = ddDeps pdg s1 := by
  unfold ddDeps
  rw [mapFind_ensurePDGNode]
  by_cases h : s1 = s
  · subst h
    simp only [if_true]
    cases mapFind s1 pdg <;> rfl
  · simp only [h, if_false]

theorem mapFind_addDataDep (pdg : List (Nat × PDGNode)) (s s1 : Nat) (dep : DataDependency) :
    mapFind s1 (addDataDep pdg s dep) =
      if s1 = s then
        (mapFind s pdg).map (fun n => { n with dataDeps := n.dataDeps ++ [dep] })
      else mapFind s1 pdg := by
  unfold addDataDep
  cases h : mapFind s pdg with
  | none =>
    by_cases h1 : s1 = s
    · simp [h1, h]
    · simp [h1]
  | some n =>
    simp only [mapFind_mapSet, Option.map_some']

theorem ddDeps_addDataDep (pdg : List (Nat × PDGNode)) (s s1 : Nat) (dep : DataDependency)
    (hs : (mapFind s pdg).isSome = true) :
    ddDeps (addDataDep pdg s dep) s1 =
      if s1 = s then ddDeps pdg s1 ++ [dep] else ddDeps pdg s1 := by
  unfold ddDeps
  rw [mapFind_addDataDep]
  by_cases h : s1 = s
  · subst h
    simp only [if_true]
    cases hm : mapFind s1 pdg with
    | none => rw [hm] at hs; simp at hs
    | some n => rfl
  · simp only [h, if_false]

theorem isSome_addDataDep (pdg : List (Nat × PDGNode)) (s s1 : Nat) (dep : DataDependency)
    (hs : (mapFind s1 pdg).isSome = true) : (mapFind s1 (addDataDep pdg s dep)).isSome = true := by
  rw [mapFind_addDataDep]
  by_cases h : s1 = s
  · subst h
    simp only [if_true]
    cases hm : mapFind s1 pdg with
    | none => rw [hm] at hs; simp at hs
    | some n => rfl
  · simp only [h, if_false]; exact hs

theorem ddDeps_cdMark (pdg : List (Nat × PDGNode)) (func term : Nat) (bv : Bool) (st : Stmt)
    (s : Nat) : ddDeps (cdMark func term bv pdg st) s = ddDeps pdg s := by
  unfold cdMark
  rw [← ddDeps_ensurePDGNode pdg st.addr func s]
  unfold ddDeps
  rw [mapFind_addControlDep]
  by_cases h : s = st.addr
  · subst h
    simp only [if_true]
    cases mapFind st.addr (ensurePDGNode pdg st.addr func) <;> rfl
  · simp only [h, if_false]

theorem ddDeps_cdSearch (cfg : CFG) (postDom : PostDomMap) (func block term : Nat) (bv : Bool)
    (s : Nat) : ∀ (fuel : Nat) (st : CDSearch),
      ddDeps (cdSearch cfg postDom func block term bv fuel st).pdg s = ddDeps st.pdg s := by
  intro fuel
  induction fuel with
  | zero => intro st; rfl
  | succ fuel ih =>
    intro st
    rw [cdSearch]
    cases hw : st.worklist with
    | nil => rfl
    | cons current rest =>
      simp only
      split
      · rw [ih]
      · rw [ih]
        simp only
        refine foldl_invariant (fun (p : List (Nat × PDGNode)) => ddDeps p s = ddDeps st.pdg s)
          _ _ ?_ st.pdg rfl
        intro p x _ hp
        rw [ddDeps_cdMark]; exact hp

theorem ddDeps_computeControlDependencies (ctx : CPGContext) (func s : Nat) :
    ddDeps (computeControlDependencies ctx func).pdgNodes s = ddDeps ctx.pdgNodes s := by
  unfold computeControlDependencies
  simp only
  cases hc : getCFG ctx func with
  | none => rfl
  | some cfg =>
    simp only
    refine foldl_invariant (fun (p : List (Nat × PDGNode)) => ddDeps p s = ddDeps ctx.pdgNodes s)
      _ _ ?_ ctx.pdgNodes rfl
    intro p ib _ hp
    unfold cdBlock
    split
    · refine foldl_invariant (fun (q : List (Nat × PDGNode)) => ddDeps q s = ddDeps ctx.pdgNodes s)
        _ _ ?_ p hp
      intro q br _ hq
      unfold cdBranch
      split
      · exact hq
      · simp only
        rw [ddDeps_cdSearch]
        exact hq
    · exact hp

end cpg

namespace cpg

theorem dataDepsOfStmt_eq (func : Nat) (ctx : CPGContext) (su : Nat × List String) :
    dataDepsOfStmt func ctx su =
      su.2.foldl (flowVarStep su.1) { ctx with pdgNodes := ensurePDGNode ctx.pdgNodes su.1 func } :=
  rfl

theorem ddDeps_defsFold (S : Nat) (var : String) (s : Nat) :
    ∀ (ds : List Nat) (c : CPGContext), (mapFind S c.pdgNodes).isSome = true →
      ddDeps (ds.foldl (flowDepStep S var) c).pdgNodes s =
        (if s = S then
          ddDeps c.pdgNodes s ++ ds.map (fun D =>
            ({ sourceStmt := D, sinkStmt := S, varName := var, kind := .Flow } : DataDependency))
         else ddDeps c.pdgNodes s) ∧
      (mapFind S (ds.foldl (flowDepStep S var) c).pdgNodes).isSome = true ∧
      (ds.foldl (flowDepStep S var) c).reachingDefsMap = c.reachingDefsMap ∧
      (ds.foldl (flowDepStep S var) c).icfgNodes = c.icfgNodes ∧
      (ds.foldl (flowDepStep S var) c).heap = c.heap := by
  intro ds
  induction ds with
  | nil =>
    intro c hc
    refine ⟨?_, hc, rfl, rfl, rfl⟩
    simp only [List.foldl_nil, List.map_nil, List.append_nil, ite_self]
  | cons d rest ih =>
    intro c hc
    simp only [List.foldl_cons]
    have hc1 : (mapFind S (flowDepStep S var c d).pdgNodes).isSome = true :=
      isSome_addDataDep _ _ _ _ hc
    obtain ⟨h1, h2, h3, h4, h5⟩ := ih (flowDepStep S var c d) hc1
    refine ⟨?_, h2, h3, h4, h5⟩
    rw [h1]
    show (if s = S then ddDeps (addDataDep c.pdgNodes S _) s ++ _
      else ddDeps (addDataDep c.pdgNodes S _) s) = _
    rw [ddDeps_addDataDep _ _ _ _ hc]
    by_cases hs : s = S
    · simp only [hs, if_true, List.map_cons, List.append_assoc, List.singleton_append]
    · simp only [hs, if_false]

theorem ddDeps_varsFold (ctx0 : CPGContext) (S s : Nat) :
    ∀ (vs : List String) (c : CPGContext), (mapFind S c.pdgNodes).isSome = true →
      (c.reachingDefsMap = ctx0.reachingDefsMap ∧ c.icfgNodes = ctx0.icfgNodes ∧
        c.heap = ctx0.heap) →
      ddDeps (vs.foldl (flowVarStep S) c).pdgNodes s =
        (if s = S then ddDeps c.pdgNodes s ++ flowRecords ctx0 S vs else ddDeps c.pdgNodes s) ∧
      ((vs.foldl (flowVarStep S) c).reachingDefsMap = ctx0.reachingDefsMap ∧
       (vs.foldl (flowVarStep S) c).icfgNodes = ctx0.icfgNodes ∧
       (vs.foldl (flowVarStep S) c).heap = ctx0.heap) := by
  intro vs
  induction vs with
  | nil =>
    intro c _ hfc
    refine ⟨?_, hfc⟩
    simp [flowRecords]
  | cons v rest ih =>
    intro c hc hfc
    simp only [List.foldl_cons]
    obtain ⟨d1, d2, d3, d4, d5⟩ := ddDeps_defsFold S v s (getDefinitions c S v) c hc
    obtain ⟨r1, r2⟩ := ih (flowVarStep S c v) d2
      ⟨d3.trans hfc.1, d4.trans hfc.2.1, d5.trans hfc.2.2⟩
    refine ⟨?_, r2⟩
    rw [r1]
    show (if s = S then ddDeps ((getDefinitions c S v).foldl (flowDepStep S v) c).pdgNodes s ++ _
      else ddDeps ((getDefinitions c S v).foldl (flowDepStep S v) c).pdgNodes s) = _
    rw [d1]
    have hg : getDefinitions c S v = getDefinitions ctx0 S v :=
      getDefinitions_congr c ctx0 hfc.1 hfc.2.1 hfc.2.2 S v
    by_cases hs : s = S
    · simp only [hs, if_true, flowRecords, List.flatMap_cons, hg, List.append_assoc]
    · simp only [hs, if_false]

theorem ddDeps_dataDepsOfStmt (func : Nat) (ctx0 ctx : CPGContext) (su : Nat × List String)
    (hf : ctx.reachingDefsMap = ctx0.reachingDefsMap ∧ ctx.icfgNodes = ctx0.icfgNodes ∧
      ctx.heap = ctx0.heap) (s : Nat) :
    ddDeps (dataDepsOfStmt func ctx su).pdgNodes s =
      (if s = su.1 then ddDeps ctx.pdgNodes s ++ flowRecords ctx0 su.1 su.2
       else ddDeps ctx.pdgNodes s) ∧
    ((dataDepsOfStmt func ctx su).reachingDefsMap = ctx0.reachingDefsMap ∧
      (dataDepsOfStmt func ctx su).icfgNodes = ctx0.icfgNodes ∧
      (dataDepsOfStmt func ctx su).heap = ctx0.heap) := by
  rw [dataDepsOfStmt_eq]
  have hsome : (mapFind su.1 (ensurePDGNode ctx.pdgNodes su.1 func)).isSome = true := by
    rw [mapFind_ensurePDGNode]; simp
  obtain ⟨k1, k2⟩ := ddDeps_varsFold ctx0 su.1 s su.2
    { ctx with pdgNodes := ensurePDGNode ctx.pdgNodes su.1 func } hsome hf
  refine ⟨?_, k2⟩
  rw [k1]
  simp only [ddDeps_ensurePDGNode]

/-- The records `computeDataDependencies` adds for a statement: those of every
entry of `uses` for it, in the order of `uses`. -/
theorem ddDeps_usesFold (func : Nat) (ctx0 : CPGContext) (s : Nat) :
    ∀ (uses : List (Nat × List String)) (c : CPGContext),
      (c.reachingDefsMap = ctx0.reachingDefsMap ∧ c.icfgNodes = ctx0.icfgNodes ∧
        c.heap = ctx0.heap) →
      ddDeps (uses.foldl (dataDepsOfStmt func) c).pdgNodes s =
        ddDeps c.pdgNodes s ++
          uses.flatMap (fun su => if su.1 = s then flowRecords ctx0 su.1 su.2 else []) := by
  intro uses
  induction uses with
  | nil => intro c _; simp
  | cons su rest ih =>
    intro c hfc
    simp only [List.foldl_cons, List.flatMap_cons]
    obtain ⟨h1, h2⟩ := ddDeps_dataDepsOfStmt func ctx0 c su hfc s
    rw [ih _ h2, h1]
    by_cases hs : s = su.1
    · simp only [hs, if_true, List.append_assoc]
    · have hs2 : ¬ su.1 = s := fun e => hs e.symm
      simp only [hs, hs2, if_false, List.nil_append]

/-- With distinct keys, the entry of a statement is the only one for it. -/
theorem flatMap_uses_of_mem (ctx0 : CPGContext) (s : Nat) (vars : List String) :
    ∀ (uses : List (Nat × List String)), keysNodup uses → (s, vars) ∈ uses →
      uses.flatMap (fun su => if su.1 = s then flowRecords ctx0 su.1 su.2 else []) =
        flowRecords ctx0 s vars := by
  intro uses
  induction uses with
  | nil => intro _ h; simp at h
  | cons su rest ih =>
    intro hn hm
    unfold keysNodup at hn
    simp only [List.map_cons, List.nodup_cons] at hn
    simp only [List.flatMap_cons]
    rcases List.mem_cons.mp hm with heq | hm
    · subst heq
      simp only [if_true]
      have : rest.flatMap (fun su => if su.1 = s then flowRecords ctx0 su.1 su.2 else []) = [] := by
        rw [List.flatMap_eq_nil_iff]
        intro x hx
        have hne : x.1 ≠ s := by
          intro e
          exact hn.1 (List.mem_map.mpr ⟨x, hx, e⟩)
        simp [hne]
      rw [this, List.append_nil]
    · have hne : su.1 ≠ s := by
        intro e
        exact hn.1 (List.mem_map.mpr ⟨(s, vars), hm, e.symm⟩)
      simp only [hne, if_false, List.nil_append]
      exact ih hn.2 hm

end cpg

namespace cpg

theorem flowRecords_nodup (ctx : CPGContext) (S : Nat) (usedVars : List String)
    (hv : usedVars.Nodup) (hd : ∀ v ∈ usedVars, (getDefinitions ctx S v).Nodup) :
    (flowRecords ctx S usedVars).Nodup := by
  unfold flowRecords
  induction usedVars with
  | nil => simp
  | cons v rest ih =>
    rw [List.flatMap_cons, List.nodup_append]
    obtain ⟨hvn, hrest⟩ := List.nodup_cons.mp hv
    refine ⟨?_, ih hrest (fun w hw => hd w (List.mem_cons_of_mem _ hw)), ?_⟩
    · refine List.Nodup.map ?_ (hd v (List.mem_cons_self _ _))
      intro a b hab
      simpa using hab
    · intro dep h1 h2
      simp only [List.mem_map] at h1
      simp only [List.mem_flatMap, List.mem_map] at h2
      obtain ⟨D, _, rfl⟩ := h1
      obtain ⟨w, hw, D2, _, h3⟩ := h2
      simp only [DataDependency.mk.injEq] at h3
      exact hvn (h3.2.2.1 ▸ hw)

/-- C22: for a function whose reaching definitions are stored, `buildPDG` adds
to the data-dependence list of every statement `S` with recorded uses exactly
one record `(D, S, v, Flow)` for each used variable `v` of `S` and each
definition `D` that `getDefinitions` reports for `v` at `S` (the reaching
definitions stored for `S`, when `S` belongs to the function), in that order;
after a first run the list holds these records and nothing else, and no record
occurs twice among them when the used variables and the definitions are sets.
Every record
`buildPDG` creates, for any statement, is of kind `Flow`. -/
theorem buildPDG_dataDeps (ctx : CPGContext) (func : Nat) (reachInfo : ReachingDefsInfo)
    (hrd : mapFind func ctx.reachingDefsMap = some reachInfo)
    (hkeys : keysNodup reachInfo.uses) :
    (∀ S usedVars, (S, usedVars) ∈ reachInfo.uses →
      getDataDependencies (buildPDG ctx func) S =
        getDataDependencies ctx S ++ flowRecords ctx S usedVars ∧
      (getDataDependencies ctx S = [] →
        ∀ dep, dep ∈ getDataDependencies (buildPDG ctx func) S ↔
          ∃ v ∈ usedVars, ∃ D ∈ getDefinitions ctx S v,
            dep = { sourceStmt := D, sinkStmt := S, varName := v, kind := .Flow }) ∧
      (getContainingFunction ctx S = some func →
        ∀ v, getDefinitions ctx S v = mapGetD (mapGetD reachInfo.reachingDefs S []) v []) ∧
      (usedVars.Nodup → (∀ v ∈ usedVars, (getDefinitions ctx S v).Nodup) →
        (flowRecords ctx S usedVars).Nodup)) ∧
    (∀ S, ∃ added, getDataDependencies (buildPDG ctx func) S =
        getDataDependencies ctx S ++ added ∧ ∀ dep ∈ added, dep.kind = .Flow) := by
  have hall : ∀ S, getDataDependencies (buildPDG ctx func) S =
      getDataDependencies ctx S ++ reachInfo.uses.flatMap (fun su =>
        if su.1 = S then flowRecords ctx su.1 su.2 else []) := by
    intro S
    rw [getDataDependencies_eq, getDataDependencies_eq]
    unfold buildPDG
    rw [ddDeps_computeControlDependencies]
    unfold computeDataDependencies
    rw [hrd]
    exact ddDeps_usesFold func ctx S reachInfo.uses ctx ⟨rfl, rfl, rfl⟩
  constructor
  · intro S usedVars hS
    have heq : getDataDependencies (buildPDG ctx func) S =
        getDataDependencies ctx S ++ flowRecords ctx S usedVars := by
      rw [hall, flatMap_uses_of_mem ctx S usedVars reachInfo.uses hkeys hS]
    refine ⟨heq, ?_, ?_, flowRecords_nodup ctx S usedVars⟩
    · intro hempty dep
      rw [heq, hempty, List.nil_append]
      unfold flowRecords
      simp only [List.mem_flatMap, List.mem_map]
      constructor
      · rintro ⟨v, hv, D, hD, rfl⟩
        exact ⟨v, hv, D, hD, rfl⟩
      · rintro ⟨v, hv, D, hD, rfl⟩
        exact ⟨v, hv, D, hD, rfl⟩
    · intro hown v
      exact getDefinitions_eq ctx S func v reachInfo hown hrd
  · intro S
    refine ⟨_, hall S, ?_⟩
    intro dep hdep
    rw [List.mem_flatMap] at hdep
    obtain ⟨su, _, hd⟩ := hdep
    split at hd
    · unfold flowRecords at hd
      simp only [List.mem_flatMap, List.mem_map] at hd
      obtain ⟨v, _, D, _, rfl⟩ := hd
      rfl
    · simp at hd

theorem buildPDG_dataDeps_witness :
    mapFind 100 ctxA_rd.reachingDefsMap =
      some (reachingDefsOf cfgA { reachingDefs := [], definitions := [], uses := [] }) ∧
    (reachingDefsOf cfgA { reachingDefs := [], definitions := [], uses := [] }).uses =
      [(1, ["x"]), (2, ["x", "y"])] ∧
    buildPDG ctxA_rd 100 = ctxA ∧
    getDataDependencies (buildPDG ctxA_rd 100) 2 =
      getDataDependencies ctxA_rd 2 ++ flowRecords ctxA_rd 2 ["x", "y"] ∧
    getDataDependencies ctxA 2 =
      [{ sourceStmt := 1, sinkStmt := 2, varName := "x", kind := .Flow }] :=
  ⟨by rfl, by decide, by rfl,
    ((buildPDG_dataDeps ctxA_rd 100
      (reachingDefsOf cfgA { reachingDefs := [], definitions := [], uses := [] })
      (by rfl) (by unfold keysNodup; decide)).1 2 ["x", "y"] (by decide)).1,
    by decide⟩

end cpg

namespace aodsolve

open cpg

/-! ## Bindings from the graph -/

theorem applyTemplate_eq (gen : EnhancedCodeGenerator) (graph : AODGraph) (node : AODNode)
    (tmpl : TransformTemplate) (recurse : AODNode → Option String) :
    applyTemplate gen graph node tmpl recurse =
      (templateBindings gen graph node recurse).map (fun b => substitute b tmpl.code_template) := by
  unfold applyTemplate templateBindings
  cases (graph.getIncomingEdges node.id).foldl
    (edgeBinding gen graph (node.getProperty "op_name") recurse) (some (astBindings gen node)) <;>
    rfl

theorem edgeBinding_fold_none (gen : EnhancedCodeGenerator) (graph : AODGraph) (op : String)
    (recurse : AODNode → Option String) (l : List AODEdge) :
    l.foldl (edgeBinding gen graph op recurse) none = none := by
  induction l with
  | nil => rfl
  | cons e rest ih => simpa [edgeBinding] using ih

/-- An edge that does not set the placeholder `key` leaves its binding. -/
theorem edgeBinding_other (gen : EnhancedCodeGenerator) (graph : AODGraph) (op : String)
    (recurse : AODNode → Option String) (b b2 : List (String × String)) (e : AODEdge)
    (key : String) (hne : ¬ edgeSetsKey e key)
    (h : edgeBinding gen graph op recurse (some b) e = some b2) :
    mapFind key b2 = mapFind key b := by
  unfold edgeBinding at h
  simp only at h
  by_cases ht : startsWith "arg_".data e.variable_name.data = true
  · rw [if_pos ht] at h
    cases hi : stoi (e.variable_name.data.drop 4) with
    | none => rw [hi] at h; simp at h
    | some idx =>
      rw [hi] at h
      simp only at h
      cases hs : graph.getNode e.source with
      | none => rw [hs] at h; simp at h
      | some src =>
        rw [hs] at h
        simp only at h
        cases hv : (if src.isStatement = true then some (src.getProperty "var_name")
            else recurse src) with
        | none => rw [hv] at h; simp at h
        | some v =>
          rw [hv] at h
          simp only [Option.some.injEq] at h
          rw [← h]
          apply mapFind_mapSet_ne
          intro hk
          exact hne ⟨ht, idx, hi, hk.symm⟩
  · rw [if_neg ht] at h
    simp only [Option.some.injEq] at h
    rw [h]

theorem edgeBinding_fold_other (gen : EnhancedCodeGenerator) (graph : AODGraph) (op : String)
    (recurse : AODNode → Option String) (key : String) :
    ∀ (l : List AODEdge) (b b2 : List (String × String)),
      (∀ e ∈ l, ¬ edgeSetsKey e key) →
      l.foldl (edgeBinding gen graph op recurse) (some b) = some b2 →
      mapFind key b2 = mapFind key b := by
  intro l
  induction l with
  | nil =>
    intro b b2 _ h
    simp only [List.foldl_nil, Option.some.injEq] at h
    rw [h]
  | cons e rest ih =>
    intro b b2 hl h
    simp only [List.foldl_cons] at h
    cases h1 : edgeBinding gen graph op recurse (some b) e with
    | none => rw [h1, edgeBinding_fold_none] at h; simp at h
    | some b1 =>
      rw [h1] at h
      rw [ih b1 b2 (fun x hx => hl x (List.mem_cons_of_mem _ hx)) h]
      exact edgeBinding_other gen graph op recurse b b1 e key (hl e (List.mem_cons_self _ _)) h1

theorem inputKey_ne_predicate (idx : Int) : inputKey idx ≠ "{{predicate}}" := by
  intro h
  have := congrArg String.data h
  unfold inputKey at this
  simp only [String.data_append] at this
  have h2 := congrArg (fun l => l.get? 2) this
  simp at h2

end aodsolve

namespace aodsolve

open cpg

/-- C25 (as stated, refuted): in the graph of
`_mm256_and_si256(_mm256_cmpgt_epi8(a, b), c);` the node of the AND has the
binding `_mm256_cmpgt_epi8(a, b)` for `{{input_0}}` from its own expression
and an incoming edge tagged `arg_0` from the node of the comparison, which is
not a statement node and whose generated code is `svcmpgt_s8(pg, a, b)`. For
the target SVE the value substituted for `{{input_0}}` is neither of them: it is
the generated code wrapped in `svsel_s8(..., svdup_s8(0xFF), svdup_s8(0x00))`. -/
theorem graph_binding_is_adapted_for_sve :
    andCmpGraph.nodes.map (fun n => (n.id, n.getProperty "op_name", n.isStatement)) =
      [(0, "_mm256_and_si256", true), (1, "_mm256_cmpgt_epi8", false), (2, "", false)] ∧
    andCmpGraph.edges.map (fun e => (e.source, e.target, e.variable_name)) = [(1, 0, "arg_0")] ∧
    (andCmpGraph.nodes.map (astBindings (sveGenerator andCmpPretty))).head? =
      some [("{{input_0}}", "_mm256_cmpgt_epi8(a, b)"), ("{{input_1}}", "c")] ∧
    (andCmpGraph.getNode 1).bind (tryApplyRules (sveGenerator andCmpPretty) andCmpGraph 1) =
      some "svcmpgt_s8(pg, a, b)" ∧
    ((andCmpGraph.getNode 0).bind (fun n =>
      templateBindings (sveGenerator andCmpPretty) andCmpGraph n
        (tryApplyRules (sveGenerator andCmpPretty) andCmpGraph 1))).map
        (mapFind "{{input_0}}") =
      some (some "svsel_s8(svcmpgt_s8(pg, a, b), svdup_s8(0xFF), svdup_s8(0x00))") ∧
    (andCmpGraph.getNode 0).bind (tryApplyRules (sveGenerator andCmpPretty) andCmpGraph 2) =
      some "svand_s8_z(pg, svsel_s8(svcmpgt_s8(pg, a, b), svdup_s8(0xFF), svdup_s8(0x00)), c)" := by
  refine ⟨by decide, by decide, by decide, by rfl, by rfl, by rfl⟩

/-- C25 (amended): for a node resolved by a rule template, the text is the
template with the bindings substituted, and the binding of a placeholder
`{{input_i}}` that an incoming edge tagged `arg_i` sets is derived from the
source node of the last such edge, whatever the expression of the node binds
to it: the `var_name` of the source when it is a statement node, the code
generated for it otherwise, wrapped in
`svsel_s8(..., svdup_s8(0xFF), svdup_s8(0x00))` when the target is SVE, the
op_name of the node contains `and` and the op_name of the source contains
`cmp`, and unchanged in every other case. -/
theorem graph_bindings_take_precedence (gen : EnhancedCodeGenerator) (graph : AODGraph)
    (node : AODNode) (tmpl : TransformTemplate) (recurse : AODNode → Option String)
    (bindings : List (String × String))
    (hb : templateBindings gen graph node recurse = some bindings)
    (pre post : List AODEdge) (edge : AODEdge) (idx : Int) (src : AODNode)
    (hedges : graph.getIncomingEdges node.id = pre ++ edge :: post)
    (htag : startsWith "arg_".data edge.variable_name.data = true)
    (hidx : stoi (edge.variable_name.data.drop 4) = some idx)
    (hsrc : graph.getNode edge.source = some src)
    (hlast : ∀ e ∈ post, ¬ edgeSetsKey e (inputKey idx)) :
    applyTemplate gen graph node tmpl recurse = some (substitute bindings tmpl.code_template) ∧
    ∃ v, sourceValue recurse src = some v ∧
      mapFind (inputKey idx) bindings =
        some (sveAdapt gen (node.getProperty "op_name") src v) ∧
      (¬ (gen.target_architecture = "SVE" ∧
          hasSubstr "and".data (node.getProperty "op_name").data = true ∧
          hasSubstr "cmp".data (src.getProperty "op_name").data = true) →
        mapFind (inputKey idx) bindings = some v) := by
  constructor
  · rw [applyTemplate_eq, hb]
    rfl
  · unfold templateBindings at hb
    rw [hedges, List.foldl_append, List.foldl_cons] at hb
    cases h0 : pre.foldl (edgeBinding gen graph (node.getProperty "op_name") recurse)
        (some (astBindings gen node)) with
    | none =>
      rw [h0] at hb
      have : edgeBinding gen graph (node.getProperty "op_name") recurse none edge = none := rfl
      rw [this, edgeBinding_fold_none] at hb
      simp at hb
    | some b0 =>
      rw [h0] at hb
      cases hv : sourceValue recurse src with
      | none =>
        have : edgeBinding gen graph (node.getProperty "op_name") recurse (some b0) edge = none := by
          unfold edgeBinding
          unfold sourceValue at hv
          simp only [htag, if_true, hidx, hsrc, hv]
        rw [this, edgeBinding_fold_none] at hb
        simp at hb
      | some v =>
        have h1 : edgeBinding gen graph (node.getProperty "op_name") recurse (some b0) edge =
            some (mapSet strLt (inputKey idx) (sveAdapt gen (node.getProperty "op_name") src v)
              b0) := by
          unfold edgeBinding
          unfold sourceValue at hv
          simp only [htag, if_true, hidx, hsrc, hv]
        rw [h1] at hb
        cases h2 : post.foldl (edgeBinding gen graph (node.getProperty "op_name") recurse)
            (some (mapSet strLt (inputKey idx)
              (sveAdapt gen (node.getProperty "op_name") src v) b0)) with
        | none => rw [h2] at hb; simp at hb
        | some b2 =>
          rw [h2] at hb
          simp only [Option.map_some', Option.some.injEq] at hb
          have hkey : mapFind (inputKey idx) b2 =
              some (sveAdapt gen (node.getProperty "op_name") src v) := by
            rw [edgeBinding_fold_other gen graph _ recurse (inputKey idx) post _ b2 hlast h2]
            exact mapFind_mapSet_self _ _ _ _
          have hfin : mapFind (inputKey idx) bindings =
              some (sveAdapt gen (node.getProperty "op_name") src v) := by
            rw [← hb]
            split
            · rw [mapFind_mapSet_ne _ _ _ _ _ (inputKey_ne_predicate idx)]
              exact hkey
            · exact hkey
          refine ⟨v, rfl, hfin, ?_⟩
          intro hno
          rw [hfin]
          unfold sveAdapt
          by_cases hc : gen.target_architecture = "SVE" ∧
              hasSubstr "and".data (node.getProperty "op_name").data = true
          · rw [if_pos hc]
            have : ¬ hasSubstr "cmp".data (src.getProperty "op_name").data = true :=
              fun h3 => hno ⟨hc.1, hc.2, h3⟩
            rw [if_neg this]
          · rw [if_neg hc]

theorem graph_bindings_take_precedence_witness :
    templateBindings (sveGenerator andCmpPretty) andCmpGraph andNode
        (tryApplyRules (sveGenerator andCmpPretty) andCmpGraph 1) =
      some [("{{input_0}}", "svsel_s8(svcmpgt_s8(pg, a, b), svdup_s8(0xFF), svdup_s8(0x00))"),
            ("{{input_1}}", "c"), ("{{predicate}}", "pg")] ∧
    andCmpGraph.getIncomingEdges andNode.id =
      [] ++ { source := 1, target := 0, type := .Data, variable_name := "arg_0" } :: [] ∧
    stoi ("arg_0".data.drop 4) = some 0 ∧ andCmpGraph.getNode 1 = some cmpNode ∧
    ∃ v, sourceValue (tryApplyRules (sveGenerator andCmpPretty) andCmpGraph 1) cmpNode = some v ∧
      mapFind (inputKey 0)
          [("{{input_0}}", "svsel_s8(svcmpgt_s8(pg, a, b), svdup_s8(0xFF), svdup_s8(0x00))"),
           ("{{input_1}}", "c"), ("{{predicate}}", "pg")] =
        some (sveAdapt (sveGenerator andCmpPretty) (andNode.getProperty "op_name") cmpNode v) :=
  ⟨by rfl, by rfl, by decide, by rfl,
    match (graph_bindings_take_precedence (sveGenerator andCmpPretty) andCmpGraph andNode
      { template_id := "", target_architecture := "SVE", code_template := "",
        placeholders := [], required_headers := [], auxiliary_vars := [],
        performance_hints := [] }
      (tryApplyRules (sveGenerator andCmpPretty) andCmpGraph 1) _ (by rfl) [] []
      { source := 1, target := 0, type := .Data, variable_name := "arg_0" } 0 cmpNode
      (by rfl) (by decide) (by decide) (by rfl) (fun e he => by simp at he)).2 with
    | ⟨v, h1, h2, _⟩ => ⟨v, h1, h2⟩⟩

end aodsolve

namespace cpg

/-! ## Control dependence: the records are exactly those of the search -/

theorem cdGrow_cdMark (pdg0 pdg : List (Nat × PDGNode)) (func term : Nat) (bv : Bool) (st : Stmt)
    (h : CDGrow pdg0 pdg) : CDGrow pdg0 (cdMark func term bv pdg st) := by
  intro s
  obtain ⟨added, hadd⟩ := h s
  rw [cdDeps_cdMark]
  by_cases hs : s = st.addr
  · rw [if_pos hs, hadd]
    exact ⟨added ++ [_], by rw [List.append_assoc]⟩
  · rw [if_neg hs]
    exact ⟨added, hadd⟩

theorem cdHas_cdMark (pdg0 pdg : List (Nat × PDGNode)) (func term : Nat) (bv : Bool) (st : Stmt)
    (s : Nat) (dep : ControlDependency) (h : CDHas pdg0 pdg s dep) :
    CDHas pdg0 (cdMark func term bv pdg st) s dep := by
  obtain ⟨added, hadd, hmem⟩ := h
  unfold CDHas
  rw [cdDeps_cdMark]
  by_cases hs : s = st.addr
  · rw [if_pos hs, hadd]
    exact ⟨added ++ [_], by rw [List.append_assoc], List.mem_append_left _ hmem⟩
  · rw [if_neg hs]
    exact ⟨added, hadd, hmem⟩

theorem cdHas_cdMark_self (pdg0 pdg : List (Nat × PDGNode)) (func term : Nat) (bv : Bool)
    (st : Stmt) (h : CDGrow pdg0 pdg) :
    CDHas pdg0 (cdMark func term bv pdg st) st.addr
      { controlStmt := term, dependentStmt := st.addr, branchValue := bv } := by
  obtain ⟨added, hadd⟩ := h st.addr
  unfold CDHas
  rw [cdDeps_cdMark, if_pos rfl, hadd]
  exact ⟨added ++ [_], by rw [List.append_assoc], List.mem_append_right _ (List.mem_singleton.mpr rfl)⟩

/-- A property of the PDG that marking a statement keeps is kept by the search. -/
theorem cdSearch_keeps (P : List (Nat × PDGNode) → Prop) (cfg : CFG) (postDom : PostDomMap)
    (func block term : Nat) (bv : Bool)
    (hP : ∀ pdg st, P pdg → P (cdMark func term bv pdg st)) :
    ∀ (fuel : Nat) (st : CDSearch), P st.pdg →
      P (cdSearch cfg postDom func block term bv fuel st).pdg := by
  intro fuel
  induction fuel with
  | zero => intro st h; exact h
  | succ fuel ih =>
    intro st h
    rw [cdSearch]
    split
    · exact h
    · rename_i current rest hcur
      by_cases hpd : block ∈ mapGetD postDom current []
      · rw [if_pos hpd]
        exact ih _ h
      · rw [if_neg hpd]
        apply ih
        exact foldl_invariant P _ _ (fun p s _ hp => hP p s hp) _ h

theorem cdBranch_keeps (P : List (Nat × PDGNode) → Prop) (cfg : CFG) (postDom : PostDomMap)
    (func block term : Nat)
    (hP : ∀ bv pdg st, P pdg → P (cdMark func term bv pdg st))
    (pdg : List (Nat × PDGNode)) (br : Nat × Option Nat) (h : P pdg) :
    P (cdBranch cfg postDom func block term pdg br) := by
  unfold cdBranch
  cases br.2 with
  | none => exact h
  | some start => exact cdSearch_keeps P cfg postDom func block term _ (hP _) _ _ h

theorem cdBlock_keeps (P : List (Nat × PDGNode) → Prop) (cfg : CFG) (postDom : PostDomMap)
    (func : Nat) (hP : ∀ term bv pdg st, P pdg → P (cdMark func term bv pdg st))
    (pdg : List (Nat × PDGNode)) (ib : Nat × CFGBlock) (h : P pdg) :
    P (cdBlock cfg postDom func pdg ib) := by
  unfold cdBlock
  split
  · exact foldl_invariant P _ _
      (fun p br _ hp => cdBranch_keeps P cfg postDom func _ _ (hP _) p br hp) _ h
  · exact h

theorem cdPush_facts (st : List Nat × List Nat) (o : Option Nat) :
    (∀ x ∈ st.1, x ∈ (cdPush st o).1) ∧ (∀ x ∈ st.2, x ∈ (cdPush st o).2) ∧
    (∀ y, o = some y → y ∈ (cdPush st o).2) ∧
    (∀ x ∈ (cdPush st o).2, x ∈ st.2 ∨ x ∈ (cdPush st o).1) ∧
    ((∀ x ∈ st.1, x ∈ st.2) → ∀ x ∈ (cdPush st o).1, x ∈ (cdPush st o).2) := by
  cases o with
  | none =>
    simp only [cdPush]
    exact ⟨fun x h => h, fun x h => h, fun y h => by simp at h, fun x h => Or.inl h, fun h => h⟩
  | some nb =>
    simp only [cdPush]
    by_cases hv : nb ∈ st.2
    · simp only [if_pos hv]
      refine ⟨fun x h => h, fun x h => h, ?_, fun x h => Or.inl h, fun h => h⟩
      intro y hy
      cases hy
      exact hv
    · simp only [if_neg hv]
      refine ⟨?_, ?_, ?_, ?_, ?_⟩
      · intro x hx; exact List.mem_append_left _ hx
      · intro x hx; exact (mem_setInsert natLt nb x st.2).mpr (Or.inr hx)
      · intro y hy
        cases hy
        exact (mem_setInsert natLt nb nb st.2).mpr (Or.inl rfl)
      · intro x hx
        rcases (mem_setInsert natLt nb x st.2).mp hx with h | h
        · right; rw [h]; simp
        · left; exact h
      · intro h x hx
        rcases List.mem_append.mp hx with h1 | h1
        · exact (mem_setInsert natLt nb x st.2).mpr (Or.inr (h x h1))
        · simp only [List.mem_singleton] at h1
          exact (mem_setInsert natLt nb x st.2).mpr (Or.inl h1)

theorem cdPush_fold_facts (succs : List (Option Nat)) :
    ∀ st : List Nat × List Nat,
    (∀ x ∈ st.1, x ∈ (succs.foldl cdPush st).1) ∧ (∀ x ∈ st.2, x ∈ (succs.foldl cdPush st).2) ∧
    (∀ y, some y ∈ succs → y ∈ (succs.foldl cdPush st).2) ∧
    (∀ x ∈ (succs.foldl cdPush st).2, x ∈ st.2 ∨ x ∈ (succs.foldl cdPush st).1) ∧
    ((∀ x ∈ st.1, x ∈ st.2) → ∀ x ∈ (succs.foldl cdPush st).1, x ∈ (succs.foldl cdPush st).2) := by
  induction succs with
  | nil =>
    intro st
    simp only [List.foldl_nil]
    exact ⟨fun x h => h, fun x h => h, fun y h => by simp at h, fun x h => Or.inl h, fun h => h⟩
  | cons o rest ih =>
    intro st
    simp only [List.foldl_cons]
    obtain ⟨a1, a2, a3, a4, a5⟩ := cdPush_facts st o
    obtain ⟨b1, b2, b3, b4, b5⟩ := ih (cdPush st o)
    refine ⟨fun x h => b1 x (a1 x h), fun x h => b2 x (a2 x h), ?_, ?_, fun h => b5 (a5 h)⟩
    · intro y hy
      rcases List.mem_cons.mp hy with h | h
      · exact b2 y (a3 y h.symm)
      · exact b3 y h
    · intro x hx
      rcases b4 x hx with h | h
      · rcases a4 x h with h1 | h1
        · exact Or.inl h1
        · exact Or.inr (b1 x h1)
      · exact Or.inr h

theorem cdSearchInv_keeps (cfg : CFG) (postDom : PostDomMap) (pdg0 : List (Nat × PDGNode))
    (func T term : Nat) (bv : Bool) (start : Nat) :
    ∀ (fuel : Nat) (st : CDSearch), CDSearchInv cfg postDom pdg0 T term bv start st →
      CDSearchInv cfg postDom pdg0 T term bv start
        (cdSearch cfg postDom func T term bv fuel st) := by
  intro fuel
  induction fuel with
  | zero => intro st h; exact h
  | succ fuel ih =>
    intro st h
    rw [cdSearch]
    split
    · exact h
    · rename_i current rest hcur
      obtain ⟨hgrow, hstart, hwl, hdone⟩ := h
      rw [hcur] at hwl hdone
      by_cases hpd : T ∈ mapGetD postDom current []
      · rw [if_pos hpd]
        apply ih
        refine ⟨hgrow, hstart, fun w hw => hwl w (List.mem_cons_of_mem _ hw), ?_⟩
        intro x hx hxr hxpd
        apply hdone x hx _ hxpd
        intro hmem
        rcases List.mem_cons.mp hmem with h1 | h1
        · rw [h1] at hxpd; exact hxpd hpd
        · exact hxr h1
      · rw [if_neg hpd]
        apply ih
        obtain ⟨p1, p2, p3, p4, p5⟩ := cdPush_fold_facts (cfg.block current).succs (rest, st.visited)
        have hkeepGrow : CDGrow pdg0
            ((cfg.block current).elems.foldl (cdMark func term bv) st.pdg) :=
          foldl_invariant (fun p => CDGrow pdg0 p) _ _
            (fun p s _ hp => cdGrow_cdMark pdg0 p func term bv s hp) _ hgrow
        have hkeepHas : ∀ s dep, CDHas pdg0 st.pdg s dep → CDHas pdg0
            ((cfg.block current).elems.foldl (cdMark func term bv) st.pdg) s dep := by
          intro s dep hh
          exact foldl_invariant (fun p => CDHas pdg0 p s dep) _ _
            (fun p s1 _ hp => cdHas_cdMark pdg0 p func term bv s1 s dep hp) _ hh
        have hmarked : ∀ s ∈ (cfg.block current).elems, CDHas pdg0
            ((cfg.block current).elems.foldl (cdMark func term bv) st.pdg) s.addr
            { controlStmt := term, dependentStmt := s.addr, branchValue := bv } :=
          foldl_establish (fun p => CDGrow pdg0 p)
            (fun (s : Stmt) p => CDHas pdg0 p s.addr
              { controlStmt := term, dependentStmt := s.addr, branchValue := bv })
            _ _
            (fun p s _ hp => cdGrow_cdMark pdg0 p func term bv s hp)
            (fun p s _ hp => cdHas_cdMark_self pdg0 p func term bv s hp)
            (fun p s y _ _ hq => cdHas_cdMark pdg0 p func term bv s y.addr _ hq)
            _ hgrow
        refine ⟨hkeepGrow, p2 start hstart, ?_, ?_⟩
        · exact p5 (fun x hx => hwl x (List.mem_cons_of_mem _ hx))
        · intro x hx hxw hxpd
          by_cases hxc : x = current
          · subst hxc
            exact ⟨hmarked, p3⟩
          · have hxv : x ∈ st.visited := by
              rcases p4 x hx with h1 | h1
              · exact h1
              · exact absurd h1 hxw
            have hxnot : x ∉ current :: rest := by
              intro hmem
              rcases List.mem_cons.mp hmem with h1 | h1
              · exact hxc h1
              · exact hxw (p1 x h1)
            obtain ⟨q1, q2⟩ := hdone x hxv hxnot hxpd
            exact ⟨fun s hs => hkeepHas _ _ (q1 s hs), fun y hy => p2 y (q2 y hy)⟩

theorem cdReach_not_postDom (cfg : CFG) (postDom : PostDomMap) (T start b : Nat)
    (h : CDReach cfg postDom T start b) : T ∉ mapGetD postDom b [] := by
  cases h with
  | start h => exact h
  | step x _ _ _ h => exact h

/-- Every statement of a block the search reaches has its record after the
branch has been processed. -/
theorem cdBranch_complete (cfg : CFG) (postDom : PostDomMap) (pdg0 pdg : List (Nat × PDGNode))
    (func T term i start : Nat) (hgrow : CDGrow pdg0 pdg) (bS : Nat)
    (hreach : CDReach cfg postDom T start bS) :
    ∀ s ∈ (cfg.block bS).elems,
      CDHas pdg0 (cdBranch cfg postDom func T term pdg (i, some start)) s.addr
        { controlStmt := term, dependentStmt := s.addr, branchValue := decide (i = 0) } := by
  have hinit : CDSearchInv cfg postDom pdg0 T term (decide (i = 0)) start
      { worklist := [start], visited := setInsert natLt start [], pdg := pdg } := by
    refine ⟨hgrow, by simp [mem_setInsert], by simp [mem_setInsert], ?_⟩
    intro x hx hxw
    simp only [mem_setInsert, List.not_mem_nil, or_false] at hx
    simp [hx] at hxw
  have hfin := cdSearchInv_keeps cfg postDom pdg0 func T term (decide (i = 0)) start
    cfg.searchBound _ hinit
  have hnil := cdSearch_terminates cfg postDom func T term (decide (i = 0)) start pdg
  obtain ⟨_, hstart, _, hdone⟩ := hfin
  rw [hnil] at hdone
  have hvis : ∀ b, CDReach cfg postDom T start b →
      b ∈ (cdSearch cfg postDom func T term (decide (i = 0)) cfg.searchBound
        { worklist := [start], visited := setInsert natLt start [], pdg := pdg }).visited := by
    intro b hb
    induction hb with
    | start _ => exact hstart
    | step x y hx hxy _ ih =>
      exact (hdone x ih (List.not_mem_nil _) (cdReach_not_postDom cfg postDom T start x hx)).2 y hxy
  exact (hdone bS (hvis bS hreach) (List.not_mem_nil _)
    (cdReach_not_postDom cfg postDom T start bS hreach)).1

theorem cdBlock_complete (cfg : CFG) (postDom : PostDomMap) (pdg0 pdg : List (Nat × PDGNode))
    (func : Nat) (ib : Nat × CFGBlock) (hgrow : CDGrow pdg0 pdg)
    (hterm : isIfOrWhile ib.2.terminator = true) (i start : Nat)
    (hsucc : ib.2.succs[i]? = some (some start)) (bS : Nat)
    (hreach : CDReach cfg postDom ib.1 start bS) :
    ∀ s ∈ (cfg.block bS).elems, CDHas pdg0 (cdBlock cfg postDom func pdg ib) s.addr
      { controlStmt := ib.2.terminator.addr, dependentStmt := s.addr,
        branchValue := decide (i = 0) } := by
  intro s hs
  unfold cdBlock
  rw [if_pos hterm]
  have hmem : (i, some start) ∈ withIndex 0 ib.2.succs := by
    have := withIndex_mem_of_getElem? ib.2.succs i _ hsucc 0
    simpa using this
  exact foldl_establish (fun p => CDGrow pdg0 p)
    (fun (br : Nat × Option Nat) p => ∀ st, br.2 = some st → CDReach cfg postDom ib.1 st bS →
      CDHas pdg0 p s.addr (ControlDependency.mk ib.2.terminator.addr s.addr (decide (br.1 = 0))))
    _ _
    (fun p br _ hp => cdBranch_keeps (fun q => CDGrow pdg0 q) cfg postDom func _ _
      (fun bv q st hq => cdGrow_cdMark pdg0 q func _ bv st hq) p br hp)
    (fun p br _ hp st hst hr => by
      have hbr : br = (br.1, some st) := by rw [← hst]
      rw [hbr]
      exact cdBranch_complete cfg postDom pdg0 p func ib.1 _ br.1 st hp bS hr s hs)
    (fun p br y _ _ hq st hst hr =>
      cdBranch_keeps (fun q => CDHas pdg0 q s.addr _) cfg postDom func _ _
        (fun bv q st1 hq1 => cdHas_cdMark pdg0 q func _ bv st1 _ _ hq1) p br (hq st hst hr))
    _ hgrow (i, some start) hmem start rfl hreach

theorem isIfOrWhile_block_lt (cfg : CFG) (T : Nat)
    (h : isIfOrWhile (cfg.block T).terminator = true) : T < cfg.blocks.length := by
  by_contra hlt
  have hblk : cfg.block T = { elems := [], preds := [], succs := [], terminator := .null } :=
    List.getD_eq_default _ _ (by omega)
  rw [hblk] at h
  simp [isIfOrWhile] at h

theorem computeControlDependencies_complete (cfg : CFG) (postDom : PostDomMap)
    (pdg0 : List (Nat × PDGNode)) (func T i start bS : Nat)
    (hterm : isIfOrWhile (cfg.block T).terminator = true)
    (hsucc : (cfg.block T).succs[i]? = some (some start))
    (hreach : CDReach cfg postDom T start bS) :
    ∀ s ∈ (cfg.block bS).elems,
      CDHas pdg0 ((withIndex 0 cfg.blocks).foldl (cdBlock cfg postDom func) pdg0) s.addr
        { controlStmt := (cfg.block T).terminator.addr, dependentStmt := s.addr,
          branchValue := decide (i = 0) } := by
  intro s hs
  have hmem := block_mem_withIndex cfg T (isIfOrWhile_block_lt cfg T hterm)
  exact foldl_establish (fun p => CDGrow pdg0 p)
    (fun (ib : Nat × CFGBlock) p => isIfOrWhile ib.2.terminator = true →
      ib.2.succs[i]? = some (some start) → CDReach cfg postDom ib.1 start bS →
      CDHas pdg0 p s.addr (ControlDependency.mk ib.2.terminator.addr s.addr (decide (i = 0))))
    _ _
    (fun p ib _ hp => cdBlock_keeps (fun q => CDGrow pdg0 q) cfg postDom func
      (fun term bv q st hq => cdGrow_cdMark pdg0 q func term bv st hq) p ib hp)
    (fun p ib _ hp ht hsu hr => cdBlock_complete cfg postDom pdg0 p func ib hp ht i start hsu bS hr
      s hs)
    (fun p ib y _ _ hq ht hsu hr =>
      cdBlock_keeps (fun q => CDHas pdg0 q s.addr _) cfg postDom func
        (fun term bv q st1 hq1 => cdHas_cdMark pdg0 q func term bv st1 _ _ hq1) p ib
        (hq ht hsu hr))
    _ (fun s1 => ⟨[], by simp⟩) (T, cfg.block T) hmem hterm hsucc hreach

end cpg

namespace cpg

theorem computeControlDependencies_sound (ctx : CPGContext) (func : Nat) (cfg : CFG)
    (hcfg : getCFG ctx func = some cfg) :
    CDInv cfg (computePostDominators ctx func []) ctx.pdgNodes
      (computeControlDependencies ctx func).pdgNodes := by
  unfold computeControlDependencies
  simp only [hcfg]
  refine foldl_invariant
    (fun p => CDInv cfg (computePostDominators ctx func []) ctx.pdgNodes p) _ _ ?_ _ ?_
  · intro p ib hib hp
    exact cdBlock_inv cfg _ ctx.pdgNodes p func ib hib hp
  · intro s1
    exact ⟨[], by simp, by simp⟩

/-- C21, as the code has it. `computeControlDependencies` keeps the records a
statement `s` had and appends exactly the following ones: a record is appended
if and only if its dependent statement is `s`, its controlling statement is the
`if`/`while` terminator of a block `T`, its branch value is true exactly for
the first successor slot of `T`, and `s` is a statement of a block visited by
the forward search from that successor which stops at (neither marks nor
expands) every block that has `T` in its computed post-dominator set, that is,
every block that `T` post-dominates. -/
theorem controlDependencies_exact (ctx : CPGContext) (func : Nat) (cfg : CFG)
    (hcfg : getCFG ctx func = some cfg) (s : Nat) :
    ∃ added, getControlDependencies (computeControlDependencies ctx func) s =
        getControlDependencies ctx s ++ added ∧
      ∀ dep, dep ∈ added ↔ CDConsistent cfg (computePostDominators ctx func []) s dep := by
  obtain ⟨added, hadd, hall⟩ := computeControlDependencies_sound ctx func cfg hcfg s
  refine ⟨added, hadd, fun dep => ⟨hall dep, ?_⟩⟩
  rintro ⟨hdep, T, i, start, bS, hterm, haddr, hsucc, hbv, hreach, hs⟩
  obtain ⟨st, hst, hsa⟩ := List.mem_map.mp hs
  have h := computeControlDependencies_complete cfg (computePostDominators ctx func [])
    ctx.pdgNodes func T i start bS hterm hsucc hreach st hst
  have hpdg : (computeControlDependencies ctx func).pdgNodes =
      (withIndex 0 cfg.blocks).foldl (cdBlock cfg (computePostDominators ctx func []) func)
        ctx.pdgNodes := by
    unfold computeControlDependencies
    simp only [hcfg]
  rw [← hpdg, hsa] at h
  obtain ⟨added2, hadd2, hmem⟩ := h
  have heq : added2 = added := by
    have hadd1 : cdDeps (computeControlDependencies ctx func).pdgNodes s =
        cdDeps ctx.pdgNodes s ++ added := hadd
    rw [hadd1] at hadd2
    exact (List.append_cancel_left hadd2).symm
  rw [heq, haddr] at hmem
  have hd : dep = { controlStmt := dep.controlStmt, dependentStmt := s,
                    branchValue := decide (i = 0) } := by
    cases dep
    simp only at hdep hbv
    simp [hdep, hbv]
  rw [hd]
  exact hmem

/-- C21 on `if (c) { x = 1; } y = 2;`: the records added to `x = 1`. -/
theorem controlDependencies_exact_witness :
    ∃ added, getControlDependencies (computeControlDependencies ctxB 200) 32 =
        getControlDependencies ctxB 32 ++ added ∧
      ∀ dep, dep ∈ added ↔ CDConsistent cfgB (computePostDominators ctxB 200 []) 32 dep :=
  controlDependencies_exact ctxB 200 cfgB rfl 32

/-- C21 as stated fails on `if (c) { x = 1; } y = 2;`. Block 3 ends in the `if`
and its first successor is block 2 (`x = 1`); block 1 (`y = 2`) is in the
computed post-dominator set of block 3, so a search from block 2 that stops at
every block that post-dominates block 3 visits block 2 only. The code stops at
blocks that block 3 post-dominates instead, and `y = 2` (statement 35) receives
a record against the `if` (statement 30) for the first branch. -/
theorem record_on_post_dominating_block :
    isIfOrWhile (cfgB.block 3).terminator = true ∧
    (cfgB.block 3).terminator.addr = 30 ∧
    (cfgB.block 3).succs[0]? = some (some 2) ∧
    1 ∈ mapGetD (computePostDominators ctxB 200 []) 3 [] ∧
    35 ∈ (cfgB.block 1).elems.map Stmt.addr ∧
    (ControlDependency.mk 30 35 true) ∈
      getControlDependencies (computeControlDependencies ctxB 200) 35 ∧
    ¬ ∃ bS, CDReachSpec cfgB (computePostDominators ctxB 200 []) 3 2 bS ∧
        35 ∈ (cfgB.block bS).elems.map Stmt.addr := by
  have hpd : computePostDominators ctxB 200 [] =
      [(0, [0]), (1, [0, 1]), (2, [0, 1, 2]), (3, [0, 1, 3]), (4, [0, 1, 3, 4])] := by decide
  refine ⟨by decide, by decide, by decide, by rw [hpd]; decide, by decide, by decide, ?_⟩
  rintro ⟨bS, hreach, hmem⟩
  have hb : bS = 2 := by
    clear hmem
    induction hreach with
    | start _ => rfl
    | step x y _ hxy hy ih =>
      subst ih
      rw [hpd] at hy
      have : y = 1 := by
        have h1 : some y ∈ [some 1] := hxy
        simpa using h1
      subst this
      exact absurd (by decide) hy
  subst hb
  exact absurd hmem (by decide)

end cpg

namespace cpg

/-! ## Edge symmetry of the ICFG -/

theorem successorsOf_modifyNode (ctx : CPGContext) (p : Nat) (g : ICFGNode → ICFGNode)
    (hg : ∀ n, (g n).successors = n.successors) (a : Nat) :
    successorsOf (modifyNode ctx p g) a = successorsOf ctx a := by
  unfold successorsOf modifyNode
  simp only [List.getElem?_modify]
  cases ctx.heap[a]? with
  | none => rfl
  | some n =>
    simp only [Option.map_eq_map, Option.map_some']
    split
    · exact hg n
    · rfl

theorem predecessorsOf_modifyNode (ctx : CPGContext) (p : Nat) (g : ICFGNode → ICFGNode)
    (hg : ∀ n, (g n).predecessors = n.predecessors) (b : Nat) :
    predecessorsOf (modifyNode ctx p g) b = predecessorsOf ctx b := by
  unfold predecessorsOf modifyNode
  simp only [List.getElem?_modify]
  cases ctx.heap[b]? with
  | none => rfl
  | some n =>
    simp only [Option.map_eq_map, Option.map_some']
    split
    · exact hg n
    · rfl

theorem successorsOf_addSucc (ctx : CPGContext) (p : Nat) (e : Nat × ICFGEdgeKind) (a : Nat)
    (hp : p < ctx.heap.length) :
    successorsOf (modifyNode ctx p (fun n => { n with successors := n.successors ++ [e] })) a =
      if p = a then successorsOf ctx a ++ [e] else successorsOf ctx a := by
  unfold successorsOf modifyNode
  simp only [List.getElem?_modify]
  by_cases hpa : p = a
  · subst hpa
    rw [List.getElem?_eq_getElem hp]
    simp
  · cases ctx.heap[a]? with
    | none => simp [hpa]
    | some n => simp [hpa]

theorem predecessorsOf_addPred (ctx : CPGContext) (p : Nat) (e : Nat × ICFGEdgeKind) (b : Nat)
    (hp : p < ctx.heap.length) :
    predecessorsOf (modifyNode ctx p (fun n => { n with predecessors := n.predecessors ++ [e] })) b =
      if p = b then predecessorsOf ctx b ++ [e] else predecessorsOf ctx b := by
  unfold predecessorsOf modifyNode
  simp only [List.getElem?_modify]
  by_cases hpb : p = b
  · subst hpb
    rw [List.getElem?_eq_getElem hp]
    simp
  · cases ctx.heap[b]? with
    | none => simp [hpb]
    | some n => simp [hpb]

theorem modifyNode_length (ctx : CPGContext) (p : Nat) (g : ICFGNode → ICFGNode) :
    (modifyNode ctx p g).heap.length = ctx.heap.length := by
  simp [modifyNode, List.length_modify]

theorem addICFGEdge_length (ctx : CPGContext) (s d : Nat) (k : ICFGEdgeKind) :
    (addICFGEdge ctx s d k).heap.length = ctx.heap.length := by
  simp [addICFGEdge, modifyNode_length]

theorem createICFGNode_length (ctx : CPGContext) (kind : ICFGNodeKind) (func : Nat) :
    (createICFGNode ctx kind func).1.heap.length = ctx.heap.length + 1 := by
  simp [createICFGNode]

theorem successorsOf_create (ctx : CPGContext) (kind : ICFGNodeKind) (func : Nat) (a : Nat) :
    successorsOf (createICFGNode ctx kind func).1 a = successorsOf ctx a := by
  unfold successorsOf createICFGNode
  simp only
  by_cases hlt : a < ctx.heap.length
  · rw [List.getElem?_append_left hlt]
  · by_cases heq : a = ctx.heap.length
    · subst heq
      rw [List.getElem?_concat_length, List.getElem?_eq_none (le_refl _)]
    · rw [List.getElem?_eq_none (by simp; omega), List.getElem?_eq_none (by omega)]

theorem predecessorsOf_create (ctx : CPGContext) (kind : ICFGNodeKind) (func : Nat) (b : Nat) :
    predecessorsOf (createICFGNode ctx kind func).1 b = predecessorsOf ctx b := by
  unfold predecessorsOf createICFGNode
  simp only
  by_cases hlt : b < ctx.heap.length
  · rw [List.getElem?_append_left hlt]
  · by_cases heq : b = ctx.heap.length
    · subst heq
      rw [List.getElem?_concat_length, List.getElem?_eq_none (le_refl _)]
    · rw [List.getElem?_eq_none (by simp; omega), List.getElem?_eq_none (by omega)]

/-- A context with the same edge lists and valid pointers keeps the invariant. -/
theorem symInv_of_lists (ctx ctx2 : CPGContext) (h : SymInv ctx)
    (hs : ∀ a, successorsOf ctx2 a = successorsOf ctx a)
    (hp : ∀ b, predecessorsOf ctx2 b = predecessorsOf ctx b) (hv : PtrsValid ctx2) :
    SymInv ctx2 := by
  refine ⟨?_, hv⟩
  intro a b k
  rw [hs, hp]
  exact h.1 a b k

theorem ptrsValid_mono (ctx ctx2 : CPGContext) (h : PtrsValid ctx)
    (h1 : ctx2.stmtToICFGNode = ctx.stmtToICFGNode) (h2 : ctx2.funcEntries = ctx.funcEntries)
    (h3 : ctx2.funcExits = ctx.funcExits) (hlen : ctx.heap.length ≤ ctx2.heap.length) :
    PtrsValid ctx2 := by
  refine ⟨?_, ?_, ?_⟩
  · intro k v hk; rw [h1] at hk; exact lt_of_lt_of_le (h.1 k v hk) hlen
  · intro k v hk; rw [h2] at hk; exact lt_of_lt_of_le (h.2.1 k v hk) hlen
  · intro k v hk; rw [h3] at hk; exact lt_of_lt_of_le (h.2.2 k v hk) hlen

theorem symInv_create (ctx : CPGContext) (h : SymInv ctx) (kind : ICFGNodeKind) (func : Nat) :
    SymInv (createICFGNode ctx kind func).1 :=
  symInv_of_lists ctx _ h (successorsOf_create ctx kind func) (predecessorsOf_create ctx kind func)
    (ptrsValid_mono ctx _ h.2 rfl rfl rfl (by rw [createICFGNode_length]; omega))

theorem symInv_modify (ctx : CPGContext) (h : SymInv ctx) (p : Nat) (g : ICFGNode → ICFGNode)
    (hg1 : ∀ n, (g n).successors = n.successors)
    (hg2 : ∀ n, (g n).predecessors = n.predecessors) : SymInv (modifyNode ctx p g) :=
  symInv_of_lists ctx _ h (successorsOf_modifyNode ctx p g hg1)
    (predecessorsOf_modifyNode ctx p g hg2)
    (ptrsValid_mono ctx _ h.2 rfl rfl rfl (by rw [modifyNode_length]))

/-- `addICFGEdge` between two nodes of the heap keeps the invariant. -/
theorem symInv_edge (ctx : CPGContext) (h : SymInv ctx) (s d : Nat) (kind : ICFGEdgeKind)
    (hs : s < ctx.heap.length) (hd : d < ctx.heap.length) :
    SymInv (addICFGEdge ctx s d kind) := by
  refine ⟨?_, ptrsValid_mono ctx _ h.2 rfl rfl rfl (by rw [addICFGEdge_length])⟩
  intro a b k
  have h1 : successorsOf (addICFGEdge ctx s d kind) a =
      if s = a then successorsOf ctx a ++ [(d, kind)] else successorsOf ctx a := by
    unfold addICFGEdge
    exact (successorsOf_modifyNode _ d
      (fun n => { n with predecessors := n.predecessors ++ [(s, kind)] }) (fun _ => rfl) a).trans
      (successorsOf_addSucc ctx s (d, kind) a hs)
  have h2 : predecessorsOf (addICFGEdge ctx s d kind) b =
      if d = b then predecessorsOf ctx b ++ [(s, kind)] else predecessorsOf ctx b := by
    unfold addICFGEdge
    simp only
    rw [predecessorsOf_addPred _ d (s, kind) b (by rw [modifyNode_length]; exact hd)]
    rw [predecessorsOf_modifyNode ctx s
      (fun n => { n with successors := n.successors ++ [(d, kind)] }) (fun _ => rfl) b]
  rw [h1, h2]
  have h0 := h.1 a b k
  by_cases hsa : s = a <;> by_cases hdb : d = b <;> by_cases hk : kind = k <;>
    simp [hsa, hdb, hk, List.count_append, List.count_singleton, h0, eq_comm]

end cpg

namespace cpg

theorem symInv_stmtNode (ctx : CPGContext) (h : SymInv ctx) (kind : ICFGNodeKind)
    (func a : Nat) (g : ICFGNode → ICFGNode)
    (hg1 : ∀ n, (g n).successors = n.successors)
    (hg2 : ∀ n, (g n).predecessors = n.predecessors) (ctx3 : CPGContext)
    (h3 : ctx3 =
      { modifyNode (createICFGNode ctx kind func).1 (createICFGNode ctx kind func).2 g with
        stmtToICFGNode := mapSet natLt a (createICFGNode ctx kind func).2 ctx.stmtToICFGNode }) :
    SymInv ctx3 ∧ ctx3.heap.length = ctx.heap.length + 1 := by
  have h2 : SymInv (modifyNode (createICFGNode ctx kind func).1 (createICFGNode ctx kind func).2 g) :=
    symInv_modify _ (symInv_create ctx h kind func) _ g hg1 hg2
  have hlen : ctx3.heap.length = ctx.heap.length + 1 := by
    rw [h3]
    show (modifyNode (createICFGNode ctx kind func).1 _ g).heap.length = _
    rw [modifyNode_length, createICFGNode_length]
  refine ⟨symInv_of_lists _ ctx3 h2 (fun x => by rw [h3]; rfl) (fun x => by rw [h3]; rfl)
    ⟨?_, ?_, ?_⟩, hlen⟩
  · intro k v hk
    have hmap : ctx3.stmtToICFGNode = mapSet natLt a ctx.heap.length ctx.stmtToICFGNode := by
      rw [h3]; rfl
    rw [hmap, mapFind_mapSet] at hk
    by_cases hka : k = a
    · rw [if_pos hka] at hk
      simp only [Option.some.injEq] at hk
      omega
    · rw [if_neg hka] at hk
      have := h.2.1 k v hk
      omega
  · intro k v hk
    have hmap : ctx3.funcEntries = ctx.funcEntries := by rw [h3]; rfl
    rw [hmap] at hk
    have := h.2.2.1 k v hk
    omega
  · intro k v hk
    have hmap : ctx3.funcExits = ctx.funcExits := by rw [h3]; rfl
    rw [hmap] at hk
    have := h.2.2.2 k v hk
    omega

theorem mapFind_mapSet_some_lt (m : List (Nat × Option Nat)) (k0 : Nat) (o : Option Nat)
    (n n2 : Nat) (hm : ∀ k v, mapFind k m = some (some v) → v < n) (hle : n ≤ n2)
    (ho : ∀ v, o = some v → v < n2) :
    ∀ k v, mapFind k (mapSet natLt k0 o m) = some (some v) → v < n2 := by
  intro k v hk
  rw [mapFind_mapSet] at hk
  by_cases hkk : k = k0
  · rw [if_pos hkk] at hk
    simp only [Option.some.injEq] at hk
    exact ho v hk
  · rw [if_neg hkk] at hk
    exact lt_of_lt_of_le (hm k v hk) hle

theorem buildInv_icfgStmt (n0 func block : Nat) (st : ICFGBuild × Option Nat) (s : Stmt)
    (h : BuildInv n0 st.1) (hp : ∀ p, st.2 = some p → p < st.1.ctx.heap.length) :
    BuildInv n0 (icfgStmt func block st s).1 ∧
    ∀ p, (icfgStmt func block st s).2 = some p →
      p < (icfgStmt func block st s).1.ctx.heap.length := by
  obtain ⟨hsym, hn0, hfirst, hlast⟩ := h
  obtain ⟨h3, hlen⟩ := symInv_stmtNode st.1.ctx hsym
    (if isCallExpr s then ICFGNodeKind.CallSite else ICFGNodeKind.Statement) func s.addr
    (fun n => { n with stmt := some s.addr, cfgBlock := some block
                       callExpr := if isCallExpr s then some s.addr else none })
    (fun _ => rfl) (fun _ => rfl) _ rfl
  unfold icfgStmt
  cases hprev : st.2 with
  | none =>
    refine ⟨⟨h3, ?_, ?_, ?_⟩, ?_⟩
    · show n0 ≤ _
      rw [hlen]; omega
    · show ∀ k v, mapFind k (mapSet natLt block (some st.1.ctx.heap.length) st.1.blockFirstNode)
        = some (some v) → v < _
      rw [hlen]
      exact mapFind_mapSet_some_lt _ _ _ _ _ hfirst (by omega)
        (fun v hv => by simp only [Option.some.injEq] at hv; omega)
    · show ∀ k v, mapFind k st.1.blockLastNode = some (some v) → v < _
      rw [hlen]
      intro k v hk
      have := hlast k v hk
      omega
    · intro p hpe
      have hpe2 : some st.1.ctx.heap.length = some p := hpe
      simp only [Option.some.injEq] at hpe2
      show p < _
      rw [hlen]; omega
  | some prevNode =>
    have hpl := hp prevNode hprev
    have he := symInv_edge _ h3 prevNode st.1.ctx.heap.length .Intraprocedural
      (by rw [hlen]; omega) (by rw [hlen]; omega)
    have hlen2 := addICFGEdge_length _ prevNode st.1.ctx.heap.length .Intraprocedural ▸ hlen
    refine ⟨⟨he, ?_, ?_, ?_⟩, ?_⟩
    · show n0 ≤ (addICFGEdge _ prevNode st.1.ctx.heap.length .Intraprocedural).heap.length
      rw [addICFGEdge_length, hlen]; omega
    · show ∀ k v, mapFind k st.1.blockFirstNode = some (some v) →
        v < (addICFGEdge _ prevNode st.1.ctx.heap.length .Intraprocedural).heap.length
      rw [addICFGEdge_length, hlen]
      intro k v hk
      have := hfirst k v hk
      omega
    · show ∀ k v, mapFind k st.1.blockLastNode = some (some v) →
        v < (addICFGEdge _ prevNode st.1.ctx.heap.length .Intraprocedural).heap.length
      rw [addICFGEdge_length, hlen]
      intro k v hk
      have := hlast k v hk
      omega
    · intro p hpe
      have hpe2 : some st.1.ctx.heap.length = some p := hpe
      simp only [Option.some.injEq] at hpe2
      show p < (addICFGEdge _ prevNode st.1.ctx.heap.length .Intraprocedural).heap.length
      rw [addICFGEdge_length, hlen]; omega

theorem buildInv_icfgBlockNodes (n0 func : Nat) (st : ICFGBuild) (block : Nat) (b : CFGBlock)
    (h : BuildInv n0 st) : BuildInv n0 (icfgBlockNodes func st block b) := by
  have hfold : BuildInv n0 (b.elems.foldl (icfgStmt func block) (st, none)).1 ∧
      ∀ p, (b.elems.foldl (icfgStmt func block) (st, none)).2 = some p →
        p < (b.elems.foldl (icfgStmt func block) (st, none)).1.ctx.heap.length :=
    foldl_invariant
      (fun (x : ICFGBuild × Option Nat) => BuildInv n0 x.1 ∧
        ∀ p, x.2 = some p → p < x.1.ctx.heap.length)
      (icfgStmt func block) b.elems
      (fun x s _ hx => buildInv_icfgStmt n0 func block x s hx.1 hx.2)
      (st, none) ⟨h, fun p hp => by simp at hp⟩
  unfold icfgBlockNodes
  simp only
  cases hr : (b.elems.foldl (icfgStmt func block) (st, none)).2 with
  | none => exact hfold.1
  | some prevNode =>
    obtain ⟨⟨hsym, hn0, hfirst, hlast⟩, hp⟩ := hfold
    refine ⟨hsym, hn0, hfirst, ?_⟩
    exact mapFind_mapSet_some_lt _ _ _ _ _ hlast (le_refl _)
      (fun v hv => by simp only [Option.some.injEq] at hv; exact hp v (hr ▸ congrArg some hv))

theorem mapGetD_some_of (m : List (Nat × Option Nat)) (k v : Nat)
    (h : mapGetD m k none = some v) : mapFind k m = some (some v) := by
  unfold mapGetD at h
  cases hf : mapFind k m with
  | none => rw [hf] at h; simp at h
  | some o => rw [hf] at h; simpa using h

theorem buildInv_icfgSuccEdge (n0 : Nat) (term : Stmt) (lastNode : Nat) (st : ICFGBuild × Nat)
    (succ : Option Nat) (h : BuildInv n0 st.1) (hl : lastNode < st.1.ctx.heap.length) :
    BuildInv n0 (icfgSuccEdge term lastNode st succ).1 ∧
    lastNode < (icfgSuccEdge term lastNode st succ).1.ctx.heap.length := by
  obtain ⟨hsym, hn0, hfirst, hlast⟩ := h
  unfold icfgSuccEdge
  cases succ with
  | none => exact ⟨⟨hsym, hn0, hfirst, hlast⟩, hl⟩
  | some succBlock =>
    simp only
    have hfirst2 : ∀ k v, mapFind k (mapSet natLt succBlock
        (mapGetD st.1.blockFirstNode succBlock none) st.1.blockFirstNode) = some (some v) →
        v < st.1.ctx.heap.length :=
      mapFind_mapSet_some_lt _ _ _ _ _ hfirst (le_refl _)
        (fun v hv => hfirst succBlock v (mapGetD_some_of _ _ _ hv))
    cases hf : mapGetD st.1.blockFirstNode succBlock none with
    | none =>
      rw [hf] at hfirst2
      exact ⟨⟨hsym, hn0, hfirst2, hlast⟩, hl⟩
    | some firstSuccNode =>
      rw [hf] at hfirst2
      simp only
      have hfl := hfirst succBlock firstSuccNode (mapGetD_some_of _ _ _ hf)
      refine ⟨⟨symInv_edge _ hsym lastNode firstSuccNode _ hl hfl, ?_, ?_, ?_⟩, ?_⟩
      · show n0 ≤ (addICFGEdge _ _ _ _).heap.length
        rw [addICFGEdge_length]; exact hn0
      · show ∀ k v, _ → v < (addICFGEdge _ _ _ _).heap.length
        rw [addICFGEdge_length]; exact hfirst2
      · show ∀ k v, _ → v < (addICFGEdge _ _ _ _).heap.length
        rw [addICFGEdge_length]; exact hlast
      · show lastNode < (addICFGEdge _ _ _ _).heap.length
        rw [addICFGEdge_length]; exact hl

theorem buildInv_icfgBlockEdges (n0 : Nat) (st : ICFGBuild) (block : Nat) (b : CFGBlock)
    (h : BuildInv n0 st) : BuildInv n0 (icfgBlockEdges st block b) := by
  obtain ⟨hsym, hn0, hfirst, hlast⟩ := h
  unfold icfgBlockEdges
  simp only
  have hlast2 : ∀ k v, mapFind k (mapSet natLt block
      (mapGetD st.blockLastNode block none) st.blockLastNode) = some (some v) →
      v < st.ctx.heap.length :=
    mapFind_mapSet_some_lt _ _ _ _ _ hlast (le_refl _)
      (fun v hv => hlast block v (mapGetD_some_of _ _ _ hv))
  cases hl : mapGetD st.blockLastNode block none with
  | none =>
    rw [hl] at hlast2
    exact ⟨hsym, hn0, hfirst, hlast2⟩
  | some lastNode =>
    rw [hl] at hlast2
    simp only
    have hll := hlast block lastNode (mapGetD_some_of _ _ _ hl)
    exact (foldl_invariant
      (fun (x : ICFGBuild × Nat) => BuildInv n0 x.1 ∧ lastNode < x.1.ctx.heap.length)
      (icfgSuccEdge b.terminator lastNode) b.succs
      (fun x succ _ hx => buildInv_icfgSuccEdge n0 b.terminator lastNode x succ hx.1 hx.2)
      _ ⟨⟨hsym, hn0, hfirst, hlast2⟩, hll⟩).1

theorem buildInv_icfgExitEdge (n0 exitNode : Nat) (he : exitNode < n0) (st st2 : ICFGBuild)
    (pred : Option Nat) (h : BuildInv n0 st)
    (hr : icfgExitEdge exitNode (some st) pred = some st2) : BuildInv n0 st2 := by
  unfold icfgExitEdge at hr
  cases pred with
  | none =>
    simp only [Option.some.injEq] at hr
    rw [← hr]; exact h
  | some predBlock =>
    simp only at hr
    cases hl : mapFind predBlock st.blockLastNode with
    | none =>
      rw [hl] at hr
      simp only [Option.some.injEq] at hr
      rw [← hr]; exact h
    | some o =>
      rw [hl] at hr
      cases o with
      | none => simp at hr
      | some lastNode =>
        simp only [Option.some.injEq] at hr
        rw [← hr]
        obtain ⟨hsym, hn0, hfirst, hlast⟩ := h
        refine ⟨symInv_edge _ hsym lastNode exitNode _ (hlast predBlock lastNode hl)
          (by omega), ?_, ?_, ?_⟩
        · show n0 ≤ (addICFGEdge _ _ _ _).heap.length
          rw [addICFGEdge_length]; exact hn0
        · show ∀ k v, _ → v < (addICFGEdge _ _ _ _).heap.length
          rw [addICFGEdge_length]; exact hfirst
        · show ∀ k v, _ → v < (addICFGEdge _ _ _ _).heap.length
          rw [addICFGEdge_length]; exact hlast

theorem buildInv_exitEdges (n0 exitNode : Nat) (he : exitNode < n0) (preds : List (Option Nat)) :
    ∀ (st st2 : ICFGBuild), BuildInv n0 st →
      preds.foldl (icfgExitEdge exitNode) (some st) = some st2 → BuildInv n0 st2 := by
  induction preds with
  | nil =>
    intro st st2 h hr
    simp only [List.foldl_nil, Option.some.injEq] at hr
    rw [← hr]; exact h
  | cons p rest ih =>
    intro st st2 h hr
    simp only [List.foldl_cons] at hr
    cases h1 : icfgExitEdge exitNode (some st) p with
    | none => rw [h1, icfgExitEdge_none] at hr; simp at hr
    | some st1 =>
      rw [h1] at hr
      exact ih st1 st2 (buildInv_icfgExitEdge n0 exitNode he st st1 p h h1) hr

theorem buildInv_init (ctx c3 : CPGContext) (f e x : Nat) (h : SymInv ctx)
    (hs : ∀ a, successorsOf c3 a = successorsOf ctx a)
    (hp : ∀ b, predecessorsOf c3 b = predecessorsOf ctx b)
    (hlen : ctx.heap.length ≤ c3.heap.length)
    (e1 : c3.stmtToICFGNode = ctx.stmtToICFGNode)
    (e2 : c3.funcEntries = mapSet natLt f e ctx.funcEntries)
    (e3 : c3.funcExits = mapSet natLt f x ctx.funcExits)
    (he : e < c3.heap.length) (hx : x < c3.heap.length) :
    BuildInv c3.heap.length { ctx := c3, blockFirstNode := [], blockLastNode := [] } := by
  refine ⟨symInv_of_lists ctx c3 h hs hp ⟨?_, ?_, ?_⟩, le_refl _, ?_, ?_⟩
  · intro k v hk
    rw [e1] at hk
    exact lt_of_lt_of_le (h.2.1 k v hk) hlen
  · intro k v hk
    rw [e2, mapFind_mapSet] at hk
    by_cases hkk : k = f
    · rw [if_pos hkk] at hk
      simp only [Option.some.injEq] at hk
      omega
    · rw [if_neg hkk] at hk
      exact lt_of_lt_of_le (h.2.2.1 k v hk) hlen
  · intro k v hk
    rw [e3, mapFind_mapSet] at hk
    by_cases hkk : k = f
    · rw [if_pos hkk] at hk
      simp only [Option.some.injEq] at hk
      omega
    · rw [if_neg hkk] at hk
      exact lt_of_lt_of_le (h.2.2.2 k v hk) hlen
  · intro k v hk; simp [mapFind] at hk
  · intro k v hk; simp [mapFind] at hk

theorem buildInv_blocks (n func : Nat) (cfg : CFG) (st0 : ICFGBuild) (h : BuildInv n st0) :
    BuildInv n ((withIndex 0 cfg.blocks).foldl (fun st ib => icfgBlockEdges st ib.1 ib.2)
      ((withIndex 0 cfg.blocks).foldl (fun st ib => icfgBlockNodes func st ib.1 ib.2) st0)) := by
  have h4 : BuildInv n ((withIndex 0 cfg.blocks).foldl
      (fun st ib => icfgBlockNodes func st ib.1 ib.2) st0) := by
    refine foldl_invariant (fun (x : ICFGBuild) => BuildInv n x) _ (withIndex 0 cfg.blocks) ?_
      st0 h
    intro x ib _ hx
    exact buildInv_icfgBlockNodes n func x ib.1 ib.2 hx
  refine foldl_invariant (fun (x : ICFGBuild) => BuildInv n x) _ (withIndex 0 cfg.blocks) ?_ _ h4
  intro x ib _ hx
  exact buildInv_icfgBlockEdges n x ib.1 ib.2 hx

theorem buildInv_entryEdge (n : Nat) (st : ICFGBuild) (entry block first : Nat)
    (h : BuildInv n st) (he : entry < n)
    (hf : mapGetD st.blockFirstNode block none = some first) :
    BuildInv n { st with ctx := addICFGEdge st.ctx entry first .Intraprocedural } := by
  obtain ⟨hsym, hn0, hfirst, hlast⟩ := h
  have hfl := hfirst block first (mapGetD_some_of _ _ _ hf)
  refine ⟨symInv_edge _ hsym entry first _ (by omega) hfl, ?_, ?_, ?_⟩
  · show _ ≤ (addICFGEdge _ _ _ _).heap.length
    rw [addICFGEdge_length]; exact hn0
  · show ∀ k v, _ → v < (addICFGEdge _ _ _ _).heap.length
    rw [addICFGEdge_length]; exact hfirst
  · show ∀ k v, _ → v < (addICFGEdge _ _ _ _).heap.length
    rw [addICFGEdge_length]; exact hlast

/-- `buildICFG` keeps the invariant. -/
theorem symInv_buildICFG (ctx ctx2 : CPGContext) (func : FunctionDecl) (h : SymInv ctx)
    (hb : buildICFG ctx func = some ctx2) : SymInv ctx2 := by
  cases hcfg : func.cfg with
  | none =>
    unfold buildICFG at hb
    rw [hcfg] at hb
    simp only [Option.some.injEq] at hb
    rw [← hb]; exact h
  | some cfg =>
    unfold buildICFG at hb
    simp only [hcfg, Option.map_eq_some'] at hb
    obtain ⟨r, hr, rfl⟩ := hb
    have key : ∀ (n exitNode : Nat) (preds : List (Option Nat)) (st : ICFGBuild),
        BuildInv n st → exitNode < n →
        preds.foldl (icfgExitEdge exitNode) (some st) = some r → SymInv r.ctx := by
      intro n exitNode preds st hst hx hfold
      exact (buildInv_exitEdges n exitNode hx preds st r hst hfold).1
    have hlen1 : (createICFGNode { ctx with cfgCache := mapSet natLt func.addr cfg ctx.cfgCache }
        .Entry func.addr).1.heap.length = ctx.heap.length + 1 := createICFGNode_length _ _ _
    have hlen2 : (createICFGNode (createICFGNode
        { ctx with cfgCache := mapSet natLt func.addr cfg ctx.cfgCache } .Entry func.addr).1
        .Exit func.addr).1.heap.length = ctx.heap.length + 2 := by
      rw [createICFGNode_length, hlen1]
    have s3 : ∀ (c3 : CPGContext) (e x : Nat), c3.heap = (createICFGNode (createICFGNode
          { ctx with cfgCache := mapSet natLt func.addr cfg ctx.cfgCache } .Entry func.addr).1
          .Exit func.addr).1.heap →
        c3.stmtToICFGNode = ctx.stmtToICFGNode →
        c3.funcEntries = mapSet natLt func.addr e ctx.funcEntries →
        c3.funcExits = mapSet natLt func.addr x ctx.funcExits →
        e = ctx.heap.length →
        x = (createICFGNode { ctx with cfgCache := mapSet natLt func.addr cfg ctx.cfgCache }
          .Entry func.addr).1.heap.length →
        BuildInv (ctx.heap.length + 2) { ctx := c3, blockFirstNode := [], blockLastNode := [] } := by
      intro c3 e x e0 e1 e2 e3 he hx
      have hl3 : c3.heap.length = ctx.heap.length + 2 := by rw [e0, hlen2]
      rw [← hl3]
      refine buildInv_init ctx c3 func.addr e x h ?_ ?_ (by omega) e1 e2 e3 (by omega)
        (by rw [hx, hlen1]; omega)
      · intro a
        have : successorsOf c3 a = successorsOf (createICFGNode (createICFGNode
          { ctx with cfgCache := mapSet natLt func.addr cfg ctx.cfgCache } .Entry func.addr).1
          .Exit func.addr).1 a := by unfold successorsOf; rw [e0]
        rw [this, successorsOf_create, successorsOf_create]
        rfl
      · intro b
        have : predecessorsOf c3 b = predecessorsOf (createICFGNode (createICFGNode
          { ctx with cfgCache := mapSet natLt func.addr cfg ctx.cfgCache } .Entry func.addr).1
          .Exit func.addr).1 b := by unfold predecessorsOf; rw [e0]
        rw [this, predecessorsOf_create, predecessorsOf_create]
        rfl
    refine key (ctx.heap.length + 2) _ _ _ ?_ ?_ hr
    · split
      · rename_i firstNode hfe
        refine buildInv_entryEdge _ _ _ _ _ (buildInv_blocks _ _ cfg _ ?_) ?_ hfe
        · exact s3 _ _ _ rfl rfl rfl rfl rfl rfl
        · show ctx.heap.length < _
          omega
      · refine buildInv_blocks _ _ cfg _ ?_
        exact s3 _ _ _ rfl rfl rfl rfl rfl rfl
    · rw [createICFGNode_ptr, hlen1]
      omega

end cpg

namespace cpg

theorem sameGraph_refl (a : CPGContext) : SameGraph a a := ⟨rfl, rfl, rfl, rfl⟩

theorem sameGraph_trans {a b c : CPGContext} (h1 : SameGraph a b) (h2 : SameGraph b c) :
    SameGraph a c :=
  ⟨h1.1.trans h2.1, h1.2.1.trans h2.2.1, h1.2.2.1.trans h2.2.2.1, h1.2.2.2.trans h2.2.2.2⟩

theorem symInv_of_sameGraph (ctx ctx2 : CPGContext) (h : SymInv ctx) (hs : SameGraph ctx2 ctx) :
    SymInv ctx2 := by
  obtain ⟨e0, e1, e2, e3⟩ := hs
  refine symInv_of_lists ctx ctx2 h ?_ ?_ ?_
  · intro a; unfold successorsOf; rw [e0]
  · intro b; unfold predecessorsOf; rw [e0]
  · unfold PtrsValid
    rw [e0, e1, e2, e3]
    exact h.2

theorem sameGraph_computeReachingDefinitions (ctx : CPGContext) (func : Nat) :
    SameGraph (computeReachingDefinitions ctx func) ctx := by
  unfold computeReachingDefinitions
  cases getCFG ctx func <;> exact ⟨rfl, rfl, rfl, rfl⟩

theorem sameGraph_computeDataDependencies (ctx : CPGContext) (func : Nat) :
    SameGraph (computeDataDependencies ctx func) ctx := by
  unfold computeDataDependencies
  cases mapFind func ctx.reachingDefsMap with
  | none => exact sameGraph_refl ctx
  | some info =>
    simp only
    refine foldl_invariant (fun (c : CPGContext) => SameGraph c ctx) _ info.uses ?_ ctx
      (sameGraph_refl ctx)
    intro c su _ hc
    unfold dataDepsOfStmt
    refine foldl_invariant (fun (c : CPGContext) => SameGraph c ctx) _ su.2 ?_ _ hc
    intro c1 var _ hc1
    refine foldl_invariant (fun (c : CPGContext) => SameGraph c ctx) _ _ ?_ _ hc1
    intro c2 d _ hc2
    exact hc2

theorem sameGraph_computeControlDependencies (ctx : CPGContext) (func : Nat) :
    SameGraph (computeControlDependencies ctx func) ctx := by
  unfold computeControlDependencies
  cases getCFG ctx func <;> exact ⟨rfl, rfl, rfl, rfl⟩

theorem sameGraph_buildPDG (ctx : CPGContext) (func : Nat) :
    SameGraph (buildPDG ctx func) ctx := by
  unfold buildPDG
  exact sameGraph_trans (sameGraph_computeControlDependencies _ func)
    (sameGraph_computeDataDependencies ctx func)

theorem sameGraph_recordCallSite (call : Stmt) (ctx : CPGContext) (fn : Nat × List Nat) :
    SameGraph (recordCallSite call ctx fn) ctx := by
  unfold recordCallSite
  simp only
  split <;> exact ⟨rfl, rfl, rfl, rfl⟩

theorem sameGraph_visitCallExpr (tu : TranslationUnit) (ctx : CPGContext) (call : Stmt) :
    SameGraph (visitCallExpr tu ctx call) ctx := by
  unfold visitCallExpr
  cases mapFind call.addr tu.directCallee with
  | none => exact sameGraph_refl ctx
  | some callee =>
    simp only
    refine foldl_invariant (fun (c : CPGContext) => SameGraph c ctx) _ _ ?_ _ ⟨rfl, rfl, rfl, rfl⟩
    intro c fn _ hc
    exact sameGraph_trans (sameGraph_recordCallSite call c fn) hc

theorem sameGraph_buildCallGraph (ctx : CPGContext) (tu : TranslationUnit) :
    SameGraph (buildCallGraph ctx tu) ctx := by
  unfold buildCallGraph
  refine foldl_invariant (fun (c : CPGContext) => SameGraph c ctx) _ _ ?_ _ (sameGraph_refl ctx)
  intro c call _ hc
  exact sameGraph_trans (sameGraph_visitCallExpr tu c call) hc

theorem linkGood_create (n : Nat) (ctx : CPGContext) (h : LinkGood n ctx) (kind : ICFGNodeKind)
    (func : Nat) : LinkGood n (createICFGNode ctx kind func).1 :=
  ⟨symInv_create ctx h.1 kind func, by rw [createICFGNode_length]; exact Nat.le_succ_of_le h.2⟩

theorem linkGood_modify (n : Nat) (ctx : CPGContext) (h : LinkGood n ctx) (p : Nat)
    (g : ICFGNode → ICFGNode) (hg1 : ∀ x, (g x).successors = x.successors)
    (hg2 : ∀ x, (g x).predecessors = x.predecessors) : LinkGood n (modifyNode ctx p g) :=
  ⟨symInv_modify ctx h.1 p g hg1 hg2, by rw [modifyNode_length]; exact h.2⟩

theorem linkGood_edge (n : Nat) (ctx : CPGContext) (h : LinkGood n ctx) (s d : Nat)
    (kind : ICFGEdgeKind) (hs : s < ctx.heap.length) (hd : d < ctx.heap.length) :
    LinkGood n (addICFGEdge ctx s d kind) :=
  ⟨symInv_edge ctx h.1 s d kind hs hd, by rw [addICFGEdge_length]; exact h.2⟩

theorem linkGood_linkArgument (n caller callee callNode callExpr : Nat) (ctx : CPGContext)
    (i : Nat) (h : LinkGood n ctx) (hc : callNode < n) :
    LinkGood n (linkArgument caller callee callNode callExpr ctx i) := by
  have hle := h.2
  have g1 := linkGood_create n ctx h .ActualIn caller
  have l1 : (createICFGNode ctx .ActualIn caller).1.heap.length = ctx.heap.length + 1 :=
    createICFGNode_length _ _ _
  have g2 := linkGood_modify n _ g1 ctx.heap.length
    (fun x => { x with paramIndex := (i : Int), callExpr := some callExpr })
    (fun _ => rfl) (fun _ => rfl)
  have l2 := (modifyNode_length (createICFGNode ctx .ActualIn caller).1 ctx.heap.length
    (fun x => { x with paramIndex := (i : Int), callExpr := some callExpr })).trans l1
  have g3 := linkGood_create n _ g2 .FormalIn callee
  have l3 := (createICFGNode_length (modifyNode (createICFGNode ctx .ActualIn caller).1
    ctx.heap.length (fun x => { x with paramIndex := (i : Int), callExpr := some callExpr }))
    .FormalIn callee).trans (congrArg (· + 1) l2)
  have g4 := linkGood_modify n _ g3 (ctx.heap.length + 1)
    (fun x => { x with paramIndex := (i : Int) }) (fun _ => rfl) (fun _ => rfl)
  have l4 := (modifyNode_length (createICFGNode (modifyNode (createICFGNode ctx .ActualIn caller).1
    ctx.heap.length (fun x => { x with paramIndex := (i : Int), callExpr := some callExpr }))
    .FormalIn callee).1 (ctx.heap.length + 1) (fun x => { x with paramIndex := (i : Int) })).trans l3
  simp only at l3 l4
  have g5 := linkGood_edge n _ g4 callNode ctx.heap.length .ParamIn (by rw [l4]; omega)
    (by rw [l4]; omega)
  have l5 := (addICFGEdge_length _ callNode ctx.heap.length .ParamIn).trans l4
  have g6 := linkGood_edge n _ g5 ctx.heap.length (ctx.heap.length + 1) .ParamIn
    (by rw [l5]; omega) (by rw [l5]; omega)
  have e : linkArgument caller callee callNode callExpr ctx i =
      addICFGEdge (addICFGEdge (modifyNode (createICFGNode (modifyNode
        (createICFGNode ctx .ActualIn caller).1 ctx.heap.length
        (fun x => { x with paramIndex := (i : Int), callExpr := some callExpr }))
        .FormalIn callee).1 (ctx.heap.length + 1) (fun x => { x with paramIndex := (i : Int) }))
        callNode ctx.heap.length .ParamIn) ctx.heap.length (ctx.heap.length + 1) .ParamIn := by
    unfold linkArgument
    simp only [createICFGNode_ptr, modifyNode_length, l1]
  rw [e]
  exact g6

theorem linkGood_linkCall (n caller : Nat) (ctx : CPGContext) (callExpr : Stmt)
    (h : LinkGood n ctx) : LinkGood n (linkCall caller ctx callExpr) := by
  unfold linkCall
  cases hnode : mapFind callExpr.addr ctx.stmtToICFGNode with
  | none => exact h
  | some callNode =>
    simp only
    have hcn : callNode < ctx.heap.length := h.1.2.1 _ _ hnode
    have h00 : ∀ ct : List (Nat × Option FunctionDecl),
        LinkGood ctx.heap.length { ctx with callTargets := ct } :=
      fun ct => ⟨symInv_of_sameGraph ctx _ h.1 ⟨rfl, rfl, rfl, rfl⟩, le_refl _⟩
    have h0 := h00 (mapSet natLt callExpr.addr (mapGetD ctx.callTargets callExpr.addr none)
      ctx.callTargets)
    have hweak : ∀ c, LinkGood ctx.heap.length c → LinkGood n c :=
      fun c hc => ⟨hc.1, le_trans h.2 hc.2⟩
    cases htarget : mapGetD ctx.callTargets callExpr.addr none with
    | none =>
      rw [htarget] at h0
      exact hweak _ h0
    | some callee =>
      rw [htarget] at h0
      simp only
      split
      · exact hweak _ h0
      · apply hweak
        have hl0 : ({ ctx with callTargets := mapSet natLt callExpr.addr (some callee) ctx.callTargets } : CPGContext).heap.length = ctx.heap.length := rfl
        revert h0 hl0
        generalize ({ ctx with callTargets := mapSet natLt callExpr.addr (some callee) ctx.callTargets } : CPGContext) = c0
        intro h0 hl0
        have g1 := linkGood_create _ _ h0 .ReturnSite caller
        have l1 := (createICFGNode_length c0 .ReturnSite caller).trans (congrArg (· + 1) hl0)
        have g2 := linkGood_modify _ _ g1 c0.heap.length
          (fun x => { x with callExpr := some callExpr.addr, callee := some callee.addr })
          (fun _ => rfl) (fun _ => rfl)
        have l2 := (modifyNode_length (createICFGNode c0 .ReturnSite caller).1 c0.heap.length
          (fun x => { x with callExpr := some callExpr.addr, callee := some callee.addr })).trans l1
        simp only at l2
        have step3 : ∀ c2 : CPGContext, LinkGood ctx.heap.length c2 →
            c2.heap.length = ctx.heap.length + 1 →
            LinkGood ctx.heap.length
              (match getFunctionEntry c2 callee.addr with
               | some calleeEntry => addICFGEdge c2 callNode calleeEntry .Call
               | none => c2) ∧
            (match getFunctionEntry c2 callee.addr with
               | some calleeEntry => addICFGEdge c2 callNode calleeEntry .Call
               | none => c2).heap.length = ctx.heap.length + 1 := by
          intro c2 hc2 hl
          cases he : getFunctionEntry c2 callee.addr with
          | none => exact ⟨hc2, hl⟩
          | some calleeEntry =>
            simp only
            have hv := hc2.1.2.2.1 _ _ he
            exact ⟨linkGood_edge _ _ hc2 _ _ _ (by omega) hv,
              (addICFGEdge_length _ _ _ _).trans hl⟩
        have step4 : ∀ c3 : CPGContext, LinkGood ctx.heap.length c3 →
            c3.heap.length = ctx.heap.length + 1 →
            LinkGood ctx.heap.length
              (match getFunctionExit c3 callee.addr with
               | some calleeExit => addICFGEdge c3 calleeExit c0.heap.length .Return
               | none => c3) := by
          intro c3 hc3 hl
          cases he : getFunctionExit c3 callee.addr with
          | none => exact hc3
          | some calleeExit =>
            simp only
            have hv := hc3.1.2.2.2 _ _ he
            exact linkGood_edge _ _ hc3 _ _ _ hv (by omega)
        obtain ⟨g3, l3⟩ := step3 _ g2 l2
        have g4 := step4 _ g3 l3
        refine foldl_invariant (fun (c : CPGContext) => LinkGood ctx.heap.length c) _ _ ?_ _ g4
        intro c i _ hc
        exact linkGood_linkArgument _ caller callee.addr callNode callExpr.addr c i hc hcn

/-- `linkCallSites` keeps the invariant. -/
theorem symInv_linkCallSites (ctx : CPGContext) (h : SymInv ctx) : SymInv (linkCallSites ctx) := by
  unfold linkCallSites
  refine (foldl_invariant (fun (c : CPGContext) => LinkGood 0 c) _ ctx.callSites ?_ ctx
    ⟨h, Nat.zero_le _⟩).1
  intro c cs _ hc
  refine foldl_invariant (fun (c : CPGContext) => LinkGood 0 c) _ cs.2 ?_ c hc
  intro c1 call _ hc1
  exact linkGood_linkCall 0 cs.1 c1 call hc1

theorem symInv_empty : SymInv CPGContext.empty := by
  refine ⟨?_, ?_, ?_, ?_⟩
  · intro a b k
    simp [successorsOf, predecessorsOf, CPGContext.empty]
  · intro k v hk; simp [CPGContext.empty, mapFind] at hk
  · intro k v hk; simp [CPGContext.empty, mapFind] at hk
  · intro k v hk; simp [CPGContext.empty, mapFind] at hk

theorem symInv_of_reachable (ctx : CPGContext) (h : ICFGReachable ctx) : SymInv ctx := by
  induction h with
  | empty => exact symInv_empty
  | buildICFG ctx ctx2 func _ hb ih => exact symInv_buildICFG ctx ctx2 func ih hb
  | buildCallGraph ctx tu _ ih =>
    exact symInv_of_sameGraph ctx _ ih (sameGraph_buildCallGraph ctx tu)
  | linkCallSites ctx _ ih => exact symInv_linkCallSites ctx ih
  | computeReachingDefinitions ctx func _ ih =>
    exact symInv_of_sameGraph ctx _ ih (sameGraph_computeReachingDefinitions ctx func)
  | buildPDG ctx func _ ih => exact symInv_of_sameGraph ctx _ ih (sameGraph_buildPDG ctx func)

theorem reachable_buildFunctionICFG (ds : List TopLevelDecl) :
    ∀ (ctx ctx2 : CPGContext), ICFGReachable ctx →
      ds.foldl buildFunctionICFG (some ctx) = some ctx2 → ICFGReachable ctx2 := by
  induction ds with
  | nil =>
    intro ctx ctx2 h he
    simp only [List.foldl_nil, Option.some.injEq] at he
    rw [← he]; exact h
  | cons d rest ih =>
    intro ctx ctx2 h he
    simp only [List.foldl_cons] at he
    cases h1 : buildFunctionICFG (some ctx) d with
    | none =>
      rw [h1] at he
      have hn : ∀ l : List TopLevelDecl, l.foldl buildFunctionICFG none = none := by
        intro l
        induction l with
        | nil => rfl
        | cons x xs ihx => simp only [List.foldl_cons, buildFunctionICFG, ihx]
      rw [hn] at he
      simp at he
    | some c1 =>
      rw [h1] at he
      refine ih c1 ctx2 ?_ he
      cases d with
      | function func isDefinition =>
        simp only [buildFunctionICFG] at h1
        split at h1
        · exact ICFGReachable.buildICFG ctx c1 func h h1
        · simp only [Option.some.injEq] at h1
          rw [← h1]; exact h
      | globalVar v =>
        simp only [buildFunctionICFG, Option.some.injEq] at h1
        rw [← h1]; exact h

/-- The states `buildICFGForTranslationUnit` and `buildCPG` produce are reachable. -/
theorem reachable_translationUnit (ctx ctx2 : CPGContext) (tu : TranslationUnit)
    (h : ICFGReachable ctx) (hb : buildICFGForTranslationUnit ctx tu = some ctx2) :
    ICFGReachable ctx2 := by
  unfold buildICFGForTranslationUnit at hb
  simp only [Option.map_eq_some'] at hb
  obtain ⟨c, hc, rfl⟩ := hb
  exact ICFGReachable.linkCallSites _ (ICFGReachable.buildCallGraph _ tu
    (reachable_buildFunctionICFG tu.decls ctx c h hc))

theorem reachable_buildCPG (ctx ctx2 : CPGContext) (func : Option FunctionDecl)
    (h : ICFGReachable ctx) (hb : buildCPG ctx func = some ctx2) : ICFGReachable ctx2 := by
  unfold buildCPG at hb
  cases func with
  | none =>
    simp only [Option.some.injEq] at hb
    rw [← hb]; exact h
  | some f =>
    simp only at hb
    split at hb
    · cases h1 : buildICFG ctx f with
      | none => rw [h1] at hb; simp at hb
      | some c1 =>
        rw [h1] at hb
        simp only [Option.some.injEq] at hb
        rw [← hb]
        exact ICFGReachable.buildPDG _ _ (ICFGReachable.computeReachingDefinitions _ _
          (ICFGReachable.buildICFG ctx c1 f h h1))
    · simp only [Option.some.injEq] at hb
      rw [← hb]; exact h

end cpg

namespace cpg

/-- C29. ICFG edge symmetry: in every context reachable from a fresh one through
`buildICFG`, `buildCallGraph`, `linkCallSites` and the analyses
`computeReachingDefinitions` and `buildPDG`, for all node pointers `a`, `b` and
every edge kind `k`, the successor list of `a` holds the entry `(b, k)` as many
times as the predecessor list of `b` holds the entry `(a, k)`. -/
theorem icfg_edges_symmetric (ctx : CPGContext) (h : ICFGReachable ctx) (a b : Nat)
    (k : ICFGEdgeKind) :
    (successorsOf ctx a).count (b, k) = (predecessorsOf ctx b).count (a, k) :=
  (symInv_of_reachable ctx h).1 a b k

/-- C29 on scenario D: the call edge from the call site (node 9) to the entry of
the callee (node 0) is recorded once on each side. -/
theorem icfg_edges_symmetric_witness :
    buildICFGForTranslationUnit CPGContext.empty tuD = some ctxD ∧
    (successorsOf ctxD 9).count (0, .Call) = 1 ∧
    (successorsOf ctxD 9).count (0, .Call) = (predecessorsOf ctxD 0).count (9, .Call) :=
  ⟨by rfl, by decide,
    icfg_edges_symmetric ctxD
      (reachable_translationUnit CPGContext.empty ctxD tuD ICFGReachable.empty (by rfl)) 9 0 .Call⟩

end cpg
